import Mathlib

/-! # Moby: LCP/MLCP pivoting solvers, CCD narrow phase, OBB overlap test

A shallow embedding of `src/src/LCP.cpp`, `src/include/Moby/CCD.inl` and
`src/src/OBB.cpp`.

Conventions of the embedding

* A C++ `double` is an exact rational (`ℚ`): every arithmetic operation is the
  exact one, there is no rounding, no infinity and no NaN.  The constants
  `DBL_MAX` and `DBL_EPSILON` are the exact values of the IEEE double constants.
* `VectorNd` is a list of scalars, `MatrixNd` a list of rows.  Reading past the
  end of a vector yields `0`, writing past the end does nothing.
* The dense linear algebra of Ravelin (`LinAlgd`) is not part of the
  repository; it is a parameter `LinAlg` of every solver.  A `SingularException`
  or `NumericalException` is the result `none`.
* `NEAR_ZERO` comes from `Moby/Constants.h`, which is not among the sources; it
  is a parameter of every function that reads it.
* `rand()` is a stream of naturals (`Rng`); a function that calls `rand()` takes
  the stream and hands back what is left of it.
* A failed `assert` aborts the call (`Outcome.assertFail`); dereferencing or
  erasing a past-the-end iterator is `Outcome.undefined`.
-/

namespace Moby

/-! ## Scalars, vectors and matrices (Ravelin) -/

/-- The value of `std::numeric_limits<double>::epsilon()`. -/
def DBL_EPSILON : ℚ := 1 / 2 ^ 52

/-- The value of `std::numeric_limits<double>::max()`. -/
def DBL_MAX : ℚ := (2 ^ 53 - 1) * 2 ^ 971

/-- The value of `std::numeric_limits<unsigned>::max()`. -/
def UINT_MAX : Nat := 2 ^ 32 - 1

/-- Ravelin `VectorNd`. -/
abbrev VectorNd := List ℚ

/-- Ravelin `MatrixNd`, as the list of its rows. -/
abbrev MatrixNd := List (List ℚ)

/-- Element access `v[i]`. -/
def vget (v : VectorNd) (i : Nat) : ℚ := v.getD i 0

/-- The zero vector of size `n` (`set_zero(n)`). -/
def vzero (n : Nat) : VectorNd := List.replicate n 0

/-- `v.select(idx.begin(), idx.end(), out)`: the entries of `v` at `idx`. -/
def vselect (v : VectorNd) (idx : List Nat) : VectorNd := idx.map (vget v)

/-- `v.set(idx.begin(), idx.end(), vals)`: `v[idx[k]] = vals[k]` for every `k`. -/
def vset : VectorNd → List Nat → VectorNd → VectorNd
  | v, i :: idx, x :: xs => vset (v.set i x) idx xs
  | v, _, _ => v

/-- `v.resize(n, true)`: keeps the leading entries, pads with zeros. -/
def vresize (v : VectorNd) (n : Nat) : VectorNd :=
  v.take n ++ List.replicate (n - v.length) 0

/-- Inner product. -/
def dot (a b : VectorNd) : ℚ := (List.zipWith (· * ·) a b).sum

/-- Componentwise sum `a += b`. -/
def vadd (a b : VectorNd) : VectorNd := List.zipWith (· + ·) a b

/-- Componentwise difference `a -= b`. -/
def vsub (a b : VectorNd) : VectorNd := List.zipWith (· - ·) a b

/-- Scaling `a *= c`. -/
def vscale (c : ℚ) (a : VectorNd) : VectorNd := a.map (fun x => x * c)

/-- Negation `a.negate()`. -/
def vneg (a : VectorNd) : VectorNd := a.map (fun x => -x)

/-- Componentwise product (`std::transform` with `std::multiplies`). -/
def vmul (a b : VectorNd) : VectorNd := List.zipWith (· * ·) a b

/-- Element access `M(i,j)`. -/
def mget (M : MatrixNd) (i j : Nat) : ℚ := vget (M.getD i []) j

/-- Matrix-vector product `M.mult(z, out)`. -/
def mult (M : MatrixNd) (z : VectorNd) : VectorNd := M.map (fun r => dot r z)

/-- Column `j` of `M`. -/
def get_column (M : MatrixNd) (j : Nat) : VectorNd := M.map (fun r => vget r j)

/-- Row `i` of `M`. -/
def get_row (M : MatrixNd) (i : Nat) : VectorNd := M.getD i []

/-- `M.set_column(j, c)`. -/
def set_column (M : MatrixNd) (j : Nat) (c : VectorNd) : MatrixNd :=
  List.zipWith (fun r x => r.set j x) M c

/-- `M.select(rows, cols, out)`: the sub-matrix on the given rows and columns. -/
def mselect (M : MatrixNd) (rows cols : List Nat) : MatrixNd :=
  rows.map (fun i => cols.map (fun j => mget M i j))

/-- `M.select_square(idx, out)`. -/
def select_square (M : MatrixNd) (idx : List Nat) : MatrixNd := mselect M idx idx

/-- The infinity norm `M.norm_inf()`: the largest absolute row sum. -/
def norm_inf (M : MatrixNd) : ℚ := (M.map (fun r => (r.map (fun x => |x|)).sum)).foldl max 0

/-- The `n × n` identity (`set_identity(n)`). -/
def identity (n : Nat) : MatrixNd :=
  (List.range n).map (fun i => (List.range n).map (fun j => if i = j then (1 : ℚ) else 0))

/-- `M.negate()`. -/
def mnegate (M : MatrixNd) : MatrixNd := M.map vneg

/-- Adds `lambda` to every diagonal entry (`_MM(i,i) += lambda`). -/
def add_diag (M : MatrixNd) (lambda : ℚ) : MatrixNd :=
  M.enum.map (fun p => p.2.modify (fun x => x + lambda) p.1)

/-- Scan of `std::min_element`: position of the first smallest entry. -/
def min_element_from {α : Type} [LT α] [DecidableRel (fun a b : α => a < b)] :
    Nat → α → Nat → List α → Nat
  | best, _, _, [] => best
  | best, bv, i, x :: xs =>
    if x < bv then min_element_from i x (i + 1) xs else min_element_from best bv (i + 1) xs

/-- Position returned by `std::min_element` (`0`, the end, on an empty range). -/
def min_element {α : Type} [LT α] [DecidableRel (fun a b : α => a < b)] : List α → Nat
  | [] => 0
  | x :: xs => min_element_from 0 x 1 xs

/-- Scan of `std::max_element`: position of the first largest entry. -/
def max_element_from {α : Type} [LT α] [DecidableRel (fun a b : α => a < b)] :
    Nat → α → Nat → List α → Nat
  | best, _, _, [] => best
  | best, bv, i, x :: xs =>
    if bv < x then max_element_from i x (i + 1) xs else max_element_from best bv (i + 1) xs

/-- Position returned by `std::max_element`. -/
def max_element {α : Type} [LT α] [DecidableRel (fun a b : α => a < b)] : List α → Nat
  | [] => 0
  | x :: xs => max_element_from 0 x 1 xs

/-- Position of the first element not less than `s` in a sorted index vector
(`std::lower_bound`); the length of the vector stands for `end()`. -/
def lower_bound : List Nat → Nat → Nat
  | [], _ => 0
  | a :: as, s => if a < s then lower_bound as s + 1 else 0

/-- Membership test `std::binary_search` on a sorted index vector. -/
def binary_search (v : List Nat) (s : Nat) : Bool :=
  decide (lower_bound v s < v.length) && !decide (s < v.getD (lower_bound v s) 0)

/-- Inner loop of `insertion_sort`, `for (j = first; *j < *(j-1); --j) iter_swap(j-1, j)`:
the sorted part is held back to front, `x` starts behind it and is swapped
towards the front while it is smaller than its predecessor. -/
def sift {α : Type} [LT α] [DecidableRel (fun a b : α => a < b)] : α → List α → List α
  | x, [] => [x]
  | x, a :: as => if x < a then a :: sift x as else x :: a :: as

/-- `insertion_sort(first, last)`: the smallest element is swapped to the front,
then every further element is sifted into the sorted part before it. -/
def insertion_sort {α : Type} [LT α] [DecidableRel (fun a b : α => a < b)] : List α → List α
  | [] => []
  | x :: xs =>
    let m := min_element (x :: xs)
    match ((x :: xs).set 0 ((x :: xs).getD m x)).set m x with
    | [] => []
    | y :: ys => (ys.foldl (fun acc e => sift e acc) [y]).reverse

/-- The dense linear algebra service (Ravelin `LinAlgd`). -/
structure LinAlg where
  /-- `solve_fast(A, b)`: solves `A x = b`; `none` is `SingularException`. -/
  solve_fast : MatrixNd → VectorNd → Option VectorNd
  /-- `factor_LU(A, piv)`: whether the factorisation succeeded. -/
  factor_LU : MatrixNd → Bool
  /-- `solve_LU_fast(A, false, piv, b)` for the factorisation of `A`. -/
  solve_LU_fast : MatrixNd → VectorNd → VectorNd
  /-- `solve_LS_fast(A, b, eSVD1, -1)`; `none` is `NumericalException`. -/
  solve_LS_fast1 : MatrixNd → VectorNd → Option VectorNd
  /-- `solve_LS_fast(A, b, eSVD2, -1)`; `none` is `NumericalException`. -/
  solve_LS_fast2 : MatrixNd → VectorNd → Option VectorNd

/-- The pseudo-random stream behind `rand()`. -/
abbrev Rng := Nat → Nat

/-- One call of `rand()`: the value and the remaining stream. -/
def Rng.next (r : Rng) : Nat × Rng := (r 0, fun i => r (i + 1))

/-- The stream left after `k` calls of `rand()`. -/
def Rng.drop (r : Rng) (k : Nat) : Rng := fun i => r (i + k)

/-- How a call ends. -/
inductive Outcome (α : Type) where
  /-- The function returned. -/
  | ret : α → Outcome α
  /-- An `assert` failed. -/
  | assertFail : Outcome α
  /-- A past-the-end iterator was dereferenced or erased. -/
  | undefined : Outcome α
  /-- A loop without an iteration bound was still running when the fuel ran out. -/
  | timeout : Outcome α
  deriving DecidableEq, Repr

/-- The value a call returned, without what came with it. -/
def Outcome.map {α β : Type} (f : α → β) : Outcome α → Outcome β
  | .ret a => .ret (f a)
  | .assertFail => .assertFail
  | .undefined => .undefined
  | .timeout => .timeout

/-- What a solver leaves behind: the returned flag, `z` and the counter `pivots`
of its pivoting loop at the moment of the return. -/
structure SolveResult where
  ok : Bool
  z : VectorNd
  pivots : Nat
  deriving DecidableEq, Repr

/-! ## `LCP.cpp`: Lemke's algorithm (dense) -/

namespace LCP

/-- The loop `_restart_z0[i] = (rand() % 2 == 0) ? 0.0 : 1.0` for `i < n`. -/
def random_z0 : Nat → Rng → VectorNd × Rng
  | 0, r => ([], r)
  | n + 1, r =>
    ((if (Rng.next r).1 % 2 = 0 then (0 : ℚ) else 1) :: (random_z0 n (Rng.next r).2).1,
      (random_z0 n (Rng.next r).2).2)

/-- The variables of `lcp_lemke` that live across the main iterations. -/
structure LemkeState where
  /-- `_x`: the values of the basic variables. -/
  x : VectorNd
  /-- `_Bl`: the basis matrix. -/
  Bl : MatrixNd
  /-- `_bas`: the basic variable at every basis position. -/
  bas : List Nat
  /-- The variable that left the basis in the last pivot. -/
  leaving : Nat
  /-- The output vector, of size `2n` while the iterations run. -/
  z : VectorNd
  deriving DecidableEq, Repr

/-- The indices `i` with `_dl[i] > PIV_TOL`. -/
def lemke_candidates (dl : VectorNd) (PIV_TOL : ℚ) : List Nat :=
  (List.range dl.length).filter (fun i => decide (vget dl i > PIV_TOL))

/-- The erase loop over `_j`: keeps `j[k]` when `result[k] <= theta`. -/
def lemke_filter : List Nat → List ℚ → ℚ → List Nat
  | i :: js, r :: rs, theta =>
    if r ≤ theta then i :: lemke_filter js rs theta else lemke_filter js rs theta
  | _, _, _ => []

/-- The main iterations of `lcp_lemke`, `for (pivots=0; pivots< MAXITER; pivots++)`;
`fuel` is the number of iterations left, `MAXITER - pivots`. -/
def lemke_loop (la : LinAlg) (M : MatrixNd) (n : Nat) (PIV_TOL zero_tol : ℚ) :
    Nat → Nat → LemkeState → SolveResult
  | 0, pivots, s => ⟨false, vresize s.z n, pivots⟩
  | fuel + 1, pivots, s =>
    let t := 2 * n
    if s.leaving = t then
      ⟨true, vresize (vset s.z s.bas s.x) n, pivots⟩
    else
      let entering := if s.leaving < n then n + s.leaving else s.leaving - n
      let Be := if s.leaving < n then (vzero n).set s.leaving (-1) else get_column M entering
      match la.solve_fast s.Bl Be with
      | none => ⟨false, s.z, pivots⟩
      | some dl =>
        let j := lemke_candidates dl PIV_TOL
        if j = [] then ⟨false, s.z, pivots⟩
        else
          let xj := vselect s.x j
          let dj := vselect dl j
          let result := List.zipWith (· / ·) (xj.map (fun v => v + zero_tol)) dj
          let theta := vget result (min_element result)
          let j2 := lemke_filter j (List.zipWith (· / ·) xj dj) theta
          if j2 = [] then ⟨false, vresize s.z n, pivots⟩
          else
            let tlist := j2.map (fun i => s.bas.getD i 0)
            let lvindex := if t ∈ tlist then s.bas.indexOf t else j2.headD 0
            let leaving := s.bas.getD lvindex 0
            let rat := vget s.x lvindex / vget dl lvindex
            let x := (vsub s.x (vscale rat dl)).set lvindex rat
            lemke_loop la M n PIV_TOL zero_tol fuel (pivots + 1)
              ⟨x, set_column s.Bl lvindex Be, s.bas.set lvindex entering, leaving, s.z⟩

/-- The initial basis of `lcp_lemke`: `(_bas, _nonbas)` and the stream left after
drawing `_restart_z0`. -/
def lemke_initial_basis (n : Nat) (z0 : VectorNd) (rng : Rng) : List Nat × List Nat × Rng :=
  if z0.length ≠ n then
    ([], List.range n, (random_z0 n rng).2)
  else
    ((List.range n).filter (fun i => decide (vget z0 i > 0)),
      (List.range n).filter (fun i => !decide (vget z0 i > 0)), rng)

/-- The initial values of `lcp_lemke`: `(_bas, _nonbas, _Bl, _x)` and the stream. -/
def lemke_initial_values (la : LinAlg) (M : MatrixNd) (q : VectorNd) (n : Nat)
    (bas nonbas : List Nat) (rng : Rng) : List Nat × List Nat × MatrixNd × VectorNd × Rng :=
  if bas ≠ [] then
    let t1 := mselect M (List.range n) bas
    let t2 := mselect (mnegate (identity n)) (List.range n) nonbas
    let Bl := List.zipWith (· ++ ·) t1 t2
    match la.solve_fast Bl q with
    | some x => (bas, nonbas, Bl, x, rng)
    | none => ([], List.range n, mnegate (identity n), q, (random_z0 n rng).2)
  else
    (bas, nonbas, mnegate (identity n), q, rng)

/-- The state after the artificial variable has been pivoted in. -/
def lemke_first_pivot (n : Nat) (bas nonbas : List Nat) (Bl : MatrixNd) (x : VectorNd) :
    LemkeState :=
  let t := 2 * n
  let lvindex := min_element (x.take n)
  let tval := -vget x lvindex
  let bas1 := bas ++ nonbas.map (fun i => i + n)
  let leaving := bas1.getD lvindex 0
  let u : VectorNd := (List.range n).map (fun i => if vget x i < 0 then (1 : ℚ) else 0)
  let Be := vneg (mult Bl u)
  ⟨(vadd x (vscale tval u)).set lvindex tval, set_column Bl lvindex Be,
    bas1.set lvindex t, leaving, vzero (n * 2)⟩

/-- `LCP::lcp_lemke(const MatrixNd&, …)`: Lemke's algorithm. -/
def lcp_lemke (la : LinAlg) (M : MatrixNd) (q z : VectorNd) (piv_tol zero_tol : ℚ)
    (rng : Rng) : SolveResult × Rng :=
  let n := q.length
  let MAXITER := min 1000 ((50 * n) % 2 ^ 32)
  if n = 0 then (⟨true, vresize z 0, 0⟩, rng)
  else
    let z0 := vzero z.length
    let zero_tol := if zero_tol ≤ 0 then DBL_EPSILON * norm_inf M * n else zero_tol
    if vget q (min_element q) > -zero_tol then (⟨true, vzero n, 0⟩, rng)
    else
      match lemke_initial_basis n z0 rng with
      | (bas0, nonbas0, rng1) =>
        match lemke_initial_values la M q n bas0 nonbas0 rng1 with
        | (bas, nonbas, Bl, x, rng2) =>
          if x.all (fun xi => !decide (xi < 0)) then
            (⟨true, vresize (vset (vzero (n * 2)) bas x) n, 0⟩, rng2)
          else
            let PIV_TOL :=
              if piv_tol > 0 then piv_tol else DBL_EPSILON * n * max 1 (norm_inf M)
            (lemke_loop la M n PIV_TOL zero_tol MAXITER 0
              (lemke_first_pivot n bas nonbas Bl x), rng2)

end LCP

/-! ## `LCP.cpp`: Keller's principal pivoting method with bounds -/

namespace LCP

/-- How one pass through a loop body ends. -/
inductive Step (σ : Type) where
  /-- The loop runs its body again from the given state. -/
  | again : σ → Step σ
  /-- The loop is left with the given state. -/
  | leave : σ → Step σ
  /-- The enclosing function returns the flag, with `z` as given. -/
  | result : Bool → VectorNd → Step σ
  deriving DecidableEq, Repr

/-- `LCP::sgn`: the sign function of Keller's algorithm. -/
def sgn (NEAR_ZERO x : ℚ) : ℚ :=
  if x > NEAR_ZERO then 1 else if x < -NEAR_ZERO then -1 else 0

/-- The loop of `compute_z_w` that sets the basic components of `z`. -/
def compute_z_fill (l u : VectorNd) (alpha betal betau : List Nat) :
    List Nat → VectorNd → Outcome VectorNd
  | [], z => .ret z
  | i :: is, z =>
    if binary_search alpha i then compute_z_fill l u alpha betal betau is z
    else if binary_search betal i then
      compute_z_fill l u alpha betal betau is (z.set i (vget l i))
    else if binary_search betau i then
      compute_z_fill l u alpha betal betau is (z.set i (vget u i))
    else .assertFail

/-- `LCP::compute_z_w`: the pair `(z, w)`. -/
def compute_z_w (M : MatrixNd) (q zalpha l u : VectorNd) (alpha betal betau : List Nat)
    (z : VectorNd) : Outcome (VectorNd × VectorNd) :=
  match compute_z_fill l u alpha betal betau (List.range q.length)
      (vset (vresize z q.length) alpha zalpha) with
  | .ret z1 => .ret (z1, vadd (mult M z1) q)
  | .assertFail => .assertFail
  | .undefined => .undefined
  | .timeout => .timeout

/-- The index sets and vectors `mlcp_keller` works on. -/
structure KellerState where
  /-- `_alpha`: the non-basic (free) indices. -/
  alpha : List Nat
  /-- `_beta`: the basic indices. -/
  beta : List Nat
  /-- `_betal`: the basic indices at their lower bound. -/
  betal : List Nat
  /-- `_betau`: the basic indices at their upper bound. -/
  betau : List Nat
  /-- `_zalpha`. -/
  zalpha : VectorNd
  /-- The output vector `z`. -/
  z : VectorNd
  /-- `_w`. -/
  w : VectorNd
  deriving DecidableEq, Repr

/-- The loop `for (unsigned i=0; i< q.size(); i++)` that sets up `alpha`, `beta`,
`betal`, `betau` from the bounds. -/
def keller_setup (l u : VectorNd) : List Nat → List Nat × List Nat × List Nat × List Nat
  | [] => ([], [], [], [])
  | i :: is =>
    match keller_setup l u is with
    | (alpha, beta, betal, betau) =>
      if vget l i = -DBL_MAX ∧ vget u i = DBL_MAX then (i :: alpha, beta, betal, betau)
      else if vget l i = -DBL_MAX then (alpha, i :: beta, betal, i :: betau)
      else (alpha, i :: beta, i :: betal, betau)

/-- The scan that determines `sl` and `wplus_min` over `_betal`. -/
def keller_sl (w : VectorNd) : List Nat → Nat → ℚ → Nat × ℚ
  | [], sl, m => (sl, m)
  | b :: bs, sl, m => if vget w b < m then keller_sl w bs b (vget w b) else keller_sl w bs sl m

/-- The scan that determines `su` and `wminus_max` over `_betau`. -/
def keller_su (w : VectorNd) : List Nat → Nat → ℚ → Nat × ℚ
  | [], su, m => (su, m)
  | b :: bs, su, m => if vget w b > m then keller_su w bs b (vget w b) else keller_su w bs su m

/-- The candidates `theta2`, `theta3` and their indices `r2`, `r3`. -/
structure KellerThetas where
  theta2 : ℚ
  theta3 : ℚ
  r2 : Nat
  r3 : Nat
  deriving DecidableEq, Repr

/-- The loop over `_valpha` that computes `theta2`, `theta3`, `r2` and `r3`. -/
def keller_thetas (NEAR_ZERO zero_tol p : ℚ) (valpha lalpha ualpha zalpha : VectorNd)
    (alpha : List Nat) : List Nat → KellerThetas → Outcome KellerThetas
  | [], th => .ret th
  | i :: is, th =>
    if p * vget valpha i < -zero_tol then
      let cand := p * (vget lalpha i - vget zalpha i) / vget valpha i
      if th.r2 = UINT_MAX ∨ cand < th.theta2 then
        if cand > -NEAR_ZERO then
          keller_thetas NEAR_ZERO zero_tol p valpha lalpha ualpha zalpha alpha is
            ⟨cand, th.theta3, alpha.getD i 0, th.r3⟩
        else .assertFail
      else keller_thetas NEAR_ZERO zero_tol p valpha lalpha ualpha zalpha alpha is th
    else if p * vget valpha i > zero_tol then
      let cand := p * (vget ualpha i - vget zalpha i) / vget valpha i
      if th.r3 = UINT_MAX ∨ cand < th.theta3 then
        if cand > -NEAR_ZERO then
          keller_thetas NEAR_ZERO zero_tol p valpha lalpha ualpha zalpha alpha is
            ⟨th.theta2, cand, th.r2, alpha.getD i 0⟩
        else .assertFail
      else keller_thetas NEAR_ZERO zero_tol p valpha lalpha ualpha zalpha alpha is th
    else keller_thetas NEAR_ZERO zero_tol p valpha lalpha ualpha zalpha alpha is th

/-- Erases the element at `lower_bound(v, s)` when that is not `end()`
(`siter = lower_bound(…); if (siter != v.end()) v.erase(siter);`). -/
def erase_lower_bound (v : List Nat) (s : Nat) : List Nat :=
  if lower_bound v s < v.length then v.eraseIdx (lower_bound v s) else v

/-- The index bookkeeping of one pivot of `mlcp_keller`, the chain
`if (theta == theta0) … else if (theta == theta1) … else assert(false)`. -/
def keller_update (l u : VectorNd) (s : Nat) (p theta theta0 theta1 : ℚ)
    (th : KellerThetas) (st : KellerState) : Outcome KellerState :=
  if theta = theta0 then
    if lower_bound st.beta s < st.beta.length then
      .ret { st with
        w := st.w.set s 0
        alpha := insertion_sort (st.alpha ++ [s])
        beta := st.beta.eraseIdx (lower_bound st.beta s)
        betal := erase_lower_bound st.betal s
        betau := erase_lower_bound st.betau s }
    else .assertFail
  else if theta = theta1 then
    if lower_bound st.alpha s < st.alpha.length then
      if p > 0 then
        .ret { st with
          alpha := st.alpha.eraseIdx (lower_bound st.alpha s)
          beta := insertion_sort (st.beta ++ [s])
          z := st.z.set s (vget u s)
          betau := insertion_sort (st.betau ++ [s]) }
      else
        .ret { st with
          alpha := st.alpha.eraseIdx (lower_bound st.alpha s)
          beta := insertion_sort (st.beta ++ [s])
          z := st.z.set s (vget l s)
          betal := insertion_sort (st.betal ++ [s]) }
    else .assertFail
  else if theta = th.theta2 then
    if lower_bound st.alpha th.r2 < st.alpha.length then
      .ret { st with
        z := st.z.set th.r2 (vget l th.r2)
        alpha := st.alpha.eraseIdx (lower_bound st.alpha th.r2)
        betal := insertion_sort (st.betal ++ [th.r2])
        beta := insertion_sort (st.beta ++ [th.r2]) }
    else .assertFail
  else if theta = th.theta3 then
    if lower_bound st.alpha th.r3 < st.alpha.length then
      .ret { st with
        z := st.z.set th.r3 (vget u th.r3)
        alpha := st.alpha.eraseIdx (lower_bound st.alpha th.r3)
        betau := insertion_sort (st.betau ++ [th.r3])
        beta := insertion_sort (st.beta ++ [th.r3]) }
    else .assertFail
  else .assertFail

/-- The end of the `do … while` body: `_Msub` is refactored, `zalpha` re-solved,
`z` and `w` recomputed. -/
def keller_redetermine (la : LinAlg) (M : MatrixNd) (q l u : VectorNd) (again : Bool)
    (st : KellerState) : Outcome (Step KellerState) :=
  if la.factor_LU (select_square M st.alpha) then
    let zalpha := la.solve_LU_fast (select_square M st.alpha) (vneg (vselect q st.alpha))
    match compute_z_w M q zalpha l u st.alpha st.betal st.betau st.z with
    | .ret (z, w) =>
      if again then .ret (.again { st with zalpha := zalpha, z := z, w := w })
      else .ret (.leave { st with zalpha := zalpha, z := z, w := w })
    | .assertFail => .assertFail
    | .undefined => .undefined
    | .timeout => .timeout
  else .ret (.result false st.z)

/-- One pass through the body of the `do … while (theta != theta0)` loop. -/
def keller_pivot (la : LinAlg) (NEAR_ZERO : ℚ) (M : MatrixNd) (q l u : VectorNd)
    (zero_tol : ℚ) (s : Nat) (p : ℚ) (st : KellerState) : Outcome (Step KellerState) :=
  let valpha :=
    la.solve_LU_fast (select_square M st.alpha) (vneg (vselect (get_column M s) st.alpha))
  let rho_s := mget M s s + dot (vselect (get_row M s) st.alpha) valpha
  let init := if p < 0 then -DBL_MAX else DBL_MAX
  let theta0 := if rho_s > NEAR_ZERO then -vget st.w s / rho_s else init
  let theta1 := if p > 0 then vget u s - vget st.z s else vget l s - vget st.z s
  match keller_thetas NEAR_ZERO zero_tol p valpha (vselect l st.alpha) (vselect u st.alpha)
      st.zalpha st.alpha (List.range valpha.length) ⟨init, init, UINT_MAX, UINT_MAX⟩ with
  | .ret th =>
    let thetas := [p * theta0, p * theta1, p * th.theta2, p * th.theta3]
    let theta := p * vget thetas (min_element thetas)
    if theta = DBL_MAX ∨ theta = -DBL_MAX then .ret (.result false st.z)
    else
      let valpha1 := vscale theta valpha
      let zalpha := vadd st.zalpha valpha1
      let w1 := st.w.set s (vget st.w s + theta * rho_s)
      let workv := vadd (vadd (vselect w1 st.beta)
        (vscale theta (vselect (get_column M s) st.beta)))
        (mult (mselect M st.beta st.alpha) valpha1)
      match keller_update l u s p theta theta0 theta1 th
          { st with zalpha := zalpha, w := vset w1 st.beta workv,
                    z := vset st.z st.alpha zalpha } with
      | .ret st1 => keller_redetermine la M q l u (decide (theta ≠ theta0)) st1
      | .assertFail => .assertFail
      | .undefined => .undefined
      | .timeout => .timeout
  | .assertFail => .assertFail
  | .undefined => .undefined
  | .timeout => .timeout

/-- The loop `do … while (theta != theta0)`; it has no iteration bound of its
own, `fuel` bounds the number of passes. -/
def keller_inner (la : LinAlg) (NEAR_ZERO : ℚ) (M : MatrixNd) (q l u : VectorNd)
    (zero_tol : ℚ) (s : Nat) (p : ℚ) : Nat → KellerState → Outcome (Step KellerState)
  | 0, _ => .timeout
  | fuel + 1, st =>
    match keller_pivot la NEAR_ZERO M q l u zero_tol s p st with
    | .ret (.again st1) => keller_inner la NEAR_ZERO M q l u zero_tol s p fuel st1
    | other => other

/-- The violating index `s` chosen from `sl` and `su`. -/
def keller_select (w : VectorNd) (sl su : Nat) : Nat :=
  if sl = UINT_MAX then su
  else if su = UINT_MAX ∨ vget w sl < -vget w su then sl
  else su

/-- The loop `for (pivots=0; pivots < MAX_PIV; pivots++)` of `mlcp_keller`; the
first argument is the number of passes left, `MAX_PIV - pivots`. -/
def keller_outer (la : LinAlg) (NEAR_ZERO : ℚ) (M : MatrixNd) (q l u : VectorNd)
    (zero_tol : ℚ) (fuel : Nat) : Nat → Nat → KellerState → Outcome SolveResult
  | 0, pivots, st => .ret ⟨false, st.z, pivots⟩
  | left + 1, pivots, st =>
    let sl := keller_sl st.w st.betal UINT_MAX DBL_MAX
    let su := keller_su st.w st.betau UINT_MAX (-DBL_MAX)
    let s := keller_select st.w sl.1 su.1
    if su.2 < zero_tol ∧ sl.2 > -zero_tol then
      match compute_z_w M q st.zalpha l u st.alpha st.betal st.betau st.z with
      | .ret (z, _) => .ret ⟨true, z, pivots⟩
      | .assertFail => .assertFail
      | .undefined => .undefined
      | .timeout => .timeout
    else
      let p := -sgn NEAR_ZERO (vget st.w s)
      if p = 0 then .assertFail
      else
        match keller_inner la NEAR_ZERO M q l u zero_tol s p fuel st with
        | .ret (.leave st1) =>
          keller_outer la NEAR_ZERO M q l u zero_tol fuel left (pivots + 1) st1
        | .ret (.again st1) =>
          keller_outer la NEAR_ZERO M q l u zero_tol fuel left (pivots + 1) st1
        | .ret (.result ok z) => .ret ⟨ok, z, pivots⟩
        | .assertFail => .assertFail
        | .undefined => .undefined
        | .timeout => .timeout

/-- `LCP::mlcp_keller`.  `fuel` bounds the passes of each `do … while` loop. -/
def mlcp_keller (la : LinAlg) (NEAR_ZERO : ℚ) (fuel : Nat) (M : MatrixNd)
    (q l u z : VectorNd) (zero_tol : ℚ) : Outcome SolveResult :=
  let N := q.length
  if N = 0 then .ret ⟨true, vresize z 0, 0⟩
  else
    let zero_tol := if zero_tol < 0 then M.length * norm_inf M * DBL_EPSILON else zero_tol
    match keller_setup l u (List.range q.length) with
    | (alpha, beta, betal, betau) =>
      if la.factor_LU (select_square M alpha) then
        let zalpha := la.solve_LU_fast (select_square M alpha) (vneg (vselect q alpha))
        match compute_z_w M q zalpha l u alpha betal betau z with
        | .ret (z1, w) =>
          keller_outer la NEAR_ZERO M q l u zero_tol fuel ((2 * N) % 2 ^ 32) 0
            ⟨alpha, beta, betal, betau, zalpha, z1, w⟩
        | .assertFail => .assertFail
        | .undefined => .undefined
        | .timeout => .timeout
      else .ret ⟨false, z, 0⟩

/-! ## `LCP.cpp`: the indexed fast pivoter with bounds -/

/-- The index vectors of `mlcp_fast`. -/
structure FastState where
  /-- `_nonbas`. -/
  nonbas : List Nat
  /-- `_bas`. -/
  bas : List Nat
  /-- `_basl`. -/
  basl : List Nat
  /-- `_basu`. -/
  basu : List Nat
  /-- The output vector `z`. -/
  z : VectorNd
  deriving DecidableEq, Repr

/-- The warm start of `mlcp_fast`: every index goes to `basl`, `basu` or `nonbas`
according to the input `z`. -/
def fast_warm (l u z : VectorNd) (zero_tol : ℚ) : List Nat → List Nat × List Nat × List Nat × List Nat
  | [] => ([], [], [], [])
  | i :: is =>
    match fast_warm l u z zero_tol is with
    | (nonbas, bas, basl, basu) =>
      if |vget z i - vget l i| < zero_tol then (nonbas, i :: bas, i :: basl, basu)
      else if |vget u i - vget z i| < zero_tol then (nonbas, i :: bas, basl, i :: basu)
      else (i :: nonbas, bas, basl, basu)

/-- The cold start of `mlcp_fast` with an infinite lower bound: as few
non-basic indices as possible. -/
def fast_cold (l u : VectorNd) : List Nat → List Nat × List Nat × List Nat × List Nat
  | [] => ([], [], [], [])
  | i :: is =>
    match fast_cold l u is with
    | (nonbas, bas, basl, basu) =>
      if vget l i = -DBL_MAX ∧ vget u i = DBL_MAX then (i :: nonbas, bas, basl, basu)
      else if vget l i = -DBL_MAX then (nonbas, i :: bas, basl, i :: basu)
      else (nonbas, i :: bas, i :: basl, basu)

/-- `z.resize(N)` followed by the three `z.set` calls of `mlcp_fast`. -/
def fast_full_z (l u zsub : VectorNd) (N : Nat) (st : FastState) : VectorNd :=
  vset (vset (vset (vresize st.z N) st.basl (vselect l st.basl)) st.basu (vselect u st.basu))
    st.nonbas zsub

/-- The scan for the most violated non-basic bound when `w` is valid:
`(max_zvio, max_zvio_idx)`. -/
def fast_zvio_nonbas (l u z : VectorNd) (nonbas : List Nat) : List Nat → ℚ × Nat → ℚ × Nat
  | [], acc => acc
  | i :: is, acc =>
    if !binary_search nonbas i then fast_zvio_nonbas l u z nonbas is acc
    else if vget z i < vget l i then
      if vget l i - vget z i > acc.1 then
        fast_zvio_nonbas l u z nonbas is (vget l i - vget z i, i)
      else fast_zvio_nonbas l u z nonbas is acc
    else if vget z i > vget u i then
      if vget z i - vget u i > acc.1 then
        fast_zvio_nonbas l u z nonbas is (vget z i - vget u i, i)
      else fast_zvio_nonbas l u z nonbas is acc
    else fast_zvio_nonbas l u z nonbas is acc

/-- The scan for the most violated bound after a `w` pivot:
`(max_zvio, max_zvio_idx)`. -/
def fast_zvio_all (l u z : VectorNd) (zero_tol : ℚ) : List Nat → ℚ × Nat → ℚ × Nat
  | [], acc => acc
  | i :: is, acc =>
    if vget z i < vget l i - zero_tol then
      if vget l i - vget z i > acc.1 then
        fast_zvio_all l u z zero_tol is (vget l i - vget z i, i)
      else fast_zvio_all l u z zero_tol is acc
    else if vget z i > vget u i + zero_tol then
      if vget z i - vget u i > acc.1 then
        fast_zvio_all l u z zero_tol is (vget z i - vget u i, i)
      else fast_zvio_all l u z zero_tol is acc
    else fast_zvio_all l u z zero_tol is acc

/-- The indices violated as much as `max_zvio`, up to `tol`. -/
def fast_zvio_list (l u z : VectorNd) (tol max_zvio : ℚ) (max_zvio_idx : Nat)
    (cands : List Nat) : List Nat :=
  cands.filter (fun i => decide (i = max_zvio_idx) ||
    decide (vget l i - vget z i + tol > max_zvio) ||
    decide (vget z i - vget u i + tol > max_zvio))

/-- The biggest violation of `w` and the index showing it: `(max_wvio, wvio)`. -/
def fast_max_wvio (wplus wminus : VectorNd) (basl basu : List Nat) : ℚ × List Nat :=
  let wminus_max_idx := if wminus.length = 0 then UINT_MAX else max_element wminus
  let wminus_max := if wminus_max_idx < UINT_MAX then vget wminus wminus_max_idx else DBL_MAX
  let wplus_min_idx := if wplus.length = 0 then UINT_MAX else min_element wplus
  let wplus_min := if wplus_min_idx < UINT_MAX then vget wplus wplus_min_idx else -DBL_MAX
  if -wminus_max > wplus_min then
    if wminus_max_idx < UINT_MAX then (-wminus_max, [basu.getD wminus_max_idx 0])
    else (-1, [])
  else
    if wplus_min_idx < UINT_MAX then (-wplus_min, [basl.getD wplus_min_idx 0])
    else (-1, [])

/-- Moves `to_nbasic` out of `basl` or `basu`. -/
def fast_erase_basic (basl basu : List Nat) (to_nbasic : Nat) : Outcome (List Nat × List Nat) :=
  if basl = [] then
    if lower_bound basu to_nbasic < basu.length then
      .ret (basl, basu.eraseIdx (lower_bound basu to_nbasic))
    else .undefined
  else if basu = [] then
    if lower_bound basl to_nbasic < basl.length then
      .ret (basl.eraseIdx (lower_bound basl to_nbasic), basu)
    else .undefined
  else if lower_bound basl to_nbasic < basl.length then
    if basl.getD (lower_bound basl to_nbasic) 0 = to_nbasic then
      .ret (basl.eraseIdx (lower_bound basl to_nbasic), basu)
    else if lower_bound basu to_nbasic < basu.length then
      if basu.getD (lower_bound basu to_nbasic) 0 = to_nbasic then
        .ret (basl, basu.eraseIdx (lower_bound basu to_nbasic))
      else .assertFail
    else .undefined
  else .undefined

/-- The branch of `mlcp_fast` taken when `w` is valid (`max_wvio < zero_tol`):
either the solution is reported or a non-basic index moves to a basic set. -/
def fast_valid_w (NEAR_ZERO : ℚ) (l u : VectorNd) (N : Nat) (z : VectorNd) (st : FastState)
    (rng : Rng) : Outcome (Step FastState × Rng) :=
  let zv := fast_zvio_nonbas l u z st.nonbas (List.range N) (-1, UINT_MAX)
  if zv.1 > 0 then
    let zvio := fast_zvio_list l u z NEAR_ZERO zv.1 zv.2
      ((List.range N).filter (fun i => binary_search st.nonbas i))
    if zvio = [] then .assertFail
    else
      let to_bas := zvio.getD ((Rng.next rng).1 % zvio.length) 0
      let basl := if vget l to_bas - vget z to_bas > vget z to_bas - vget u to_bas then
        insertion_sort (st.basl ++ [to_bas]) else st.basl
      let basu := if vget l to_bas - vget z to_bas > vget z to_bas - vget u to_bas then
        st.basu else insertion_sort (st.basu ++ [to_bas])
      if binary_search st.nonbas to_bas then
        .ret (.again ⟨st.nonbas.eraseIdx (lower_bound st.nonbas to_bas),
          insertion_sort (st.bas ++ [to_bas]), basl, basu, z⟩, (Rng.next rng).2)
      else .assertFail
  else .ret (.result true z, rng)

/-- The end of an iteration of `mlcp_fast` after a `w` pivot: the most violated
bound of `z`, if any, moves its index to a basic set. -/
def fast_after_pivot (l u : VectorNd) (zero_tol : ℚ) (N : Nat) (st : FastState) (rng : Rng) :
    Outcome (Step FastState × Rng) :=
  let zv := fast_zvio_all l u st.z zero_tol (List.range N) (-1, UINT_MAX)
  if zv.2 < UINT_MAX then
    let zvio := fast_zvio_list l u st.z zero_tol zv.1 zv.2 (List.range N)
    if zvio = [] then .assertFail
    else
      let to_bas := zvio.getD ((Rng.next rng).1 % zvio.length) 0
      if vget l to_bas - vget st.z to_bas > 0 then
        if binary_search st.nonbas to_bas then
          .ret (.again { st with
            basl := insertion_sort (st.basl ++ [to_bas])
            bas := insertion_sort (st.bas ++ [to_bas])
            nonbas := st.nonbas.eraseIdx (lower_bound st.nonbas to_bas) }, (Rng.next rng).2)
        else .assertFail
      else if vget st.z to_bas - vget u to_bas > 0 then
        if binary_search st.nonbas to_bas then
          .ret (.again { st with
            basu := insertion_sort (st.basu ++ [to_bas])
            bas := insertion_sort (st.bas ++ [to_bas])
            nonbas := st.nonbas.eraseIdx (lower_bound st.nonbas to_bas) }, (Rng.next rng).2)
        else .assertFail
      else .assertFail
  else .ret (.again st, rng)

/-- One iteration of the pivoting loop of `mlcp_fast`. -/
def fast_iter (la : LinAlg) (NEAR_ZERO : ℚ) (M : MatrixNd) (q l u : VectorNd) (zero_tol : ℚ)
    (st : FastState) (rng : Rng) : Outcome (Step FastState × Rng) :=
  let N := q.length
  let zbas : VectorNd :=
    st.bas.map (fun b => if binary_search st.basl b then vget l b else vget u b)
  match la.solve_fast (select_square M st.nonbas) (vneg (vselect q st.nonbas)) with
  | none => .ret (.result false st.z, rng)
  | some zsub =>
    let wsub := vadd (vadd (mult (mselect M st.bas st.nonbas) zsub) (vselect q st.bas))
      (mult (select_square M st.bas) zbas)
    let w := vset (vzero N) st.bas wsub
    let wplus := vselect w st.basl
    let wminus := vselect w st.basu
    let mw := fast_max_wvio wplus wminus st.basl st.basu
    if mw.1 < zero_tol then
      fast_valid_w NEAR_ZERO l u N (fast_full_z l u zsub N st) st rng
    else
      let wvio := mw.2
        ++ ((List.range wminus.length).filter
              (fun i => decide (vget wminus i - zero_tol < -mw.1))).map (fun i => st.basu.getD i 0)
        ++ ((List.range wplus.length).filter
              (fun i => decide (vget wplus i + zero_tol > mw.1))).map (fun i => st.basl.getD i 0)
      if wvio = [] then .assertFail
      else
        let to_nbasic := wvio.getD ((Rng.next rng).1 % wvio.length) 0
        if binary_search st.bas to_nbasic then
          match fast_erase_basic st.basl st.basu to_nbasic with
          | .ret (basl, basu) =>
            fast_after_pivot l u zero_tol N
              ⟨insertion_sort (st.nonbas ++ [to_nbasic]),
                st.bas.eraseIdx (lower_bound st.bas to_nbasic), basl, basu,
                fast_full_z l u zsub N st⟩ (Rng.next rng).2
          | .assertFail => .assertFail
          | .undefined => .undefined
          | .timeout => .timeout
        else .assertFail

/-- The loop `for (pivots=0; pivots < MAX_PIV; pivots++)` of `mlcp_fast`; the
first argument is the number of iterations left. -/
def fast_loop (la : LinAlg) (NEAR_ZERO : ℚ) (M : MatrixNd) (q l u : VectorNd) (zero_tol : ℚ) :
    Nat → Nat → FastState → Rng → Outcome (SolveResult × Rng)
  | 0, pivots, st, rng => .ret (⟨false, st.z, pivots⟩, rng)
  | left + 1, pivots, st, rng =>
    match fast_iter la NEAR_ZERO M q l u zero_tol st rng with
    | .ret (.again st1, rng1) => fast_loop la NEAR_ZERO M q l u zero_tol left (pivots + 1) st1 rng1
    | .ret (.leave st1, rng1) => fast_loop la NEAR_ZERO M q l u zero_tol left (pivots + 1) st1 rng1
    | .ret (.result ok z, rng1) => .ret (⟨ok, z, pivots⟩, rng1)
    | .assertFail => .assertFail
    | .undefined => .undefined
    | .timeout => .timeout

/-- `LCP::mlcp_fast`. -/
def mlcp_fast (la : LinAlg) (NEAR_ZERO : ℚ) (M : MatrixNd) (q l u z : VectorNd) (zero_tol : ℚ)
    (rng : Rng) : Outcome (SolveResult × Rng) :=
  let N := q.length
  if N = 0 then .ret (⟨true, vzero 0, 0⟩, rng)
  else
    let zero_tol := if zero_tol < 0 then M.length * norm_inf M * DBL_EPSILON else zero_tol
    let nolinf := (List.range N).all (fun i => !decide (vget l i = -DBL_MAX))
    let MAX_PIV := max ((N * N) % 2 ^ 32) 1000
    if z.length = q.length then
      match fast_warm l u z zero_tol (List.range z.length) with
      | (nonbas, bas, basl, basu) =>
        fast_loop la NEAR_ZERO M q l u zero_tol MAX_PIV 0 ⟨nonbas, bas, basl, basu, z⟩ rng
    else if nolinf then
      let w := vadd (mult M l) q
      let minw := min_element w
      if vget w minw > -zero_tol then .ret (⟨true, l, 0⟩, rng)
      else
        fast_loop la NEAR_ZERO M q l u zero_tol MAX_PIV 0
          ⟨[minw], (List.range N).filter (fun i => !decide (i = minw)),
            (List.range N).filter (fun i => !decide (i = minw)), [], z⟩ rng
    else
      match fast_cold l u (List.range N) with
      | (nonbas, bas, basl, basu) =>
        fast_loop la NEAR_ZERO M q l u zero_tol MAX_PIV 0 ⟨nonbas, bas, basl, basu, z⟩ rng

/-! ## `LCP.cpp`: the fast pivoters without bounds -/

/-- `LCP::rand_min`: an index of `v` within `zero_tol` of the minimum, chosen by
`rand()`. -/
def rand_min (v : VectorNd) (zero_tol : ℚ) (rng : Rng) : Nat × Rng :=
  let minv := min_element v
  let minima := minv :: (List.range v.length).filter
    (fun i => !decide (i = minv) && decide (vget v i < vget v minv + zero_tol))
  (minima.getD ((Rng.next rng).1 % minima.length) 0, (Rng.next rng).2)

/-- The state of `lcp_fast`: `_nonbas`, `_bas` and the output `z`. -/
structure LcpFastState where
  nonbas : List Nat
  bas : List Nat
  z : VectorNd
  deriving DecidableEq, Repr

/-- `minw` or `minz` of `lcp_fast`: `rand_min` on a non-empty vector, `UINF` on
an empty one. -/
def rand_min_or_uinf (v : VectorNd) (zero_tol : ℚ) (rng : Rng) : Nat × Rng :=
  if v.length > 0 then rand_min v zero_tol rng else (UINT_MAX, rng)

/-- One iteration of the pivoting loop of `lcp_fast`. -/
def lcp_fast_iter (la : LinAlg) (M : MatrixNd) (q : VectorNd) (zero_tol : ℚ)
    (st : LcpFastState) (rng : Rng) : Step LcpFastState × Rng :=
  let N := q.length
  match la.solve_fast (select_square M st.nonbas) (vneg (vselect q st.nonbas)) with
  | none => (.result false st.z, rng)
  | some zsub =>
    let w := vadd (mult (mselect M st.bas st.nonbas) zsub) (vselect q st.bas)
    let minw := rand_min_or_uinf w zero_tol rng
    let minz := rand_min_or_uinf zsub zero_tol minw.2
    if minw.1 = UINT_MAX ∨ vget w minw.1 > -zero_tol then
      if minz.1 < UINT_MAX ∧ vget zsub minz.1 < -zero_tol then
        (.again ⟨st.nonbas.eraseIdx minz.1,
          insertion_sort (st.bas ++ [st.nonbas.getD minz.1 0]), st.z⟩, minz.2)
      else (.result true (vset (vzero N) st.nonbas zsub), minz.2)
    else
      let widx := st.bas.getD minw.1 0
      if minz.1 < UINT_MAX ∧ vget zsub minz.1 < -zero_tol then
        (.again ⟨insertion_sort (st.nonbas.eraseIdx minz.1 ++ [widx]),
          insertion_sort (st.bas.eraseIdx minw.1 ++ [st.nonbas.getD minz.1 0]), st.z⟩, minz.2)
      else
        (.again ⟨insertion_sort (st.nonbas ++ [widx]), st.bas.eraseIdx minw.1, st.z⟩, minz.2)

/-- The loop `for (pivots=0; pivots < MAX_PIV; pivots++)` of `lcp_fast`. -/
def lcp_fast_loop (la : LinAlg) (M : MatrixNd) (q : VectorNd) (zero_tol : ℚ) :
    Nat → Nat → LcpFastState → Rng → SolveResult × Rng
  | 0, pivots, st, rng => (⟨false, st.z, pivots⟩, rng)
  | left + 1, pivots, st, rng =>
    match lcp_fast_iter la M q zero_tol st rng with
    | (.again st1, rng1) => lcp_fast_loop la M q zero_tol left (pivots + 1) st1 rng1
    | (.leave st1, rng1) => lcp_fast_loop la M q zero_tol left (pivots + 1) st1 rng1
    | (.result ok z, rng1) => (⟨ok, z, pivots⟩, rng1)

/-- `LCP::lcp_fast`. -/
def lcp_fast (la : LinAlg) (M : MatrixNd) (q z : VectorNd) (zero_tol : ℚ) (rng : Rng) :
    SolveResult × Rng :=
  let N := q.length
  if N = 0 then (⟨true, vzero 0, 0⟩, rng)
  else
    let zero_tol := if zero_tol < 0 then M.length * norm_inf M * DBL_EPSILON else zero_tol
    if z.length = q.length then
      lcp_fast_loop la M q zero_tol ((2 * N) % 2 ^ 32) 0
        ⟨(List.range z.length).filter (fun i => !decide (|vget z i| < zero_tol)),
          (List.range z.length).filter (fun i => decide (|vget z i| < zero_tol)), z⟩ rng
    else
      let minw := min_element q
      if vget q minw > -zero_tol then (⟨true, vzero N, 0⟩, rng)
      else
        lcp_fast_loop la M q zero_tol ((2 * N) % 2 ^ 32) 0
          ⟨[minw], (List.range N).filter (fun i => !decide (i = minw)), z⟩ rng

/-- `rand_min2`: the position of a minimum of `v`, chosen by `rand()` among the
entries within `sqrt(epsilon)` of the minimum. -/
def rand_min2 (v : VectorNd) (rng : Rng) : Outcome (Nat × Rng) :=
  let idx := (List.range v.length).filter
    (fun i => decide (vget v i - 1 / 2 ^ 26 ≤ vget v (min_element v)))
  if idx = [] then .assertFail
  else .ret (idx.getD ((Rng.next rng).1 % idx.length) 0, (Rng.next rng).2)

/-- The linear solve of `fast_pivoting` with its two least-squares fallbacks. -/
def fast_pivoting_solve (la : LinAlg) (A : MatrixNd) (b : VectorNd) : Option VectorNd :=
  match la.solve_fast A b with
  | some x => some x
  | none =>
    match la.solve_LS_fast1 A b with
    | some x => some x
    | none => la.solve_LS_fast2 A b

/-- Moves `idx` from `from_set` (found by `std::find`) into the sorted `to_set`. -/
def move_index (from_set to_set : List Nat) (idx : Nat) : Outcome (List Nat × List Nat) :=
  if idx ∈ from_set then
    .ret (from_set.eraseIdx (from_set.indexOf idx),
      (to_set.take (lower_bound to_set idx)) ++ idx :: (to_set.drop (lower_bound to_set idx)))
  else .undefined

/-- One iteration of the pivoting loop of `fast_pivoting`; the state is
`(_bas, _nonbas, z)`. -/
def fast_pivoting_iter (la : LinAlg) (M : MatrixNd) (q : VectorNd) (eps : ℚ)
    (st : List Nat × List Nat × VectorNd) (rng : Rng) :
    Outcome (Step (List Nat × List Nat × VectorNd) × Rng) :=
  match fast_pivoting_solve la (select_square M st.2.1) (vneg (vselect q st.2.1)) with
  | none => .ret (.result false st.2.2, rng)
  | some qprime =>
    let z := vset (vzero q.length) st.2.1 qprime
    let w := vadd (mult M z) q
    match rand_min2 w rng with
    | .ret (minw, rng1) =>
      match rand_min2 z rng1 with
      | .ret (minz, rng2) =>
        if vget w minw > -eps then
          if vget z minz < -eps then
            match move_index st.2.1 st.1 minz with
            | .ret (nonbas, bas) => .ret (.again (bas, nonbas, z), rng2)
            | .assertFail => .assertFail
            | .undefined => .undefined
            | .timeout => .timeout
          else .ret (.result true z, rng2)
        else
          match move_index st.1 st.2.1 minw with
          | .ret (bas, nonbas) =>
            if vget z minz < -eps then
              match move_index nonbas bas minz with
              | .ret (nonbas1, bas1) => .ret (.again (bas1, nonbas1, z), rng2)
              | .assertFail => .assertFail
              | .undefined => .undefined
              | .timeout => .timeout
            else .ret (.again (bas, nonbas, z), rng2)
          | .assertFail => .assertFail
          | .undefined => .undefined
          | .timeout => .timeout
      | .assertFail => .assertFail
      | .undefined => .undefined
      | .timeout => .timeout
    | .assertFail => .assertFail
    | .undefined => .undefined
    | .timeout => .timeout

/-- The loop `for (unsigned i=0; i< MAX_PIVOTS; i++)` of `fast_pivoting`. -/
def fast_pivoting_loop (la : LinAlg) (M : MatrixNd) (q : VectorNd) (eps : ℚ) :
    Nat → Nat → List Nat × List Nat × VectorNd → Rng → Outcome (SolveResult × Rng)
  | 0, i, st, rng => .ret (⟨false, st.2.2, i⟩, rng)
  | left + 1, i, st, rng =>
    match fast_pivoting_iter la M q eps st rng with
    | .ret (.again st1, rng1) => fast_pivoting_loop la M q eps left (i + 1) st1 rng1
    | .ret (.leave st1, rng1) => fast_pivoting_loop la M q eps left (i + 1) st1 rng1
    | .ret (.result ok z, rng1) => .ret (⟨ok, z, i⟩, rng1)
    | .assertFail => .assertFail
    | .undefined => .undefined
    | .timeout => .timeout

/-- `LCP::fast_pivoting`. -/
def fast_pivoting (la : LinAlg) (M : MatrixNd) (q z : VectorNd) (eps : ℚ) (rng : Rng) :
    Outcome (SolveResult × Rng) :=
  let N := q.length
  if N = 0 then .ret (⟨true, vresize z 0, 0⟩, rng)
  else
    let minw := min_element q
    if vget q minw > -eps then .ret (⟨true, vzero N, 0⟩, rng)
    else
      fast_pivoting_loop la M q eps ((N * 3) % 2 ^ 32) 0
        ((List.range N).filter (fun i => !decide (i = minw)), [minw], z) rng

/-! ## `LCP.cpp`: the regularization wrappers -/

/-- The value of `rf` after `rf += step_exp` (`int` plus `unsigned`, 32 bits). -/
def next_rf (rf : Int) (step_exp : Nat) : Int := Int.bmod (rf + step_exp) (2 ^ 32)

/-- The tolerance `ZERO_TOL` of the dense wrappers. -/
def wrapper_zero_tol (NEAR_ZERO : ℚ) (M : MatrixNd) (q : VectorNd) (zero_tol : ℚ) : ℚ :=
  if zero_tol > 0 then zero_tol else q.length * norm_inf M * NEAR_ZERO

/-- The check of a candidate after the attempt without regularization
(`lcp_lemke_regularized`, `lcp_fast_regularized`): `z`, `w = Mz+q` and the
products `z_i w_i` against `ZERO_TOL`. -/
def lcp_verify_first (M : MatrixNd) (q z : VectorNd) (ZERO_TOL : ℚ) : Bool :=
  let wx := vadd (mult M z) q
  let zw := vmul z wx
  decide (vget z (min_element z) ≥ -ZERO_TOL) &&
  decide (vget wx (min_element wx) ≥ -ZERO_TOL) &&
  decide (vget zw (min_element zw) ≥ -ZERO_TOL) &&
  decide (vget zw (max_element zw) < ZERO_TOL)

/-- The check of a candidate inside the regularization loop: `MM` is the matrix
the solver was run on. -/
def lcp_verify_reg (MM : MatrixNd) (q z : VectorNd) (ZERO_TOL : ℚ) : Bool :=
  let wx := vadd (mult MM z) q
  let zw := vmul z wx
  decide (vget z (min_element z) > -ZERO_TOL) &&
  decide (vget wx (min_element wx) > -ZERO_TOL) &&
  decide (vget zw (min_element zw) > -ZERO_TOL) &&
  decide (vget zw (max_element zw) < ZERO_TOL)

/-- The check of one pair `z_i`, `w_i` in the MLCP wrappers. -/
def mlcp_pair_ok (l u z wx : VectorNd) (ZERO_TOL : ℚ) (i : Nat) : Bool :=
  if vget z i < vget l i + ZERO_TOL then
    !(decide (vget z i + ZERO_TOL < vget l i) || decide (vget wx i < -ZERO_TOL))
  else if vget z i > vget u i - ZERO_TOL then
    !(decide (vget z i - ZERO_TOL > vget u i) || decide (vget wx i > ZERO_TOL))
  else !decide (|vget wx i| > ZERO_TOL)

/-- The check of a candidate in `mlcp_fast_regularized` and
`mlcp_keller_regularized`: the flag `found`. -/
def mlcp_verify (MM : MatrixNd) (q l u z : VectorNd) (ZERO_TOL : ℚ) : Bool :=
  (List.range z.length).all (mlcp_pair_ok l u z (vadd (mult MM z) q) ZERO_TOL)

/-- The loop `while (rf <= max_exp)` of `lcp_lemke_regularized`. -/
def lemke_reg_loop (la : LinAlg) (M : MatrixNd) (q : VectorNd) (step_exp : Nat)
    (max_exp : Int) (piv_tol zero_tol ZERO_TOL : ℚ) :
    Nat → Int → VectorNd → Rng → Outcome ((Bool × VectorNd) × Rng)
  | 0, rf, z, rng => if rf ≤ max_exp then .timeout else .ret ((false, z), rng)
  | fuel + 1, rf, z, rng =>
    if rf ≤ max_exp then
      let MM := add_diag M ((10 : ℚ) ^ rf)
      let r := lcp_lemke la MM q z piv_tol zero_tol rng
      if r.1.ok && lcp_verify_reg MM q r.1.z ZERO_TOL then .ret ((true, r.1.z), r.2)
      else
        lemke_reg_loop la M q step_exp max_exp piv_tol zero_tol ZERO_TOL fuel
          (next_rf rf step_exp) r.1.z r.2
    else .ret ((false, z), rng)

/-- `LCP::lcp_lemke_regularized(const MatrixNd&, …)`.  `fuel` bounds the number
of regularization attempts. -/
def lcp_lemke_regularized (la : LinAlg) (NEAR_ZERO : ℚ) (fuel : Nat) (M : MatrixNd)
    (q z : VectorNd) (min_exp : Int) (step_exp : Nat) (max_exp : Int) (piv_tol zero_tol : ℚ)
    (rng : Rng) : Outcome ((Bool × VectorNd) × Rng) :=
  if q.length = 0 then .ret ((true, vresize z 0), rng)
  else
    let ZERO_TOL := wrapper_zero_tol NEAR_ZERO M q zero_tol
    let r := lcp_lemke la M q z piv_tol zero_tol rng
    if r.1.ok && lcp_verify_first M q r.1.z ZERO_TOL then .ret ((true, r.1.z), r.2)
    else
      lemke_reg_loop la M q step_exp max_exp piv_tol zero_tol ZERO_TOL fuel min_exp r.1.z r.2

/-- The loop `while (rf <= max_exp)` of `lcp_fast_regularized`. -/
def lcp_fast_reg_loop (la : LinAlg) (M : MatrixNd) (q : VectorNd) (step_exp : Nat)
    (max_exp : Int) (zero_tol ZERO_TOL : ℚ) :
    Nat → Int → VectorNd → Rng → Outcome ((Bool × VectorNd) × Rng)
  | 0, rf, z, rng => if rf ≤ max_exp then .timeout else .ret ((false, z), rng)
  | fuel + 1, rf, z, rng =>
    if rf ≤ max_exp then
      let MM := add_diag M ((10 : ℚ) ^ rf)
      let r := lcp_fast la MM q z zero_tol rng
      if r.1.ok && lcp_verify_reg MM q r.1.z ZERO_TOL then .ret ((true, r.1.z), r.2)
      else
        lcp_fast_reg_loop la M q step_exp max_exp zero_tol ZERO_TOL fuel
          (next_rf rf step_exp) r.1.z r.2
    else .ret ((false, z), rng)

/-- `LCP::lcp_fast_regularized`. -/
def lcp_fast_regularized (la : LinAlg) (NEAR_ZERO : ℚ) (fuel : Nat) (M : MatrixNd)
    (q z : VectorNd) (min_exp : Int) (step_exp : Nat) (max_exp : Int) (zero_tol : ℚ)
    (rng : Rng) : Outcome ((Bool × VectorNd) × Rng) :=
  if q.length = 0 then .ret ((true, vresize z 0), rng)
  else
    let ZERO_TOL := wrapper_zero_tol NEAR_ZERO M q zero_tol
    let r := lcp_fast la M q z zero_tol rng
    if r.1.ok && lcp_verify_first M q r.1.z ZERO_TOL then .ret ((true, r.1.z), r.2)
    else lcp_fast_reg_loop la M q step_exp max_exp zero_tol ZERO_TOL fuel min_exp r.1.z r.2

/-- The loop `while (rf <= max_exp)` of `mlcp_fast_regularized`. -/
def mlcp_fast_reg_loop (la : LinAlg) (NEAR_ZERO : ℚ) (M : MatrixNd) (q l u : VectorNd)
    (step_exp : Nat) (max_exp : Int) (ZERO_TOL : ℚ) :
    Nat → Int → VectorNd → Rng → Outcome ((Bool × VectorNd) × Rng)
  | 0, rf, z, rng => if rf ≤ max_exp then .timeout else .ret ((false, z), rng)
  | fuel + 1, rf, z, rng =>
    if rf ≤ max_exp then
      let MM := add_diag M ((10 : ℚ) ^ rf)
      match mlcp_fast la NEAR_ZERO MM q l u z ZERO_TOL rng with
      | .ret r =>
        if r.1.ok && mlcp_verify MM q l u r.1.z ZERO_TOL then .ret ((true, r.1.z), r.2)
        else
          mlcp_fast_reg_loop la NEAR_ZERO M q l u step_exp max_exp ZERO_TOL fuel
            (next_rf rf step_exp) r.1.z r.2
      | .assertFail => .assertFail
      | .undefined => .undefined
      | .timeout => .timeout
    else .ret ((false, z), rng)

/-- `LCP::mlcp_fast_regularized`. -/
def mlcp_fast_regularized (la : LinAlg) (NEAR_ZERO : ℚ) (fuel : Nat) (M : MatrixNd)
    (q l u z : VectorNd) (min_exp : Int) (step_exp : Nat) (max_exp : Int) (zero_tol : ℚ)
    (rng : Rng) : Outcome ((Bool × VectorNd) × Rng) :=
  if q.length = 0 then .ret ((true, vresize z 0), rng)
  else
    let ZERO_TOL := wrapper_zero_tol NEAR_ZERO M q zero_tol
    match mlcp_fast la NEAR_ZERO M q l u z ZERO_TOL rng with
    | .ret r =>
      if r.1.ok && mlcp_verify M q l u r.1.z ZERO_TOL then .ret ((true, r.1.z), r.2)
      else
        mlcp_fast_reg_loop la NEAR_ZERO M q l u step_exp max_exp ZERO_TOL fuel min_exp r.1.z r.2
    | .assertFail => .assertFail
    | .undefined => .undefined
    | .timeout => .timeout

/-- The loop `while (rf <= max_exp)` of `mlcp_keller_regularized`. -/
def mlcp_keller_reg_loop (la : LinAlg) (NEAR_ZERO : ℚ) (kfuel : Nat) (M : MatrixNd)
    (q l u : VectorNd) (step_exp : Nat) (max_exp : Int) (ZERO_TOL : ℚ) :
    Nat → Int → VectorNd → Outcome (Bool × VectorNd)
  | 0, rf, z => if rf ≤ max_exp then .timeout else .ret (false, z)
  | fuel + 1, rf, z =>
    if rf ≤ max_exp then
      let MM := add_diag M ((10 : ℚ) ^ rf)
      match mlcp_keller la NEAR_ZERO kfuel MM q l u z ZERO_TOL with
      | .ret r =>
        if r.ok && mlcp_verify MM q l u r.z ZERO_TOL then .ret (true, r.z)
        else
          mlcp_keller_reg_loop la NEAR_ZERO kfuel M q l u step_exp max_exp ZERO_TOL fuel
            (next_rf rf step_exp) r.z
      | .assertFail => .assertFail
      | .undefined => .undefined
      | .timeout => .timeout
    else .ret (false, z)

/-- `LCP::mlcp_keller_regularized`.  `kfuel` is the fuel of every `mlcp_keller`
call, `fuel` bounds the number of regularization attempts. -/
def mlcp_keller_regularized (la : LinAlg) (NEAR_ZERO : ℚ) (kfuel fuel : Nat) (M : MatrixNd)
    (q l u z : VectorNd) (min_exp : Int) (step_exp : Nat) (max_exp : Int) (zero_tol : ℚ) :
    Outcome (Bool × VectorNd) :=
  if q.length = 0 then .ret (true, vresize z 0)
  else
    let ZERO_TOL := wrapper_zero_tol NEAR_ZERO M q zero_tol
    match mlcp_keller la NEAR_ZERO kfuel M q l u z ZERO_TOL with
    | .ret r =>
      if r.ok && mlcp_verify M q l u r.z ZERO_TOL then .ret (true, r.z)
      else
        mlcp_keller_reg_loop la NEAR_ZERO kfuel M q l u step_exp max_exp ZERO_TOL fuel
          min_exp r.z
    | .assertFail => .assertFail
    | .undefined => .undefined
    | .timeout => .timeout

end LCP

/-! ## `CCD.inl`: contact generation -/

/-- Ravelin `Vector3d` / `Point3d` (components in one frame). -/
abbrev Vector3d := Fin 3 → ℚ

/-- Ravelin `Matrix3d`. -/
abbrev Matrix3d := Fin 3 → Fin 3 → ℚ

/-- The inner product of two 3-vectors. -/
def dot3 (a b : Vector3d) : ℚ := a 0 * b 0 + a 1 * b 1 + a 2 * b 2

namespace CCD

/-- The dynamic type of a primitive, as far as `find_contacts` asks for it. -/
inductive PrimitiveKind where
  | sphere
  | box
  | other
  deriving DecidableEq, Repr

/-- What `find_contacts` reads from a `CollisionGeometry` and its primitive. -/
structure CollisionGeometry where
  /-- An identity for the geometry (the pointer). -/
  id : Nat
  /-- Which of the `dynamic_pointer_cast`s on the primitive succeeds. -/
  kind : PrimitiveKind
  /-- `get_vertices`. -/
  vertices : List Vector3d
  /-- `calc_dist_and_normal(point, n)`: the signed distance and the normal. -/
  calc_dist_and_normal : Vector3d → ℚ × Vector3d
  /-- The origin of the primitive's pose in the global frame. -/
  center : Vector3d
  /-- `get_radius()` of a sphere. -/
  radius : ℚ
  /-- `Pose3d::transform_point(pose, p)` for a point `p` given in the global frame. -/
  from_global : Vector3d → Vector3d
  /-- `Pose3d::transform_point(GLOBAL, p)` for a point `p` given in the pose of
  the primitive. -/
  to_global : Vector3d → Vector3d
  /-- `BoxPrimitive::calc_closest_point(p, closest)`: the returned distance and
  the closest point, both in the frame of the box. -/
  calc_closest_point : Vector3d → ℚ × Vector3d

/-- The contact record made by `create_contact(cgA, cgB, p, n)`. -/
structure Contact where
  /-- The identity of the first geometry. -/
  geom1 : Nat
  /-- The identity of the second geometry. -/
  geom2 : Nat
  /-- The contact point, in the global frame. -/
  point : Vector3d
  /-- The contact normal. -/
  normal : Vector3d

/-- Two contacts are equal when their four fields are. -/
instance : DecidableEq Contact := fun a b =>
  decidable_of_iff (a.geom1 = b.geom1 ∧ a.geom2 = b.geom2 ∧ a.point = b.point ∧
    a.normal = b.normal) (by cases a; cases b; simp)

/-- `create_contact(cgA, cgB, p, n)`. -/
def create_contact (cgA cgB : CollisionGeometry) (p n : Vector3d) : Contact :=
  ⟨cgA.id, cgB.id, p, n⟩

/-- `CCD::find_contacts_sphere_sphere`; `normalize` is `Vector3d::normalize`. -/
def find_contacts_sphere_sphere (normalize : Vector3d → Vector3d)
    (cgA cgB : CollisionGeometry) : List Contact :=
  let d := cgA.center - cgB.center
  let n := normalize d
  let closest_A := cgA.center - cgA.radius • n
  let closest_B := cgB.center + cgB.radius • n
  let p := (1 / 2 : ℚ) • (closest_A + closest_B)
  [create_contact cgA cgB p n]

/-- `CCD::find_contacts_box_sphere`: `cgA` is the box, `cgB` the sphere. -/
def find_contacts_box_sphere (NEAR_ZERO : ℚ) (normalize : Vector3d → Vector3d)
    (cgA cgB : CollisionGeometry) : List Contact :=
  let sph_c_A := cgA.from_global cgB.center
  let dist := (cgA.calc_closest_point sph_c_A).1 - cgB.radius
  let pbox := (cgA.calc_closest_point sph_c_A).2
  if dist > NEAR_ZERO then []
  else
    let normal := normalize cgA.center
    let psph := cgB.center + (cgB.radius + min dist 0) • normal
    let p := if dist > 0 then (1 / 2 : ℚ) • (psph + cgA.to_global pbox) else psph
    [create_contact cgA cgB p normal]

/-- One of the two vertex loops of `find_contacts`: the vertices of one geometry
against the other one; `flip` negates the normal (second loop).  The state is
`(min_dist, e)`. -/
def vertex_pass (NEAR_ZERO : ℚ) (cgA cgB : CollisionGeometry)
    (query : Vector3d → ℚ × Vector3d) (flip : Bool) :
    List Vector3d → ℚ × List Contact → ℚ × List Contact
  | [], acc => acc
  | v :: vs, acc =>
    if (query v).1 - NEAR_ZERO ≤ acc.1 then
      vertex_pass NEAR_ZERO cgA cgB query flip vs
        (min acc.1 (max 0 (query v).1),
          (if (query v).1 - NEAR_ZERO < acc.1 ∧ acc.1 > 0 then [] else acc.2)
            ++ [create_contact cgA cgB v (if flip then -(query v).2 else (query v).2)])
    else vertex_pass NEAR_ZERO cgA cgB query flip vs acc

/-- The generic path of `find_contacts`: both vertex loops. -/
def find_contacts_generic (NEAR_ZERO : ℚ) (cgA cgB : CollisionGeometry) : List Contact :=
  (vertex_pass NEAR_ZERO cgA cgB cgA.calc_dist_and_normal true cgB.vertices
    (vertex_pass NEAR_ZERO cgA cgB cgB.calc_dist_and_normal false cgA.vertices
      (DBL_MAX, []))).2

/-- `CCD::find_contacts`. -/
def find_contacts (NEAR_ZERO : ℚ) (normalize : Vector3d → Vector3d)
    (cgA cgB : CollisionGeometry) : List Contact :=
  match cgA.kind, cgB.kind with
  | .sphere, .sphere => find_contacts_sphere_sphere normalize cgA cgB
  | .sphere, .box => find_contacts_box_sphere NEAR_ZERO normalize cgB cgA
  | .box, .sphere => find_contacts_box_sphere NEAR_ZERO normalize cgA cgB
  | _, _ => find_contacts_generic NEAR_ZERO cgA cgB

end CCD

/-! ## `OBB.cpp`: the overlap test of two oriented bounding boxes -/

/-- An oriented bounding box: centre, axes (the columns of `R`) and half-extents. -/
structure OBB where
  center : Vector3d
  R : Matrix3d
  l : Vector3d

namespace OBB

/-- `A.transpose_mult(B)`: the product `Aᵀ B`. -/
def transpose_mult (A B : Matrix3d) : Matrix3d :=
  fun i j => A 0 i * B 0 j + A 1 i * B 1 j + A 2 i * B 2 j

/-- `A.transpose_mult(v)`: the product `Aᵀ v`. -/
def transpose_mult_vec (A : Matrix3d) (v : Vector3d) : Vector3d :=
  fun i => A 0 i * v 0 + A 1 i * v 1 + A 2 i * v 2

/-- `OBB::intersects(const OBB& a, const OBB& b)`: the separating-axis test on
15 axes. -/
def intersects (NEAR_ZERO : ℚ) (a b : OBB) : Bool :=
  let Rab := transpose_mult a.R b.R
  let t := transpose_mult_vec a.R (b.center - a.center)
  let abs_Rab : Matrix3d := fun i j => |Rab i j| + NEAR_ZERO
  if ([0, 1, 2] : List (Fin 3)).any (fun i => decide (|t i| >
      a.l i + (b.l 0 * abs_Rab i 0 + b.l 1 * abs_Rab i 1 + b.l 2 * abs_Rab i 2))) then false
  else if ([0, 1, 2] : List (Fin 3)).any (fun i => decide (|dot3 t (fun k => Rab k i)| >
      (a.l 0 * abs_Rab 0 i + a.l 1 * abs_Rab 1 i + a.l 2 * abs_Rab 2 i) + b.l i)) then false
  else if |t 2 * Rab 1 0 - t 1 * Rab 2 0| >
      (a.l 1 * abs_Rab 2 0 + a.l 2 * abs_Rab 1 0) + (b.l 1 * abs_Rab 0 2 + b.l 2 * abs_Rab 0 1)
    then false
  else if |t 2 * Rab 1 1 - t 1 * Rab 2 1| >
      (a.l 1 * abs_Rab 2 1 + a.l 2 * abs_Rab 1 1) + (b.l 0 * abs_Rab 0 2 + b.l 2 * abs_Rab 0 0)
    then false
  else if |t 2 * Rab 1 2 - t 1 * Rab 2 2| >
      (a.l 1 * abs_Rab 2 2 + a.l 2 * abs_Rab 1 2) + (b.l 0 * abs_Rab 0 1 + b.l 1 * abs_Rab 0 0)
    then false
  else if |t 0 * Rab 2 0 - t 2 * Rab 0 0| >
      (a.l 0 * abs_Rab 2 0 + a.l 2 * abs_Rab 0 0) + (b.l 1 * abs_Rab 1 2 + b.l 2 * abs_Rab 1 1)
    then false
  else if |t 0 * Rab 2 1 - t 2 * Rab 0 1| >
      (a.l 0 * abs_Rab 2 1 + a.l 2 * abs_Rab 0 1) + (b.l 0 * abs_Rab 1 2 + b.l 2 * abs_Rab 1 0)
    then false
  else if |t 0 * Rab 2 2 - t 2 * Rab 0 2| >
      (a.l 0 * abs_Rab 2 2 + a.l 2 * abs_Rab 0 2) + (b.l 0 * abs_Rab 1 1 + b.l 1 * abs_Rab 1 0)
    then false
  else if |t 1 * Rab 0 0 - t 0 * Rab 1 0| >
      (a.l 0 * abs_Rab 1 0 + a.l 1 * abs_Rab 0 0) + (b.l 1 * abs_Rab 2 2 + b.l 2 * abs_Rab 2 1)
    then false
  else if |t 1 * Rab 0 1 - t 0 * Rab 1 1| >
      (a.l 0 * abs_Rab 1 1 + a.l 1 * abs_Rab 0 1) + (b.l 0 * abs_Rab 2 2 + b.l 2 * abs_Rab 2 0)
    then false
  else if |t 1 * Rab 0 2 - t 0 * Rab 1 2| >
      (a.l 0 * abs_Rab 1 2 + a.l 1 * abs_Rab 0 2) + (b.l 0 * abs_Rab 2 1 + b.l 1 * abs_Rab 2 0)
    then false
  else true

end OBB

/-! ## An exact linear algebra service -/

/-- Swaps rows `i` and `j`. -/
def swap_rows (A : MatrixNd) (i j : Nat) : MatrixNd :=
  (A.set i (A.getD j [])).set j (A.getD i [])

/-- First row at or below `c` with a non-zero entry in column `c`. -/
def find_pivot (A : MatrixNd) (c : Nat) : Option Nat :=
  ((List.range A.length).filter (fun r => decide (c ≤ r) && !decide (mget A r c = 0))).head?

/-- One Gauss–Jordan step on column `c`. -/
def elim_step (A : MatrixNd) (c : Nat) : Option MatrixNd :=
  match find_pivot A c with
  | none => none
  | some r =>
    let A1 := swap_rows A c r
    let prow := (A1.getD c []).map (fun v => v / mget A1 c c)
    some (A1.enum.map (fun e => if e.1 = c then prow else vsub e.2 (vscale (vget e.2 c) prow)))

/-- Gauss–Jordan elimination on the columns `c, c+1, …, c+k-1`. -/
def gauss_jordan : Nat → Nat → MatrixNd → Option MatrixNd
  | 0, _, A => some A
  | k + 1, c, A =>
    match elim_step A c with
    | none => none
    | some A1 => gauss_jordan k (c + 1) A1

/-- Exact solution of `A x = b` by Gauss–Jordan elimination; the result is
checked against the system before it is handed out. -/
def exact_solve (A : MatrixNd) (b : VectorNd) : Option VectorNd :=
  match gauss_jordan b.length 0 (List.zipWith (fun r v => r ++ [v]) A b) with
  | none => none
  | some R =>
    let x := R.map (fun r => vget r b.length)
    if mult A x = b ∧ x.length = b.length then some x else none

/-- The exact linear algebra service: every solve is exact, a least-squares
solve of a singular system gives up. -/
def exactLA : LinAlg where
  solve_fast := exact_solve
  factor_LU := fun A => (exact_solve A (vzero A.length)).isSome
  solve_LU_fast := fun A b => (exact_solve A b).getD b
  solve_LS_fast1 := fun _ _ => none
  solve_LS_fast2 := fun _ _ => none

/-! ## Concrete geometries -/

namespace CCD

/-- The componentwise sign of a vector.  On a non-zero multiple of a coordinate
axis this is `Vector3d::normalize`. -/
def normalize_axis (v : Vector3d) : Vector3d :=
  fun i => if v i > 0 then 1 else if v i < 0 then -1 else 0

/-- A sphere of radius `r` centred at `c`.  A sphere has no vertices; its
distance query is not consulted by the sphere paths. -/
def sphere_geom (id : Nat) (c : Vector3d) (r : ℚ) : CollisionGeometry where
  id := id
  kind := .sphere
  vertices := []
  calc_dist_and_normal := fun _ => (0, 0)
  center := c
  radius := r
  from_global := fun p => p - c
  to_global := fun p => p + c
  calc_closest_point := fun p => (0, p)

/-- An axis-aligned box with half-extents `h` centred at `c`.  The closest
point is the clamped point; the distance to it is taken in the maximum norm,
which is the Euclidean distance for a point that is off the box along one axis. -/
def box_geom (id : Nat) (c h : Vector3d) : CollisionGeometry where
  id := id
  kind := .box
  vertices := []
  calc_dist_and_normal := fun _ => (0, 0)
  center := c
  radius := 0
  from_global := fun p => p - c
  to_global := fun p => p + c
  calc_closest_point := fun p =>
    (max (max |p 0 - max (-h 0) (min (h 0) (p 0))| |p 1 - max (-h 1) (min (h 1) (p 1))|)
        |p 2 - max (-h 2) (min (h 2) (p 2))|,
      fun i => max (-h i) (min (h i) (p i)))

/-- The half-space `z ≤ 0`: no vertices, the signed distance of a point is its
height, the normal is the `z` axis. -/
def halfspace_geom (id : Nat) : CollisionGeometry where
  id := id
  kind := .other
  vertices := []
  calc_dist_and_normal := fun p => (p 2, ![0, 0, 1])
  center := 0
  radius := 0
  from_global := fun p => p
  to_global := fun p => p
  calc_closest_point := fun p => (0, p)

/-- A polyhedron given by its vertices; its distance query is a stub that is
only reached when the other geometry has vertices. -/
def vertex_geom (id : Nat) (vs : List Vector3d) : CollisionGeometry where
  id := id
  kind := .other
  vertices := vs
  calc_dist_and_normal := fun _ => (0, 0)
  center := 0
  radius := 0
  from_global := fun p => p
  to_global := fun p => p
  calc_closest_point := fun p => (0, p)

end CCD

/-! ## Separating axes of two boxes -/

namespace OBB

/-- The columns of `R` are orthonormal: `Rᵀ R = I`. -/
def orthonormal (R : Matrix3d) : Prop :=
  ∀ i j : Fin 3, R 0 i * R 0 j + R 1 i * R 1 j + R 2 i * R 2 j = if i = j then 1 else 0

/-- Axis `i` of box `a` separates `a` and `b` (tests `L = A0, A1, A2`). -/
def sep_face_a (NEAR_ZERO : ℚ) (a b : OBB) (i : Fin 3) : Prop :=
  |transpose_mult_vec a.R (b.center - a.center) i| >
    a.l i + (b.l 0 * (|transpose_mult a.R b.R i 0| + NEAR_ZERO)
      + b.l 1 * (|transpose_mult a.R b.R i 1| + NEAR_ZERO)
      + b.l 2 * (|transpose_mult a.R b.R i 2| + NEAR_ZERO))

/-- Axis `i` of box `b` separates `a` and `b` (tests `L = B0, B1, B2`). -/
def sep_face_b (NEAR_ZERO : ℚ) (a b : OBB) (i : Fin 3) : Prop :=
  |dot3 (transpose_mult_vec a.R (b.center - a.center)) (fun k => transpose_mult a.R b.R k i)| >
    (a.l 0 * (|transpose_mult a.R b.R 0 i| + NEAR_ZERO)
      + a.l 1 * (|transpose_mult a.R b.R 1 i| + NEAR_ZERO)
      + a.l 2 * (|transpose_mult a.R b.R 2 i| + NEAR_ZERO)) + b.l i

/-- The cross product of axis `i` of `a` and axis `j` of `b` separates `a` and
`b` (tests `L = Ai x Bj`). -/
def sep_edge (NEAR_ZERO : ℚ) (a b : OBB) (i j : Fin 3) : Prop :=
  |transpose_mult_vec a.R (b.center - a.center) (i + 2) * transpose_mult a.R b.R (i + 1) j
      - transpose_mult_vec a.R (b.center - a.center) (i + 1) * transpose_mult a.R b.R (i + 2) j| >
    (a.l (i + 1) * (|transpose_mult a.R b.R (i + 2) j| + NEAR_ZERO)
      + a.l (i + 2) * (|transpose_mult a.R b.R (i + 1) j| + NEAR_ZERO))
    + (b.l (j + 1) * (|transpose_mult a.R b.R i (j + 2)| + NEAR_ZERO)
      + b.l (j + 2) * (|transpose_mult a.R b.R i (j + 1)| + NEAR_ZERO))

end OBB

namespace OBB

/-- The inner product of rows `i` and `j` of `Q`. -/
def rowdot (Q : Matrix3d) (i j : Fin 3) : ℚ := Q i 0 * Q j 0 + Q i 1 * Q j 1 + Q i 2 * Q j 2

/-- The cofactor of the entry `(i, j)` of `Q`. -/
def cof (Q : Matrix3d) (i j : Fin 3) : ℚ :=
  Q (i + 1) (j + 1) * Q (i + 2) (j + 2) - Q (i + 1) (j + 2) * Q (i + 2) (j + 1)

/-- The determinant of `Q`, expanded along its first column. -/
def det3 (Q : Matrix3d) : ℚ := Q 0 0 * cof Q 0 0 + Q 1 0 * cof Q 1 0 + Q 2 0 * cof Q 2 0

/-- The box `[-1,1]³` at the origin, axes along the coordinate axes. -/
def unit_box : OBB where
  center := 0
  R := fun i j => if i = j then 1 else 0
  l := ![1, 1, 1]

/-- A box with half-extents `(2, 1, 1)` centred at `(5/2, 0, 0)`, turned by a
quarter turn about the `z` axis. -/
def turned_box : OBB where
  center := ![5 / 2, 0, 0]
  R := ![![0, -1, 0], ![1, 0, 0], ![0, 0, 1]]
  l := ![2, 1, 1]

end OBB

/-! ## The basis of Lemke's algorithm -/

/-- The linear solves are exact: a returned vector solves the system and has
the size of the right-hand side. -/
def LinAlg.exact (la : LinAlg) : Prop :=
  ∀ A b x, la.solve_fast A b = some x → mult A x = b ∧ x.length = b.length

/-- The solves `solve_fast` work in place: a returned vector has the size of the
right-hand side it overwrote. -/
def LinAlg.solve_sized (la : LinAlg) : Prop :=
  ∀ A b x, la.solve_fast A b = some x → x.length = b.length

/-- The solves `solve_LU_fast` work in place: the returned vector has the size of
the right-hand side it overwrote. -/
def LinAlg.solve_LU_sized (la : LinAlg) : Prop :=
  ∀ A b, (la.solve_LU_fast A b).length = b.length

namespace LCP

/-- The complementary variable: `z_i` (index `i`) and `w_i` (index `n + i`). -/
def compl (n v : Nat) : Nat := if v < n then v + n else v - n

/-- Entry `r` of the column that stands for variable `v` in the basis matrix:
column `v` of `M` for `z_v`, minus the unit vector for `w_{v-n}`, and the
covering column `c0` for the artificial variable `2n`. -/
def col_entry (M : MatrixNd) (n : Nat) (c0 : VectorNd) (v r : Nat) : ℚ :=
  if v < n then mget M r v
  else if v < 2 * n then (if r = v - n then -1 else 0)
  else vget c0 r

/-- The basis matrix that belongs to the list `bas` of basic variables. -/
def basis_matrix (M : MatrixNd) (n : Nat) (c0 : VectorNd) (bas : List Nat) : MatrixNd :=
  (List.range n).map (fun r => bas.map (fun v => col_entry M n c0 v r))

/-- What holds of the state of `lcp_lemke` at the head of every main iteration:
`_Bl` is the basis matrix of `_bas`, `_Bl x = -q`, and `_bas` is almost
complementary, the pair of the variable that just left being the one without a
basic member. -/
structure LemkeInv (M : MatrixNd) (q c0 : VectorNd) (s : LemkeState) : Prop where
  len_x : s.x.length = q.length
  len_bas : s.bas.length = q.length
  matrix : s.Bl = basis_matrix M q.length c0 s.bas
  system : mult s.Bl s.x = vneg q
  z_zero : s.z = vzero (q.length * 2)
  nodup : s.bas.Nodup
  bound : ∀ v ∈ s.bas, v ≤ 2 * q.length
  leaving_bound : s.leaving ≤ 2 * q.length
  leaving_out : s.leaving ∉ s.bas
  compl_out : s.leaving ≠ 2 * q.length → compl q.length s.leaving ∉ s.bas
  compl_free : ∀ v ∈ s.bas, v ≠ 2 * q.length → compl q.length v ∉ s.bas


/-- What holds of the index bookkeeping of `lcp_lemke` at the head of every main
iteration, whatever values the arithmetic produces: `_bas` lists `n` distinct
variables and is almost complementary, the pair of the variable that just left
being the one without a basic member; `z` is still the zero vector of size `2n`. -/
structure LemkeBasis (n : Nat) (s : LemkeState) : Prop where
  len_x : s.x.length = n
  len_bas : s.bas.length = n
  z_zero : s.z = vzero (n * 2)
  nodup : s.bas.Nodup
  bound : ∀ v ∈ s.bas, v ≤ 2 * n
  leaving_bound : s.leaving ≤ 2 * n
  leaving_out : s.leaving ∉ s.bas
  compl_out : s.leaving ≠ 2 * n → compl n s.leaving ∉ s.bas
  compl_free : ∀ v ∈ s.bas, v ≠ 2 * n → compl n v ∉ s.bas

/-- Exact complementarity of `z` for the problem `(M, q)`: `z` has the size of
`q`, and `z_i (Mz+q)_i = 0` at every index. -/
def Complementary (M : MatrixNd) (q z : VectorNd) : Prop :=
  z.length = q.length ∧ ∀ i < q.length, vget z i * vget (vadd (mult M z) q) i = 0

/-- A result that, when it reports success, carries a complementary `z`. -/
def good (M : MatrixNd) (q : VectorNd) (r : SolveResult) : Prop :=
  r.ok = true → Complementary M q r.z

/-- Positive semi-definiteness, the precondition the specification puts on `M`:
`xᵀ M x ≥ 0` for every `x` of the size of `M`. -/
def psd (M : MatrixNd) : Prop :=
  ∀ x : VectorNd, x.length = M.length → 0 ≤ dot x (mult M x)

/-- The tolerance `lcp_lemke` works with: the argument when positive, otherwise
`eps * ||M||_inf * n`. -/
def lemke_zero_tol (M : MatrixNd) (n : Nat) (zero_tol : ℚ) : ℚ :=
  if zero_tol ≤ 0 then DBL_EPSILON * norm_inf M * n else zero_tol

end LCP
/-! ## The body of the main loop of `lcp_lemke`, piece by piece -/

namespace LCP

/-- The pivot tolerance `PIV_TOL` of `lcp_lemke`: the argument when positive,
otherwise `eps * n * max(1, ||M||_inf)`. -/
def lemke_piv_tol (M : MatrixNd) (n : Nat) (piv_tol : ℚ) : ℚ :=
  if piv_tol > 0 then piv_tol else DBL_EPSILON * n * max 1 (norm_inf M)

/-- The column `_Be` of the entering variable: minus the unit vector when a `z`
variable has left, the column of `M` when a `w` variable has. -/
def lemke_entering_column (M : MatrixNd) (n : Nat) (s : LemkeState) : VectorNd :=
  if s.leaving < n then (vzero n).set s.leaving (-1)
  else get_column M (if s.leaving < n then n + s.leaving else s.leaving - n)

/-- The indices `_j` that survive the minimum ratio test for the direction `dl`. -/
def lemke_ratio_test (PIV_TOL zero_tol : ℚ) (s : LemkeState) (dl : VectorNd) : List Nat :=
  lemke_filter (lemke_candidates dl PIV_TOL)
    (List.zipWith (· / ·) (vselect s.x (lemke_candidates dl PIV_TOL))
      (vselect dl (lemke_candidates dl PIV_TOL)))
    (vget (List.zipWith (· / ·)
      ((vselect s.x (lemke_candidates dl PIV_TOL)).map (fun v => v + zero_tol))
      (vselect dl (lemke_candidates dl PIV_TOL)))
      (min_element (List.zipWith (· / ·)
        ((vselect s.x (lemke_candidates dl PIV_TOL)).map (fun v => v + zero_tol))
        (vselect dl (lemke_candidates dl PIV_TOL)))))

/-- The index `lvindex` of the leaving variable: the position of the artificial
variable when it passed the ratio test, the first surviving index otherwise. -/
def lemke_lvindex (n : Nat) (s : LemkeState) (j2 : List Nat) : Nat :=
  if 2 * n ∈ j2.map (fun i => s.bas.getD i 0) then s.bas.indexOf (2 * n) else j2.headD 0

/-- The state after the pivot on `lvindex` with direction `dl`. -/
def lemke_pivot (M : MatrixNd) (n : Nat) (s : LemkeState) (dl : VectorNd) (lvindex : Nat) :
    LemkeState :=
  ⟨(vsub s.x (vscale (vget s.x lvindex / vget dl lvindex) dl)).set lvindex
      (vget s.x lvindex / vget dl lvindex),
    set_column s.Bl lvindex (lemke_entering_column M n s),
    s.bas.set lvindex (if s.leaving < n then n + s.leaving else s.leaving - n),
    s.bas.getD lvindex 0, s.z⟩

/-- The state of `lcp_lemke` in the iteration of the main loop at which the loop
stops: the iterations of `lemke_loop`, with the state handed out in place of the
result. -/
def lemke_exit_state (la : LinAlg) (M : MatrixNd) (n : Nat) (PIV_TOL zero_tol : ℚ) :
    Nat → LemkeState → LemkeState
  | 0, s => s
  | fuel + 1, s =>
    if s.leaving = 2 * n then s
    else
      match la.solve_fast s.Bl (lemke_entering_column M n s) with
      | none => s
      | some dl =>
        if lemke_candidates dl PIV_TOL = [] then s
        else if lemke_ratio_test PIV_TOL zero_tol s dl = [] then s
        else
          lemke_exit_state la M n PIV_TOL zero_tol fuel
            (lemke_pivot M n s dl (lemke_lvindex n s (lemke_ratio_test PIV_TOL zero_tol s dl)))

/-- The state in which the main loop of the call `lcp_lemke(M, q, z, piv_tol,
zero_tol)` stops, for a call that reaches the main loop. -/
def lcp_lemke_exit (la : LinAlg) (M : MatrixNd) (q z : VectorNd) (piv_tol zero_tol : ℚ)
    (rng : Rng) : LemkeState :=
  let n := q.length
  match lemke_initial_basis n (vzero z.length) rng with
  | (bas0, nonbas0, rng1) =>
    match lemke_initial_values la M q n bas0 nonbas0 rng1 with
    | (bas, nonbas, Bl, x, _) =>
      lemke_exit_state la M n (lemke_piv_tol M n piv_tol) (lemke_zero_tol M n zero_tol)
        (min 1000 ((50 * n) % 2 ^ 32)) (lemke_first_pivot n bas nonbas Bl x)

end LCP



/-! ## `OBB.cpp`: distance of a point from a box -/

namespace OBB

/-- The loop `for (unsigned i=0; i< THREE_D; i++)` of `calc_sq_dist` over the
axes that are left, `sq_dist` so far being the last argument; the `else` branch
is the `return 0.0` inside the loop. -/
def calc_sq_dist_loop (l point : Vector3d) : List (Fin 3) → ℚ → ℚ
  | [], sq_dist => sq_dist
  | i :: is, sq_dist =>
    if point i < -l i ∨ point i > l i then
      calc_sq_dist_loop l point is (sq_dist + (l i - point i) * (l i - point i))
    else 0

/-- `OBB::calc_sq_dist(const OBB& o, const Point3d& p)`. -/
def calc_sq_dist (o : OBB) (p : Vector3d) : ℚ :=
  calc_sq_dist_loop o.l (transpose_mult_vec o.R (p - o.center)) [0, 1, 2] 0

/-- The squared Euclidean distance of `p` from the box `o`, as the documentation
of `calc_sq_dist` describes it: the squared excesses of `|(Rᵀ(p - center))_i|`
over `l_i`, summed over the axes on which the excess is positive. -/
def sq_dist_to_box (o : OBB) (p : Vector3d) : ℚ :=
  (max 0 (|transpose_mult_vec o.R (p - o.center) 0| - o.l 0)) ^ 2 +
  (max 0 (|transpose_mult_vec o.R (p - o.center) 1| - o.l 1)) ^ 2 +
  (max 0 (|transpose_mult_vec o.R (p - o.center) 2| - o.l 2)) ^ 2

end OBB



/-! ## The first half of a pass of the `do … while` loop of `mlcp_keller` -/

namespace LCP

/-- The body of the `do … while` loop of `mlcp_keller` up to and including the
index bookkeeping, before `z` is redetermined: `none` is ray termination, else
the flag `theta != theta0` and the index sets and vectors as the bookkeeping
leaves them. -/
def keller_pivot_update (la : LinAlg) (NEAR_ZERO : ℚ) (M : MatrixNd) (l u : VectorNd)
    (zero_tol : ℚ) (s : Nat) (p : ℚ) (st : KellerState) :
    Outcome (Option (Bool × KellerState)) :=
  let valpha :=
    la.solve_LU_fast (select_square M st.alpha) (vneg (vselect (get_column M s) st.alpha))
  let rho_s := mget M s s + dot (vselect (get_row M s) st.alpha) valpha
  let init := if p < 0 then -DBL_MAX else DBL_MAX
  let theta0 := if rho_s > NEAR_ZERO then -vget st.w s / rho_s else init
  let theta1 := if p > 0 then vget u s - vget st.z s else vget l s - vget st.z s
  match keller_thetas NEAR_ZERO zero_tol p valpha (vselect l st.alpha) (vselect u st.alpha)
      st.zalpha st.alpha (List.range valpha.length) ⟨init, init, UINT_MAX, UINT_MAX⟩ with
  | .ret th =>
    let thetas := [p * theta0, p * theta1, p * th.theta2, p * th.theta3]
    let theta := p * vget thetas (min_element thetas)
    if theta = DBL_MAX ∨ theta = -DBL_MAX then .ret none
    else
      let valpha1 := vscale theta valpha
      let zalpha := vadd st.zalpha valpha1
      let w1 := st.w.set s (vget st.w s + theta * rho_s)
      let workv := vadd (vadd (vselect w1 st.beta)
        (vscale theta (vselect (get_column M s) st.beta)))
        (mult (mselect M st.beta st.alpha) valpha1)
      match keller_update l u s p theta theta0 theta1 th
          { st with zalpha := zalpha, w := vset w1 st.beta workv,
                    z := vset st.z st.alpha zalpha } with
      | .ret st1 => .ret (some (decide (theta ≠ theta0), st1))
      | .assertFail => .assertFail
      | .undefined => .undefined
      | .timeout => .timeout
  | .assertFail => .assertFail
  | .undefined => .undefined
  | .timeout => .timeout

/-- The state in which `mlcp_keller` enters its pivoting loop: the index sets of
`keller_setup` with the `z` and `w` of the first `compute_z_w`. -/
def keller_initial (la : LinAlg) (M : MatrixNd) (q l u z : VectorNd) : Outcome KellerState :=
  match keller_setup l u (List.range q.length) with
  | (alpha, beta, betal, betau) =>
    match compute_z_w M q (la.solve_LU_fast (select_square M alpha) (vneg (vselect q alpha)))
        l u alpha betal betau z with
    | .ret (z1, w) =>
      .ret ⟨alpha, beta, betal, betau,
        la.solve_LU_fast (select_square M alpha) (vneg (vselect q alpha)), z1, w⟩
    | .assertFail => .assertFail
    | .undefined => .undefined
    | .timeout => .timeout

/-- The violating index `s` that the outer loop selects in the state `st`. -/
def keller_violating_index (st : KellerState) : Nat :=
  keller_select st.w (keller_sl st.w st.betal UINT_MAX DBL_MAX).1
    (keller_su st.w st.betau UINT_MAX (-DBL_MAX)).1

/-- The pairwise disjoint cover that C18 asks for: every index below `n` lies in
exactly one of `alpha`, `betal`, `betau` (and in it once), and `beta` has the
members of `betal` and `betau` and no others. -/
def keller_partition (n : Nat) (st : KellerState) : Prop :=
  (∀ i < n, (st.alpha ++ st.betal ++ st.betau).count i = 1) ∧
  (∀ i ∈ st.beta, i ∈ st.betal ∨ i ∈ st.betau) ∧
  (∀ i ∈ st.betal, i ∈ st.beta) ∧ (∀ i ∈ st.betau, i ∈ st.beta)

instance (n : Nat) (st : KellerState) : Decidable (keller_partition n st) := by
  unfold keller_partition
  exact inferInstance

end LCP



/-! ## A linear algebra service that reports every system singular -/

/-- The linear algebra service whose every solve throws `SingularException` and
whose every factorization fails. -/
def singularLA : LinAlg where
  solve_fast := fun _ _ => none
  factor_LU := fun _ => false
  solve_LU_fast := fun _ b => b
  solve_LS_fast1 := fun _ _ => none
  solve_LS_fast2 := fun _ _ => none

/-! ## The attempts of `lcp_lemke_regularized` -/

namespace LCP

/-- The loop `while (rf <= max_exp)` of `lcp_lemke_regularized` together with the
record of its calls to `lcp_lemke`: the exponents `rf` of the attempts, in the
order they are made. -/
def lemke_reg_loop_log (la : LinAlg) (M : MatrixNd) (q : VectorNd) (step_exp : Nat)
    (max_exp : Int) (piv_tol zero_tol ZERO_TOL : ℚ) :
    Nat → Int → VectorNd → Rng → Outcome ((Bool × VectorNd) × Rng) × List Int
  | 0, rf, z, rng => (if rf ≤ max_exp then .timeout else .ret ((false, z), rng), [])
  | fuel + 1, rf, z, rng =>
    if rf ≤ max_exp then
      let MM := add_diag M ((10 : ℚ) ^ rf)
      let r := lcp_lemke la MM q z piv_tol zero_tol rng
      if r.1.ok && lcp_verify_reg MM q r.1.z ZERO_TOL then (.ret ((true, r.1.z), r.2), [rf])
      else
        ((lemke_reg_loop_log la M q step_exp max_exp piv_tol zero_tol ZERO_TOL fuel
            (next_rf rf step_exp) r.1.z r.2).1,
          rf :: (lemke_reg_loop_log la M q step_exp max_exp piv_tol zero_tol ZERO_TOL fuel
            (next_rf rf step_exp) r.1.z r.2).2)
    else (.ret ((false, z), rng), [])

/-- `LCP::lcp_lemke_regularized(const MatrixNd&, …)` together with the record of
its calls to `lcp_lemke`: `none` for the attempt on `M` itself, `some k` for the
attempt on `M + 10^k I`. -/
def lcp_lemke_regularized_log (la : LinAlg) (NEAR_ZERO : ℚ) (fuel : Nat) (M : MatrixNd)
    (q z : VectorNd) (min_exp : Int) (step_exp : Nat) (max_exp : Int) (piv_tol zero_tol : ℚ)
    (rng : Rng) : Outcome ((Bool × VectorNd) × Rng) × List (Option Int) :=
  if q.length = 0 then (.ret ((true, vresize z 0), rng), [])
  else
    let ZERO_TOL := wrapper_zero_tol NEAR_ZERO M q zero_tol
    let r := lcp_lemke la M q z piv_tol zero_tol rng
    if r.1.ok && lcp_verify_first M q r.1.z ZERO_TOL then (.ret ((true, r.1.z), r.2), [none])
    else
      ((lemke_reg_loop_log la M q step_exp max_exp piv_tol zero_tol ZERO_TOL fuel min_exp
          r.1.z r.2).1,
        none :: (lemke_reg_loop_log la M q step_exp max_exp piv_tol zero_tol ZERO_TOL fuel min_exp
          r.1.z r.2).2.map some)

/-- Whether the attempt of `lcp_lemke_regularized` on `M` itself is verified. -/
def lemke_attempt_first (la : LinAlg) (NEAR_ZERO : ℚ) (M : MatrixNd) (q : VectorNd)
    (piv_tol zero_tol : ℚ) : Bool :=
  (lcp_lemke la M q [] piv_tol zero_tol (fun _ => 0)).1.ok &&
    lcp_verify_first M q (lcp_lemke la M q [] piv_tol zero_tol (fun _ => 0)).1.z
      (wrapper_zero_tol NEAR_ZERO M q zero_tol)

/-- Whether the attempt of `lcp_lemke_regularized` on `M + 10^k I` is verified. -/
def lemke_attempt_reg (la : LinAlg) (M : MatrixNd) (q : VectorNd)
    (piv_tol zero_tol ZERO_TOL : ℚ) (k : Int) : Bool :=
  (lcp_lemke la (add_diag M ((10 : ℚ) ^ k)) q [] piv_tol zero_tol (fun _ => 0)).1.ok &&
    lcp_verify_reg (add_diag M ((10 : ℚ) ^ k)) q
      (lcp_lemke la (add_diag M ((10 : ℚ) ^ k)) q [] piv_tol zero_tol (fun _ => 0)).1.z ZERO_TOL

end LCP

/-! ## The index sets `lcp_fast` ends with -/

namespace LCP

/-- The loop of `lcp_fast`, followed for the index sets: the state in which the
loop is left. -/
def lcp_fast_loop_final (la : LinAlg) (M : MatrixNd) (q : VectorNd) (zero_tol : ℚ) :
    Nat → LcpFastState → Rng → LcpFastState
  | 0, st, _ => st
  | left + 1, st, rng =>
    match lcp_fast_iter la M q zero_tol st rng with
    | (.again st1, rng1) => lcp_fast_loop_final la M q zero_tol left st1 rng1
    | (.leave st1, rng1) => lcp_fast_loop_final la M q zero_tol left st1 rng1
    | (.result _ _, _) => st

/-- The members `_nonbas` and `_bas` at the moment `lcp_fast` returns: both empty
on the two early returns, the sets of the last iteration otherwise. -/
def lcp_fast_final (la : LinAlg) (M : MatrixNd) (q z : VectorNd) (zero_tol : ℚ) (rng : Rng) :
    LcpFastState :=
  let N := q.length
  if N = 0 then ⟨[], [], z⟩
  else
    let zero_tol := if zero_tol < 0 then M.length * norm_inf M * DBL_EPSILON else zero_tol
    if z.length = q.length then
      lcp_fast_loop_final la M q zero_tol ((2 * N) % 2 ^ 32)
        ⟨(List.range z.length).filter (fun i => !decide (|vget z i| < zero_tol)),
          (List.range z.length).filter (fun i => decide (|vget z i| < zero_tol)), z⟩ rng
    else
      let minw := min_element q
      if vget q minw > -zero_tol then ⟨[], [], z⟩
      else
        lcp_fast_loop_final la M q zero_tol ((2 * N) % 2 ^ 32)
          ⟨[minw], (List.range N).filter (fun i => !decide (i = minw)), z⟩ rng

end LCP

/-! ## The index vectors of `mlcp_fast` across the iterations -/

namespace LCP

/-- The invariant of the index vectors of `mlcp_fast` for a problem of size `N`:
`nonbas`, `basl`, `basu` and `bas` are strictly increasing, the first three hold
every index below `N` exactly once between them, and `bas` holds the indices of
`basl` and `basu`. -/
def fast_inv (N : Nat) (st : FastState) : Prop :=
  st.nonbas.Pairwise (· < ·) ∧ st.basl.Pairwise (· < ·) ∧ st.basu.Pairwise (· < ·) ∧
  st.bas.Pairwise (· < ·) ∧
  (st.nonbas ++ (st.basl ++ st.basu)).Perm (List.range N) ∧
  st.bas.Perm (st.basl ++ st.basu)

/-- The states at the start of the iterations the loop of `mlcp_fast` runs
through, in order; an iteration that returns, fails an assertion or runs into
undefined behaviour is the last one. -/
def fast_loop_trace (la : LinAlg) (NEAR_ZERO : ℚ) (M : MatrixNd) (q l u : VectorNd)
    (zero_tol : ℚ) : Nat → FastState → Rng → List FastState
  | 0, _, _ => []
  | left + 1, st, rng =>
    st :: (match fast_iter la NEAR_ZERO M q l u zero_tol st rng with
      | .ret (.again st1, rng1) => fast_loop_trace la NEAR_ZERO M q l u zero_tol left st1 rng1
      | .ret (.leave st1, rng1) => fast_loop_trace la NEAR_ZERO M q l u zero_tol left st1 rng1
      | _ => [])

/-- The states at the start of the iterations of a call of `mlcp_fast`. -/
def mlcp_fast_trace (la : LinAlg) (NEAR_ZERO : ℚ) (M : MatrixNd) (q l u z : VectorNd)
    (zero_tol : ℚ) (rng : Rng) : List FastState :=
  let N := q.length
  if N = 0 then []
  else
    let zero_tol := if zero_tol < 0 then M.length * norm_inf M * DBL_EPSILON else zero_tol
    let nolinf := (List.range N).all (fun i => !decide (vget l i = -DBL_MAX))
    let MAX_PIV := max ((N * N) % 2 ^ 32) 1000
    if z.length = q.length then
      match fast_warm l u z zero_tol (List.range z.length) with
      | (nonbas, bas, basl, basu) =>
        fast_loop_trace la NEAR_ZERO M q l u zero_tol MAX_PIV ⟨nonbas, bas, basl, basu, z⟩ rng
    else if nolinf then
      let w := vadd (mult M l) q
      let minw := min_element w
      if vget w minw > -zero_tol then []
      else
        fast_loop_trace la NEAR_ZERO M q l u zero_tol MAX_PIV
          ⟨[minw], (List.range N).filter (fun i => !decide (i = minw)),
            (List.range N).filter (fun i => !decide (i = minw)), [], z⟩ rng
    else
      match fast_cold l u (List.range N) with
      | (nonbas, bas, basl, basu) =>
        fast_loop_trace la NEAR_ZERO M q l u zero_tol MAX_PIV ⟨nonbas, bas, basl, basu, z⟩ rng

end LCP

/-! ## `LCP.cpp`: Lemke's algorithm (sparse) -/

namespace LCP

/-- How a call of the sparse `lcp_lemke` ends. -/
inductive SparseOutcome where
  /-- The function returned the flag and left `z`. -/
  | ret : Bool → VectorNd → SparseOutcome
  /-- An exception of `solve_sparse_direct` left the function (there is no
  `catch` in the sparse overload). -/
  | thrown : SparseOutcome
  /-- The member `_d` was read past its end. -/
  | undefined : SparseOutcome
  deriving DecidableEq, Repr

/-- The infinity norm of a vector, `_Be.norm_inf()`. -/
def vnorm_inf (v : VectorNd) : ℚ := (v.map (fun x => |x|)).foldl max 0

/-- The basis matrix `_sBl` the sparse `lcp_lemke` builds for a non-empty `_bas`:
the columns of `M` for the basic `z` variables, then a column with the entry
`1.0` in row `_nonbas[i]` for every non-basic one. -/
def sparse_initial_Bl (M : MatrixNd) (n : Nat) (bas nonbas : List Nat) : MatrixNd :=
  (List.range n).map (fun r =>
    bas.map (fun c => mget M r c) ++ nonbas.map (fun i => if i = r then (1 : ℚ) else 0))

/-- The main iterations of the sparse `lcp_lemke`.  `solve_sparse` is
`_LA.solve_sparse_direct(A, b, eNoTranspose, x)` (`none`: it throws) and `d` is
the member `_d`, which the ratio test reads in place of `_dl`. -/
def sparse_lemke_loop (solve_sparse : MatrixNd → VectorNd → Option VectorNd) (d : VectorNd)
    (M : MatrixNd) (n : Nat) (piv_tol zero_tol : ℚ) : Nat → LemkeState → SparseOutcome
  | 0, s => .ret false (vresize s.z n)
  | fuel + 1, s =>
    let t := 2 * n
    if s.leaving = t then .ret true (vresize (vset s.z s.bas s.x) n)
    else
      let entering := if s.leaving < n then n + s.leaving else s.leaving - n
      let Be := if s.leaving < n then (vzero n).set s.leaving (-1) else get_column M entering
      match solve_sparse s.Bl Be with
      | none => .thrown
      | some dl =>
        let PIV_TOL := if piv_tol > 0 then piv_tol else DBL_EPSILON * n * max 1 (vnorm_inf Be)
        let j := lemke_candidates dl PIV_TOL
        if j = [] then .ret false (vresize s.z n)
        else if j.any (fun i => decide (d.length ≤ i)) then .undefined
        else
          let xj := vselect s.x j
          let dj := vselect d j
          let result := List.zipWith (· / ·) (xj.map (fun v => v + zero_tol)) dj
          let theta := vget result (min_element result)
          let j2 := lemke_filter j (List.zipWith (· / ·) xj dj) theta
          if j2 = [] then .ret false (vresize s.z n)
          else
            let tlist := j2.map (fun i => s.bas.getD i 0)
            let lvindex := if t ∈ tlist then s.bas.indexOf t else j2.headD 0
            let leaving := s.bas.getD lvindex 0
            let rat := vget s.x lvindex / vget dl lvindex
            let x := (vsub s.x (vscale rat dl)).set lvindex rat
            sparse_lemke_loop solve_sparse d M n piv_tol zero_tol fuel
              ⟨x, set_column s.Bl lvindex Be, s.bas.set lvindex entering, leaving, s.z⟩

/-- `LCP::lcp_lemke(const SparseMatrixNd&, …)`: Lemke's algorithm on a sparse
matrix, given here by its entries. -/
def lcp_lemke_sparse (solve_sparse : MatrixNd → VectorNd → Option VectorNd) (d : VectorNd)
    (M : MatrixNd) (q z : VectorNd) (piv_tol zero_tol : ℚ) : SparseOutcome :=
  let n := q.length
  let MAXITER := min 1000 ((50 * n) % 2 ^ 32)
  if n = 0 then .ret true (vresize z 0)
  else
    let z0 := z
    let zero_tol := if zero_tol ≤ 0 then DBL_EPSILON * norm_inf M * n else zero_tol
    if vget q (min_element q) > -zero_tol then .ret true (vzero n)
    else
      let bas := if z0.length ≠ n then []
        else (List.range n).filter (fun i => decide (vget z0 i > 0))
      let nonbas := if z0.length ≠ n then List.range n
        else (List.range n).filter (fun i => !decide (vget z0 i > 0))
      let Bl := if bas ≠ [] then sparse_initial_Bl M n bas nonbas else mnegate (identity n)
      match solve_sparse Bl q with
      | none => .thrown
      | some y =>
        let x := vneg y
        if x.all (fun xi => !decide (xi < 0)) then
          .ret true (vresize (vset (vzero (n * 2)) bas x) n)
        else
          sparse_lemke_loop solve_sparse d M n piv_tol zero_tol MAXITER
            (lemke_first_pivot n bas nonbas Bl x)

end LCP

/-! ## `CCD.inl`: the reads of `insertion_sort` -/

namespace CCD

/-- The inner loop of `CCD::insertion_sort`,
`for (j = first; *j < *(j-1); --j) iter_swap(j-1, j)`, with its reads checked:
the part of the range before `j` is held back to front, and on an empty part the
test would read `*(j-1)` before the start of the range. -/
def sift_checked {α : Type} [LT α] [DecidableRel (fun a b : α => a < b)] :
    α → List α → Outcome (List α)
  | _, [] => .undefined
  | x, a :: as => if x < a then (sift_checked x as).map (fun r => a :: r) else .ret (x :: a :: as)

/-- The outer loop `while (++first != last)` of `CCD::insertion_sort` over the
elements still to be placed. -/
def sift_all_checked {α : Type} [LT α] [DecidableRel (fun a b : α => a < b)] :
    List α → List α → Outcome (List α)
  | [], acc => .ret acc
  | e :: es, acc =>
    match sift_checked e acc with
    | .ret acc1 => sift_all_checked es acc1
    | .assertFail => .assertFail
    | .undefined => .undefined
    | .timeout => .timeout

/-- `CCD::insertion_sort(first, last)` with the reads of the inner loop checked. -/
def insertion_sort_checked {α : Type} [LT α] [DecidableRel (fun a b : α => a < b)] :
    List α → Outcome (List α)
  | [] => .ret []
  | x :: xs =>
    let m := min_element (x :: xs)
    match ((x :: xs).set 0 ((x :: xs).getD m x)).set m x with
    | [] => .ret []
    | y :: ys => (sift_all_checked ys [y]).map List.reverse

end CCD

/-! ## `EventDrivenSimulator.h`: the comparison of events -/

namespace EventDrivenSimulator

/-- What `EventCompare` reads from an `Event`.  `P` is the type of the sorted
pairs of bodies and `J` the type of the joint pointers. -/
structure Event (P J : Type) where
  /-- `event_type`, the value of the enumeration. -/
  event_type : Nat
  /-- `make_sorted_pair(contact_geom1->get_single_body(),
  contact_geom2->get_single_body())`. -/
  contact_pair : P
  /-- `limit_joint`. -/
  limit_joint : J
  /-- `limit_upper`. -/
  limit_upper : Bool
  /-- `limit_dof`. -/
  limit_dof : Nat
  /-- `constraint_joint`. -/
  constraint_joint : J

/-- `EventDrivenSimulator::EventCompare::operator()`.  `eContact` and `eLimit`
are the values of `Event::eContact` and `Event::eLimit`; `ltP` is `operator<` on
the sorted pairs of bodies and `ltJ` is `operator<` on the joint pointers. -/
def EventCompare {P J : Type} [DecidableEq J] (eContact eLimit : Nat) (ltP : P → P → Bool)
    (ltJ : J → J → Bool) (a b : Event P J) : Bool :=
  if a.event_type ≠ b.event_type then decide (a.event_type < b.event_type)
  else if a.event_type = eContact then ltP a.contact_pair b.contact_pair
  else if a.event_type = eLimit then
    if a.limit_joint ≠ b.limit_joint then ltJ a.limit_joint b.limit_joint
    else if a.limit_upper ≠ b.limit_upper then decide (a.limit_upper < b.limit_upper)
    else decide (a.limit_dof < b.limit_dof)
  else ltJ a.constraint_joint b.constraint_joint

/-- A strict weak ordering: irreflexive, transitive, and with a transitive
incomparability. -/
def strict_weak {α : Type} (lt : α → α → Bool) : Prop :=
  (∀ a, lt a a = false) ∧
  (∀ a b c, lt a b = true → lt b c = true → lt a c = true) ∧
  (∀ a b c, lt a b = false → lt b a = false → lt b c = false → lt c b = false →
    lt a c = false ∧ lt c a = false)

/-- A strict total ordering: irreflexive, transitive, and any two different
elements are ordered. -/
def strict_total {α : Type} (lt : α → α → Bool) : Prop :=
  (∀ a, lt a a = false) ∧
  (∀ a b c, lt a b = true → lt b c = true → lt a c = true) ∧
  (∀ a b, a ≠ b → lt a b = true ∨ lt b a = true)

end EventDrivenSimulator

/-! ## Points of an oriented bounding box -/

namespace OBB

/-- The point `p` lies in the box `o`: its coordinates `Rᵀ (p - center)` in the
frame of the box lie within the half-extents. -/
def contains (o : OBB) (p : Vector3d) : Prop :=
  ∀ i : Fin 3, |transpose_mult_vec o.R (p - o.center) i| ≤ o.l i

/-- Membership in a box is decidable. -/
instance (o : OBB) (p : Vector3d) : Decidable (contains o p) := by
  unfold contains
  infer_instance

end OBB

/-! ## `OBB.cpp`: a box against a line segment -/

namespace OBB

/-- The product `R v`. -/
def mul_vec (R : Matrix3d) (v : Vector3d) : Vector3d :=
  fun i => R i 0 * v 0 + R i 1 * v 1 + R i 2 * v 2

/-- The loop over the three slabs in `OBB::intersects(a, seg, tmin, tmax, q)`:
whether the loop ran through, and `tmin`, `tmax` as it leaves them. -/
def seg_slabs (NEAR_ZERO : ℚ) (l p d : Vector3d) : List (Fin 3) → ℚ × ℚ → Bool × ℚ × ℚ
  | [], acc => (true, acc.1, acc.2)
  | i :: is, acc =>
    if |d i| < NEAR_ZERO then
      if p i < -l i ∨ p i > l i then (false, acc.1, acc.2)
      else seg_slabs NEAR_ZERO l p d is acc
    else
      let ood := 1 / d i
      let t1 := (-l i - p i) * ood
      let t2 := (l i - p i) * ood
      let tmin := max acc.1 (if t1 > t2 then t2 else t1)
      let tmax := min acc.2 (if t1 > t2 then t1 else t2)
      if tmin > tmax + NEAR_ZERO then (false, tmin, tmax)
      else seg_slabs NEAR_ZERO l p d is (tmin, tmax)

/-- `OBB::intersects(const OBB& a, const LineSeg3& seg, double& tmin, double tmax,
Point3d& q)`: the returned flag, `tmin` and `q` on return.  The pose built from
`Quatd(a.R)` and `a.center` stands for the rigid motion with rotation `a.R`; its
inverse takes a point `x` to `Rᵀ (x - center)`. -/
def intersects_seg (NEAR_ZERO : ℚ) (a : OBB) (seg_first seg_second : Vector3d)
    (tmin tmax : ℚ) (q : Vector3d) : Bool × ℚ × Vector3d :=
  let p := transpose_mult_vec a.R (seg_first - a.center)
  let d := transpose_mult_vec a.R (seg_second - a.center) - p
  let r := seg_slabs NEAR_ZERO a.l p d [0, 1, 2] (tmin, tmax)
  if r.1 = true then (true, r.2.1, a.center + mul_vec a.R (p + r.2.1 • d))
  else (false, r.2.1, q)

/-- The parameter at which the line `p + t d` enters slab `i` of a box with
half-extents `l`. -/
def slab_entry (l p d : Vector3d) (i : Fin 3) : ℚ :=
  min ((-l i - p i) * (1 / d i)) ((l i - p i) * (1 / d i))

/-- The parameter at which the line `p + t d` leaves slab `i`. -/
def slab_exit (l p d : Vector3d) (i : Fin 3) : ℚ :=
  max ((-l i - p i) * (1 / d i)) ((l i - p i) * (1 / d i))

/-- The interval of the specification: the maximum of `tmin` and the entry
parameters, and the minimum of `tmax` and the exit parameters, over the axes of
the list with `|d_i| ≥ NEAR_ZERO`. -/
def slab_interval (NEAR_ZERO : ℚ) (l p d : Vector3d) : List (Fin 3) → ℚ × ℚ → ℚ × ℚ
  | [], acc => acc
  | i :: is, acc =>
    if |d i| < NEAR_ZERO then slab_interval NEAR_ZERO l p d is acc
    else slab_interval NEAR_ZERO l p d is (max acc.1 (slab_entry l p d i),
      min acc.2 (slab_exit l p d i))

/-- The condition of the specification for a hit: the origin lies within every
slab the segment is parallel to, and over the other axes the interval is not
empty, up to `NEAR_ZERO`. -/
def seg_hit_spec (NEAR_ZERO : ℚ) (l p d : Vector3d) (tmin tmax : ℚ) : Prop :=
  (∀ i : Fin 3, |d i| < NEAR_ZERO → -l i ≤ p i ∧ p i ≤ l i) ∧
  (slab_interval NEAR_ZERO l p d [0, 1, 2] (tmin, tmax)).1 ≤
    (slab_interval NEAR_ZERO l p d [0, 1, 2] (tmin, tmax)).2 + NEAR_ZERO

end OBB

/-! ## `OBB.cpp`: the velocity-expanded box -/

namespace OBB

/-- The cross product. -/
def cross3 (a b : Vector3d) : Vector3d :=
  ![a 1 * b 2 - a 2 * b 1, a 2 * b 0 - a 0 * b 2, a 0 * b 1 - a 1 * b 0]

/-- The product `A B`. -/
def mat_mul (A B : Matrix3d) : Matrix3d :=
  fun i j => A i 0 * B 0 j + A i 1 * B 1 j + A i 2 * B 2 j

/-- The eight vertices `verts[0..7]` of a box with half-extents `l`, in the
coordinates of the box. -/
def obb_verts (l : Vector3d) : List Vector3d :=
  [![-l 0, -l 1, -l 2], ![-l 0, -l 1, l 2], ![-l 0, l 1, -l 2], ![-l 0, l 1, l 2],
    ![l 0, -l 1, -l 2], ![l 0, -l 1, l 2], ![l 0, l 1, -l 2], ![l 0, l 1, l 2]]

/-- The box expanded by the linear velocity in `OBB::calc_vel_exp_BV`: the box
itself when `lv.norm() <= NEAR_ZERO/dt`, otherwise `OBB(*this, lv*dt)`, for
which `expand` stands. -/
def lin_expanded (NEAR_ZERO : ℚ) (norm : Vector3d → ℚ) (expand : OBB → Vector3d → OBB)
    (this : OBB) (lv : Vector3d) (dt : ℚ) : OBB :=
  if norm lv ≤ NEAR_ZERO / dt then this else expand this (dt • lv)

/-- One pass of the loop over the vertices in `OBB::calc_vel_exp_BV`; the state
is `(min_o, max_o)`. -/
def vel_exp_step (NEAR_ZERO : ℚ) (norm : Vector3d → ℚ) (wn chat dhat ehat : Vector3d)
    (cnorm dnorm enorm : ℚ) (center_o : Vector3d) (st : Vector3d × Vector3d)
    (vert : Vector3d) : Vector3d × Vector3d :=
  let r := center_o + vert
  let wnxr := norm (cross3 wn r)
  let lprime : Vector3d :=
    ![if cnorm > NEAR_ZERO then (wnxr • chat) 0 else 0,
      if dnorm > NEAR_ZERO then (wnxr • dhat) 1 else 0,
      if enorm > NEAR_ZERO then (wnxr • ehat) 2 else 0]
  let center_new := dot3 wn r • wn
  let min_i := center_new - lprime
  let max_i := center_new + lprime
  (fun j => min (min_i j) (st.1 j), fun j => max (max_i j) (st.2 j))

/-- `OBB::calc_vel_exp_BV`.  `norm` is `Vector3d::norm`, `normalize` is
`Vector3d::normalize` and `expand` the constructor `OBB(o, v)`; `pose_ok` is the
asserted `center.pose == g.get_pose()`, `enabled` is `b->is_enabled()`, `wRb` is
`Matrix3d(wTb->q)`, and `lv`, `av` are the linear and the angular velocity. -/
def calc_vel_exp_BV (NEAR_ZERO : ℚ) (norm : Vector3d → ℚ) (normalize : Vector3d → Vector3d)
    (expand : OBB → Vector3d → OBB) (this : OBB) (pose_ok enabled : Bool) (wRb : Matrix3d)
    (lv av : Vector3d) (dt : ℚ) : Outcome OBB :=
  if !pose_ok then .assertFail
  else if !enabled then .ret this
  else
    let o := lin_expanded NEAR_ZERO norm expand this lv dt
    if norm av < NEAR_ZERO then .ret o
    else
      let wTo := mat_mul wRb o.R
      let w := transpose_mult_vec wTo av
      let wn := normalize w
      let P : Matrix3d := fun i j => wn i * (-wn j) + (if i = j then 1 else 0)
      let c := mul_vec P ![|w 0| + 1, w 1, w 2]
      let cnorm := norm c
      let chat : Vector3d := if cnorm > NEAR_ZERO then (1 / cnorm) • c else 0
      let d := mul_vec P ![w 0, |w 1| + 1, w 2]
      let dnorm := norm d
      let dhat : Vector3d := if dnorm > NEAR_ZERO then (1 / dnorm) • d else 0
      let e := mul_vec P ![w 0, w 1, |w 2| + 1]
      let enorm := norm e
      let ehat : Vector3d := if enorm > NEAR_ZERO then (1 / enorm) • e else 0
      let center_o := transpose_mult_vec o.R o.center
      let fin := (obb_verts o.l).foldl
        (vel_exp_step NEAR_ZERO norm wn chat dhat ehat cnorm dnorm enorm center_o)
        (center_o - o.l, center_o + o.l)
      .ret ⟨mul_vec o.R ((1 / 2 : ℚ) • (fin.2 + fin.1)), o.R, (1 / 2 : ℚ) • (fin.2 - fin.1)⟩

end OBB

/-! # Theorems -/

/-! ## Lemke's algorithm: the basis invariant and complementarity (C1) -/

section Lemke
open LCP

theorem length_vzero (n : Nat) : (vzero n).length = n := by simp [vzero]

theorem vget_vzero (n i : Nat) : vget (vzero n) i = 0 := by
  simp only [vget, vzero, List.getD_eq_getElem?_getD]
  by_cases h : i < n
  · simp [h]
  · simp [h]

theorem vget_of_le (v : VectorNd) (i : Nat) (h : v.length ≤ i) : vget v i = 0 := by
  simp [vget, List.getD_eq_getElem?_getD, List.getElem?_eq_none h]

theorem vget_cons_zero (a : ℚ) (v : VectorNd) : vget (a :: v) 0 = a := rfl

theorem vget_cons_succ (a : ℚ) (v : VectorNd) (i : Nat) : vget (a :: v) (i + 1) = vget v i := rfl

theorem dot_nil_left (b : VectorNd) : dot [] b = 0 := rfl

theorem dot_nil_right (a : VectorNd) : dot a [] = 0 := by cases a <;> rfl

theorem dot_cons (a b : ℚ) (as bs : VectorNd) : dot (a :: as) (b :: bs) = a * b + dot as bs := by
  simp [dot]

theorem dot_set (a b : VectorNd) (k : Nat) (u w : ℚ) (ha : k < a.length) (hb : k < b.length) :
    dot (a.set k u) (b.set k w) = dot a b - vget a k * vget b k + u * w := by
  induction a generalizing b k with
  | nil => simp at ha
  | cons x xs ih =>
    cases b with
    | nil => simp at hb
    | cons y ys =>
      cases k with
      | zero => simp only [List.set_cons_zero, dot_cons, vget_cons_zero]; ring
      | succ k =>
        simp only [List.set_cons_succ, dot_cons, vget_cons_succ]
        rw [ih ys k (by simpa using ha) (by simpa using hb)]
        ring

theorem dot_vsub (a x y : VectorNd) (h : x.length = y.length) :
    dot a (vsub x y) = dot a x - dot a y := by
  induction a generalizing x y with
  | nil => simp [dot_nil_left]
  | cons a as ih =>
    cases x with
    | nil =>
      cases y with
      | nil => simp [vsub, dot_nil_right]
      | cons y ys => simp at h
    | cons x xs =>
      cases y with
      | nil => simp at h
      | cons y ys =>
        simp only [vsub, List.zipWith_cons_cons, dot_cons]
        have := ih xs ys (by simpa using h)
        simp only [vsub] at this
        rw [this]; ring

theorem dot_vscale (a y : VectorNd) (c : ℚ) : dot a (vscale c y) = c * dot a y := by
  induction a generalizing y with
  | nil => simp [dot_nil_left]
  | cons a as ih =>
    cases y with
    | nil => simp [vscale, dot_nil_right]
    | cons y ys =>
      simp only [vscale, List.map_cons, dot_cons]
      have := ih ys
      simp only [vscale] at this
      rw [this]; ring

theorem length_mult (M : MatrixNd) (z : VectorNd) : (mult M z).length = M.length := by
  simp [mult]

theorem length_basis_matrix (M : MatrixNd) (n : Nat) (c0 : VectorNd) (bas : List Nat) :
    (basis_matrix M n c0 bas).length = n := by
  simp [basis_matrix]

theorem mult_basis_matrix (M : MatrixNd) (n : Nat) (c0 : VectorNd) (bas : List Nat)
    (x : VectorNd) :
    mult (basis_matrix M n c0 bas) x =
      (List.range n).map (fun r => dot (bas.map (fun v => col_entry M n c0 v r)) x) := by
  simp [mult, basis_matrix, List.map_map, Function.comp_def]

theorem set_column_basis_matrix (M : MatrixNd) (n : Nat) (c0 : VectorNd) (bas : List Nat)
    (lv e : Nat) (Be : VectorNd)
    (hBe : Be = (List.range n).map (fun r => col_entry M n c0 e r)) :
    set_column (basis_matrix M n c0 bas) lv Be = basis_matrix M n c0 (bas.set lv e) := by
  rw [hBe]
  simp only [set_column, basis_matrix, List.zipWith_map, List.zipWith_same, List.map_set]

/-- Equal maps over `range n` agree at every index below `n`. -/
theorem map_range_inj {f g : Nat → ℚ} {n : Nat}
    (h : (List.range n).map f = (List.range n).map g) (r : Nat) (hr : r < n) : f r = g r := by
  have := List.map_inj_left.mp h r (List.mem_range.mpr hr)
  exact this

theorem pivot_row (a : VectorNd) (x dl : VectorNd) (lv : Nat) (u : ℚ)
    (ha : a.length = x.length) (hd : dl.length = x.length) (hlv : lv < x.length)
    (hdl : vget dl lv ≠ 0) (hsol : dot a dl = u) :
    dot (a.set lv u) ((vsub x (vscale (vget x lv / vget dl lv) dl)).set lv
        (vget x lv / vget dl lv)) = dot a x := by
  have hlen : (vsub x (vscale (vget x lv / vget dl lv) dl)).length = x.length := by
    simp [vsub, vscale, hd]
  rw [dot_set _ _ _ _ _ (by omega) (by omega), dot_vsub _ _ _ (by simp [vscale, hd]),
    dot_vscale, hsol]
  have hv : vget (vsub x (vscale (vget x lv / vget dl lv) dl)) lv =
      vget x lv - vget dl lv * (vget x lv / vget dl lv) := by
    simp only [vget, vsub, vscale, List.getD_eq_getElem?_getD, List.getElem?_zipWith,
      List.getElem?_map]
    have h1 : lv < x.length := hlv
    have h2 : lv < dl.length := by omega
    simp [List.getElem?_eq_getElem h1, List.getElem?_eq_getElem h2]
  rw [hv]
  field_simp
  ring

theorem vget_eq_getElem (v : VectorNd) (i : Nat) (h : i < v.length) : vget v i = v[i] := by
  simp [vget, List.getD_eq_getElem?_getD, List.getElem?_eq_getElem h]

theorem vget_map_range (f : Nat → ℚ) (n i : Nat) (h : i < n) :
    vget ((List.range n).map f) i = f i := by
  rw [vget_eq_getElem _ _ (by simpa using h)]
  simp

theorem map_vget_range (v : VectorNd) (n : Nat) (h : v.length = n) :
    (List.range n).map (vget v) = v := by
  apply List.ext_getElem
  · simp [h]
  · intro i h1 h2
    simp only [List.getElem_map, List.getElem_range]
    exact vget_eq_getElem v i h2

theorem dot_eq_sum (a b : VectorNd) :
    dot a b = ∑ i in Finset.range b.length, vget a i * vget b i := by
  induction b generalizing a with
  | nil => simp [dot_nil_right]
  | cons y ys ih =>
    rw [List.length_cons, Finset.sum_range_succ']
    cases a with
    | nil => simp [dot_nil_left, vget]
    | cons x xs =>
      rw [dot_cons, ih xs]
      simp only [vget_cons_succ, vget_cons_zero]
      ring

theorem dot_vzero_right (a : VectorNd) (n : Nat) : dot a (vzero n) = 0 := by
  rw [dot_eq_sum]
  simp [vget_vzero]

theorem dot_set_right (a b : VectorNd) (k : Nat) (w : ℚ) (ha : k < a.length)
    (hb : k < b.length) : dot a (b.set k w) = dot a b + vget a k * (w - vget b k) := by
  have h := dot_set a b k (vget a k) w ha hb
  have h2 : a.set k (vget a k) = a := by
    apply List.ext_getElem
    · simp
    · intro i h1 h2
      rw [List.getElem_set]
      split
      · next h => subst h; exact vget_eq_getElem a k ha
      · rfl
  rw [h2] at h
  rw [h]; ring

theorem length_vset (z : VectorNd) (bas : List Nat) (x : VectorNd) :
    (vset z bas x).length = z.length := by
  induction bas generalizing z x with
  | nil => simp [vset]
  | cons b bs ih =>
    cases x with
    | nil => simp [vset]
    | cons a xs => simp [vset, ih]

theorem vget_set_ne (z : VectorNd) (b v : Nat) (a : ℚ) (h : v ≠ b) :
    vget (z.set b a) v = vget z v := by
  simp [vget, List.getD_eq_getElem?_getD, List.getElem?_set_ne (Ne.symm h)]

theorem vget_vset_not_mem (z : VectorNd) (bas : List Nat) (x : VectorNd) (v : Nat)
    (h : v ∉ bas) : vget (vset z bas x) v = vget z v := by
  induction bas generalizing z x with
  | nil => simp [vset]
  | cons b bs ih =>
    cases x with
    | nil => simp [vset]
    | cons a xs =>
      simp only [List.mem_cons, not_or] at h
      simp only [vset]
      rw [ih _ _ h.2, vget_set_ne _ _ _ _ h.1]

theorem zipWith_congr_mem {f g : Nat → ℚ → ℚ} (bs : List Nat) (xs : List ℚ)
    (h : ∀ v ∈ bs, ∀ a, f v a = g v a) : List.zipWith f bs xs = List.zipWith g bs xs := by
  induction bs generalizing xs with
  | nil => simp
  | cons b bs ih =>
    cases xs with
    | nil => simp
    | cons a xs =>
      simp only [List.zipWith_cons_cons]
      rw [h b (List.mem_cons_self _ _) a, ih xs (fun v hv => h v (List.mem_cons_of_mem _ hv))]

theorem dot_vset (F z : VectorNd) (bas : List Nat) (x : VectorNd) (hn : bas.Nodup)
    (hb : ∀ v ∈ bas, v < F.length) (hF : F.length = z.length) :
    dot F (vset z bas x) =
      dot F z + (List.zipWith (fun v a => vget F v * (a - vget z v)) bas x).sum := by
  induction bas generalizing z x with
  | nil => simp [vset]
  | cons b bs ih =>
    cases x with
    | nil => simp [vset]
    | cons a xs =>
      have hb1 : b < F.length := hb b (List.mem_cons_self _ _)
      have hnb : b ∉ bs := (List.nodup_cons.mp hn).1
      simp only [vset, List.zipWith_cons_cons, List.sum_cons]
      rw [ih (z.set b a) xs (List.nodup_cons.mp hn).2
        (fun v hv => hb v (List.mem_cons_of_mem _ hv)) (by simpa using hF),
        dot_set_right F z b a hb1 (by omega)]
      have hz : List.zipWith (fun v a_1 => vget F v * (a_1 - vget (z.set b a) v)) bs xs =
          List.zipWith (fun v a => vget F v * (a - vget z v)) bs xs := by
        apply zipWith_congr_mem
        intro v hv c
        rw [vget_set_ne z b v a (fun h => hnb (h ▸ hv))]
      rw [hz]; ring

theorem vget_vadd (a b : VectorNd) (r : Nat) (ha : r < a.length) (hb : r < b.length) :
    vget (vadd a b) r = vget a r + vget b r := by
  rw [vget_eq_getElem _ _ (by simp [vadd, ha, hb]), vget_eq_getElem _ _ ha,
    vget_eq_getElem _ _ hb]
  simp [vadd]

theorem vget_mult (M : MatrixNd) (z : VectorNd) (r : Nat) (h : r < M.length) :
    vget (mult M z) r = dot (M.getD r []) z := by
  rw [vget_eq_getElem _ _ (by simpa [mult] using h)]
  simp [mult, List.getD_eq_getElem?_getD, List.getElem?_eq_getElem h]

theorem vget_vneg (q : VectorNd) (r : Nat) : vget (vneg q) r = - vget q r := by
  by_cases h : r < q.length
  · rw [vget_eq_getElem _ _ (by simpa [vneg] using h), vget_eq_getElem _ _ h]
    simp [vneg]
  · rw [vget_of_le _ _ (by simpa [vneg] using h), vget_of_le _ _ (by simpa using h)]
    simp

theorem vget_vresize (Z : VectorNd) (n v : Nat) (hv : v < n) (hZ : n ≤ Z.length) :
    vget (vresize Z n) v = vget Z v := by
  have h1 : v < (vresize Z n).length := by simp [vresize]; omega
  rw [vget_eq_getElem _ _ h1, vget_eq_getElem _ _ (by omega)]
  simp only [vresize]
  rw [List.getElem_append_left (by simp; omega)]
  simp

theorem length_vresize (Z : VectorNd) (n : Nat) : (vresize Z n).length = n := by
  simp [vresize]; omega

theorem dot_map_left (g : Nat → ℚ) (bas : List Nat) (x : VectorNd) :
    dot (bas.map g) x = (List.zipWith (fun v a => g v * a) bas x).sum := by
  simp [dot, List.zipWith_map_left]

/-- Row `r` of the system `Bl x = -q`, read on the scattered vector. -/
theorem exit_row (M : MatrixNd) (q c0 : VectorNd) (s : LemkeState)
    (hI : LemkeInv M q c0 s) (hl : s.leaving = 2 * q.length) (r : Nat) (hr : r < q.length) :
    (∑ v in Finset.range q.length, mget M r v * vget (vset s.z s.bas s.x) v)
      - vget (vset s.z s.bas s.x) (q.length + r) = - vget q r := by
  have hlt : ∀ v ∈ s.bas, v < 2 * q.length := by
    intro v hv
    have h1 := hI.bound v hv
    have h2 : v ≠ 2 * q.length := fun h => hI.leaving_out (by rw [hl, ← h]; exact hv)
    omega
  have hsys := hI.system
  rw [hI.matrix, mult_basis_matrix] at hsys
  have hrow := congrArg (fun l => vget l r) hsys
  simp only [] at hrow
  rw [vget_map_range _ _ _ hr, vget_vneg] at hrow
  rw [← hrow]
  have hFl : ((List.range (2 * q.length)).map (fun v => col_entry M q.length c0 v r)).length
      = 2 * q.length := by simp
  have hmap : s.bas.map (fun v => col_entry M q.length c0 v r) =
      s.bas.map (vget ((List.range (2 * q.length)).map (fun v => col_entry M q.length c0 v r))) := by
    apply List.map_congr_left
    intro v hv
    rw [vget_map_range _ _ _ (hlt v hv)]
  have hd := dot_vset ((List.range (2 * q.length)).map (fun v => col_entry M q.length c0 v r))
    s.z s.bas s.x hI.nodup (by intro v hv; rw [hFl]; exact hlt v hv)
    (by rw [hFl, hI.z_zero, length_vzero]; ring)
  rw [hmap, dot_map_left]
  have hz : List.zipWith (fun v a =>
      vget ((List.range (2 * q.length)).map (fun v => col_entry M q.length c0 v r)) v *
        (a - vget s.z v)) s.bas s.x =
      List.zipWith (fun v a =>
        vget ((List.range (2 * q.length)).map (fun v => col_entry M q.length c0 v r)) v * a)
        s.bas s.x := by
    apply zipWith_congr_mem
    intro v _ a
    rw [hI.z_zero, vget_vzero]; ring
  rw [hz, hI.z_zero, dot_vzero_right, zero_add] at hd
  rw [← hI.z_zero] at hd
  rw [← hd, dot_eq_sum, length_vset, hI.z_zero, length_vzero,
    show q.length * 2 = q.length + q.length by ring, Finset.sum_range_add]
  have h1 : ∀ v ∈ Finset.range q.length,
      vget ((List.range (2 * q.length)).map (fun v => col_entry M q.length c0 v r)) v *
        vget (vset (vzero (q.length + q.length)) s.bas s.x) v =
      mget M r v * vget (vset (vzero (q.length + q.length)) s.bas s.x) v := by
    intro v hv
    have hv2 := Finset.mem_range.mp hv
    rw [vget_map_range _ _ _ (by omega)]
    simp [col_entry, hv2]
  have h2 : ∀ i ∈ Finset.range q.length,
      vget ((List.range (2 * q.length)).map (fun v => col_entry M q.length c0 v r))
          (q.length + i) *
        vget (vset (vzero (q.length + q.length)) s.bas s.x) (q.length + i) =
      if r = i then - vget (vset (vzero (q.length + q.length)) s.bas s.x) (q.length + r)
      else 0 := by
    intro i hi
    have hi2 := Finset.mem_range.mp hi
    rw [vget_map_range _ _ _ (by omega)]
    have h3 : ¬ (q.length + i < q.length) := by omega
    have h4 : q.length + i < 2 * q.length := by omega
    simp only [col_entry, h3, h4, if_true, if_false, Nat.add_sub_cancel_left]
    by_cases hri : r = i
    · subst hri; simp
    · simp [hri]
  rw [Finset.sum_congr rfl h1, Finset.sum_congr rfl h2, Finset.sum_ite_eq]
  simp [hr]
  ring

/-- What the solver promises of a returned `z` in exact arithmetic. -/
theorem exit_w (M : MatrixNd) (q c0 : VectorNd) (s : LemkeState)
    (hM : M.length = q.length)
    (hI : LemkeInv M q c0 s) (hl : s.leaving = 2 * q.length) (r : Nat) (hr : r < q.length) :
    vget (vadd (mult M (vresize (vset s.z s.bas s.x) q.length)) q) r =
      vget (vset s.z s.bas s.x) (q.length + r) := by
  have hZ : (vset s.z s.bas s.x).length = q.length * 2 := by
    rw [length_vset, hI.z_zero, length_vzero]
  rw [vget_vadd _ _ _ (by rw [length_mult, hM]; exact hr) hr, vget_mult _ _ _ (by omega),
    dot_eq_sum, length_vresize]
  have h1 : ∀ v ∈ Finset.range q.length,
      vget (M.getD r []) v * vget (vresize (vset s.z s.bas s.x) q.length) v =
      mget M r v * vget (vset s.z s.bas s.x) v := by
    intro v hv
    rw [vget_vresize _ _ _ (Finset.mem_range.mp hv) (by omega)]
    rfl
  rw [Finset.sum_congr rfl h1]
  have := exit_row M q c0 s hI hl r hr
  linarith

theorem exit_compl (M : MatrixNd) (q c0 : VectorNd) (s : LemkeState)
    (hM : M.length = q.length)
    (hI : LemkeInv M q c0 s) (hl : s.leaving = 2 * q.length) (i : Nat) (hi : i < q.length) :
    vget (vresize (vset s.z s.bas s.x) q.length) i *
      vget (vadd (mult M (vresize (vset s.z s.bas s.x) q.length)) q) i = 0 := by
  have hZ : (vset s.z s.bas s.x).length = q.length * 2 := by
    rw [length_vset, hI.z_zero, length_vzero]
  rw [exit_w M q c0 s hM hI hl i hi, vget_vresize _ _ _ hi (by omega)]
  by_cases hm : i ∈ s.bas
  · have hc := hI.compl_free i hm (by omega)
    have : LCP.compl q.length i = q.length + i := by simp [LCP.compl, hi]; ring
    rw [this] at hc
    rw [vget_vset_not_mem _ _ _ _ hc, hI.z_zero, vget_vzero, mul_zero]
  · rw [vget_vset_not_mem _ _ _ _ hm, hI.z_zero, vget_vzero, zero_mul]

/-- Complementarity entry by entry gives a vanishing inner product. -/
theorem dot_eq_zero_of_compl (z w : VectorNd) (n : Nat) (hw : w.length = n)
    (h : ∀ i < n, vget z i * vget w i = 0) : dot z w = 0 := by
  rw [dot_eq_sum, hw]
  exact Finset.sum_eq_zero (fun i hi => h i (Finset.mem_range.mp hi))

theorem length_vadd_mult (M : MatrixNd) (z q : VectorNd) (hM : M.length = q.length) :
    (vadd (mult M z) q).length = q.length := by
  simp [vadd, mult, hM]

theorem pivot_system (Bl : MatrixNd) (x dl Be : VectorNd) (lv : Nat)
    (hrows : ∀ a ∈ Bl, a.length = x.length) (hd : dl.length = x.length)
    (hlv : lv < x.length) (hdl : vget dl lv ≠ 0) (hsol : mult Bl dl = Be) :
    mult (set_column Bl lv Be) ((vsub x (vscale (vget x lv / vget dl lv) dl)).set lv
        (vget x lv / vget dl lv)) = mult Bl x := by
  induction Bl generalizing Be with
  | nil => simp [set_column, mult]
  | cons a rest ih =>
    cases Be with
    | nil => simp [mult] at hsol
    | cons b bs =>
      simp only [mult, List.map_cons, List.cons.injEq] at hsol
      have h1 := pivot_row a x dl lv b (hrows a (List.mem_cons_self _ _)) hd hlv hdl hsol.1
      have h2 := ih bs (fun a ha => hrows a (List.mem_cons_of_mem _ ha)) hsol.2
      simp only [set_column, mult, List.zipWith_cons_cons, List.map_cons, List.cons.injEq]
      simp only [set_column, mult] at h2
      exact ⟨h1, h2⟩

theorem mem_set_nodup (l : List Nat) (i a b : Nat) (hn : l.Nodup) (hi : i < l.length)
    (h : a ∈ l.set i b) : a = b ∨ (a ∈ l ∧ a ≠ l.getD i 0) := by
  rw [List.mem_iff_getElem] at h
  obtain ⟨k, hk, hka⟩ := h
  rw [List.getElem_set] at hka
  split at hka
  · exact Or.inl hka.symm
  · next hne =>
    right
    have hk2 : k < l.length := by simpa using hk
    refine ⟨hka ▸ List.getElem_mem _, ?_⟩
    intro heq
    rw [List.getD_eq_getElem?_getD, List.getElem?_eq_getElem hi, Option.getD_some, ← hka] at heq
    exact hne ((List.Nodup.getElem_inj_iff hn).mp heq).symm

theorem getD_mem (l : List Nat) (i : Nat) (hi : i < l.length) : l.getD i 0 ∈ l := by
  rw [List.getD_eq_getElem?_getD, List.getElem?_eq_getElem hi, Option.getD_some]
  exact List.getElem_mem _

theorem compl_compl (n v : Nat) (h : v < 2 * n) : LCP.compl n (LCP.compl n v) = v := by
  unfold LCP.compl
  split_ifs <;> omega

theorem compl_lt (n v : Nat) (h : v < 2 * n) : LCP.compl n v < 2 * n := by
  unfold LCP.compl
  split_ifs <;> omega

theorem compl_ne (n v : Nat) (h : v < 2 * n) : LCP.compl n v ≠ v := by
  unfold LCP.compl
  split_ifs <;> omega

theorem entering_column (M : MatrixNd) (n : Nat) (c0 : VectorNd) (leaving : Nat)
    (hM : M.length = n) (hl : leaving < 2 * n) :
    (if leaving < n then (vzero n).set leaving (-1)
      else get_column M (if leaving < n then n + leaving else leaving - n)) =
      (List.range n).map (fun r => col_entry M n c0 (LCP.compl n leaving) r) := by
  by_cases h : leaving < n
  · simp only [h, if_true]
    apply List.ext_getElem
    · simp [vzero]
    · intro i h1 h2
      have hi : i < n := by simpa using h2
      have h3 : ¬ (leaving + n < n) := by omega
      have h4 : leaving + n < 2 * n := by omega
      simp only [List.getElem_set, List.getElem_map, List.getElem_range, col_entry, LCP.compl, h,
        if_true, h3, h4, if_false, Nat.add_sub_cancel, vzero, List.getElem_replicate]
      by_cases hli : leaving = i
      · simp [hli]
      · simp [hli, Ne.symm hli]
  · simp only [h, if_false]
    apply List.ext_getElem
    · simp [get_column, hM]
    · intro i h1 h2
      have hi : i < M.length := by simpa [get_column] using h1
      have h3 : leaving - n < n := by omega
      simp only [get_column, List.getElem_map, List.getElem_range, col_entry, LCP.compl, h,
        if_false, h3, if_true, mget, List.getD_eq_getElem?_getD, List.getElem?_eq_getElem hi,
        Option.getD_some]

/-- One pivot of the main loop keeps `LemkeInv`. -/
theorem pivot_inv (M : MatrixNd) (q c0 : VectorNd) (s : LemkeState)
    (hI : LemkeInv M q c0 s) (hl : s.leaving ≠ 2 * q.length)
    (Be dl : VectorNd) (lv : Nat)
    (hBe : Be = (List.range q.length).map
      (fun r => col_entry M q.length c0 (LCP.compl q.length s.leaving) r))
    (hsol : mult s.Bl dl = Be) (hdl : dl.length = q.length) (hlv : lv < q.length)
    (hd : vget dl lv ≠ 0) :
    LemkeInv M q c0
      ⟨(vsub s.x (vscale (vget s.x lv / vget dl lv) dl)).set lv (vget s.x lv / vget dl lv),
        set_column s.Bl lv Be, s.bas.set lv (LCP.compl q.length s.leaving),
        s.bas.getD lv 0, s.z⟩ := by
  have hlb : s.leaving < 2 * q.length := by
    have := hI.leaving_bound
    omega
  have hlvb : lv < s.bas.length := by rw [hI.len_bas]; exact hlv
  have hL : s.bas.getD lv 0 ∈ s.bas := getD_mem _ _ hlvb
  have he : LCP.compl q.length s.leaving ∉ s.bas := hI.compl_out hl
  constructor
  · simp [vsub, vscale, hdl, hI.len_x]
  · simp [hI.len_bas]
  · show set_column s.Bl lv Be = _
    rw [hI.matrix]
    exact set_column_basis_matrix M q.length c0 s.bas lv _ Be hBe
  · show mult (set_column s.Bl lv Be) _ = vneg q
    rw [← hI.system]
    apply pivot_system
    · intro a ha
      rw [hI.matrix] at ha
      simp only [basis_matrix, List.mem_map, List.mem_range] at ha
      obtain ⟨r, _, rfl⟩ := ha
      simp [hI.len_bas, hI.len_x]
    · rw [hdl, hI.len_x]
    · rw [hI.len_x]; exact hlv
    · exact hd
    · exact hsol
  · exact hI.z_zero
  · exact List.Nodup.set hI.nodup he
  · intro v hv
    rcases List.mem_or_eq_of_mem_set hv with h | h
    · exact hI.bound v h
    · rw [h]; exact le_of_lt (compl_lt _ _ hlb)
  · exact hI.bound _ hL
  · intro hm
    rcases mem_set_nodup _ _ _ _ hI.nodup hlvb hm with h | h
    · exact he (h ▸ hL)
    · exact h.2 rfl
  · intro hne hm
    have hLb : s.bas.getD lv 0 < 2 * q.length := by
      have := hI.bound _ hL
      change s.bas.getD lv 0 ≠ 2 * q.length at hne
      omega
    rcases mem_set_nodup _ _ _ _ hI.nodup hlvb hm with h | h
    · have h2 := congrArg (LCP.compl q.length) h
      rw [compl_compl _ _ hLb, compl_compl _ _ hlb] at h2
      exact hI.leaving_out (h2 ▸ hL)
    · exact hI.compl_free _ hL (by change s.bas.getD lv 0 ≠ 2 * q.length at hne; exact hne) h.1
  · intro v hv hne hm
    have hvb : v < 2 * q.length := by
      rcases List.mem_or_eq_of_mem_set hv with h | h
      · have := hI.bound v h
        omega
      · rw [h]; exact compl_lt _ _ hlb
    rcases mem_set_nodup _ _ _ _ hI.nodup hlvb hv with h1 | h1
    · rw [h1, compl_compl _ _ hlb] at hm
      rcases mem_set_nodup _ _ _ _ hI.nodup hlvb hm with h | h
      · exact compl_ne _ _ hlb h.symm
      · exact hI.leaving_out h.1
    · rcases mem_set_nodup _ _ _ _ hI.nodup hlvb hm with h | h
      · have h2 := congrArg (LCP.compl q.length) h
        rw [compl_compl _ _ hvb, compl_compl _ _ hlb] at h2
        exact hI.leaving_out (h2 ▸ h1.1)
      · exact hI.compl_free v h1.1 hne h.1

theorem mem_lemke_filter (j : List Nat) (rs : List ℚ) (theta : ℚ) (i : Nat)
    (h : i ∈ lemke_filter j rs theta) : i ∈ j := by
  induction j generalizing rs with
  | nil => simp [lemke_filter] at h
  | cons a js ih =>
    cases rs with
    | nil => simp [lemke_filter] at h
    | cons r rs =>
      simp only [lemke_filter] at h
      split at h
      · rcases List.mem_cons.mp h with h1 | h1
        · exact h1 ▸ List.mem_cons_self _ _
        · exact List.mem_cons_of_mem _ (ih rs h1)
      · exact List.mem_cons_of_mem _ (ih rs h)

theorem mem_lemke_candidates (dl : VectorNd) (P : ℚ) (i : Nat)
    (h : i ∈ lemke_candidates dl P) : i < dl.length ∧ P < vget dl i := by
  simpa [lemke_candidates] using h

theorem headD_mem (l : List Nat) (h : l ≠ []) : l.headD 0 ∈ l := by
  cases l with
  | nil => exact absurd rfl h
  | cons a l => simp

theorem indexOf_getD (l : List Nat) (i : Nat) (hn : l.Nodup) (hi : i < l.length) :
    l.indexOf (l.getD i 0) = i := by
  rw [List.getD_eq_getElem?_getD, List.getElem?_eq_getElem hi, Option.getD_some]
  exact List.indexOf_getElem hn i hi

theorem lemke_loop_good (la : LinAlg) (hla : la.exact) (M : MatrixNd) (q c0 : VectorNd)
    (PIV_TOL zero_tol : ℚ) (hP : 0 ≤ PIV_TOL) (hM : M.length = q.length) :
    ∀ (fuel pivots : Nat) (s : LemkeState), LemkeInv M q c0 s →
      good M q (lemke_loop la M q.length PIV_TOL zero_tol fuel pivots s) := by
  intro fuel
  induction fuel with
  | zero =>
    intro pivots s _ hok
    simp [lemke_loop] at hok
  | succ fuel ih =>
    intro pivots s hI
    rw [lemke_loop]
    simp only []
    by_cases hl : s.leaving = 2 * q.length
    · rw [if_pos hl]
      intro _
      exact ⟨length_vresize _ _, fun i hi => exit_compl M q c0 s hM hI hl i hi⟩
    · rw [if_neg hl]
      have hlb : s.leaving < 2 * q.length := by
        have := hI.leaving_bound
        omega
      have hBe := entering_column M q.length c0 s.leaving hM hlb
      have hent : (if s.leaving < q.length then q.length + s.leaving
          else s.leaving - q.length) = LCP.compl q.length s.leaving := by
        unfold LCP.compl
        split_ifs <;> omega
      rw [hBe, hent]
      split
      · intro hok; simp at hok
      · next dl hsolve =>
        have hex := hla _ _ _ hsolve
        have hdl : dl.length = q.length := by rw [hex.2]; simp
        split
        · intro hok; simp at hok
        · split
          · intro hok; simp at hok
          · next hj2 =>
            apply ih
            have key : ∀ (j2 : List Nat), j2 ≠ [] →
                (∀ i ∈ j2, i < q.length ∧ PIV_TOL < vget dl i) →
                (if 2 * q.length ∈ j2.map (fun i => s.bas.getD i 0)
                  then s.bas.indexOf (2 * q.length) else j2.headD 0) ∈ j2 := by
              intro j2 hne hc
              split_ifs with ht
              · obtain ⟨i, hi, hit⟩ := List.mem_map.mp ht
                rw [← hit, indexOf_getD _ _ hI.nodup (by rw [hI.len_bas]; exact (hc i hi).1)]
                exact hi
              · exact headD_mem _ hne
            have hc : ∀ i ∈ lemke_filter (lemke_candidates dl PIV_TOL)
                (List.zipWith (· / ·) (vselect s.x (lemke_candidates dl PIV_TOL))
                  (vselect dl (lemke_candidates dl PIV_TOL)))
                (vget (List.zipWith (· / ·)
                  ((vselect s.x (lemke_candidates dl PIV_TOL)).map (fun v => v + zero_tol))
                  (vselect dl (lemke_candidates dl PIV_TOL)))
                  (min_element (List.zipWith (· / ·)
                    ((vselect s.x (lemke_candidates dl PIV_TOL)).map (fun v => v + zero_tol))
                    (vselect dl (lemke_candidates dl PIV_TOL))))),
                i < q.length ∧ PIV_TOL < vget dl i := by
              intro i hi
              have := mem_lemke_candidates _ _ _ (mem_lemke_filter _ _ _ _ hi)
              rwa [hdl] at this
            have hmem := key _ hj2 hc
            exact pivot_inv M q c0 s hI hl _ dl _ rfl hex.1 hdl (hc _ hmem).1
              (ne_of_gt (lt_of_le_of_lt hP (hc _ hmem).2))

theorem vget_append_left (pre xs : List ℚ) (i : Nat) (h : i < pre.length) :
    vget (pre ++ xs) i = vget pre i := by
  rw [vget_eq_getElem _ _ (by simp; omega), vget_eq_getElem _ _ h]
  exact List.getElem_append_left h

theorem vget_append_length (pre xs : List ℚ) (y : ℚ) :
    vget (pre ++ y :: xs) pre.length = y := by
  rw [vget_eq_getElem _ _ (by simp), List.getElem_append_right (le_refl _)]
  simp

theorem min_element_from_spec (xs pre : List ℚ) (best : Nat) (hb : best < pre.length)
    (hmin : ∀ x ∈ pre, vget pre best ≤ x) :
    min_element_from best (vget pre best) pre.length xs < (pre ++ xs).length ∧
      ∀ x ∈ pre ++ xs,
        vget (pre ++ xs) (min_element_from best (vget pre best) pre.length xs) ≤ x := by
  induction xs generalizing pre best with
  | nil =>
    simp only [min_element_from, List.append_nil]
    exact ⟨hb, hmin⟩
  | cons y ys ih =>
    have hpre : pre ++ y :: ys = (pre ++ [y]) ++ ys := by simp
    have hlen : (pre ++ [y]).length = pre.length + 1 := by simp
    have hy : vget (pre ++ [y]) pre.length = y := vget_append_length pre [] y
    have hbest : vget (pre ++ [y]) best = vget pre best := vget_append_left _ _ _ hb
    simp only [min_element_from]
    split
    · next hlt =>
      have := ih (pre ++ [y]) pre.length (by simp) (by
        intro x hx
        rw [hy]
        rcases List.mem_append.mp hx with h | h
        · exact le_trans (le_of_lt hlt) (hmin x h)
        · simp at h; rw [h])
      rw [hy, hlen] at this
      rw [hpre]; exact this
    · next hge =>
      have := ih (pre ++ [y]) best (by simp; omega) (by
        intro x hx
        rw [hbest]
        rcases List.mem_append.mp hx with h | h
        · exact hmin x h
        · simp at h; rw [h]; exact not_lt.mp hge)
      rw [hbest, hlen] at this
      rw [hpre]; exact this

theorem min_element_spec (xs : List ℚ) (h : xs ≠ []) :
    min_element xs < xs.length ∧ ∀ x ∈ xs, vget xs (min_element xs) ≤ x := by
  cases xs with
  | nil => exact absurd rfl h
  | cons a xs =>
    have := min_element_from_spec xs [a] 0 (by simp) (by
      intro x hx; simp at hx; rw [hx]; exact le_of_eq rfl)
    simpa [min_element] using this

theorem max_element_from_spec (xs pre : List ℚ) (best : Nat) (hb : best < pre.length)
    (hmax : ∀ x ∈ pre, x ≤ vget pre best) :
    max_element_from best (vget pre best) pre.length xs < (pre ++ xs).length ∧
      ∀ x ∈ pre ++ xs,
        x ≤ vget (pre ++ xs) (max_element_from best (vget pre best) pre.length xs) := by
  induction xs generalizing pre best with
  | nil =>
    simp only [max_element_from, List.append_nil]
    exact ⟨hb, hmax⟩
  | cons y ys ih =>
    have hpre : pre ++ y :: ys = (pre ++ [y]) ++ ys := by simp
    have hlen : (pre ++ [y]).length = pre.length + 1 := by simp
    have hy : vget (pre ++ [y]) pre.length = y := vget_append_length pre [] y
    have hbest : vget (pre ++ [y]) best = vget pre best := vget_append_left _ _ _ hb
    simp only [max_element_from]
    split
    · next hlt =>
      have := ih (pre ++ [y]) pre.length (by simp) (by
        intro x hx
        rw [hy]
        rcases List.mem_append.mp hx with h | h
        · exact le_trans (hmax x h) (le_of_lt hlt)
        · simp at h; rw [h])
      rw [hy, hlen] at this
      rw [hpre]; exact this
    · next hge =>
      have := ih (pre ++ [y]) best (by simp; omega) (by
        intro x hx
        rw [hbest]
        rcases List.mem_append.mp hx with h | h
        · exact hmax x h
        · simp at h; rw [h]; exact not_lt.mp hge)
      rw [hbest, hlen] at this
      rw [hpre]; exact this

theorem max_element_spec (xs : List ℚ) (h : xs ≠ []) :
    max_element xs < xs.length ∧ ∀ x ∈ xs, x ≤ vget xs (max_element xs) := by
  cases xs with
  | nil => exact absurd rfl h
  | cons a xs =>
    have := max_element_from_spec xs [a] 0 (by simp) (by
      intro x hx; simp at hx; rw [hx]; exact le_of_eq rfl)
    simpa [max_element] using this

theorem dot_vneg (a u : VectorNd) : dot a (vneg u) = - dot a u := by
  rw [dot_eq_sum, dot_eq_sum]
  simp only [vneg, List.length_map]
  rw [← Finset.sum_neg_distrib]
  apply Finset.sum_congr rfl
  intro i _
  have := vget_vneg u i
  simp only [vneg] at this
  rw [this]; ring

theorem mult_vneg (A : MatrixNd) (u : VectorNd) : mult A (vneg u) = vneg (mult A u) := by
  simp only [mult, vneg, List.map_map]
  apply List.map_congr_left
  intro a _
  have := dot_vneg a u
  simp only [vneg] at this
  simpa using this

theorem neg_identity_eq (M : MatrixNd) (n : Nat) (c0 : VectorNd) :
    mnegate (identity n) = basis_matrix M n c0 ((List.range n).map (fun i => i + n)) := by
  simp only [mnegate, identity, basis_matrix, vneg, List.map_map]
  apply List.map_congr_left
  intro r _
  simp only [Function.comp, vneg, List.map_map]
  apply List.map_congr_left
  intro i hi
  have hi2 : i < n := List.mem_range.mp hi
  have h1 : ¬ (i + n < n) := by omega
  have h2 : i + n < 2 * n := by omega
  simp only [Function.comp, col_entry, h1, h2, if_true, if_false, Nat.add_sub_cancel]
  by_cases h : r = i
  · simp [h]
  · simp [h]

theorem mult_neg_identity (q : VectorNd) : mult (mnegate (identity q.length)) q = vneg q := by
  apply List.ext_getElem
  · simp [mult, mnegate, identity, vneg]
  · intro r h1 h2
    have hr : r < q.length := by simpa [vneg] using h2
    rw [← vget_eq_getElem _ _ h1, ← vget_eq_getElem _ _ h2, vget_vneg,
      vget_mult _ _ _ (by simpa [mnegate, identity] using hr), dot_eq_sum]
    have hrow : (mnegate (identity q.length)).getD r [] =
        (List.range q.length).map (fun j => -(if r = j then (1 : ℚ) else 0)) := by
      simp [mnegate, identity, vneg, List.getD_eq_getElem?_getD, List.getElem?_eq_getElem, hr,
        Function.comp_def]
    rw [hrow]
    have h3 : ∀ i ∈ Finset.range q.length,
        vget ((List.range q.length).map (fun j => -(if r = j then (1 : ℚ) else 0))) i * vget q i
          = if r = i then - vget q r else 0 := by
      intro i hi
      rw [vget_map_range _ _ _ (Finset.mem_range.mp hi)]
      by_cases h : r = i
      · subst h; simp
      · simp [h]
    rw [Finset.sum_congr rfl h3, Finset.sum_ite_eq]
    simp [hr]

theorem vsub_vscale_vneg (x u : VectorNd) (t : ℚ) :
    vsub x (vscale t (vneg u)) = vadd x (vscale t u) := by
  simp only [vsub, vadd, vscale, vneg, List.map_map, List.zipWith_map_right]
  congr 1
  funext a b
  simp only [Function.comp]
  ring

theorem mem_w_basis (n v : Nat) :
    v ∈ (List.range n).map (fun i => i + n) ↔ n ≤ v ∧ v < 2 * n := by
  simp only [List.mem_map, List.mem_range]
  constructor
  · rintro ⟨i, hi, rfl⟩; omega
  · intro h; exact ⟨v - n, by omega, by omega⟩

theorem getD_w_basis (n lv : Nat) (h : lv < n) :
    ((List.range n).map (fun i => i + n)).getD lv 0 = lv + n := by
  simp [List.getD_eq_getElem?_getD, List.getElem?_eq_getElem, h]

theorem nodup_w_basis (n : Nat) : ((List.range n).map (fun i => i + n)).Nodup :=
  List.Nodup.map (fun a b h => by simpa using h) (List.nodup_range n)

theorem first_pivot_matrix (M : MatrixNd) (n : Nat) (Be : VectorNd) (lv : Nat)
    (hlen : Be.length = n) :
    set_column (mnegate (identity n)) lv Be =
      basis_matrix M n Be (((List.range n).map (fun i => i + n)).set lv (2 * n)) := by
  rw [neg_identity_eq M n Be]
  apply set_column_basis_matrix
  conv_lhs => rw [← map_vget_range _ _ hlen]
  apply List.map_congr_left
  intro r hr
  have h0 : r < n := List.mem_range.mp hr
  have h1 : ¬ (2 * n < n) := by omega
  simp [col_entry, h1]

/-- The pivot that brings in the artificial variable establishes `LemkeInv`. -/
theorem first_pivot_inv (M : MatrixNd) (q : VectorNd) (hneg : ∃ x ∈ q, x < 0) :
    ∃ c0, LemkeInv M q c0 (lemke_first_pivot q.length [] (List.range q.length)
      (mnegate (identity q.length)) q) := by
  have hq : q ≠ [] := by
    obtain ⟨x, hx, _⟩ := hneg
    exact List.ne_nil_of_mem hx
  obtain ⟨hlv, hmin⟩ := min_element_spec q hq
  have hqlv : vget q (min_element q) < 0 := by
    obtain ⟨x, hx, hx0⟩ := hneg
    exact lt_of_le_of_lt (hmin x hx) hx0
  have hu : vget ((List.range q.length).map (fun i => if vget q i < 0 then (1 : ℚ) else 0))
      (min_element q) = 1 := by
    rw [vget_map_range _ _ _ hlv]; simp [hqlv]
  have hdlv : vget (vneg ((List.range q.length).map
      (fun i => if vget q i < 0 then (1 : ℚ) else 0))) (min_element q) = -1 := by
    rw [vget_vneg, hu]
  have hlvb : min_element q < ((List.range q.length).map (fun i => i + q.length)).length := by
    simpa using hlv
  refine ⟨vneg (mult (mnegate (identity q.length))
    ((List.range q.length).map (fun i => if vget q i < 0 then (1 : ℚ) else 0))), ?_⟩
  unfold lemke_first_pivot
  simp only [List.take_length, List.nil_append]
  constructor
  · simp [vadd, vscale]
  · simp
  · exact first_pivot_matrix M _ _ _ (by simp [vneg, mult, mnegate, identity])
  · show mult (set_column _ _ _) _ = vneg q
    have hps := pivot_system (mnegate (identity q.length)) q
      (vneg ((List.range q.length).map (fun i => if vget q i < 0 then (1 : ℚ) else 0)))
      (vneg (mult (mnegate (identity q.length))
        ((List.range q.length).map (fun i => if vget q i < 0 then (1 : ℚ) else 0))))
      (min_element q)
      (by
        intro a ha
        simp only [mnegate, identity, List.map_map, List.mem_map, List.mem_range] at ha
        obtain ⟨r, _, rfl⟩ := ha
        simp [vneg])
      (by simp [vneg]) hlv (by rw [hdlv]; norm_num) (mult_vneg _ _)
    rw [hdlv, div_neg, div_one, vsub_vscale_vneg, mult_neg_identity] at hps
    exact hps
  · rfl
  · apply List.Nodup.set (nodup_w_basis _)
    rw [mem_w_basis]; omega
  · intro v hv
    rcases List.mem_or_eq_of_mem_set hv with h | h
    · have := (mem_w_basis _ _).mp h
      omega
    · omega
  · show ((List.range q.length).map (fun i => i + q.length)).getD (min_element q) 0 ≤ _
    rw [getD_w_basis _ _ hlv]; omega
  · intro hm
    rcases mem_set_nodup _ _ _ _ (nodup_w_basis _) hlvb hm with h | h
    · change ((List.range q.length).map (fun i => i + q.length)).getD (min_element q) 0
        = 2 * q.length at h
      rw [getD_w_basis _ _ hlv] at h; omega
    · exact h.2 rfl
  · intro _ hm
    change LCP.compl q.length (((List.range q.length).map (fun i => i + q.length)).getD
      (min_element q) 0) ∈ _ at hm
    rw [getD_w_basis _ _ hlv] at hm
    have hc : LCP.compl q.length (min_element q + q.length) = min_element q := by
      unfold LCP.compl; split_ifs <;> omega
    rw [hc] at hm
    rcases List.mem_or_eq_of_mem_set hm with h | h
    · have := (mem_w_basis _ _).mp h
      omega
    · omega
  · intro v hv hne hm
    rcases List.mem_or_eq_of_mem_set hv with h | h
    · have hv2 := (mem_w_basis _ _).mp h
      have hc : LCP.compl q.length v = v - q.length := by
        unfold LCP.compl; split_ifs <;> omega
      rw [hc] at hm
      rcases List.mem_or_eq_of_mem_set hm with h3 | h3
      · have := (mem_w_basis _ _).mp h3
        omega
      · omega
    · exact hne h

theorem foldl_max_ge (l : List ℚ) (a : ℚ) : a ≤ l.foldl max a := by
  induction l generalizing a with
  | nil => exact le_refl _
  | cons x xs ih => exact le_trans (le_max_left a x) (ih (max a x))

theorem norm_inf_nonneg (M : MatrixNd) : 0 ≤ norm_inf M := foldl_max_ge _ 0

theorem lemke_initial_basis_zero (n k : Nat) (rng : Rng) :
    (lemke_initial_basis n (vzero k) rng).1 = [] ∧
      (lemke_initial_basis n (vzero k) rng).2.1 = List.range n := by
  unfold lemke_initial_basis
  split
  · exact ⟨rfl, rfl⟩
  · constructor
    · simp [vget_vzero]
    · simp [vget_vzero]

theorem complementary_zero (M : MatrixNd) (q z : VectorNd) (hz : z.length = q.length)
    (h0 : ∀ i, vget z i = 0) : Complementary M q z :=
  ⟨hz, fun i _ => by rw [h0 i, zero_mul]⟩

theorem lcp_lemke_good (la : LinAlg) (hla : la.exact) (M : MatrixNd) (q z : VectorNd)
    (piv_tol zero_tol : ℚ) (rng : Rng) (hM : M.length = q.length) :
    good M q (lcp_lemke la M q z piv_tol zero_tol rng).1 := by
  unfold lcp_lemke
  simp only []
  by_cases hn : q.length = 0
  · rw [if_pos hn]
    intro _
    exact ⟨by rw [length_vresize, hn], fun i hi => by omega⟩
  · rw [if_neg hn]
    generalize (if zero_tol ≤ 0 then DBL_EPSILON * norm_inf M * (q.length : ℚ) else zero_tol) = zt
    by_cases ht : vget q (min_element q) > -zt
    · rw [if_pos ht]
      intro _
      exact complementary_zero M q _ (length_vzero _) (vget_vzero _)
    · rw [if_neg ht]
      have hb := lemke_initial_basis_zero q.length z.length rng
      rw [hb.1, hb.2]
      simp only [lemke_initial_values, ne_eq, not_true_eq_false, if_false]
      by_cases hall : (q.all (fun xi => !decide (xi < 0))) = true
      · rw [if_pos hall]
        intro _
        refine complementary_zero M q _ (length_vresize _ _) (fun i => ?_)
        simp only [vset]
        by_cases hi : i < q.length
        · rw [vget_vresize _ _ _ hi (by rw [length_vzero]; omega), vget_vzero]
        · exact vget_of_le _ _ (by rw [length_vresize]; omega)
      · rw [if_neg hall]
        have hneg : ∃ x ∈ q, x < 0 := by
          simpa using hall
        obtain ⟨c0, hI⟩ := first_pivot_inv M q hneg
        apply lemke_loop_good la hla M q c0 _ _ _ hM _ _ _ hI
        split
        · next h => exact le_of_lt h
        · exact mul_nonneg (mul_nonneg (by unfold DBL_EPSILON; positivity) (Nat.cast_nonneg _))
            (le_trans zero_le_one (le_max_left _ _))

theorem exactLA_exact : exactLA.exact := by
  intro A b x h
  simp only [exactLA, exact_solve] at h
  split at h
  · exact absurd h (by simp)
  · split at h
    · next hc =>
      simp only [Option.some.injEq] at h
      rw [← h]; exact hc
    · exact absurd h (by simp)

theorem psd_two (a b d : ℚ) (ha : 0 ≤ a) (hd : 0 ≤ d) (hdet : b * b ≤ a * d) :
    LCP.psd [[a, b], [b, d]] := by
  intro x hx
  match x, hx with
  | [u, v], _ =>
    simp only [mult, List.map_cons, List.map_nil, dot_cons, dot_nil_left]
    by_cases ha0 : a = 0
    · subst ha0
      have hb : b = 0 := by nlinarith [mul_self_nonneg b]
      subst hb
      nlinarith [mul_self_nonneg v]
    · have hapos : 0 < a := lt_of_le_of_ne ha (Ne.symm ha0)
      have h1 : 0 ≤ a * (u * (a * u + (b * v + 0)) + (v * (b * u + (d * v + 0)) + 0)) := by
        have : a * (u * (a * u + (b * v + 0)) + (v * (b * u + (d * v + 0)) + 0)) =
            (a * u + b * v) ^ 2 + (a * d - b * b) * v ^ 2 := by ring
        rw [this]
        have h2 : 0 ≤ (a * d - b * b) * v ^ 2 := mul_nonneg (by linarith) (sq_nonneg v)
        nlinarith [sq_nonneg (a * u + b * v)]
      exact nonneg_of_mul_nonneg_right h1 hapos

end Lemke

namespace LCP

/-- C1, as stated, fails.  With the default tolerances (`piv_tol = zero_tol = 0`)
and the positive definite `M = [[1, -2^-26], [-2^-26, 2^-51]]`, `q = (2^30, -1)`,
`lcp_lemke` returns true with a `z` whose entries are far below `-zero_tol`; with
`piv_tol = 1`, `M = [[3, -1], [-1, 2]]`, `q = (0, -1)` it returns true with
`z = (0, 1/2)`, for which `(Mz+q)_0 = -1/2`. -/
theorem C1_counterexample :
    ¬ (psd [[1, -1 / 2 ^ 26], [-1 / 2 ^ 26, 1 / 2 ^ 51]] →
        (lcp_lemke exactLA [[1, -1 / 2 ^ 26], [-1 / 2 ^ 26, 1 / 2 ^ 51]] [2 ^ 30, -1] [] 0 0
          (fun _ => 0)).1.ok = true →
        ∀ x ∈ (lcp_lemke exactLA [[1, -1 / 2 ^ 26], [-1 / 2 ^ 26, 1 / 2 ^ 51]] [2 ^ 30, -1] []
            0 0 (fun _ => 0)).1.z,
          -lemke_zero_tol [[1, -1 / 2 ^ 26], [-1 / 2 ^ 26, 1 / 2 ^ 51]] 2 0 ≤ x) ∧
    ¬ (psd [[3, -1], [-1, 2]] →
        (lcp_lemke exactLA [[3, -1], [-1, 2]] [0, -1] [] 1 0 (fun _ => 0)).1.ok = true →
        ∀ x ∈ vadd (mult [[3, -1], [-1, 2]]
            (lcp_lemke exactLA [[3, -1], [-1, 2]] [0, -1] [] 1 0 (fun _ => 0)).1.z) [0, -1],
          -lemke_zero_tol [[3, -1], [-1, 2]] 2 0 ≤ x) := by
  constructor
  · intro h
    have h1 := h (psd_two _ _ _ (by norm_num) (by norm_num) (by norm_num)) (by decide!)
      (-2080374784) (by decide!)
    revert h1
    decide!
  · intro h
    have h1 := h (psd_two _ _ _ (by norm_num) (by norm_num) (by norm_num)) (by decide!)
      (-1 / 2) (by decide!)
    revert h1
    decide!


theorem lemke_zero_tol_nonneg (M : MatrixNd) (n : Nat) (zero_tol : ℚ) :
    0 ≤ lemke_zero_tol M n zero_tol := by
  unfold lemke_zero_tol
  split
  · exact mul_nonneg (mul_nonneg (by unfold DBL_EPSILON; positivity) (norm_inf_nonneg M))
      (Nat.cast_nonneg _)
  · next h => exact le_of_lt (not_le.mp h)

end LCP

/-! ## The MLCP pivoting solvers on concrete problems (C2, C3) -/

namespace LCP

/-- C2 fails on the code.  For the positive semi-definite `M = [[1, 1], [1, 1]]`,
`q = 0`, `l = (-DBL_MAX, 1)`, `u = (DBL_MAX, DBL_MAX)` and `zero_tol = 0`,
`mlcp_keller` returns true without a pivot with `z = (0, 1)`: the free variable
`z_0` is solved from `M_αα z_α = -q_α`, the column of the bounded `z_1 = l_1` left
out, so `w_0 = (Mz+q)_0 = 1` although `z_0` lies strictly between its bounds. -/
theorem C2_keller_free_variable :
    psd [[1, 1], [1, 1]] ∧
    (-DBL_MAX ≤ DBL_MAX ∧ (1 : ℚ) ≤ DBL_MAX) ∧
    mlcp_keller exactLA (1 / 2 ^ 26) 8 [[1, 1], [1, 1]] [0, 0] [-DBL_MAX, 1]
      [DBL_MAX, DBL_MAX] [] 0 = .ret ⟨true, [0, 1], 0⟩ ∧
    vadd (mult [[1, 1], [1, 1]] [0, 1]) [0, 0] = [1, 1] ∧
    (vget [0, 1] 0 > vget [-DBL_MAX, 1] 0 + 0 ∧ vget [0, 1] 0 < vget [DBL_MAX, DBL_MAX] 0 - 0) ∧
    ¬ (|vget [1, 1] 0| ≤ 0) :=
  ⟨psd_two 1 1 1 (by norm_num) (by norm_num) (by norm_num), by decide!, by decide!, by decide!,
    by decide!, by decide!⟩

/-- C3 fails on the code.  For `M = [[2]]`, `q = (3)`, `l = (-DBL_MAX)`, `u = (0)` and
`zero_tol = 0`, `mlcp_fast` returns true with `z = (0)`, at the upper bound, where
`w = Mz+q = 3 > 0`: the violation of an upper-bound index is taken as
`-wminus_max`, which is negative exactly when `w` is positive.  On the input of C2
it returns true with `z = (0, 1)` and `w = (1, 1)`, the free `z_0` being solved
without the column of the bounded `z_1`. -/
theorem C3_fast_upper_bound :
    psd [[2]] ∧ -DBL_MAX ≤ (0 : ℚ) ∧
    (mlcp_fast exactLA (1 / 2 ^ 26) [[2]] [3] [-DBL_MAX] [0] [] 0 (fun _ => 0)).map Prod.fst
      = .ret ⟨true, [0], 0⟩ ∧
    vadd (mult [[2]] [0]) [3] = [3] ∧
    vget [0] 0 ≥ vget [0] 0 - (0 : ℚ) ∧ ¬ (vget [3] 0 ≤ (0 : ℚ)) ∧
    (mlcp_fast exactLA (1 / 2 ^ 26) [[1, 1], [1, 1]] [0, 0] [-DBL_MAX, 1] [DBL_MAX, DBL_MAX] []
      0 (fun _ => 0)).map Prod.fst = .ret ⟨true, [0, 1], 0⟩ := by
  refine ⟨?_, by decide!, by decide!, by decide!, by decide!, by decide!, by decide!⟩
  intro x hx
  match x, hx with
  | [a], _ =>
    simp only [mult, List.map_cons, List.map_nil, dot_cons, dot_nil_left]
    nlinarith [mul_self_nonneg a]

end LCP

/-! ## The regularization wrapper of Lemke's algorithm (C4) -/

section Wrapper
open LCP

theorem min_ge_all (xs : List ℚ) (c : ℚ) (h : c ≤ vget xs (min_element xs)) :
    ∀ x ∈ xs, c ≤ x := by
  intro x hx
  exact le_trans h ((min_element_spec xs (List.ne_nil_of_mem hx)).2 x hx)

theorem max_lt_all (xs : List ℚ) (c : ℚ) (h : vget xs (max_element xs) < c) :
    ∀ x ∈ xs, x < c := by
  intro x hx
  exact lt_of_le_of_lt ((max_element_spec xs (List.ne_nil_of_mem hx)).2 x hx) h

theorem lcp_verify_first_sound (M : MatrixNd) (q z : VectorNd) (ZT : ℚ)
    (h : lcp_verify_first M q z ZT = true) :
    (∀ x ∈ z, -ZT ≤ x) ∧ (∀ x ∈ vadd (mult M z) q, -ZT ≤ x) ∧
      (∀ x ∈ vmul z (vadd (mult M z) q), -ZT ≤ x ∧ x < ZT) := by
  simp only [lcp_verify_first, Bool.and_eq_true, decide_eq_true_eq, ge_iff_le] at h
  obtain ⟨⟨⟨h1, h2⟩, h3⟩, h4⟩ := h
  exact ⟨min_ge_all _ _ h1, min_ge_all _ _ h2,
    fun x hx => ⟨min_ge_all _ _ h3 x hx, max_lt_all _ _ h4 x hx⟩⟩

theorem lcp_verify_reg_sound (MM : MatrixNd) (q z : VectorNd) (ZT : ℚ)
    (h : lcp_verify_reg MM q z ZT = true) :
    (∀ x ∈ z, -ZT ≤ x) ∧ (∀ x ∈ vadd (mult MM z) q, -ZT ≤ x) ∧
      (∀ x ∈ vmul z (vadd (mult MM z) q), -ZT ≤ x ∧ x < ZT) := by
  simp only [lcp_verify_reg, Bool.and_eq_true, decide_eq_true_eq, gt_iff_lt] at h
  obtain ⟨⟨⟨h1, h2⟩, h3⟩, h4⟩ := h
  exact ⟨min_ge_all _ _ (le_of_lt h1), min_ge_all _ _ (le_of_lt h2),
    fun x hx => ⟨min_ge_all _ _ (le_of_lt h3) x hx, max_lt_all _ _ h4 x hx⟩⟩

theorem lemke_reg_loop_sound (la : LinAlg) (M : MatrixNd) (q : VectorNd) (step_exp : Nat)
    (max_exp : Int) (piv_tol zero_tol ZT : ℚ) :
    ∀ (fuel : Nat) (rf : Int) (z : VectorNd) (rng : Rng) (z1 : VectorNd) (rng1 : Rng),
      lemke_reg_loop la M q step_exp max_exp piv_tol zero_tol ZT fuel rf z rng
        = .ret ((true, z1), rng1) →
      ∃ (k : Int) (zin : VectorNd) (rin : Rng),
        (lcp_lemke la (add_diag M ((10 : ℚ) ^ k)) q zin piv_tol zero_tol rin).1.ok = true ∧
        (lcp_lemke la (add_diag M ((10 : ℚ) ^ k)) q zin piv_tol zero_tol rin).1.z = z1 ∧
        lcp_verify_reg (add_diag M ((10 : ℚ) ^ k)) q z1 ZT = true := by
  intro fuel
  induction fuel with
  | zero =>
    intro rf z rng z1 rng1 h
    simp only [lemke_reg_loop] at h
    split at h
    · exact absurd h (by simp)
    · simp at h
  | succ fuel ih =>
    intro rf z rng z1 rng1 h
    simp only [lemke_reg_loop] at h
    split at h
    · split at h
      · next hv =>
        simp only [Bool.and_eq_true] at hv
        simp only [Outcome.ret.injEq, Prod.mk.injEq, true_and] at h
        refine ⟨rf, z, rng, hv.1, h.1, ?_⟩
        rw [← h.1]; exact hv.2
      · exact ih _ _ _ _ _ h
    · simp at h

theorem length_add_diag (M : MatrixNd) (c : ℚ) : (add_diag M c).length = M.length := by
  simp [add_diag]

end Wrapper

theorem Outcome.map_fst_ret {α β : Type} (o : Outcome (α × β)) (a : α)
    (h : o.map Prod.fst = .ret a) : ∃ b, o = .ret (a, b) := by
  cases o with
  | ret p =>
    obtain ⟨x, y⟩ := p
    simp only [Outcome.map, Outcome.ret.injEq] at h
    exact ⟨y, by rw [← h]⟩
  | assertFail => simp [Outcome.map] at h
  | undefined => simp [Outcome.map] at h
  | timeout => simp [Outcome.map] at h

namespace LCP

theorem wrapper_zero_tol_nil (NEAR_ZERO : ℚ) (M : MatrixNd) (zero_tol : ℚ) :
    0 ≤ wrapper_zero_tol NEAR_ZERO M [] zero_tol := by
  unfold wrapper_zero_tol
  split
  · next h => exact le_of_lt h
  · simp

/-- C4, as stated, fails.  For `M = 0` (2 by 2), `q = (-1, -1)`, exponents `-8..0`
and `zero_tol = 10^-6` the wrapper returns true with `z = (10^8, 10^8)`, found at
`lambda = 10^-8`; against the unregularized `M`, `Mz+q = (-1, -1)` is below
`-ZERO_TOL`. -/
theorem C4_counterexample :
    (lcp_lemke_regularized exactLA (1 / 2 ^ 26) 100 [[0, 0], [0, 0]] [-1, -1] [] (-8) 1 0 0
        (1 / 1000000) (fun _ => 0)).map Prod.fst = .ret (true, [100000000, 100000000]) ∧
    ¬ (∀ x ∈ vadd (mult [[0, 0], [0, 0]] [100000000, 100000000]) [-1, -1],
        -wrapper_zero_tol (1 / 2 ^ 26) [[0, 0], [0, 0]] [-1, -1] (1 / 1000000) ≤ x) := by
  refine ⟨by decide!, fun h => ?_⟩
  have h1 := h (-1) (by decide!)
  revert h1
  decide!

/-- C4, amended.  Whenever the dense `lcp_lemke_regularized` returns true, the
returned `z` has passed the verification against the matrix `MM` the successful
attempt was run on, `M` at `lambda = 0` and `M + 10^k I` at `lambda = 10^k`:
`min(z) ≥ -ZERO_TOL`, `min(MM z + q) ≥ -ZERO_TOL` and every product
`z_i (MM z + q)_i` lies in `[-ZERO_TOL, ZERO_TOL)`.  The products are tested one by
one; their sum `zᵀ(MM z + q)` is never formed. -/
theorem C4_regularized_verified (la : LinAlg) (NEAR_ZERO : ℚ) (fuel : Nat) (M : MatrixNd)
    (q z : VectorNd) (min_exp : Int) (step_exp : Nat) (max_exp : Int) (piv_tol zero_tol : ℚ)
    (rng : Rng) (z1 : VectorNd)
    (h : (lcp_lemke_regularized la NEAR_ZERO fuel M q z min_exp step_exp max_exp piv_tol
      zero_tol rng).map Prod.fst = .ret (true, z1)) :
    ∃ MM : MatrixNd, (MM = M ∨ ∃ k : Int, MM = add_diag M ((10 : ℚ) ^ k)) ∧
      (∀ x ∈ z1, -wrapper_zero_tol NEAR_ZERO M q zero_tol ≤ x) ∧
      (∀ x ∈ vadd (mult MM z1) q, -wrapper_zero_tol NEAR_ZERO M q zero_tol ≤ x) ∧
      (∀ x ∈ vmul z1 (vadd (mult MM z1) q),
        -wrapper_zero_tol NEAR_ZERO M q zero_tol ≤ x ∧
          x < wrapper_zero_tol NEAR_ZERO M q zero_tol) := by
  obtain ⟨rng1, h⟩ := Outcome.map_fst_ret _ _ h
  unfold lcp_lemke_regularized at h
  by_cases hq : q.length = 0
  · rw [if_pos hq] at h
    simp only [Outcome.ret.injEq, Prod.mk.injEq, true_and] at h
    have hq2 : q = [] := List.length_eq_zero.mp hq
    have hz : z1 = [] := by
      rw [← h.1]; exact List.length_eq_zero.mp (length_vresize z 0)
    subst hq2; subst hz
    exact ⟨M, Or.inl rfl, by simp, by simp [vadd], by simp [vmul]⟩
  · rw [if_neg hq] at h
    simp only [] at h
    split at h
    · next hv =>
      simp only [Bool.and_eq_true] at hv
      simp only [Outcome.ret.injEq, Prod.mk.injEq, true_and] at h
      have hs := lcp_verify_first_sound _ _ _ _ hv.2
      refine ⟨M, Or.inl rfl, ?_⟩
      rw [← h.1]
      exact ⟨hs.1, hs.2.1, hs.2.2⟩
    · obtain ⟨k, zin, rin, hok, hz, hv⟩ := lemke_reg_loop_sound _ _ _ _ _ _ _ _ _ _ _ _ _ _ h
      have hs := lcp_verify_reg_sound _ _ _ _ hv
      exact ⟨add_diag M ((10 : ℚ) ^ k), Or.inr ⟨k, rfl⟩, hs.1, hs.2.1, hs.2.2⟩

/-- C4, amended, at `M = [[2, 1], [1, 2]]`, `q = (-1, -2)`: the wrapper returns true
with `z = (0, 1)`, found by the attempt without regularization. -/
theorem C4_regularized_verified_witness :
    (lcp_lemke_regularized exactLA (1 / 2 ^ 26) 100 [[2, 1], [1, 2]] [-1, -2] [] (-8) 1 0 0
        (1 / 1000000) (fun _ => 0)).map Prod.fst = .ret (true, [0, 1]) ∧
    ∃ MM : MatrixNd, (MM = [[2, 1], [1, 2]] ∨
        ∃ k : Int, MM = add_diag [[2, 1], [1, 2]] ((10 : ℚ) ^ k)) ∧
      (∀ x ∈ ([0, 1] : VectorNd),
        -wrapper_zero_tol (1 / 2 ^ 26) [[2, 1], [1, 2]] [-1, -2] (1 / 1000000) ≤ x) ∧
      (∀ x ∈ vadd (mult MM [0, 1]) [-1, -2],
        -wrapper_zero_tol (1 / 2 ^ 26) [[2, 1], [1, 2]] [-1, -2] (1 / 1000000) ≤ x) ∧
      (∀ x ∈ vmul [0, 1] (vadd (mult MM [0, 1]) [-1, -2]),
        -wrapper_zero_tol (1 / 2 ^ 26) [[2, 1], [1, 2]] [-1, -2] (1 / 1000000) ≤ x ∧
          x < wrapper_zero_tol (1 / 2 ^ 26) [[2, 1], [1, 2]] [-1, -2] (1 / 1000000)) :=
  ⟨by decide!,
    C4_regularized_verified exactLA (1 / 2 ^ 26) 100 [[2, 1], [1, 2]] [-1, -2] [] (-8) 1 0 0
      (1 / 1000000) (fun _ => 0) [0, 1] (by decide!)⟩

end LCP

/-! ## C5 – C8: contact generation -/

namespace CCD

/-- The squared length of a scaled vector. -/
theorem dot3_smul_self (c : ℚ) (v : Vector3d) : dot3 (c • v) (c • v) = c * c * dot3 v v := by
  simp only [dot3, Pi.smul_apply, smul_eq_mul]; ring

/-- A vertex loop never empties a non-empty accumulator for good: it ends with
a non-empty one. -/
theorem vertex_pass_ne_nil (NEAR_ZERO : ℚ) (cgA cgB : CollisionGeometry)
    (query : Vector3d → ℚ × Vector3d) (flip : Bool) (vs : List Vector3d)
    (acc : ℚ × List Contact) (h : acc.2 ≠ []) :
    (vertex_pass NEAR_ZERO cgA cgB query flip vs acc).2 ≠ [] := by
  induction vs generalizing acc with
  | nil => simpa [vertex_pass] using h
  | cons v vs ih =>
    unfold vertex_pass
    by_cases h1 : (query v).1 - NEAR_ZERO ≤ acc.1
    · rw [if_pos h1]
      exact ih _ (by simp)
    · rw [if_neg h1]
      exact ih _ h

/-- A vertex loop over at least one vertex, started from `min_dist = DBL_MAX`
and an empty accumulator, ends with a contact. -/
theorem vertex_pass_first (NEAR_ZERO : ℚ) (cgA cgB : CollisionGeometry)
    (query : Vector3d → ℚ × Vector3d) (flip : Bool) (vs : List Vector3d) (hvs : vs ≠ [])
    (hnz : 0 ≤ NEAR_ZERO) (hq : ∀ v ∈ vs, (query v).1 ≤ DBL_MAX) :
    (vertex_pass NEAR_ZERO cgA cgB query flip vs (DBL_MAX, [])).2 ≠ [] := by
  cases vs with
  | nil => exact absurd rfl hvs
  | cons v vs =>
    have h1 : (query v).1 - NEAR_ZERO ≤ DBL_MAX := by
      have := hq v (List.mem_cons_self _ _)
      linarith
    unfold vertex_pass
    rw [if_pos h1]
    exact vertex_pass_ne_nil _ _ _ _ _ _ _ (by simp)

/-- The generic path returns no contact exactly when neither geometry has a
vertex. -/
theorem find_contacts_generic_eq_nil (NEAR_ZERO : ℚ) (cgA cgB : CollisionGeometry)
    (hnz : 0 ≤ NEAR_ZERO)
    (hA : ∀ v ∈ cgA.vertices, (cgB.calc_dist_and_normal v).1 ≤ DBL_MAX)
    (hB : ∀ v ∈ cgB.vertices, (cgA.calc_dist_and_normal v).1 ≤ DBL_MAX) :
    find_contacts_generic NEAR_ZERO cgA cgB = [] ↔ cgA.vertices = [] ∧ cgB.vertices = [] := by
  unfold find_contacts_generic
  constructor
  · intro h
    by_contra hne
    apply absurd h
    by_cases hva : cgA.vertices = []
    · have hvb : cgB.vertices ≠ [] := fun hb => hne ⟨hva, hb⟩
      rw [hva]
      simp only [vertex_pass]
      exact vertex_pass_first _ _ _ _ _ _ hvb hnz hB
    · exact vertex_pass_ne_nil _ _ _ _ _ _ _ (vertex_pass_first _ _ _ _ _ _ hva hnz hA)
  · rintro ⟨ha, hb⟩
    rw [ha, hb]
    simp [vertex_pass]

/-- C5 (counterexample). A vertex at height 5 above the half-space `z ≤ 0`:
every signed distance `find_contacts` evaluates is 5, far above `NEAR_ZERO`,
and yet a contact is returned. -/
theorem C5_counterexample :
    (∀ v ∈ (vertex_geom 1 [![0, 0, 5]]).vertices,
      ((halfspace_geom 2).calc_dist_and_normal v).1 > 1 / 2 ^ 26) ∧
    (∀ v ∈ (halfspace_geom 2).vertices,
      ((vertex_geom 1 [![0, 0, 5]]).calc_dist_and_normal v).1 > 1 / 2 ^ 26) ∧
    find_contacts (1 / 2 ^ 26) normalize_axis (vertex_geom 1 [![0, 0, 5]]) (halfspace_geom 2) =
      [⟨1, 2, ![0, 0, 5], ![0, 0, 1]⟩] := by
  decide!

/-- C5 (amended). `find_contacts` returns an empty sequence in the box/sphere
path when `d > NEAR_ZERO`, and in the generic path exactly when neither geometry
has a vertex; the sphere/sphere path always returns one contact.  (Distances are
doubles, hence at most `DBL_MAX`, and `NEAR_ZERO` is not negative.) -/
theorem C5_find_contacts_empty (NEAR_ZERO : ℚ) (normalize : Vector3d → Vector3d)
    (cgA cgB : CollisionGeometry) (hnz : 0 ≤ NEAR_ZERO)
    (hA : ∀ v ∈ cgA.vertices, (cgB.calc_dist_and_normal v).1 ≤ DBL_MAX)
    (hB : ∀ v ∈ cgB.vertices, (cgA.calc_dist_and_normal v).1 ≤ DBL_MAX) :
    (cgA.kind = .sphere → cgB.kind = .sphere →
      (find_contacts NEAR_ZERO normalize cgA cgB).length = 1) ∧
    (cgA.kind = .box → cgB.kind = .sphere →
      (cgA.calc_closest_point (cgA.from_global cgB.center)).1 - cgB.radius > NEAR_ZERO →
      find_contacts NEAR_ZERO normalize cgA cgB = []) ∧
    (cgA.kind = .sphere → cgB.kind = .box →
      (cgB.calc_closest_point (cgB.from_global cgA.center)).1 - cgA.radius > NEAR_ZERO →
      find_contacts NEAR_ZERO normalize cgA cgB = []) ∧
    (cgA.kind = .other ∨ cgB.kind = .other ∨ (cgA.kind = .box ∧ cgB.kind = .box) →
      (find_contacts NEAR_ZERO normalize cgA cgB = [] ↔
        cgA.vertices = [] ∧ cgB.vertices = [])) := by
  refine ⟨?_, ?_, ?_, ?_⟩
  · intro ka kb
    simp [find_contacts, ka, kb, find_contacts_sphere_sphere]
  · intro ka kb hd
    simp [find_contacts, ka, kb, find_contacts_box_sphere, hd]
  · intro ka kb hd
    simp [find_contacts, ka, kb, find_contacts_box_sphere, hd]
  · intro hk
    have hg : find_contacts NEAR_ZERO normalize cgA cgB =
        find_contacts_generic NEAR_ZERO cgA cgB := by
      unfold find_contacts
      rcases hk with hk | hk | ⟨hk1, hk2⟩
      · rw [hk]
      · rw [hk]; cases cgA.kind <;> rfl
      · rw [hk1, hk2]
    rw [hg]
    exact find_contacts_generic_eq_nil NEAR_ZERO cgA cgB hnz hA hB

/-- C5 (amended), at the vertex above the half-space: the hypotheses hold and
the result is not empty because there is a vertex. -/
theorem C5_find_contacts_empty_witness :
    (0 : ℚ) ≤ 1 / 2 ^ 26 ∧
    (find_contacts (1 / 2 ^ 26) normalize_axis (vertex_geom 1 [![0, 0, 5]]) (halfspace_geom 2)
        = [] ↔
      (vertex_geom 1 [![0, 0, 5]]).vertices = [] ∧ (halfspace_geom 2).vertices = []) :=
  ⟨by norm_num,
    (C5_find_contacts_empty (1 / 2 ^ 26) normalize_axis (vertex_geom 1 [![0, 0, 5]])
      (halfspace_geom 2) (by norm_num) (by decide!) (by decide!)).2.2.2 (Or.inl rfl)⟩

/-- C6. For two spheres whose centres are a distance `len > 0` apart (so the
centres are distinct, and `normalize` returns the difference divided by `len`),
`find_contacts_sphere_sphere` emits exactly one contact; its normal is the unit
vector `(cA - cB)/len`, its point is the midpoint of the surface points
`cA - rA n` and `cB + rB n`, hence it lies on the line through `cA` and `cB` and
is equidistant from both surface points. -/
theorem C6_sphere_sphere (normalize : Vector3d → Vector3d) (cgA cgB : CollisionGeometry)
    (len : ℚ) (hlen : 0 < len)
    (hsq : len * len = dot3 (cgA.center - cgB.center) (cgA.center - cgB.center))
    (hnorm : normalize (cgA.center - cgB.center) = (1 / len) • (cgA.center - cgB.center)) :
    ∃ c, find_contacts_sphere_sphere normalize cgA cgB = [c] ∧
      c.normal = (1 / len) • (cgA.center - cgB.center) ∧
      dot3 c.normal c.normal = 1 ∧
      c.point = (1 / 2 : ℚ) •
        ((cgA.center - cgA.radius • c.normal) + (cgB.center + cgB.radius • c.normal)) ∧
      (∃ t : ℚ, c.point = cgB.center + t • (cgA.center - cgB.center)) ∧
      dot3 (c.point - (cgA.center - cgA.radius • c.normal))
          (c.point - (cgA.center - cgA.radius • c.normal)) =
        dot3 (c.point - (cgB.center + cgB.radius • c.normal))
          (c.point - (cgB.center + cgB.radius • c.normal)) := by
  refine ⟨_, rfl, ?_, ?_, ?_, ?_, ?_⟩
  · simp only [create_contact]; exact hnorm
  · simp only [create_contact]
    rw [hnorm, dot3_smul_self, ← hsq]
    field_simp
  · simp only [create_contact]
  · refine ⟨(1 / 2 : ℚ) + (cgB.radius - cgA.radius) / (2 * len), ?_⟩
    simp only [create_contact]
    rw [hnorm]
    funext i
    simp only [Pi.add_apply, Pi.sub_apply, Pi.smul_apply, smul_eq_mul]
    field_simp
    ring
  · simp only [create_contact, dot3, Pi.add_apply, Pi.sub_apply, Pi.smul_apply, smul_eq_mul]
    ring

/-- C6 at two spheres of radius 1 and 2 centred at `(0,0,5)` and the origin: one
contact, normal `(0,0,1)`. -/
theorem C6_sphere_sphere_witness :
    ∃ c, find_contacts_sphere_sphere normalize_axis (sphere_geom 1 ![0, 0, 5] 1)
        (sphere_geom 2 ![0, 0, 0] 2) = [c] ∧
      c.normal = (1 / 5 : ℚ) • ((sphere_geom 1 ![0, 0, 5] 1).center
        - (sphere_geom 2 ![0, 0, 0] 2).center) ∧
      dot3 c.normal c.normal = 1 := by
  obtain ⟨c, h1, h2, h3, _⟩ := C6_sphere_sphere normalize_axis (sphere_geom 1 ![0, 0, 5] 1)
    (sphere_geom 2 ![0, 0, 0] 2) 5 (by norm_num) (by decide!) (by decide!)
  exact ⟨c, h1, h2, h3⟩

/-- C7 (the code departs from the claim).  The box `[-1,1]³` centred at `(0,0,2)`
and a sphere of radius `5/2` centred at `(0,0,5)`: the sphere centre is 2 above
the top face of the box, so `d = 2 - 5/2 = -1/2 ≤ 0` and the contact point is to be
`p_sph`, the point of the sphere towards the box, `(0,0,5) + (r + d)(0,0,-1) =
(0,0,3)` on the top face.  The code moves the sphere centre along the normalized
box centre `(0,0,1)`, not along the direction from the sphere to the box, and
emits the point `(0,0,7)`, four units above the box. -/
theorem C7_box_sphere_far_side :
    ((box_geom 1 ![0, 0, 2] ![1, 1, 1]).calc_closest_point
        ((box_geom 1 ![0, 0, 2] ![1, 1, 1]).from_global
          (sphere_geom 2 ![0, 0, 5] (5 / 2)).center)).1
      - (sphere_geom 2 ![0, 0, 5] (5 / 2)).radius = -1 / 2 ∧
    (box_geom 1 ![0, 0, 2] ![1, 1, 1]).to_global
        ((box_geom 1 ![0, 0, 2] ![1, 1, 1]).calc_closest_point
          ((box_geom 1 ![0, 0, 2] ![1, 1, 1]).from_global
            (sphere_geom 2 ![0, 0, 5] (5 / 2)).center)).2 = ![0, 0, 3] ∧
    normalize_axis ((box_geom 1 ![0, 0, 2] ![1, 1, 1]).center
      - (sphere_geom 2 ![0, 0, 5] (5 / 2)).center) = ![0, 0, -1] ∧
    (sphere_geom 2 ![0, 0, 5] (5 / 2)).center + ((5 / 2 : ℚ) + min (-1 / 2) 0) •
      (![0, 0, -1] : Vector3d) = ![0, 0, 3] ∧
    find_contacts_box_sphere (1 / 2 ^ 26) normalize_axis (box_geom 1 ![0, 0, 2] ![1, 1, 1])
        (sphere_geom 2 ![0, 0, 5] (5 / 2)) = [⟨1, 2, ![0, 0, 7], ![0, 0, 1]⟩] ∧
    (![0, 0, 7] : Vector3d) ≠ ![0, 0, 3] := by
  decide!

/-- C8 (counterexample). The box `[-1,1]³` centred at `(0,0,2)` and a sphere of
radius `3/2` at the origin, two units apart: the unit vector from the box centre
to the sphere centre is `(0,0,-1)`, the emitted normal is `(0,0,1)`. -/
theorem C8_counterexample :
    (2 : ℚ) * 2 = dot3
      ((sphere_geom 2 ![0, 0, 0] (3 / 2)).center - (box_geom 1 ![0, 0, 2] ![1, 1, 1]).center)
      ((sphere_geom 2 ![0, 0, 0] (3 / 2)).center - (box_geom 1 ![0, 0, 2] ![1, 1, 1]).center) ∧
    find_contacts_box_sphere (1 / 2 ^ 26) normalize_axis (box_geom 1 ![0, 0, 2] ![1, 1, 1])
        (sphere_geom 2 ![0, 0, 0] (3 / 2)) = [⟨1, 2, ![0, 0, 1], ![0, 0, 1]⟩] ∧
    (![0, 0, 1] : Vector3d) ≠ (1 / 2 : ℚ) •
      ((sphere_geom 2 ![0, 0, 0] (3 / 2)).center - (box_geom 1 ![0, 0, 2] ![1, 1, 1]).center) := by
  decide!

/-- C8 (amended). For a sphere centred at the global origin and a box whose
centre is a distance `len > 0` away, the normal of every contact emitted by
`find_contacts_box_sphere` is the unit vector pointing from the sphere centre to
the box centre (from the second geometry to the first). -/
theorem C8_box_sphere_normal (NEAR_ZERO : ℚ) (normalize : Vector3d → Vector3d)
    (box sph : CollisionGeometry) (len : ℚ) (hlen : 0 < len) (hs : sph.center = 0)
    (hsq : len * len = dot3 (box.center - sph.center) (box.center - sph.center))
    (hnorm : normalize box.center = (1 / len) • box.center) :
    ∀ c ∈ find_contacts_box_sphere NEAR_ZERO normalize box sph,
      c.normal = (1 / len) • (box.center - sph.center) ∧ dot3 c.normal c.normal = 1 := by
  intro c hc
  rw [hs, sub_zero] at hsq
  have hn : c.normal = (1 / len) • box.center := by
    unfold find_contacts_box_sphere at hc
    by_cases h1 : (box.calc_closest_point (box.from_global sph.center)).1 - sph.radius > NEAR_ZERO
    · simp [h1] at hc
    · simp only [if_neg h1, List.mem_singleton] at hc
      rw [hc]
      exact hnorm
  refine ⟨by rw [hn, hs, sub_zero], ?_⟩
  rw [hn, dot3_smul_self, ← hsq]
  field_simp

/-- C8 (amended) at the box centred at `(0,0,2)` and the sphere at the origin:
the centres are two units apart and the contact has the normal `(0,0,1)`, from
the sphere to the box. -/
theorem C8_box_sphere_normal_witness :
    (0 : ℚ) < 2 ∧ (sphere_geom 2 ![0, 0, 0] (3 / 2)).center = 0 ∧
    ∃ c, c ∈ find_contacts_box_sphere (1 / 2 ^ 26) normalize_axis
        (box_geom 1 ![0, 0, 2] ![1, 1, 1]) (sphere_geom 2 ![0, 0, 0] (3 / 2)) ∧
      c.normal = (1 / 2 : ℚ) • ((box_geom 1 ![0, 0, 2] ![1, 1, 1]).center
        - (sphere_geom 2 ![0, 0, 0] (3 / 2)).center) ∧ dot3 c.normal c.normal = 1 :=
  ⟨by norm_num, by decide!, ⟨1, 2, ![0, 0, 1], ![0, 0, 1]⟩, by decide!,
    C8_box_sphere_normal (1 / 2 ^ 26) normalize_axis (box_geom 1 ![0, 0, 2] ![1, 1, 1])
      (sphere_geom 2 ![0, 0, 0] (3 / 2)) 2 (by norm_num) (by decide!) (by decide!) (by decide!)
      ⟨1, 2, ![0, 0, 1], ![0, 0, 1]⟩ (by decide!)⟩

end CCD

/-! ## C9: symmetry of the overlap test -/

namespace OBB

/-- Index arithmetic in `Fin 3`. -/
theorem fin3_01 : (0 : Fin 3) + 1 = 1 := rfl
/-- Index arithmetic in `Fin 3`. -/
theorem fin3_02 : (0 : Fin 3) + 2 = 2 := rfl
/-- Index arithmetic in `Fin 3`. -/
theorem fin3_11 : (1 : Fin 3) + 1 = 2 := rfl
/-- Index arithmetic in `Fin 3`. -/
theorem fin3_12 : (1 : Fin 3) + 2 = 0 := rfl
/-- Index arithmetic in `Fin 3`. -/
theorem fin3_21 : (2 : Fin 3) + 1 = 0 := rfl
/-- Index arithmetic in `Fin 3`. -/
theorem fin3_22 : (2 : Fin 3) + 2 = 1 := rfl

/-- The rows of a matrix with orthonormal columns are orthonormal. -/
theorem orthonormal_rows {R : Matrix3d} (h : orthonormal R) (i j : Fin 3) :
    rowdot R i j = if i = j then 1 else 0 := by
  have h1 : (Matrix.of R).transpose * Matrix.of R = 1 := by
    ext p q
    simp only [Matrix.mul_apply, Fin.sum_univ_three, Matrix.transpose_apply, Matrix.of_apply,
      Matrix.one_apply]
    exact h p q
  have h2 : Matrix.of R * (Matrix.of R).transpose = 1 := Matrix.mul_eq_one_comm.mp h1
  have h3 := congrFun (congrFun h2 i) j
  simp only [Matrix.mul_apply, Fin.sum_univ_three, Matrix.transpose_apply, Matrix.of_apply,
      Matrix.one_apply] at h3
  exact h3

/-- The cofactor identity behind `adj Q = det Q • Qᵀ`, before the rows are used. -/
theorem cof_cert (Q : Matrix3d) (i j : Fin 3) :
    cof Q i j - det3 Q * Q i j =
      cof Q 0 j * ((if (0 : Fin 3) = i then 1 else 0) - rowdot Q 0 i) +
      cof Q 1 j * ((if (1 : Fin 3) = i then 1 else 0) - rowdot Q 1 i) +
      cof Q 2 j * ((if (2 : Fin 3) = i then 1 else 0) - rowdot Q 2 i) := by
  fin_cases i <;> fin_cases j <;>
    simp [cof, det3, rowdot, fin3_01, fin3_02, fin3_11, fin3_12, fin3_21, fin3_22] <;> ring

/-- For orthonormal rows every cofactor is the determinant times the entry. -/
theorem cof_eq {Q : Matrix3d} (hrow : ∀ i j, rowdot Q i j = if i = j then 1 else 0)
    (i j : Fin 3) : cof Q i j = det3 Q * Q i j := by
  have h := cof_cert Q i j
  rw [hrow 0 i, hrow 1 i, hrow 2 i] at h
  linarith

/-- The determinant of an orthonormal matrix squares to one. -/
theorem det3_sq {Q : Matrix3d} (hQ : orthonormal Q) : det3 Q * det3 Q = 1 := by
  have hrow := orthonormal_rows hQ
  have c0 := cof_eq hrow 0 0
  have c1 := cof_eq hrow 1 0
  have c2 := cof_eq hrow 2 0
  have h11 := hQ 1 1
  have h22 := hQ 2 2
  have h12 := hQ 1 2
  have e : det3 Q = Q 0 0 * cof Q 0 0 + Q 1 0 * cof Q 1 0 + Q 2 0 * cof Q 2 0 := rfl
  simp only [cof, fin3_01, fin3_02, fin3_11, fin3_12, fin3_21, fin3_22, zero_add] at c0 c1 c2 e
  simp only [if_true, if_false, Fin.reduceEq] at h11 h22 h12
  linear_combination (det3 Q) * e - (Q 1 1 * Q 2 2 - Q 1 2 * Q 2 1) * c0
    - (Q 2 1 * Q 0 2 - Q 2 2 * Q 0 1) * c1 - (Q 0 1 * Q 1 2 - Q 0 2 * Q 1 1) * c2
    + (Q 0 2 * Q 0 2 + Q 1 2 * Q 1 2 + Q 2 2 * Q 2 2) * h11 + h22
    - (Q 0 1 * Q 0 2 + Q 1 1 * Q 1 2 + Q 2 1 * Q 2 2) * h12

/-- The determinant of an orthonormal matrix is `1` or `-1`. -/
theorem abs_det3 {Q : Matrix3d} (hQ : orthonormal Q) : |det3 Q| = 1 := by
  have h := det3_sq hQ
  have h2 : |det3 Q| * |det3 Q| = 1 := by rw [← abs_mul, h, abs_one]
  nlinarith [abs_nonneg (det3 Q)]


/-- Index arithmetic in `Fin 3`. -/
theorem fin3_add_21 (i : Fin 3) : i + 2 + 1 = i := by fin_cases i <;> rfl
/-- Index arithmetic in `Fin 3`. -/
theorem fin3_add_22 (i : Fin 3) : i + 2 + 2 = i + 1 := by fin_cases i <;> rfl
/-- Index arithmetic in `Fin 3`. -/
theorem fin3_add_11 (i : Fin 3) : i + 1 + 1 = i + 2 := by fin_cases i <;> rfl
/-- Index arithmetic in `Fin 3`. -/
theorem fin3_add_12 (i : Fin 3) : i + 1 + 2 = i := by fin_cases i <;> rfl

/-- A sum over the three indices, started at any of them. -/
theorem sum_cyc (f : Fin 3 → ℚ) (i : Fin 3) : f 0 + f 1 + f 2 = f i + f (i + 1) + f (i + 2) := by
  fin_cases i <;> simp only [Fin.zero_eta, Fin.mk_one, Fin.reduceFinMk, fin3_01, fin3_02, fin3_11, fin3_12, fin3_21, fin3_22, zero_add] <;> ring

/-- Swapping the boxes transposes the relative rotation. -/
theorem transpose_mult_swap (A B : Matrix3d) (i j : Fin 3) :
    transpose_mult B A j i = transpose_mult A B i j := by
  simp only [transpose_mult]; ring

/-- The relative rotation of two orthonormal frames is orthonormal. -/
theorem orthonormal_transpose_mult {A B : Matrix3d} (hA : orthonormal A) (hB : orthonormal B) :
    orthonormal (transpose_mult A B) := by
  intro i j
  have r := orthonormal_rows hA
  have r00 := r 0 0
  have r01 := r 0 1
  have r02 := r 0 2
  have r10 := r 1 0
  have r11 := r 1 1
  have r12 := r 1 2
  have r20 := r 2 0
  have r21 := r 2 1
  have r22 := r 2 2
  have hb := hB i j
  simp only [rowdot, if_true, if_false, Fin.reduceEq] at r00 r01 r02 r10 r11 r12 r20 r21 r22
  simp only [transpose_mult]
  linear_combination (B 0 i * B 0 j) * r00 + (B 0 i * B 1 j) * r01 + (B 0 i * B 2 j) * r02
    + (B 1 i * B 0 j) * r10 + (B 1 i * B 1 j) * r11 + (B 1 i * B 2 j) * r12
    + (B 2 i * B 0 j) * r20 + (B 2 i * B 1 j) * r21 + (B 2 i * B 2 j) * r22 + hb

/-- Swapping the boxes maps the translation `t` to `-Rabᵀ t`. -/
theorem translation_swap {a b : OBB} (hA : orthonormal a.R) (j : Fin 3) :
    transpose_mult_vec b.R (a.center - b.center) j =
      -(transpose_mult a.R b.R 0 j * transpose_mult_vec a.R (b.center - a.center) 0
        + transpose_mult a.R b.R 1 j * transpose_mult_vec a.R (b.center - a.center) 1
        + transpose_mult a.R b.R 2 j * transpose_mult_vec a.R (b.center - a.center) 2) := by
  have r := orthonormal_rows hA
  have r00 := r 0 0
  have r01 := r 0 1
  have r02 := r 0 2
  have r10 := r 1 0
  have r11 := r 1 1
  have r12 := r 1 2
  have r20 := r 2 0
  have r21 := r 2 1
  have r22 := r 2 2
  simp only [rowdot, if_true, if_false, Fin.reduceEq] at r00 r01 r02 r10 r11 r12 r20 r21 r22
  simp only [transpose_mult, transpose_mult_vec, Pi.sub_apply]
  linear_combination
    (b.R 0 j * (b.center 0 - a.center 0)) * r00 + (b.R 0 j * (b.center 1 - a.center 1)) * r01
    + (b.R 0 j * (b.center 2 - a.center 2)) * r02
    + (b.R 1 j * (b.center 0 - a.center 0)) * r10 + (b.R 1 j * (b.center 1 - a.center 1)) * r11
    + (b.R 1 j * (b.center 2 - a.center 2)) * r12
    + (b.R 2 j * (b.center 0 - a.center 0)) * r20 + (b.R 2 j * (b.center 1 - a.center 1)) * r21
    + (b.R 2 j * (b.center 2 - a.center 2)) * r22

/-- The edge-axis projection of the swapped pair is `det Rab` times the original one. -/
theorem edge_swap {Q : Matrix3d} (hQ : orthonormal Q) (t t1 : Vector3d)
    (ht : ∀ c, t1 c = -(Q 0 c * t 0 + Q 1 c * t 1 + Q 2 c * t 2)) (i j : Fin 3) :
    t1 (j + 2) * Q i (j + 1) - t1 (j + 1) * Q i (j + 2) =
      det3 Q * (t (i + 2) * Q (i + 1) j - t (i + 1) * Q (i + 2) j) := by
  have hrow := orthonormal_rows hQ
  have s1 := sum_cyc (fun r => Q r (j + 2) * t r) i
  have s2 := sum_cyc (fun r => Q r (j + 1) * t r) i
  have c1 := cof_eq hrow (i + 2) j
  have c2 := cof_eq hrow (i + 1) j
  simp only [cof, fin3_add_21, fin3_add_22, fin3_add_11, fin3_add_12] at c1 c2
  rw [ht, ht]
  simp only [] at s1 s2
  linear_combination (-(Q i (j + 1))) * s1 + (Q i (j + 2)) * s2 - t (i + 1) * c1 + t (i + 2) * c2

/-- The projection of the swapped translation on an axis of the first box. -/
theorem face_swap {Q : Matrix3d} (hQ : orthonormal Q) (t t1 : Vector3d)
    (ht : ∀ c, t1 c = -(Q 0 c * t 0 + Q 1 c * t 1 + Q 2 c * t 2)) (i : Fin 3) :
    t1 0 * Q i 0 + t1 1 * Q i 1 + t1 2 * Q i 2 = -t i := by
  have hrow := orthonormal_rows hQ
  have r0 := hrow 0 i
  have r1 := hrow 1 i
  have r2 := hrow 2 i
  have e : t i = (if (0 : Fin 3) = i then 1 else 0) * t 0 + (if (1 : Fin 3) = i then 1 else 0) * t 1
      + (if (2 : Fin 3) = i then 1 else 0) * t 2 := by
    fin_cases i <;> simp
  rw [ht, ht, ht]
  simp only [rowdot] at r0 r1 r2
  linear_combination (-(t 0)) * r0 - t 1 * r1 - t 2 * r2 + e


/-- A statement about all three indices, spelled out. -/
theorem forall_fin3 (P : Fin 3 → Prop) : (∀ i, P i) ↔ P 0 ∧ P 1 ∧ P 2 := by
  constructor
  · intro h; exact ⟨h 0, h 1, h 2⟩
  · rintro ⟨h0, h1, h2⟩ i
    fin_cases i
    · exact h0
    · exact h1
    · exact h2

/-- One link of the chain of early returns. -/
theorem ite_false_eq_true (c : Prop) [Decidable c] (x : Bool) :
    (if c then false else x) = true ↔ ¬c ∧ x = true := by
  by_cases h : c <;> simp [h]

/-- `intersects` returns `true` exactly when none of the 15 axes separates. -/
theorem intersects_iff (nz : ℚ) (a b : OBB) :
    intersects nz a b = true ↔
      (∀ i, ¬ sep_face_a nz a b i) ∧ (∀ i, ¬ sep_face_b nz a b i) ∧
        (∀ i j, ¬ sep_edge nz a b i j) := by
  simp only [forall_fin3, intersects, sep_face_a, sep_face_b, sep_edge, fin3_01, fin3_02,
    fin3_11, fin3_12, fin3_21, fin3_22, zero_add, List.any_cons, List.any_nil, Bool.or_false,
    Bool.or_eq_true, decide_eq_true_eq, gt_iff_lt, not_lt, dot3]
  generalize transpose_mult a.R b.R = Q
  generalize transpose_mult_vec a.R (b.center - a.center) = t
  simp only [ite_false_eq_true, not_or, not_lt, and_true]
  constructor
  · rintro ⟨⟨a0, a1, a2⟩, ⟨b0, b1, b2⟩, e00, e01, e02, e10, e11, e12, e20, e21, e22⟩
    refine ⟨⟨a0, a1, a2⟩, ⟨b0, b1, b2⟩, ⟨?_, ?_, ?_⟩, ⟨?_, ?_, ?_⟩, ⟨?_, ?_, ?_⟩⟩ <;> linarith
  · rintro ⟨⟨a0, a1, a2⟩, ⟨b0, b1, b2⟩, ⟨e00, e01, e02⟩, ⟨e10, e11, e12⟩, ⟨e20, e21, e22⟩⟩
    refine ⟨⟨a0, a1, a2⟩, ⟨b0, b1, b2⟩, ?_, ?_, ?_, ?_, ?_, ?_, ?_, ?_, ?_⟩ <;> linarith

/-- A face axis of `a` separates `(b, a)` exactly when it separates `(a, b)`. -/
theorem sep_face_a_swap (nz : ℚ) {a b : OBB} (hA : orthonormal a.R) (j : Fin 3) :
    sep_face_a nz b a j ↔ sep_face_b nz a b j := by
  unfold sep_face_a sep_face_b
  rw [translation_swap hA j, abs_neg]
  simp only [transpose_mult_swap a.R b.R, dot3]
  have e : transpose_mult a.R b.R 0 j * transpose_mult_vec a.R (b.center - a.center) 0
      + transpose_mult a.R b.R 1 j * transpose_mult_vec a.R (b.center - a.center) 1
      + transpose_mult a.R b.R 2 j * transpose_mult_vec a.R (b.center - a.center) 2
      = transpose_mult_vec a.R (b.center - a.center) 0 * transpose_mult a.R b.R 0 j
      + transpose_mult_vec a.R (b.center - a.center) 1 * transpose_mult a.R b.R 1 j
      + transpose_mult_vec a.R (b.center - a.center) 2 * transpose_mult a.R b.R 2 j := by ring
  rw [e]
  constructor <;> intro h <;> linarith

/-- A face axis of `b` separates `(b, a)` exactly when it separates `(a, b)`. -/
theorem sep_face_b_swap (nz : ℚ) {a b : OBB} (hA : orthonormal a.R) (hB : orthonormal b.R)
    (i : Fin 3) : sep_face_b nz b a i ↔ sep_face_a nz a b i := by
  unfold sep_face_a sep_face_b
  have hf := face_swap (orthonormal_transpose_mult hA hB)
    (transpose_mult_vec a.R (b.center - a.center)) (transpose_mult_vec b.R (a.center - b.center))
    (translation_swap hA) i
  simp only [transpose_mult_swap a.R b.R, dot3]
  rw [hf, abs_neg]
  constructor <;> intro h <;> linarith

/-- An edge axis separates `(b, a)` exactly when it separates `(a, b)`. -/
theorem sep_edge_swap (nz : ℚ) {a b : OBB} (hA : orthonormal a.R) (hB : orthonormal b.R)
    (i j : Fin 3) : sep_edge nz b a j i ↔ sep_edge nz a b i j := by
  unfold sep_edge
  have he := edge_swap (orthonormal_transpose_mult hA hB)
    (transpose_mult_vec a.R (b.center - a.center)) (transpose_mult_vec b.R (a.center - b.center))
    (translation_swap hA) i j
  simp only [transpose_mult_swap a.R b.R]
  rw [he, abs_mul, abs_det3 (orthonormal_transpose_mult hA hB), one_mul]
  constructor <;> intro h <;> linarith

end OBB


/-! ## C10: the empty problem -/

namespace LCP

/-- Resizing to length zero leaves the empty vector. -/
theorem vresize_zero (z : VectorNd) : vresize z 0 = [] := by simp [vresize]

/-- C10. Every dense LCP/MLCP entry point (`lcp_lemke`, `lcp_fast`, `mlcp_fast`,
`mlcp_keller`, `fast_pivoting` and the four regularized wrappers) called with an
empty `q` returns `true` and leaves `z` with length 0, whatever `z`, the matrix,
the bounds, the tolerances, the exponents and the random stream are. -/
theorem C10_empty_problem (la : LinAlg) (NEAR_ZERO : ℚ) (kfuel fuel : Nat) (M : MatrixNd)
    (l u z : VectorNd) (min_exp : Int) (step_exp : Nat) (max_exp : Int)
    (piv_tol zero_tol : ℚ) (rng : Rng) :
    ((lcp_lemke la M [] z piv_tol zero_tol rng).1.ok = true ∧
      (lcp_lemke la M [] z piv_tol zero_tol rng).1.z.length = 0) ∧
    ((lcp_fast la M [] z zero_tol rng).1.ok = true ∧
      (lcp_fast la M [] z zero_tol rng).1.z.length = 0) ∧
    (∃ r rng1, mlcp_fast la NEAR_ZERO M [] l u z zero_tol rng = .ret (r, rng1) ∧
      r.ok = true ∧ r.z.length = 0) ∧
    (∃ r, mlcp_keller la NEAR_ZERO kfuel M [] l u z zero_tol = .ret r ∧
      r.ok = true ∧ r.z.length = 0) ∧
    (∃ r rng1, fast_pivoting la M [] z zero_tol rng = .ret (r, rng1) ∧
      r.ok = true ∧ r.z.length = 0) ∧
    (∃ r rng1, lcp_lemke_regularized la NEAR_ZERO fuel M [] z min_exp step_exp max_exp
        piv_tol zero_tol rng = .ret (r, rng1) ∧ r.1 = true ∧ r.2.length = 0) ∧
    (∃ r rng1, lcp_fast_regularized la NEAR_ZERO fuel M [] z min_exp step_exp max_exp
        zero_tol rng = .ret (r, rng1) ∧ r.1 = true ∧ r.2.length = 0) ∧
    (∃ r rng1, mlcp_fast_regularized la NEAR_ZERO fuel M [] l u z min_exp step_exp max_exp
        zero_tol rng = .ret (r, rng1) ∧ r.1 = true ∧ r.2.length = 0) ∧
    (∃ r, mlcp_keller_regularized la NEAR_ZERO kfuel fuel M [] l u z min_exp step_exp max_exp
        zero_tol = .ret r ∧ r.1 = true ∧ r.2.length = 0) := by
  have hz : (vresize z 0).length = 0 := by rw [vresize_zero]; rfl
  exact ⟨⟨rfl, hz⟩, ⟨rfl, rfl⟩, ⟨_, _, rfl, rfl, rfl⟩, ⟨_, rfl, rfl, hz⟩, ⟨_, _, rfl, rfl, hz⟩,
    ⟨_, _, rfl, rfl, hz⟩, ⟨_, _, rfl, rfl, hz⟩, ⟨_, _, rfl, rfl, hz⟩, ⟨_, rfl, rfl, hz⟩⟩

end LCP

/-! ## Lemke's algorithm: iteration cap, determinism, worked examples (C11, C12, C14, C16) -/

namespace LCP

theorem lemke_loop_pivots (la : LinAlg) (M : MatrixNd) (n : Nat) (PIV_TOL zero_tol : ℚ) :
    ∀ (fuel pivots : Nat) (s : LemkeState),
      (lemke_loop la M n PIV_TOL zero_tol fuel pivots s).pivots ≤ pivots + fuel ∧
      ((lemke_loop la M n PIV_TOL zero_tol fuel pivots s).ok = true →
        (lemke_loop la M n PIV_TOL zero_tol fuel pivots s).pivots < pivots + fuel) := by
  intro fuel
  induction fuel with
  | zero =>
    intro pivots s
    simp [lemke_loop]
  | succ fuel ih =>
    intro pivots s
    rw [lemke_loop]
    simp only []
    split
    · exact ⟨by simp, fun _ => by simp⟩
    · split
      · exact ⟨by simp, fun h => by simp at h⟩
      · split
        · exact ⟨by simp, fun h => by simp at h⟩
        · split
          · exact ⟨by simp, fun h => by simp at h⟩
          · exact ⟨le_trans (ih _ _).1 (by omega),
              fun h => lt_of_lt_of_le ((ih _ _).2 h) (by omega)⟩

/-- C14.  The dense `lcp_lemke` is a total function of its arguments (the linear
solve being one), its main loop runs at most `MAXITER = min(1000, 50 n)` times:
the pivot counter it leaves is at most `min(1000, 50 n)`, a run that returns true
has made fewer pivots than the loop allows, and when no iteration is left the loop
returns false. -/
theorem C14_lemke_iteration_cap (la : LinAlg) (M : MatrixNd) (q z : VectorNd)
    (piv_tol zero_tol : ℚ) (rng : Rng) :
    (lcp_lemke la M q z piv_tol zero_tol rng).1.pivots ≤ min 1000 (50 * q.length) ∧
    (∀ (PIV_TOL zt : ℚ) (fuel pivots : Nat) (s : LemkeState),
      (lemke_loop la M q.length PIV_TOL zt fuel pivots s).pivots ≤ pivots + fuel ∧
      ((lemke_loop la M q.length PIV_TOL zt fuel pivots s).ok = true →
        (lemke_loop la M q.length PIV_TOL zt fuel pivots s).pivots < pivots + fuel)) ∧
    (∀ (PIV_TOL zt : ℚ) (pivots : Nat) (s : LemkeState),
      (lemke_loop la M q.length PIV_TOL zt 0 pivots s).ok = false) := by
  refine ⟨?_, fun P zt fuel pivots s => lemke_loop_pivots la M q.length P zt fuel pivots s,
    fun _ _ _ _ => rfl⟩
  unfold lcp_lemke
  simp only []
  by_cases hn : q.length = 0
  · rw [if_pos hn]; simp
  · rw [if_neg hn]
    generalize (if zero_tol ≤ 0 then DBL_EPSILON * norm_inf M * (q.length : ℚ) else zero_tol) = zt
    by_cases ht : vget q (min_element q) > -zt
    · rw [if_pos ht]; simp
    · rw [if_neg ht]
      split
      · simp
      · refine le_trans (lemke_loop_pivots la M q.length _ _ _ 0 _).1 ?_
        have : (50 * q.length) % 2 ^ 32 ≤ 50 * q.length := Nat.mod_le _ _
        simp only [zero_add]
        omega

theorem lcp_lemke_canonical (la : LinAlg) (M : MatrixNd) (q z : VectorNd)
    (piv_tol zero_tol : ℚ) (rng : Rng) :
    (lcp_lemke la M q z piv_tol zero_tol rng).1 =
      (lcp_lemke la M q [] piv_tol zero_tol (fun _ => 0)).1 := by
  unfold lcp_lemke
  simp only []
  by_cases hn : q.length = 0
  · rw [if_pos hn, if_pos hn]
    simp [vresize]
  · rw [if_neg hn, if_neg hn]
    generalize (if zero_tol ≤ 0 then DBL_EPSILON * norm_inf M * (q.length : ℚ) else zero_tol) = zt
    by_cases ht : vget q (min_element q) > -zt
    · rw [if_pos ht, if_pos ht]
    · rw [if_neg ht, if_neg ht]
      have hb := lemke_initial_basis_zero q.length z.length rng
      have hb0 := lemke_initial_basis_zero q.length ([] : VectorNd).length (fun _ => 0)
      rw [hb.1, hb.2, hb0.1, hb0.2]
      simp only [lemke_initial_values, ne_eq, not_true_eq_false, if_false]
      by_cases hall : (q.all (fun xi => !decide (xi < 0))) = true
      · rw [if_pos hall, if_pos hall]
      · rw [if_neg hall, if_neg hall]

end LCP


namespace LCP

theorem lemke_loop_succ (la : LinAlg) (M : MatrixNd) (n : Nat) (PIV_TOL zero_tol : ℚ)
    (fuel pivots : Nat) (s : LemkeState) :
    lemke_loop la M n PIV_TOL zero_tol (fuel + 1) pivots s =
      if s.leaving = 2 * n then ⟨true, vresize (vset s.z s.bas s.x) n, pivots⟩
      else
        match la.solve_fast s.Bl (lemke_entering_column M n s) with
        | none => ⟨false, s.z, pivots⟩
        | some dl =>
          if lemke_candidates dl PIV_TOL = [] then ⟨false, s.z, pivots⟩
          else if lemke_ratio_test PIV_TOL zero_tol s dl = [] then
            ⟨false, vresize s.z n, pivots⟩
          else
            lemke_loop la M n PIV_TOL zero_tol fuel (pivots + 1)
              (lemke_pivot M n s dl
                (lemke_lvindex n s (lemke_ratio_test PIV_TOL zero_tol s dl))) := by
  rw [lemke_loop]
  rfl

/-- The exit of the main loop: the artificial variable has left the basis. -/
theorem lemke_loop_exit (la : LinAlg) (M : MatrixNd) (n : Nat) (PIV_TOL zero_tol : ℚ)
    (fuel pivots : Nat) (s : LemkeState) (h : s.leaving = 2 * n) :
    lemke_loop la M n PIV_TOL zero_tol (fuel + 1) pivots s =
      ⟨true, vresize (vset s.z s.bas s.x) n, pivots⟩ := by
  rw [lemke_loop_succ, if_pos h]

/-- One pivot of the main loop, the linear solve having returned `dl`. -/
theorem lemke_loop_pivot (la : LinAlg) (M : MatrixNd) (n : Nat) (PIV_TOL zero_tol : ℚ)
    (fuel pivots : Nat) (s : LemkeState) (Be dl : VectorNd) (s1 : LemkeState)
    (hl : s.leaving ≠ 2 * n) (hBe : lemke_entering_column M n s = Be)
    (hsolve : la.solve_fast s.Bl Be = some dl)
    (hj : lemke_candidates dl PIV_TOL ≠ [])
    (hj2 : lemke_ratio_test PIV_TOL zero_tol s dl ≠ [])
    (hs1 : lemke_pivot M n s dl (lemke_lvindex n s (lemke_ratio_test PIV_TOL zero_tol s dl))
      = s1) :
    lemke_loop la M n PIV_TOL zero_tol (fuel + 1) pivots s =
      lemke_loop la M n PIV_TOL zero_tol fuel (pivots + 1) s1 := by
  rw [lemke_loop_succ, if_neg hl, hBe, hsolve]
  simp only []
  rw [if_neg hj, if_neg hj2, hs1]

/-- A run of `lcp_lemke` that reaches the main loop. -/
theorem lcp_lemke_loop_form (la : LinAlg) (M : MatrixNd) (q z : VectorNd)
    (piv_tol zero_tol : ℚ) (rng : Rng) (hn : q.length ≠ 0)
    (ht : ¬ vget q (min_element q) > -lemke_zero_tol M q.length zero_tol)
    (hall : ¬ (q.all (fun xi => !decide (xi < 0))) = true) :
    (lcp_lemke la M q z piv_tol zero_tol rng).1 =
      lemke_loop la M q.length (lemke_piv_tol M q.length piv_tol)
        (lemke_zero_tol M q.length zero_tol) (min 1000 ((50 * q.length) % 2 ^ 32)) 0
        (lemke_first_pivot q.length [] (List.range q.length) (mnegate (identity q.length)) q)
      := by
  unfold lcp_lemke
  simp only []
  unfold lemke_zero_tol at ht
  rw [if_neg hn, if_neg ht]
  have hb := lemke_initial_basis_zero q.length z.length rng
  rw [hb.1, hb.2]
  simp only [lemke_initial_values, ne_eq, not_true_eq_false, if_false]
  rw [if_neg hall]
  rfl

theorem lemke_zero_tol_auto (M : MatrixNd) (n : Nat) (zero_tol : ℚ) (h : zero_tol ≤ 0) :
    lemke_zero_tol M n zero_tol = lemke_zero_tol M n 0 := by
  simp [lemke_zero_tol, h]

theorem lemke_piv_tol_auto (M : MatrixNd) (n : Nat) (piv_tol : ℚ) (h : piv_tol ≤ 0) :
    lemke_piv_tol M n piv_tol = lemke_piv_tol M n 0 := by
  simp [lemke_piv_tol, not_lt.mpr h]

/-- C11.  On `M = [[2]]`, `q = [-3]`, with non-positive `piv_tol` and `zero_tol`,
any input `z` and any state of the generator, the dense `lcp_lemke` returns true
after one pivot with `z = [3/2]`, for which `Mz+q = [0]`; the one linear solve of
the run, `1 · d = 2`, is taken to return `d = 2`. -/
theorem C11_lemke_one_by_one (la : LinAlg) (z : VectorNd) (piv_tol zero_tol : ℚ) (rng : Rng)
    (hp : piv_tol ≤ 0) (hz : zero_tol ≤ 0) (hsolve : la.solve_fast [[1]] [2] = some [2]) :
    (lcp_lemke la [[2]] [-3] z piv_tol zero_tol rng).1 = ⟨true, [3 / 2], 1⟩ ∧
    vadd (mult [[2]] [3 / 2]) [-3] = [0] := by
  refine ⟨?_, by decide!⟩
  rw [lcp_lemke_loop_form la [[2]] [-3] z piv_tol zero_tol rng (by decide)
    (by rw [lemke_zero_tol_auto _ _ _ hz]; decide!) (by decide!),
    lemke_zero_tol_auto _ _ _ hz, lemke_piv_tol_auto _ _ _ hp,
    show min 1000 ((50 * ([-3] : VectorNd).length) % 2 ^ 32) = 49 + 1 from by decide,
    show lemke_first_pivot ([-3] : VectorNd).length [] (List.range ([-3] : VectorNd).length)
      (mnegate (identity ([-3] : VectorNd).length)) [-3] = ⟨[3], [[1]], [2], 1, [0, 0]⟩
      from by decide!,
    lemke_loop_pivot la [[2]] _ _ _ 49 0 _ [2] [2] ⟨[3 / 2], [[2]], [0], 2, [0, 0]⟩
      (by decide!) (by decide!) hsolve (by decide!) (by decide!) (by decide!),
    lemke_loop_exit la [[2]] _ _ _ 48 _ _ (by decide)]
  decide!

/-- C11 with the exact solver, input `z = [7]` and tolerances `0`. -/
theorem C11_lemke_one_by_one_witness :
    (0 : ℚ) ≤ 0 ∧ exactLA.solve_fast [[1]] [2] = some [2] ∧
    (lcp_lemke exactLA [[2]] [-3] [7] 0 0 (fun _ => 0)).1 = ⟨true, [3 / 2], 1⟩ ∧
    vadd (mult [[2]] [3 / 2]) [-3] = [0] :=
  ⟨le_refl 0, by decide!,
    C11_lemke_one_by_one exactLA [7] 0 0 (fun _ => 0) (le_refl 0) (le_refl 0) (by decide!)⟩

end LCP


namespace LCP

/-- Ray termination: no entry of the direction exceeds the pivot tolerance. -/
theorem lemke_loop_ray (la : LinAlg) (M : MatrixNd) (n : Nat) (PIV_TOL zero_tol : ℚ)
    (fuel pivots : Nat) (s : LemkeState) (Be dl : VectorNd)
    (hl : s.leaving ≠ 2 * n) (hBe : lemke_entering_column M n s = Be)
    (hsolve : la.solve_fast s.Bl Be = some dl) (hj : lemke_candidates dl PIV_TOL = []) :
    lemke_loop la M n PIV_TOL zero_tol (fuel + 1) pivots s = ⟨false, s.z, pivots⟩ := by
  rw [lemke_loop_succ, if_neg hl, hBe, hsolve]
  simp only []
  rw [if_pos hj]

/-- The attempt without regularization on the zero matrix ends by ray termination. -/
theorem lemke_zero_matrix_ray (la : LinAlg) (z : VectorNd) (piv_tol : ℚ) (rng : Rng)
    (hp : piv_tol ≤ 0) (h1 : la.solve_fast [[1, 0], [1, -1]] [0, 0] = some [0, 0]) :
    (lcp_lemke la [[0, 0], [0, 0]] [-1, -1] z piv_tol (1 / 10 ^ 6) rng).1 =
      ⟨false, [0, 0, 0, 0], 0⟩ := by
  rw [lcp_lemke_loop_form la [[0, 0], [0, 0]] [-1, -1] z piv_tol (1 / 10 ^ 6) rng (by decide)
    (by decide!) (by decide!),
    lemke_piv_tol_auto _ _ _ hp,
    show min 1000 ((50 * ([-1, -1] : VectorNd).length) % 2 ^ 32) = 99 + 1 from by decide,
    show lemke_first_pivot ([-1, -1] : VectorNd).length [] (List.range ([-1, -1] : VectorNd).length)
      (mnegate (identity ([-1, -1] : VectorNd).length)) [-1, -1] =
        ⟨[1, 0], [[1, 0], [1, -1]], [4, 3], 2, [0, 0, 0, 0]⟩ from by decide!,
    lemke_loop_ray la _ _ _ _ 99 0 _ [0, 0] [0, 0] (by decide) (by decide!) h1 (by decide!)]

/-- The attempt on `10^-8 I` succeeds after two pivots. -/
theorem lemke_regularized_run (la : LinAlg) (z : VectorNd) (piv_tol : ℚ) (rng : Rng)
    (hp : piv_tol ≤ 0)
    (h2 : la.solve_fast [[1, 0], [1, -1]] [1 / 10 ^ 8, 0] = some [1 / 10 ^ 8, 1 / 10 ^ 8])
    (h3 : la.solve_fast [[1, 1 / 10 ^ 8], [1, 0]] [0, 1 / 10 ^ 8] = some [1 / 10 ^ 8, -1]) :
    (lcp_lemke la [[1 / 10 ^ 8, 0], [0, 1 / 10 ^ 8]] [-1, -1] z piv_tol (1 / 10 ^ 6) rng).1 =
      ⟨true, [10 ^ 8, 10 ^ 8], 2⟩ := by
  rw [lcp_lemke_loop_form la _ [-1, -1] z piv_tol (1 / 10 ^ 6) rng (by decide)
    (by decide!) (by decide!),
    lemke_piv_tol_auto _ _ _ hp,
    show min 1000 ((50 * ([-1, -1] : VectorNd).length) % 2 ^ 32) = 99 + 1 from by decide,
    show lemke_first_pivot ([-1, -1] : VectorNd).length [] (List.range ([-1, -1] : VectorNd).length)
      (mnegate (identity ([-1, -1] : VectorNd).length)) [-1, -1] =
        ⟨[1, 0], [[1, 0], [1, -1]], [4, 3], 2, [0, 0, 0, 0]⟩ from by decide!,
    lemke_loop_pivot la _ _ _ _ 99 0 _ [1 / 10 ^ 8, 0] [1 / 10 ^ 8, 1 / 10 ^ 8]
      ⟨[1, 0], [[1, 1 / 10 ^ 8], [1, 0]], [4, 0], 3, [0, 0, 0, 0]⟩
      (by decide) (by decide!) h2 (by decide!) (by decide!) (by decide!),
    lemke_loop_pivot la _ _ _ _ 98 _ _ [0, 1 / 10 ^ 8] [1 / 10 ^ 8, -1]
      ⟨[10 ^ 8, 10 ^ 8], [[0, 1 / 10 ^ 8], [1 / 10 ^ 8, 0]], [1, 0], 4, [0, 0, 0, 0]⟩
      (by decide) (by decide!) h3 (by decide!) (by decide!) (by decide!),
    lemke_loop_exit la _ _ _ _ 97 _ _ (by decide)]
  decide!

/-- C12.  On the 2 by 2 zero matrix with `q = [-1, -1]`, `min_exp = -8 ≤ max_exp`,
non-positive `piv_tol` and `zero_tol = 10^-6`, the attempt of `lcp_lemke_regularized`
without regularization fails (ray termination), the attempt with `lambda = 10^-8`
returns `z = [10^8, 10^8]` after two pivots, the candidate passes the verification
and the call returns true with that `z`; the three linear solves of the run are
taken to return the exact solutions. -/
theorem C12_regularized_zero_matrix (la : LinAlg) (NEAR_ZERO : ℚ) (fuel : Nat)
    (z : VectorNd) (step_exp : Nat) (max_exp : Int) (piv_tol : ℚ) (rng : Rng)
    (hfuel : 0 < fuel) (hmax : -8 ≤ max_exp) (hp : piv_tol ≤ 0)
    (h1 : la.solve_fast [[1, 0], [1, -1]] [0, 0] = some [0, 0])
    (h2 : la.solve_fast [[1, 0], [1, -1]] [1 / 10 ^ 8, 0] = some [1 / 10 ^ 8, 1 / 10 ^ 8])
    (h3 : la.solve_fast [[1, 1 / 10 ^ 8], [1, 0]] [0, 1 / 10 ^ 8] = some [1 / 10 ^ 8, -1]) :
    (lcp_lemke la [[0, 0], [0, 0]] [-1, -1] z piv_tol (1 / 10 ^ 6) rng).1.ok = false ∧
    add_diag [[0, 0], [0, 0]] ((10 : ℚ) ^ (-8 : Int)) = [[1 / 10 ^ 8, 0], [0, 1 / 10 ^ 8]] ∧
    (∀ (zin : VectorNd) (rin : Rng),
      (lcp_lemke la (add_diag [[0, 0], [0, 0]] ((10 : ℚ) ^ (-8 : Int))) [-1, -1] zin piv_tol
        (1 / 10 ^ 6) rin).1 = ⟨true, [10 ^ 8, 10 ^ 8], 2⟩) ∧
    (lcp_lemke_regularized la NEAR_ZERO fuel [[0, 0], [0, 0]] [-1, -1] z (-8) step_exp max_exp
      piv_tol (1 / 10 ^ 6) rng).map Prod.fst = .ret (true, [10 ^ 8, 10 ^ 8]) := by
  have hMM : add_diag [[0, 0], [0, 0]] ((10 : ℚ) ^ (-8 : Int)) =
      [[1 / 10 ^ 8, 0], [0, 1 / 10 ^ 8]] := by decide!
  have hZT : wrapper_zero_tol NEAR_ZERO [[0, 0], [0, 0]] [-1, -1] (1 / 10 ^ 6) = 1 / 10 ^ 6 := by
    unfold wrapper_zero_tol
    rw [if_pos (by norm_num)]
  refine ⟨by rw [lemke_zero_matrix_ray la z piv_tol rng hp h1], hMM, ?_, ?_⟩
  · intro zin rin
    rw [hMM]
    exact lemke_regularized_run la zin piv_tol rin hp h2 h3
  · obtain ⟨f, rfl⟩ : ∃ f, fuel = f + 1 := ⟨fuel - 1, by omega⟩
    unfold lcp_lemke_regularized
    simp only []
    rw [if_neg (by decide), lemke_zero_matrix_ray la z piv_tol rng hp h1]
    simp only [Bool.false_and, Bool.false_eq_true, if_false]
    rw [lemke_reg_loop]
    simp only []
    rw [if_pos hmax, hMM, lemke_regularized_run la _ piv_tol _ hp h2 h3, hZT]
    simp only [Bool.true_and]
    rw [if_pos (by decide!)]
    rfl

/-- C12 with the exact solver, three attempts allowed, exponents `-8..0`. -/
theorem C12_regularized_zero_matrix_witness :
    0 < 3 ∧ (-8 : Int) ≤ 0 ∧ (0 : ℚ) ≤ 0 ∧
    (lcp_lemke_regularized exactLA (1 / 2 ^ 26) 3 [[0, 0], [0, 0]] [-1, -1] [] (-8) 1 0
      0 (1 / 10 ^ 6) (fun _ => 0)).map Prod.fst = .ret (true, [10 ^ 8, 10 ^ 8]) :=
  ⟨by decide, by decide, le_refl 0,
    (C12_regularized_zero_matrix exactLA (1 / 2 ^ 26) 3 [] 1 0 0 (fun _ => 0) (by decide)
      (by decide) (le_refl 0) (by decide!) (by decide!) (by decide!)).2.2.2⟩

end LCP


/-! ## C13: a box at the origin and a sphere above it -/

namespace CCD

/-- The contact of the box/sphere path when the sphere does not stand clear of
the box (`d ≤ 0` here): its normal `n` is what `normalize` makes of the box centre
and its point is the sphere centre moved by `r + d` along `n`. -/
theorem box_sphere_scene (NEAR_ZERO : ℚ) (normalize : Vector3d → Vector3d)
    (box sph : CollisionGeometry) (hN : 0 ≤ NEAR_ZERO) (hkb : box.kind = .box)
    (hks : sph.kind = .sphere) (hc : sph.center = ![0, 13 / 10, 0]) (hr : sph.radius = 1 / 2)
    (hd : (box.calc_closest_point (box.from_global sph.center)).1 = 3 / 10) :
    find_contacts NEAR_ZERO normalize box sph =
      [⟨box.id, sph.id, ![0, 13 / 10, 0] + (3 / 10 : ℚ) • normalize box.center,
        normalize box.center⟩] := by
  unfold find_contacts
  rw [hkb, hks]
  simp only []
  unfold find_contacts_box_sphere
  simp only []
  rw [hd, hr, hc]
  have h1 : ¬ ((3 / 10 : ℚ) - 1 / 2 > NEAR_ZERO) := by
    intro h; linarith
  have h2 : ¬ ((3 / 10 : ℚ) - 1 / 2 > 0) := by norm_num
  have h3 : (1 / 2 : ℚ) + min ((3 / 10 : ℚ) - 1 / 2) 0 = 3 / 10 := by
    rw [min_eq_left (by norm_num)]; norm_num
  rw [if_neg h1, if_neg h2, h3]
  rfl

/-- C13 (the code departs from the claim).  For the box `[-1,1]³` centred at the
origin and the sphere of radius `1/2` at `(0, 13/10, 0)`, `find_contacts` takes the
box/sphere path (`d = 3/10 - 1/2 ≤ NEAR_ZERO`) and emits one contact whose normal
is what `Vector3d::normalize` makes of the box centre, the zero vector, and whose
point is the sphere centre moved by `r + d = 3/10` along that normal.  Whatever
`normalize` returns for the zero vector, the contact is not the one with point
`(0, 1, 0)` and normal `(0, 1, 0)`. -/
theorem C13_box_at_origin_zero_normal (normalize : Vector3d → Vector3d) :
    (box_geom 1 0 ![1, 1, 1]).center = 0 ∧
    find_contacts (1 / 2 ^ 26) normalize (box_geom 1 0 ![1, 1, 1])
        (sphere_geom 2 ![0, 13 / 10, 0] (1 / 2)) =
      [⟨1, 2, ![0, 13 / 10, 0] + (3 / 10 : ℚ) • normalize 0, normalize 0⟩] ∧
    find_contacts (1 / 2 ^ 26) normalize (box_geom 1 0 ![1, 1, 1])
        (sphere_geom 2 ![0, 13 / 10, 0] (1 / 2)) ≠
      [⟨1, 2, ![0, 1, 0], ![0, 1, 0]⟩] := by
  have hs := box_sphere_scene (1 / 2 ^ 26) normalize (box_geom 1 0 ![1, 1, 1])
    (sphere_geom 2 ![0, 13 / 10, 0] (1 / 2)) (by norm_num) rfl rfl rfl rfl (by decide!)
  refine ⟨rfl, hs, fun h => ?_⟩
  rw [hs] at h
  simp only [List.cons.injEq, and_true] at h
  have hp := congrArg Contact.point h
  have hn := congrArg Contact.normal h
  simp only [] at hp hn
  rw [hn] at hp
  have := congrFun hp 1
  simp at this
  norm_num at this

end CCD
/-! ## C17: `OBB::calc_sq_dist` -/

namespace OBB

/-- C17 fails on the code.  For the box `[-1,1]³` at the origin and the point
`(5, 0, 0)`, four units away, `calc_sq_dist` returns `0`: the loop returns `0.0` at
the first axis on which the point lies within the extent, instead of adding nothing
for that axis.  For `(-5, -5, -5)` it returns `108` where the squared distance is
`48`: on the negative side the excess is taken as `l_i - point_i`. -/
theorem C17_calc_sq_dist_early_return :
    calc_sq_dist unit_box ![5, 0, 0] = 0 ∧ sq_dist_to_box unit_box ![5, 0, 0] = 16 ∧
    ¬ (|transpose_mult_vec unit_box.R (![5, 0, 0] - unit_box.center) 0| ≤ unit_box.l 0) ∧
    calc_sq_dist unit_box ![-5, -5, -5] = 108 ∧ sq_dist_to_box unit_box ![-5, -5, -5] = 48 := by
  decide!

end OBB


/-! ## `mlcp_keller`: the pivot caps (C15) -/

section KellerTermination
open LCP

theorem length_sift (x : Nat) (acc : List Nat) : (sift x acc).length = acc.length + 1 := by
  induction acc with
  | nil => simp [sift]
  | cons a as ih =>
    simp only [sift]
    split
    · simp [ih]
    · simp

theorem length_foldl_sift (ys acc : List Nat) :
    (ys.foldl (fun acc e => sift e acc) acc).length = acc.length + ys.length := by
  induction ys generalizing acc with
  | nil => simp
  | cons y ys ih =>
    simp only [List.foldl_cons, List.length_cons]
    rw [ih, length_sift]
    omega

theorem length_insertion_sort (xs : List Nat) : (insertion_sort xs).length = xs.length := by
  cases xs with
  | nil => simp [insertion_sort]
  | cons x xs =>
    simp only [insertion_sort]
    have hlen : (((x :: xs).set 0 ((x :: xs).getD (min_element (x :: xs)) x)).set
        (min_element (x :: xs)) x).length = xs.length + 1 := by simp
    split
    · next h => rw [h] at hlen; simp at hlen
    · next y ys h =>
      rw [h] at hlen
      simp only [List.length_reverse, length_foldl_sift]
      simp at hlen ⊢
      omega

theorem keller_thetas_ne_timeout (NEAR_ZERO zero_tol p : ℚ)
    (valpha lalpha ualpha zalpha : VectorNd) (alpha : List Nat) :
    ∀ (is : List Nat) (th : KellerThetas),
      keller_thetas NEAR_ZERO zero_tol p valpha lalpha ualpha zalpha alpha is th ≠ .timeout := by
  intro is
  induction is with
  | nil => intro th; simp [keller_thetas]
  | cons i is ih =>
    intro th
    simp only [keller_thetas]
    split
    · split
      · split
        · exact ih _
        · simp
      · exact ih _
    · split
      · split
        · split
          · exact ih _
          · simp
        · exact ih _
      · exact ih _

theorem compute_z_fill_ne_timeout (l u : VectorNd) (alpha betal betau : List Nat) :
    ∀ (is : List Nat) (z : VectorNd),
      compute_z_fill l u alpha betal betau is z ≠ .timeout := by
  intro is
  induction is with
  | nil => intro z; simp [compute_z_fill]
  | cons i is ih =>
    intro z
    simp only [compute_z_fill]
    split
    · exact ih _
    · split
      · exact ih _
      · split
        · exact ih _
        · simp

theorem compute_z_w_ne_timeout (M : MatrixNd) (q zalpha l u : VectorNd)
    (alpha betal betau : List Nat) (z : VectorNd) :
    compute_z_w M q zalpha l u alpha betal betau z ≠ .timeout := by
  unfold compute_z_w
  split
  · simp
  · simp
  · simp
  · next h => exact absurd h (compute_z_fill_ne_timeout _ _ _ _ _ _ _)

/-- The index bookkeeping of a pivot changes the size of `alpha` by one: up when
the step is `theta0`, down in the three other cases. -/
theorem keller_update_alpha (l u : VectorNd) (s : Nat) (p theta theta0 theta1 : ℚ)
    (th : KellerThetas) (st st1 : KellerState)
    (h : keller_update l u s p theta theta0 theta1 th st = .ret st1) :
    (theta = theta0 ∧ st1.alpha.length = st.alpha.length + 1) ∨
    (theta ≠ theta0 ∧ st1.alpha.length + 1 = st.alpha.length) := by
  unfold keller_update at h
  by_cases h0 : theta = theta0
  · left
    rw [if_pos h0] at h
    split at h
    · simp only [Outcome.ret.injEq] at h
      rw [← h]
      exact ⟨h0, by simp [length_insertion_sort]⟩
    · simp at h
  · right
    rw [if_neg h0] at h
    refine ⟨h0, ?_⟩
    split at h
    · split at h
      · next hlb =>
        split at h
        · simp only [Outcome.ret.injEq] at h
          rw [← h]; simp only [List.length_eraseIdx, if_pos hlb]; omega
        · simp only [Outcome.ret.injEq] at h
          rw [← h]; simp only [List.length_eraseIdx, if_pos hlb]; omega
      · simp at h
    · split at h
      · split at h
        · next hlb =>
          simp only [Outcome.ret.injEq] at h
          rw [← h]; simp only [List.length_eraseIdx, if_pos hlb]; omega
        · simp at h
      · split at h
        · split at h
          · next hlb =>
            simp only [Outcome.ret.injEq] at h
            rw [← h]; simp only [List.length_eraseIdx, if_pos hlb]; omega
          · simp at h
        · simp at h

theorem keller_update_ne_timeout (l u : VectorNd) (s : Nat) (p theta theta0 theta1 : ℚ)
    (th : KellerThetas) (st : KellerState) :
    keller_update l u s p theta theta0 theta1 th st ≠ .timeout := by
  unfold keller_update
  split_ifs <;> simp

theorem keller_redetermine_spec (la : LinAlg) (M : MatrixNd) (q l u : VectorNd) (again : Bool)
    (st : KellerState) :
    keller_redetermine la M q l u again st ≠ .timeout ∧
    (∀ st1, keller_redetermine la M q l u again st = .ret (.again st1) →
      again = true ∧ st1.alpha = st.alpha) ∧
    (∀ st1, keller_redetermine la M q l u again st = .ret (.leave st1) →
      again = false ∧ st1.alpha = st.alpha) := by
  unfold keller_redetermine
  split
  · simp only []
    split
    · split
      · next hag =>
        refine ⟨by simp, ?_, by simp⟩
        intro st1 h
        simp only [Outcome.ret.injEq, Step.again.injEq] at h
        exact ⟨hag, by rw [← h]⟩
      · next hag =>
        refine ⟨by simp, by simp, ?_⟩
        intro st1 h
        simp only [Outcome.ret.injEq, Step.leave.injEq] at h
        exact ⟨by simpa using hag, by rw [← h]⟩
    · simp
    · simp
    · next h => exact absurd h (compute_z_w_ne_timeout _ _ _ _ _ _ _ _ _)
  · simp

/-- One pass of the `do … while` body: it ends, and it shrinks `alpha` by one when
the loop goes on, grows it by one when the loop is left. -/
theorem keller_pivot_spec (la : LinAlg) (NEAR_ZERO : ℚ) (M : MatrixNd) (q l u : VectorNd)
    (zero_tol : ℚ) (s : Nat) (p : ℚ) (st : KellerState) :
    keller_pivot la NEAR_ZERO M q l u zero_tol s p st ≠ .timeout ∧
    (∀ st1, keller_pivot la NEAR_ZERO M q l u zero_tol s p st = .ret (.again st1) →
      st1.alpha.length + 1 = st.alpha.length) ∧
    (∀ st1, keller_pivot la NEAR_ZERO M q l u zero_tol s p st = .ret (.leave st1) →
      st1.alpha.length = st.alpha.length + 1) := by
  unfold keller_pivot
  simp only []
  generalize hth : keller_thetas _ _ _ _ _ _ _ _ _ _ = o
  cases o with
  | ret th =>
    simp only []
    generalize (p * vget _ (min_element (_ : List ℚ))) = theta
    generalize (if _ > NEAR_ZERO then _ else _) = theta0
    generalize (if p > 0 then _ else _) = theta1
    by_cases hray : theta = DBL_MAX ∨ theta = -DBL_MAX
    · rw [if_pos hray]; simp
    · rw [if_neg hray]
      split
      · next st2 hup =>
        have hr := keller_redetermine_spec la M q l u (decide (theta ≠ theta0)) st2
        have ha := keller_update_alpha _ _ _ _ _ _ _ _ _ _ hup
        refine ⟨hr.1, ?_, ?_⟩
        · intro st1 h
          obtain ⟨hag, hal⟩ := hr.2.1 st1 h
          rcases ha with ⟨h0, _⟩ | ⟨_, h1⟩
          · simp [h0] at hag
          · rw [hal]; exact h1
        · intro st1 h
          obtain ⟨hag, hal⟩ := hr.2.2 st1 h
          rcases ha with ⟨_, h1⟩ | ⟨h0, _⟩
          · rw [hal]; exact h1
          · simp [h0] at hag
      · simp
      · simp
      · next h => exact absurd h (keller_update_ne_timeout _ _ _ _ _ _ _ _ _)
  | assertFail => simp
  | undefined => simp
  | timeout => exact absurd hth (keller_thetas_ne_timeout _ _ _ _ _ _ _ _ _ _)

/-- The `do … while` loop ends within `|alpha| + 1` passes and leaves `alpha` at
most one longer. -/
theorem keller_inner_spec (la : LinAlg) (NEAR_ZERO : ℚ) (M : MatrixNd) (q l u : VectorNd)
    (zero_tol : ℚ) (s : Nat) (p : ℚ) :
    ∀ (fuel : Nat) (st : KellerState), st.alpha.length < fuel →
      keller_inner la NEAR_ZERO M q l u zero_tol s p fuel st ≠ .timeout ∧
      (∀ st1, keller_inner la NEAR_ZERO M q l u zero_tol s p fuel st ≠ .ret (.again st1)) ∧
      (∀ st1, keller_inner la NEAR_ZERO M q l u zero_tol s p fuel st = .ret (.leave st1) →
        st1.alpha.length ≤ st.alpha.length + 1) := by
  intro fuel
  induction fuel with
  | zero => intro st h; omega
  | succ fuel ih =>
    intro st hlt
    have hp := keller_pivot_spec la NEAR_ZERO M q l u zero_tol s p st
    rw [keller_inner]
    cases hk : keller_pivot la NEAR_ZERO M q l u zero_tol s p st with
    | ret r =>
      cases r with
      | again st1 =>
        have h1 := hp.2.1 st1 hk
        have := ih st1 (by omega)
        simp only []
        refine ⟨this.1, this.2.1, fun st2 h => ?_⟩
        have := this.2.2 st2 h
        omega
      | leave st1 =>
        have h1 := hp.2.2 st1 hk
        simp only []
        refine ⟨by simp, by simp, fun st2 h => ?_⟩
        simp only [Outcome.ret.injEq, Step.leave.injEq] at h
        rw [← h]; omega
      | result ok z => simp
    | assertFail => simp
    | undefined => simp
    | timeout => exact absurd hk hp.1

/-- The outer loop ends, and it adds at most the passes it has left to the
pivot counter. -/
theorem keller_outer_spec (la : LinAlg) (NEAR_ZERO : ℚ) (M : MatrixNd) (q l u : VectorNd)
    (zero_tol : ℚ) (fuel : Nat) :
    ∀ (left pivots : Nat) (st : KellerState), st.alpha.length + left < fuel →
      keller_outer la NEAR_ZERO M q l u zero_tol fuel left pivots st ≠ .timeout ∧
      (∀ r, keller_outer la NEAR_ZERO M q l u zero_tol fuel left pivots st = .ret r →
        r.pivots ≤ pivots + left) := by
  intro left
  induction left with
  | zero =>
    intro pivots st _
    simp only [keller_outer]
    refine ⟨by simp, fun r h => ?_⟩
    simp only [Outcome.ret.injEq] at h
    rw [← h]; simp
  | succ left ih =>
    intro pivots st hlt
    rw [keller_outer]
    simp only []
    split
    · split
      · refine ⟨by simp, fun r h => ?_⟩
        simp only [Outcome.ret.injEq] at h
        rw [← h]; simp
      · simp
      · simp
      · next h => exact absurd h (compute_z_w_ne_timeout _ _ _ _ _ _ _ _ _)
    · split
      · simp
      · have hin := keller_inner_spec la NEAR_ZERO M q l u zero_tol
          (keller_select st.w (keller_sl st.w st.betal UINT_MAX DBL_MAX).1
            (keller_su st.w st.betau UINT_MAX (-DBL_MAX)).1)
          (-sgn NEAR_ZERO (vget st.w (keller_select st.w
            (keller_sl st.w st.betal UINT_MAX DBL_MAX).1
            (keller_su st.w st.betau UINT_MAX (-DBL_MAX)).1))) fuel st (by omega)
        split
        · next st1 h =>
          have h1 := hin.2.2 st1 h
          have := ih (pivots + 1) st1 (by omega)
          refine ⟨this.1, fun r hr => ?_⟩
          have := this.2 r hr
          omega
        · next st1 h => exact absurd h (hin.2.1 st1)
        · refine ⟨by simp, fun r h => ?_⟩
          simp only [Outcome.ret.injEq] at h
          rw [← h]; simp
        · simp
        · simp
        · next h => exact absurd h hin.1

theorem keller_setup_alpha (l u : VectorNd) (is : List Nat) :
    (keller_setup l u is).1.length ≤ is.length := by
  induction is with
  | nil => simp [keller_setup]
  | cons i is ih =>
    simp only [keller_setup]
    split_ifs
    · simp only [List.length_cons]; omega
    · simp only [List.length_cons]; omega
    · simp only [List.length_cons]; omega

end KellerTermination

namespace LCP

/-- C15.  `mlcp_keller` terminates on every input: as soon as the passes allowed to
each `do … while` loop exceed `3n` (the loop never needs more, `alpha` losing an
index at every pass that does not end it), the call ends, by a return or by a
failed assertion; a returned pivot counter is at most `2n`, and when no pass of the
outer loop is left the function returns false. -/
theorem C15_keller_terminates (la : LinAlg) (NEAR_ZERO : ℚ) (fuel : Nat) (M : MatrixNd)
    (q l u z : VectorNd) (zero_tol : ℚ) (hfuel : 3 * q.length < fuel) :
    mlcp_keller la NEAR_ZERO fuel M q l u z zero_tol ≠ .timeout ∧
    (∀ r, mlcp_keller la NEAR_ZERO fuel M q l u z zero_tol = .ret r →
      r.pivots ≤ 2 * q.length) ∧
    (∀ (zt : ℚ) (pivots : Nat) (st : KellerState),
      keller_outer la NEAR_ZERO M q l u zt fuel 0 pivots st = .ret ⟨false, st.z, pivots⟩) := by
  refine ⟨?_, ?_, fun _ _ _ => rfl⟩
  all_goals
    unfold mlcp_keller
    simp only []
    split
    · simp
    · have hs := keller_setup_alpha l u (List.range q.length)
      rcases hks : keller_setup l u (List.range q.length) with ⟨alpha, beta, betal, betau⟩
      rw [hks] at hs
      simp only [List.length_range] at hs
      simp only []
      split
      · generalize hcz : compute_z_w _ _ _ _ _ _ _ _ _ = o
        cases o with
        | ret zw =>
          obtain ⟨z1, w⟩ := zw
          simp only []
          have hmod : (2 * q.length) % 2 ^ 32 ≤ 2 * q.length := Nat.mod_le _ _
          have := keller_outer_spec la NEAR_ZERO M q l u
            (if zero_tol < 0 then (M.length : ℚ) * norm_inf M * DBL_EPSILON else zero_tol) fuel
            ((2 * q.length) % 2 ^ 32) 0 ⟨alpha, beta, betal, betau,
              la.solve_LU_fast (select_square M alpha) (vneg (vselect q alpha)), z1, w⟩
            (by simp only []; omega)
          first
            | exact this.1
            | (intro r hr; have := this.2 r hr; omega)
        | assertFail => simp
        | undefined => simp
        | timeout => exact absurd hcz (compute_z_w_ne_timeout _ _ _ _ _ _ _ _ _)
      · simp

/-- C15 at `M = [[2, 1], [1, 2]]`, `q = (-1, -2)`, `l = 0`, `u = DBL_MAX`,
`zero_tol = 2^-20`, seven passes allowed to the inner loop: the call returns true
with `z = (0, 1)` after one pivot. -/
theorem C15_keller_terminates_witness :
    3 * ([-1, -2] : VectorNd).length < 7 ∧
    mlcp_keller exactLA (1 / 2 ^ 26) 7 [[2, 1], [1, 2]] [-1, -2] [0, 0] [DBL_MAX, DBL_MAX] []
      (1 / 2 ^ 20) = .ret ⟨true, [0, 1], 1⟩ ∧
    (mlcp_keller exactLA (1 / 2 ^ 26) 7 [[2, 1], [1, 2]] [-1, -2] [0, 0] [DBL_MAX, DBL_MAX] []
      (1 / 2 ^ 20) ≠ .timeout ∧
    (∀ r, mlcp_keller exactLA (1 / 2 ^ 26) 7 [[2, 1], [1, 2]] [-1, -2] [0, 0]
        [DBL_MAX, DBL_MAX] [] (1 / 2 ^ 20) = .ret r → r.pivots ≤ 2 * ([-1, -2] : VectorNd).length) ∧
    (∀ (zt : ℚ) (pivots : Nat) (st : KellerState),
      keller_outer exactLA (1 / 2 ^ 26) [[2, 1], [1, 2]] [-1, -2] [0, 0] [DBL_MAX, DBL_MAX] zt 7
        0 pivots st = .ret ⟨false, st.z, pivots⟩)) :=
  ⟨by decide, by decide!,
    C15_keller_terminates exactLA (1 / 2 ^ 26) 7 [[2, 1], [1, 2]] [-1, -2] [0, 0]
      [DBL_MAX, DBL_MAX] [] (1 / 2 ^ 20) (by decide)⟩

end LCP


/-! ## `mlcp_keller` on concrete problems (C18, C19, C20) -/

namespace LCP

/-- A pass of the `do … while` loop is its first half followed by the
redetermination of `z`. -/
theorem keller_pivot_eq (la : LinAlg) (NEAR_ZERO : ℚ) (M : MatrixNd) (q l u : VectorNd)
    (zero_tol : ℚ) (s : Nat) (p : ℚ) (st : KellerState) :
    keller_pivot la NEAR_ZERO M q l u zero_tol s p st =
      match keller_pivot_update la NEAR_ZERO M l u zero_tol s p st with
      | .ret none => .ret (.result false st.z)
      | .ret (some (again, st1)) => keller_redetermine la M q l u again st1
      | .assertFail => .assertFail
      | .undefined => .undefined
      | .timeout => .timeout := by
  unfold keller_pivot keller_pivot_update
  simp only []
  generalize keller_thetas _ _ _ _ _ _ _ _ _ _ = o
  cases o with
  | ret th =>
    simp only []
    generalize (p * vget _ (min_element (_ : List ℚ))) = theta
    generalize (if _ > NEAR_ZERO then _ else _) = theta0
    generalize (if p > 0 then _ else _) = theta1
    by_cases hray : theta = DBL_MAX ∨ theta = -DBL_MAX
    · rw [if_pos hray, if_pos hray]
    · rw [if_neg hray, if_neg hray]
      generalize keller_update _ _ _ _ _ _ _ _ _ = o2
      cases o2 <;> rfl
  | assertFail => rfl
  | undefined => rfl
  | timeout => rfl

/-- `mlcp_keller` is the outer loop started from `keller_initial`. -/
theorem mlcp_keller_eq (la : LinAlg) (NEAR_ZERO : ℚ) (fuel : Nat) (M : MatrixNd)
    (q l u z : VectorNd) (zero_tol : ℚ) (hN : q.length ≠ 0)
    (hf : la.factor_LU (select_square M (keller_setup l u (List.range q.length)).1) = true) :
    mlcp_keller la NEAR_ZERO fuel M q l u z zero_tol =
      match keller_initial la M q l u z with
      | .ret st =>
        keller_outer la NEAR_ZERO M q l u
          (if zero_tol < 0 then (M.length : ℚ) * norm_inf M * DBL_EPSILON else zero_tol) fuel
          ((2 * q.length) % 2 ^ 32) 0 st
      | .assertFail => .assertFail
      | .undefined => .undefined
      | .timeout => .timeout := by
  unfold mlcp_keller keller_initial
  simp only []
  rw [if_neg hN]
  rcases hks : keller_setup l u (List.range q.length) with ⟨alpha, beta, betal, betau⟩
  rw [hks] at hf
  simp only [] at hf ⊢
  rw [if_pos hf]
  generalize compute_z_w _ _ _ _ _ _ _ _ _ = o
  cases o <;> rfl

/-- C18 fails on the code.  For `M = I` (2 by 2), `q = (-1, -1)`, `l = (0, -DBL_MAX)`,
`u = (DBL_MAX, 0)`, `zero_tol = 0` the loop is entered with `alpha = []`,
`beta = [0, 1]`, `betal = [0]`, `betau = [1]`, a partition; the first pivot is on
`s = 0` with step `theta0`, and its bookkeeping erases from `betau` the element at
`lower_bound(betau, 0)`, which is the index `1`: `z` is redetermined with
`alpha = [0]`, `beta = [1]`, `betal = []`, `betau = []`, the index `1` in `beta` but
in neither bound set, and the assertion of `compute_z_w` fails. -/
theorem C18_keller_partition_broken :
    keller_initial exactLA [[1, 0], [0, 1]] [-1, -1] [0, -DBL_MAX] [DBL_MAX, 0] [] =
      .ret ⟨[], [0, 1], [0], [1], [], [0, 0], [-1, -1]⟩ ∧
    keller_partition 2 ⟨[], [0, 1], [0], [1], [], [0, 0], [-1, -1]⟩ ∧
    keller_violating_index ⟨[], [0, 1], [0], [1], [], [0, 0], [-1, -1]⟩ = 0 ∧
    -sgn (1 / 2 ^ 26) (vget [-1, -1] 0) = 1 ∧
    keller_pivot_update exactLA (1 / 2 ^ 26) [[1, 0], [0, 1]] [0, -DBL_MAX] [DBL_MAX, 0] 0 0 1
        ⟨[], [0, 1], [0], [1], [], [0, 0], [-1, -1]⟩ =
      .ret (some (false, ⟨[0], [1], [], [], [], [0, 0], [0, -1]⟩)) ∧
    ¬ keller_partition 2 ⟨[0], [1], [], [], [], [0, 0], [0, -1]⟩ ∧
    mlcp_keller exactLA (1 / 2 ^ 26) 8 [[1, 0], [0, 1]] [-1, -1] [0, -DBL_MAX] [DBL_MAX, 0] [] 0
      = .assertFail := by
  decide!

/-- C19 fails on the code.  For `M = I` (2 by 2), `q = (-2, 0)`, `l = (0, -DBL_MAX)`,
`u = (1, DBL_MAX)`, `zero_tol = 0` the loop is entered with `alpha = [1]`,
`beta = betal = [0]`, `betau = []`; the pivot on `s = 0` with `p = 1` has the step
`theta1 = u_0 - z_0 = 1` (`theta0 = 2`), and its bookkeeping erases the index `1`
from `alpha`, appends `s` to `beta` a second time and to `betau` without taking it
out of `betal`: `alpha = []`, `beta = [0, 0]`, `betal = [0]`, `betau = [0]`.  The
call then ends on the assertion of `compute_z_w`.  For `M = [[1]]`, `q = (-2)`,
`l = (0)`, `u = (1)`, where `alpha` is empty, the assertion
`lower_bound(alpha, s) != alpha.end()` of the `theta1` case fails. -/
theorem C19_keller_theta1_step :
    keller_initial exactLA [[1, 0], [0, 1]] [-2, 0] [0, -DBL_MAX] [1, DBL_MAX] [] =
      .ret ⟨[1], [0], [0], [], [0], [0, 0], [-2, 0]⟩ ∧
    keller_violating_index ⟨[1], [0], [0], [], [0], [0, 0], [-2, 0]⟩ = 0 ∧
    -sgn (1 / 2 ^ 26) (vget [-2, 0] 0) = 1 ∧
    keller_pivot_update exactLA (1 / 2 ^ 26) [[1, 0], [0, 1]] [0, -DBL_MAX] [1, DBL_MAX] 0 0 1
        ⟨[1], [0], [0], [], [0], [0, 0], [-2, 0]⟩ =
      .ret (some (true, ⟨[], [0, 0], [0], [0], [0], [1, 0], [0, 0]⟩)) ∧
    mlcp_keller exactLA (1 / 2 ^ 26) 8 [[1, 0], [0, 1]] [-2, 0] [0, -DBL_MAX] [1, DBL_MAX] [] 0
      = .assertFail ∧
    keller_initial exactLA [[1]] [-2] [0] [1] [] = .ret ⟨[], [0], [0], [], [], [0], [-2]⟩ ∧
    keller_pivot_update exactLA (1 / 2 ^ 26) [[1]] [0] [1] 0 0 1
        ⟨[], [0], [0], [], [], [0], [-2]⟩ = .assertFail ∧
    mlcp_keller exactLA (1 / 2 ^ 26) 8 [[1]] [-2] [0] [1] [] 0 = .assertFail := by
  decide!

/-- C20 fails on the code.  For `M = [[1]]`, `q = (0)`, `l = (0)`, `u = (DBL_MAX)`,
`zero_tol = 0` the loop is entered with `z = (0)`, `w = (0)`; the success test
`wplus_min > -zero_tol` fails, `s = 0` is selected and `p = -sgn(0) = 0`: the
assertion `p != 0.0` fails.  The same happens for `q = (-2^-30)` with
`zero_tol = 2^-40`, where `w_s` is a violation smaller than `NEAR_ZERO`. -/
theorem C20_keller_zero_direction :
    keller_initial exactLA [[1]] [0] [0] [DBL_MAX] [] = .ret ⟨[], [0], [0], [], [], [0], [0]⟩ ∧
    ¬ ((keller_su [0] [] UINT_MAX (-DBL_MAX)).2 < 0 ∧
        (keller_sl [0] [0] UINT_MAX DBL_MAX).2 > -(0 : ℚ)) ∧
    keller_violating_index ⟨[], [0], [0], [], [], [0], [0]⟩ = 0 ∧
    -sgn (1 / 2 ^ 26) (vget [0] 0) = 0 ∧
    mlcp_keller exactLA (1 / 2 ^ 26) 8 [[1]] [0] [0] [DBL_MAX] [] 0 = .assertFail ∧
    keller_initial exactLA [[1]] [-1 / 2 ^ 30] [0] [DBL_MAX] [] =
      .ret ⟨[], [0], [0], [], [], [0], [-1 / 2 ^ 30]⟩ ∧
    -sgn (1 / 2 ^ 26) (vget [-1 / 2 ^ 30] 0) = 0 ∧
    mlcp_keller exactLA (1 / 2 ^ 26) 8 [[1]] [-1 / 2 ^ 30] [0] [DBL_MAX] [] (1 / 2 ^ 40)
      = .assertFail := by
  decide!

end LCP


/-! ## The pivot rule of Lemke's algorithm (C23 – C26) -/

namespace LCP

theorem lemke_filter_ne_nil (j : List Nat) (rs : List ℚ) (theta : ℚ) (k : Nat)
    (hk : k < j.length) (hk2 : k < rs.length) (h : vget rs k ≤ theta) :
    lemke_filter j rs theta ≠ [] := by
  induction j generalizing rs k with
  | nil => simp at hk
  | cons a js ih =>
    cases rs with
    | nil => simp at hk2
    | cons r rs =>
      simp only [lemke_filter]
      split
      · simp
      · next hr =>
        cases k with
        | zero => exact absurd h hr
        | succ k =>
          exact ih rs k (by simpa using hk) (by simpa using hk2) h

theorem vget_zipWith_div (a b : VectorNd) (k : Nat) (ha : k < a.length) (hb : k < b.length) :
    vget (List.zipWith (· / ·) a b) k = vget a k / vget b k := by
  rw [vget_eq_getElem _ _ (by simp [ha, hb]), vget_eq_getElem _ _ ha, vget_eq_getElem _ _ hb]
  simp

theorem vget_vselect (v : VectorNd) (j : List Nat) (k : Nat) (hk : k < j.length) :
    vget (vselect v j) k = vget v (j.get ⟨k, hk⟩) := by
  rw [vget_eq_getElem _ _ (by simpa [vselect] using hk)]
  simp [vselect]

/-- The minimum ratio test never empties a non-empty candidate list when the two
tolerances are non-negative: the index at which `(x_k + zero_tol)/d_k` is least
passes it. -/
theorem lemke_ratio_test_ne_nil (PIV_TOL zero_tol : ℚ) (s : LemkeState) (dl : VectorNd)
    (hP : 0 ≤ PIV_TOL) (hZ : 0 ≤ zero_tol) (hj : lemke_candidates dl PIV_TOL ≠ []) :
    lemke_ratio_test PIV_TOL zero_tol s dl ≠ [] := by
  unfold lemke_ratio_test
  have hlen : 0 < (lemke_candidates dl PIV_TOL).length := List.length_pos.mpr hj
  have hres : (List.zipWith (· / ·)
      ((vselect s.x (lemke_candidates dl PIV_TOL)).map (fun v => v + zero_tol))
      (vselect dl (lemke_candidates dl PIV_TOL))).length = (lemke_candidates dl PIV_TOL).length := by
    simp [vselect]
  have hne : List.zipWith (· / ·)
      ((vselect s.x (lemke_candidates dl PIV_TOL)).map (fun v => v + zero_tol))
      (vselect dl (lemke_candidates dl PIV_TOL)) ≠ [] := by
    intro h; rw [h] at hres; simp at hres; omega
  have hk := (min_element_spec _ hne).1
  rw [hres] at hk
  refine lemke_filter_ne_nil _ _ _ _ hk (by simpa [vselect] using hk) ?_
  have hsel : ((vselect s.x (lemke_candidates dl PIV_TOL)).map (fun v => v + zero_tol)).length
      = (lemke_candidates dl PIV_TOL).length := by simp [vselect]
  have hsel2 : (vselect dl (lemke_candidates dl PIV_TOL)).length
      = (lemke_candidates dl PIV_TOL).length := by simp [vselect]
  have hsel3 : (vselect s.x (lemke_candidates dl PIV_TOL)).length
      = (lemke_candidates dl PIV_TOL).length := by simp [vselect]
  rw [vget_zipWith_div _ _ _ (by omega) (by omega), vget_zipWith_div _ _ _ (by omega) (by omega)]
  have hd : 0 < vget (vselect dl (lemke_candidates dl PIV_TOL))
      (min_element (List.zipWith (· / ·)
        ((vselect s.x (lemke_candidates dl PIV_TOL)).map (fun v => v + zero_tol))
        (vselect dl (lemke_candidates dl PIV_TOL)))) := by
    rw [vget_vselect _ _ _ hk]
    have := mem_lemke_candidates dl PIV_TOL _ (List.get_mem _ _ hk)
    exact lt_of_le_of_lt hP this.2
  have hx : vget ((vselect s.x (lemke_candidates dl PIV_TOL)).map (fun v => v + zero_tol))
      (min_element (List.zipWith (· / ·)
        ((vselect s.x (lemke_candidates dl PIV_TOL)).map (fun v => v + zero_tol))
        (vselect dl (lemke_candidates dl PIV_TOL)))) =
      vget (vselect s.x (lemke_candidates dl PIV_TOL))
        (min_element (List.zipWith (· / ·)
          ((vselect s.x (lemke_candidates dl PIV_TOL)).map (fun v => v + zero_tol))
          (vselect dl (lemke_candidates dl PIV_TOL)))) + zero_tol := by
    rw [vget_eq_getElem _ _ (by omega), vget_eq_getElem _ _ (by omega)]
    simp
  rw [hx]
  exact div_le_div_of_nonneg_right (by linarith) (le_of_lt hd)

theorem lemke_piv_tol_nonneg (M : MatrixNd) (n : Nat) (piv_tol : ℚ) :
    0 ≤ lemke_piv_tol M n piv_tol := by
  unfold lemke_piv_tol
  split
  · next h => exact le_of_lt h
  · exact mul_nonneg (mul_nonneg (by unfold DBL_EPSILON; positivity) (Nat.cast_nonneg _))
      (le_trans zero_le_one (le_max_left _ _))

/-- C26.  In the dense `lcp_lemke`, with the tolerances `PIV_TOL` and `zero_tol` the
function works with (for any arguments `piv_tol`, `zero_tol`), the list `_j` is not
empty after the ratio filter whenever it was not empty before: the branch
`if (_j.empty())` behind the filter is never taken, and a main-loop pass whose
linear solve returns `dl` with some `dl_i > PIV_TOL` goes on to the pivot. -/
theorem C26_ratio_filter_nonempty (la : LinAlg) (M : MatrixNd) (n : Nat) (piv_tol zero_tol : ℚ)
    (fuel pivots : Nat) (s : LemkeState) (dl : VectorNd)
    (hl : s.leaving ≠ 2 * n)
    (hsolve : la.solve_fast s.Bl (lemke_entering_column M n s) = some dl)
    (hj : lemke_candidates dl (lemke_piv_tol M n piv_tol) ≠ []) :
    lemke_ratio_test (lemke_piv_tol M n piv_tol) (lemke_zero_tol M n zero_tol) s dl ≠ [] ∧
    lemke_loop la M n (lemke_piv_tol M n piv_tol) (lemke_zero_tol M n zero_tol) (fuel + 1)
        pivots s =
      lemke_loop la M n (lemke_piv_tol M n piv_tol) (lemke_zero_tol M n zero_tol) fuel
        (pivots + 1)
        (lemke_pivot M n s dl (lemke_lvindex n s
          (lemke_ratio_test (lemke_piv_tol M n piv_tol) (lemke_zero_tol M n zero_tol) s dl)))
      := by
  have h := lemke_ratio_test_ne_nil (lemke_piv_tol M n piv_tol) (lemke_zero_tol M n zero_tol)
    s dl (lemke_piv_tol_nonneg _ _ _) (lemke_zero_tol_nonneg _ _ _) hj
  exact ⟨h, lemke_loop_pivot la M n _ _ fuel pivots s _ dl _ hl rfl hsolve hj h rfl⟩

theorem C26_ratio_filter_nonempty_witness :
    (⟨[3], [[1]], [2], 1, [0, 0]⟩ : LemkeState).leaving ≠ 2 * 1 ∧
    exactLA.solve_fast (⟨[3], [[1]], [2], 1, [0, 0]⟩ : LemkeState).Bl
      (lemke_entering_column [[2]] 1 ⟨[3], [[1]], [2], 1, [0, 0]⟩) = some [2] ∧
    lemke_candidates [2] (lemke_piv_tol [[2]] 1 0) ≠ [] ∧
    lemke_ratio_test (lemke_piv_tol [[2]] 1 0) (lemke_zero_tol [[2]] 1 0)
      ⟨[3], [[1]], [2], 1, [0, 0]⟩ [2] ≠ [] :=
  ⟨by decide, by decide!, by decide!,
    (C26_ratio_filter_nonempty exactLA [[2]] 1 0 0 49 0 ⟨[3], [[1]], [2], 1, [0, 0]⟩ [2]
      (by decide) (by decide!) (by decide!)).1⟩

/-- C24 (the claim fails). With a linear algebra service that reports every
system singular, `lcp_lemke` on `M = (2)`, `q = (-3)` reaches the solve for the
pivot column in its first iteration and returns `false` there, with no pivot
made and the zero vector of size `2n` in `z`: it neither reinitializes the basis
nor continues. -/
theorem C24_counterexample :
    singularLA.solve_fast [[1]] (lemke_entering_column [[2]] 1 ⟨[3], [[1]], [2], 1, [0, 0]⟩)
      = none ∧
    (lcp_lemke singularLA [[2]] [-3] [] 0 0 (fun _ => 0)).1 = ⟨false, [0, 0], 0⟩ := by
  decide!

/-- C24 (amended). When the solve for the pivot column in an iteration of the
main loop of `lcp_lemke` reports a singular basis, the solver returns `false` at
once, with `z` as it stands and the number of pivots made so far. -/
theorem C24_singular_returns_false (la : LinAlg) (M : MatrixNd) (n : Nat) (PIV_TOL zero_tol : ℚ)
    (fuel pivots : Nat) (s : LemkeState) (hl : s.leaving ≠ 2 * n)
    (hs : la.solve_fast s.Bl (lemke_entering_column M n s) = none) :
    lemke_loop la M n PIV_TOL zero_tol (fuel + 1) pivots s = ⟨false, s.z, pivots⟩ := by
  unfold lemke_entering_column at hs
  rw [lemke_loop]
  simp only []
  rw [if_neg hl, hs]

theorem C24_singular_returns_false_witness :
    lemke_loop singularLA [[2]] 1 (lemke_piv_tol [[2]] 1 0) (lemke_zero_tol [[2]] 1 0) (49 + 1) 0
      ⟨[3], [[1]], [2], 1, [0, 0]⟩ = ⟨false, [0, 0], 0⟩ :=
  C24_singular_returns_false singularLA [[2]] 1 _ _ 49 0 ⟨[3], [[1]], [2], 1, [0, 0]⟩
    (by decide) rfl

/-- C23 (the claim fails). For the input `z = (1)` with `M = (2)`, `q = (-3)` the
indices with `z_i > 0` are `{0}`, but `lcp_lemke` zeroes `z` before it reads it:
its initial set of basic `z`-variables is empty and the initial basis is the
all-`w` basis `-I`. -/
theorem C23_counterexample :
    (List.range 1).filter (fun i => decide (vget [1] i > 0)) = [0] ∧
    (lemke_initial_basis ([-3] : VectorNd).length (vzero ([1] : VectorNd).length)
      (fun _ => 0)).1 = [] ∧
    (lemke_initial_values exactLA [[2]] [-3] 1 [] (List.range 1) (fun _ => 0)).2.2.1
      = mnegate (identity 1) ∧
    (lcp_lemke exactLA [[2]] [-3] [1] 0 0 (fun _ => 0)).1 =
      (lcp_lemke exactLA [[2]] [-3] [] 0 0 (fun _ => 0)).1 := by
  decide!

/-- C23 (amended). The dense `lcp_lemke` never warm-starts: it sets the input `z`
to zero first, so for every input the initial set of basic `z`-variables is empty,
the initial basis is the all-`w` basis `-I` with values `q`, and the result is the
one for an empty `z`. -/
theorem C23_no_warm_start (la : LinAlg) (M : MatrixNd) (q z : VectorNd)
    (piv_tol zero_tol : ℚ) (rng : Rng) :
    (lemke_initial_basis q.length (vzero z.length) rng).1 = [] ∧
    (lemke_initial_basis q.length (vzero z.length) rng).2.1 = List.range q.length ∧
    (lemke_initial_values la M q q.length [] (List.range q.length) rng).2.2 =
      (mnegate (identity q.length), q, rng) ∧
    (lcp_lemke la M q z piv_tol zero_tol rng).1 =
      (lcp_lemke la M q [] piv_tol zero_tol (fun _ => 0)).1 :=
  ⟨(lemke_initial_basis_zero _ _ _).1, (lemke_initial_basis_zero _ _ _).2, rfl,
    lcp_lemke_canonical la M q z piv_tol zero_tol rng⟩

end LCP
/-! ## The leaving variable of a pivot (C25) -/

namespace LCP

theorem lemke_filter_sublist (j : List Nat) (rs : List ℚ) (theta : ℚ) :
    (lemke_filter j rs theta).Sublist j := by
  induction j generalizing rs with
  | nil => simp [lemke_filter]
  | cons a js ih =>
    cases rs with
    | nil => simp [lemke_filter]
    | cons r rs =>
      simp only [lemke_filter]
      split
      · exact (ih rs).cons₂ a
      · exact (ih rs).cons a

theorem lemke_ratio_test_sorted (PIV_TOL zero_tol : ℚ) (s : LemkeState) (dl : VectorNd) :
    (lemke_ratio_test PIV_TOL zero_tol s dl).Pairwise (· < ·) := by
  unfold lemke_ratio_test
  refine List.Pairwise.sublist (lemke_filter_sublist _ _ _) ?_
  unfold lemke_candidates
  exact List.Pairwise.sublist (List.filter_sublist _) (List.pairwise_lt_range _)

theorem headD_le_of_sorted (l : List Nat) (h : l.Pairwise (· < ·)) :
    ∀ i ∈ l, l.headD 0 ≤ i := by
  cases l with
  | nil => simp
  | cons a l =>
    intro i hi
    rw [List.pairwise_cons] at h
    rcases List.mem_cons.1 hi with rfl | hi
    · exact le_refl _
    · exact le_of_lt (h.1 i hi)

/-- C25 (the claim fails). For `M = ((1,1),(1,2))`, `q = (-1,-2)` the first
iteration of the main loop of `lcp_lemke` has the state `x = (1,2)`,
`bas = (2,4)` and the direction `dl = (1,2)`. Both basis positions pass the
minimum ratio test, and the code lets the artificial variable `4` at position
`1` leave, not the first candidate, position `0`. -/
theorem C25_counterexample :
    lemke_first_pivot 2 [] (List.range 2) (mnegate (identity 2)) [-1, -2] =
      ⟨[1, 2], [[-1, 1], [0, 1]], [2, 4], 3, [0, 0, 0, 0]⟩ ∧
    exactLA.solve_fast [[-1, 1], [0, 1]]
      (lemke_entering_column [[1, 1], [1, 2]] 2
        ⟨[1, 2], [[-1, 1], [0, 1]], [2, 4], 3, [0, 0, 0, 0]⟩) = some [1, 2] ∧
    lemke_ratio_test (lemke_piv_tol [[1, 1], [1, 2]] 2 0) (lemke_zero_tol [[1, 1], [1, 2]] 2 0)
      ⟨[1, 2], [[-1, 1], [0, 1]], [2, 4], 3, [0, 0, 0, 0]⟩ [1, 2] = [0, 1] ∧
    lemke_lvindex 2 ⟨[1, 2], [[-1, 1], [0, 1]], [2, 4], 3, [0, 0, 0, 0]⟩ [0, 1] = 1 ∧
    (lcp_lemke exactLA [[1, 1], [1, 2]] [-1, -2] [] 0 0 (fun _ => 0)).1 = ⟨true, [0, 1], 1⟩ := by
  decide!

/-- C25 (amended). In every pivot of the dense `lcp_lemke` the leaving variable
is one of the candidates that pass the minimum ratio test: the artificial
variable `2n` whenever it is among them, and otherwise the first candidate, the
one at the lowest basis position. -/
theorem C25_leaving_variable (n : Nat) (PIV_TOL zero_tol : ℚ) (s : LemkeState) (dl : VectorNd)
    (hnd : s.bas.Nodup) (hlen : dl.length ≤ s.bas.length)
    (hj2 : lemke_ratio_test PIV_TOL zero_tol s dl ≠ []) :
    lemke_lvindex n s (lemke_ratio_test PIV_TOL zero_tol s dl) ∈
      lemke_ratio_test PIV_TOL zero_tol s dl ∧
    (2 * n ∈ (lemke_ratio_test PIV_TOL zero_tol s dl).map (fun i => s.bas.getD i 0) →
      s.bas.getD (lemke_lvindex n s (lemke_ratio_test PIV_TOL zero_tol s dl)) 0 = 2 * n) ∧
    (2 * n ∉ (lemke_ratio_test PIV_TOL zero_tol s dl).map (fun i => s.bas.getD i 0) →
      ∀ i ∈ lemke_ratio_test PIV_TOL zero_tol s dl,
        lemke_lvindex n s (lemke_ratio_test PIV_TOL zero_tol s dl) ≤ i) := by
  have hlt : ∀ i ∈ lemke_ratio_test PIV_TOL zero_tol s dl, i < s.bas.length := by
    intro i hi
    have h1 := mem_lemke_filter _ _ _ _ hi
    exact lt_of_lt_of_le (mem_lemke_candidates _ _ _ h1).1 hlen
  have hidx : 2 * n ∈ (lemke_ratio_test PIV_TOL zero_tol s dl).map (fun i => s.bas.getD i 0) →
      s.bas.indexOf (2 * n) ∈ lemke_ratio_test PIV_TOL zero_tol s dl ∧
        s.bas.getD (s.bas.indexOf (2 * n)) 0 = 2 * n := by
    intro h
    obtain ⟨i, hi, he⟩ := List.mem_map.1 h
    have he2 : s.bas.getD i 0 = 2 * n := he
    rw [← he2, indexOf_getD _ _ hnd (hlt i hi)]
    exact ⟨hi, rfl⟩
  unfold lemke_lvindex
  by_cases ht : 2 * n ∈ (lemke_ratio_test PIV_TOL zero_tol s dl).map (fun i => s.bas.getD i 0)
  · rw [if_pos ht]
    exact ⟨(hidx ht).1, fun _ => (hidx ht).2, fun h => absurd ht h⟩
  · rw [if_neg ht]
    exact ⟨headD_mem _ hj2, fun h => absurd h ht,
      fun _ => headD_le_of_sorted _ (lemke_ratio_test_sorted _ _ _ _)⟩

theorem C25_leaving_variable_witness :
    lemke_lvindex 2 ⟨[1, 2], [[-1, 1], [0, 1]], [2, 4], 3, [0, 0, 0, 0]⟩
        (lemke_ratio_test (lemke_piv_tol [[1, 1], [1, 2]] 2 0)
          (lemke_zero_tol [[1, 1], [1, 2]] 2 0)
          ⟨[1, 2], [[-1, 1], [0, 1]], [2, 4], 3, [0, 0, 0, 0]⟩ [1, 2]) ∈
      lemke_ratio_test (lemke_piv_tol [[1, 1], [1, 2]] 2 0)
        (lemke_zero_tol [[1, 1], [1, 2]] 2 0)
        ⟨[1, 2], [[-1, 1], [0, 1]], [2, 4], 3, [0, 0, 0, 0]⟩ [1, 2] :=
  (C25_leaving_variable 2 _ _ ⟨[1, 2], [[-1, 1], [0, 1]], [2, 4], 3, [0, 0, 0, 0]⟩ [1, 2]
    (by decide) (by decide) (by decide!)).1

end LCP
/-! ## The wrapper on a non-negative `q` (C21) -/

namespace LCP

theorem vget_of_all (P : ℚ → Prop) (v : VectorNd) (h0 : P 0) (h : ∀ x ∈ v, P x) (i : Nat) :
    P (vget v i) := by
  by_cases hi : i < v.length
  · rw [vget_eq_getElem _ _ hi]
    exact h _ (List.getElem_mem _)
  · rw [vget_of_le _ _ (by omega)]
    exact h0

theorem mem_zipWith_elim (f : ℚ → ℚ → ℚ) (a b : List ℚ) (x : ℚ)
    (h : x ∈ List.zipWith f a b) : ∃ u ∈ a, ∃ v ∈ b, x = f u v := by
  induction a generalizing b with
  | nil => simp at h
  | cons u a ih =>
    cases b with
    | nil => simp at h
    | cons v b =>
      rw [List.zipWith_cons_cons, List.mem_cons] at h
      rcases h with h | h
      · exact ⟨u, by simp, v, by simp, h⟩
      · obtain ⟨u1, hu, v1, hv, e⟩ := ih b h
        exact ⟨u1, List.mem_cons_of_mem _ hu, v1, List.mem_cons_of_mem _ hv, e⟩

theorem vset_nil (v x : VectorNd) : vset v [] x = v := by
  cases x <;> rfl

theorem vresize_vzero (n : Nat) : vresize (vzero (n * 2)) n = vzero n := by
  simp only [vresize, vzero, List.take_replicate, List.length_replicate]
  rw [show n * 2 = n + n by omega]
  simp

/-- On a non-negative `q` Lemke's algorithm returns the zero vector at once. -/
theorem lcp_lemke_nonneg (la : LinAlg) (M : MatrixNd) (q z : VectorNd) (piv_tol zero_tol : ℚ)
    (rng : Rng) (hn : q.length ≠ 0) (hq : ∀ x ∈ q, 0 ≤ x) :
    (lcp_lemke la M q z piv_tol zero_tol rng).1 = ⟨true, vzero q.length, 0⟩ := by
  rw [lcp_lemke_canonical]
  unfold lcp_lemke
  simp only []
  rw [if_neg hn]
  generalize (if zero_tol ≤ 0 then DBL_EPSILON * norm_inf M * (q.length : ℚ) else zero_tol) = zt
  by_cases ht : vget q (min_element q) > -zt
  · rw [if_pos ht]
  · rw [if_neg ht]
    have hall : (q.all (fun xi => !decide (xi < 0))) = true := by
      rw [List.all_eq_true]
      intro x hx
      simpa using hq x hx
    have hb : lemke_initial_basis q.length (vzero ([] : VectorNd).length) (fun _ => 0) =
        ([], List.range q.length, (random_z0 q.length (fun _ => 0)).2) := by
      unfold lemke_initial_basis
      rw [if_pos]
      simp only [vzero, List.length_nil, List.length_replicate]
      omega
    rw [hb]
    simp [lemke_initial_values, hall, vset_nil, vresize_vzero]

/-- The zero vector passes the first verification when `q ≥ 0` and the
tolerance is positive. -/
theorem lcp_verify_first_zero (M : MatrixNd) (q : VectorNd) (n : Nat) (ZT : ℚ)
    (hq : ∀ x ∈ q, 0 ≤ x) (hZ : 0 < ZT) : lcp_verify_first M q (vzero n) ZT = true := by
  have hz : ∀ x ∈ vzero n, x = 0 := fun x hx => List.eq_of_mem_replicate hx
  have hm : ∀ x ∈ mult M (vzero n), x = 0 := by
    intro x hx
    obtain ⟨r, _, e⟩ := List.mem_map.1 hx
    rw [← e, dot_vzero_right]
  have hw : ∀ x ∈ vadd (mult M (vzero n)) q, 0 ≤ x := by
    intro x hx
    obtain ⟨u, hu, v, hv, e⟩ := mem_zipWith_elim _ _ _ _ hx
    rw [e, hm u hu, zero_add]
    exact hq v hv
  have hzw : ∀ x ∈ vmul (vzero n) (vadd (mult M (vzero n)) q), x = 0 := by
    intro x hx
    obtain ⟨u, hu, v, _, e⟩ := mem_zipWith_elim _ _ _ _ hx
    rw [e, hz u hu, zero_mul]
  simp only [lcp_verify_first, Bool.and_eq_true, decide_eq_true_eq, ge_iff_le]
  refine ⟨⟨⟨?_, ?_⟩, ?_⟩, ?_⟩
  · exact vget_of_all (fun x => -ZT ≤ x) _ (by linarith) (fun x hx => by rw [hz x hx]; linarith) _
  · exact vget_of_all (fun x => -ZT ≤ x) _ (by linarith)
      (fun x hx => by have := hw x hx; linarith) _
  · exact vget_of_all (fun x => -ZT ≤ x) _ (by linarith)
      (fun x hx => by rw [hzw x hx]; linarith) _
  · exact vget_of_all (fun x => x < ZT) _ hZ (fun x hx => by rw [hzw x hx]; exact hZ) _

/-- C21 (the claim fails). For `M = (0)`, `q = (1)` and `zero_tol = 0` the
tolerance of the wrapper is `n * ||M|| * NEAR_ZERO = 0`. Lemke's algorithm returns
`z = 0` in every attempt, but the check `max(z_i w_i) < ZERO_TOL` is strict and
fails, as do the strict checks inside the regularization loop: the wrapper
returns `false`. -/
theorem C21_counterexample :
    wrapper_zero_tol (1 / 2 ^ 26) [[0]] [1] 0 = 0 ∧
    (lcp_lemke exactLA [[0]] [1] [] 0 0 (fun _ => 0)).1 = ⟨true, [0], 0⟩ ∧
    lcp_verify_first [[0]] [1] [0] 0 = false ∧
    (lcp_lemke_regularized exactLA (1 / 2 ^ 26) 20 [[0]] [1] [] (-8) 1 0 0 0
      (fun _ => 0)).map Prod.fst = .ret (false, [0]) := by
  decide!

/-- C21 (amended). For every `M` and every `q` of size `n ≥ 1` with all
`q_i ≥ 0`, the dense `lcp_lemke_regularized` returns true with `z = 0` after the
attempt without regularization, for any exponent arguments, provided the
tolerance of the wrapper is positive (`zero_tol > 0`, or
`n * ||M||_inf * NEAR_ZERO > 0`): the checks are `z ≥ -ZERO_TOL`,
`w ≥ -ZERO_TOL`, `z_i w_i ≥ -ZERO_TOL` and the strict `z_i w_i < ZERO_TOL`. -/
theorem C21_nonneg_q_accepted (la : LinAlg) (NEAR_ZERO : ℚ) (fuel : Nat) (M : MatrixNd)
    (q z : VectorNd) (min_exp : Int) (step_exp : Nat) (max_exp : Int) (piv_tol zero_tol : ℚ)
    (rng : Rng) (hn : q.length ≠ 0) (hq : ∀ x ∈ q, 0 ≤ x)
    (hZ : 0 < wrapper_zero_tol NEAR_ZERO M q zero_tol) :
    (lcp_lemke_regularized la NEAR_ZERO fuel M q z min_exp step_exp max_exp piv_tol zero_tol
      rng).map Prod.fst = .ret (true, vzero q.length) := by
  unfold lcp_lemke_regularized
  simp only []
  rw [if_neg hn, lcp_lemke_nonneg la M q z piv_tol zero_tol rng hn hq]
  simp only []
  rw [lcp_verify_first_zero M q _ _ hq hZ]
  rfl

theorem C21_nonneg_q_accepted_witness :
    (lcp_lemke_regularized exactLA (1 / 2 ^ 26) 20 [[1]] [1] [] (-8) 1 0 0 0
      (fun _ => 0)).map Prod.fst = .ret (true, vzero ([1] : VectorNd).length) :=
  C21_nonneg_q_accepted exactLA (1 / 2 ^ 26) 20 [[1]] [1] [] (-8) 1 0 0 0 (fun _ => 0)
    (by decide) (by decide) (by decide!)

end LCP
/-! ## The schedule of regularization attempts (C22) -/

namespace LCP

theorem next_rf_eq (rf : Int) (step_exp : Nat) (hlo : -2 ^ 31 ≤ rf + step_exp)
    (hhi : rf + step_exp < 2 ^ 31) : next_rf rf step_exp = rf + step_exp := by
  unfold next_rf
  rw [Int.bmod_def]
  have h0 : (0 : Int) ≤ rf + step_exp ∨ rf + step_exp < 0 := by omega
  rcases h0 with h0 | h0
  · have h1 : (rf + (step_exp : Int)) % ((2 ^ 32 : Nat) : Int) = rf + step_exp :=
      Int.emod_eq_of_lt h0 (by norm_num; omega)
    rw [h1, if_pos (by norm_num; omega)]
  · have h1 : (rf + (step_exp : Int)) % ((2 ^ 32 : Nat) : Int) = rf + step_exp + 2 ^ 32 := by
      have h2 : (rf + (step_exp : Int) + 2 ^ 32) % ((2 ^ 32 : Nat) : Int) =
          rf + step_exp + 2 ^ 32 := Int.emod_eq_of_lt (by omega) (by norm_num; omega)
      rw [← h2]
      norm_num
    rw [h1, if_neg (by norm_num; omega)]
    norm_num

theorem lemke_reg_loop_log_fst (la : LinAlg) (M : MatrixNd) (q : VectorNd) (step_exp : Nat)
    (max_exp : Int) (piv_tol zero_tol ZT : ℚ) :
    ∀ (fuel : Nat) (rf : Int) (z : VectorNd) (rng : Rng),
      (lemke_reg_loop_log la M q step_exp max_exp piv_tol zero_tol ZT fuel rf z rng).1 =
        lemke_reg_loop la M q step_exp max_exp piv_tol zero_tol ZT fuel rf z rng := by
  intro fuel
  induction fuel with
  | zero => intro rf z rng; rfl
  | succ fuel ih =>
    intro rf z rng
    simp only [lemke_reg_loop_log, lemke_reg_loop]
    split
    · split
      · rfl
      · exact ih _ _ _
    · rfl

theorem lemke_attempt_reg_eq (la : LinAlg) (M : MatrixNd) (q z : VectorNd)
    (piv_tol zero_tol ZT : ℚ) (k : Int) (rng : Rng) :
    ((lcp_lemke la (add_diag M ((10 : ℚ) ^ k)) q z piv_tol zero_tol rng).1.ok &&
      lcp_verify_reg (add_diag M ((10 : ℚ) ^ k)) q
        (lcp_lemke la (add_diag M ((10 : ℚ) ^ k)) q z piv_tol zero_tol rng).1.z ZT) =
      lemke_attempt_reg la M q piv_tol zero_tol ZT k := by
  unfold lemke_attempt_reg
  rw [lcp_lemke_canonical]

/-- The attempts of the regularization loop started at `rf`: the exponents
`rf, rf + step_exp, …` up to the first verified one or the last one `≤ max_exp`. -/
theorem lemke_reg_loop_log_spec (la : LinAlg) (M : MatrixNd) (q : VectorNd) (step_exp : Nat)
    (max_exp : Int) (piv_tol zero_tol ZT : ℚ) (hstep : 1 ≤ step_exp)
    (hhi : max_exp + step_exp < 2 ^ 31) :
    ∀ (fuel : Nat) (rf : Int) (z : VectorNd) (rng : Rng),
      -2 ^ 31 ≤ rf → (max_exp + 1 - rf).toNat ≤ fuel →
      ∃ m : Nat,
        (lemke_reg_loop_log la M q step_exp max_exp piv_tol zero_tol ZT fuel rf z rng).2 =
          (List.range m).map (fun j : Nat => rf + (j : Int) * step_exp) ∧
        (∀ j : Nat, j < m → rf + (j : Int) * step_exp ≤ max_exp) ∧
        (∀ j : Nat, j + 1 < m →
          lemke_attempt_reg la M q piv_tol zero_tol ZT (rf + (j : Int) * step_exp) = false) ∧
        (((∃ z1 r1,
            (lemke_reg_loop_log la M q step_exp max_exp piv_tol zero_tol ZT fuel rf z rng).1 =
              .ret ((true, z1), r1)) ∧
          ∃ j : Nat, j + 1 = m ∧
            lemke_attempt_reg la M q piv_tol zero_tol ZT (rf + (j : Int) * step_exp) = true) ∨
         ((∃ z1 r1,
            (lemke_reg_loop_log la M q step_exp max_exp piv_tol zero_tol ZT fuel rf z rng).1 =
              .ret ((false, z1), r1)) ∧
          (∀ j : Nat, j < m →
            lemke_attempt_reg la M q piv_tol zero_tol ZT (rf + (j : Int) * step_exp) = false) ∧
          max_exp < rf + (m : Int) * step_exp)) := by
  intro fuel
  induction fuel with
  | zero =>
    intro rf z rng _ hf
    have hr : ¬ rf ≤ max_exp := by omega
    refine ⟨0, ?_, ?_, ?_, Or.inr ⟨⟨z, rng, ?_⟩, ?_, ?_⟩⟩
    · simp [lemke_reg_loop_log]
    · intro j hj; omega
    · intro j hj; omega
    · simp [lemke_reg_loop_log, hr]
    · intro j hj; omega
    · simp only [Nat.cast_zero, zero_mul, add_zero]; omega
  | succ fuel ih =>
    intro rf z rng hlo hf
    by_cases hr : rf ≤ max_exp
    · simp only [lemke_reg_loop_log]
      rw [if_pos hr, lemke_attempt_reg_eq]
      by_cases ha : lemke_attempt_reg la M q piv_tol zero_tol ZT rf = true
      · rw [if_pos ha]
        refine ⟨1, ?_, ?_, ?_, Or.inl ⟨⟨_, _, rfl⟩, 0, rfl, ?_⟩⟩
        · simp [List.range_succ]
        · intro j hj
          have : j = 0 := by omega
          subst this
          simpa using hr
        · intro j hj; omega
        · simpa using ha
      · rw [if_neg ha]
        have hf0 : lemke_attempt_reg la M q piv_tol zero_tol ZT rf = false := by
          simpa using ha
        rw [next_rf_eq rf step_exp (by omega) (by omega)]
        obtain ⟨m, h1, h2, h3, h4⟩ := ih (rf + step_exp)
          (lcp_lemke la (add_diag M ((10 : ℚ) ^ rf)) q z piv_tol zero_tol rng).1.z
          (lcp_lemke la (add_diag M ((10 : ℚ) ^ rf)) q z piv_tol zero_tol rng).2
          (by omega) (by omega)
        have hsh : ∀ j : Nat, rf + ((j + 1 : Nat) : Int) * step_exp =
            rf + step_exp + (j : Int) * step_exp := by
          intro j; push_cast; ring
        refine ⟨m + 1, ?_, ?_, ?_, ?_⟩
        · simp only []
          rw [h1, List.range_succ_eq_map, List.map_cons, List.map_map]
          simp only [Nat.cast_zero, zero_mul, add_zero, List.cons.injEq, true_and]
          apply List.map_congr_left
          intro j _
          simp only [Function.comp]
          rw [hsh]
        · intro j hj
          cases j with
          | zero => simpa using hr
          | succ j => rw [hsh]; exact h2 j (by omega)
        · intro j hj
          cases j with
          | zero => simpa using hf0
          | succ j => rw [hsh]; exact h3 j (by omega)
        · rcases h4 with ⟨hret, j, hj, hat⟩ | ⟨hret, hall, hmax⟩
          · exact Or.inl ⟨hret, j + 1, by omega, by rw [hsh]; exact hat⟩
          · refine Or.inr ⟨hret, ?_, by rw [hsh]; exact hmax⟩
            intro j hj
            cases j with
            | zero => simpa using hf0
            | succ j => rw [hsh]; exact hall j (by omega)
    · refine ⟨0, ?_, ?_, ?_, Or.inr ⟨⟨z, rng, ?_⟩, ?_, ?_⟩⟩
      · simp [lemke_reg_loop_log, hr]
      · intro j hj; omega
      · intro j hj; omega
      · simp [lemke_reg_loop_log, hr]
      · intro j hj; omega
      · simp only [Nat.cast_zero, zero_mul, add_zero]; omega

theorem lemke_attempt_first_eq (la : LinAlg) (NEAR_ZERO : ℚ) (M : MatrixNd) (q z : VectorNd)
    (piv_tol zero_tol : ℚ) (rng : Rng) :
    ((lcp_lemke la M q z piv_tol zero_tol rng).1.ok &&
      lcp_verify_first M q (lcp_lemke la M q z piv_tol zero_tol rng).1.z
        (wrapper_zero_tol NEAR_ZERO M q zero_tol)) =
      lemke_attempt_first la NEAR_ZERO M q piv_tol zero_tol := by
  unfold lemke_attempt_first
  rw [lcp_lemke_canonical]

/-- C22 (the claim fails). For an empty `q` the wrapper returns before any call
to `lcp_lemke`: with `max_exp < min_exp` it makes no call, not exactly one, and
no attempt with `lambda = 0` comes first. -/
theorem C22_counterexample :
    ((-1 : Int) < 0) ∧
    (lcp_lemke_regularized_log exactLA (1 / 2 ^ 26) 20 [] [] [] 0 1 (-1) 0 0 (fun _ => 0)).2
      = [] ∧
    (lcp_lemke_regularized_log exactLA (1 / 2 ^ 26) 20 [] [] [] 0 1 (-1) 0 0
      (fun _ => 0)).2.length ≠ 1 ∧
    (lcp_lemke_regularized exactLA (1 / 2 ^ 26) 20 [] [] [] 0 1 (-1) 0 0
      (fun _ => 0)).map Prod.fst = .ret (true, []) := by
  decide!

/-- C22 (amended). For a non-empty `q`, `step_exp ≥ 1` and exponents for which the
`int` counter does not overflow, the dense `lcp_lemke_regularized` terminates,
and its calls to `lcp_lemke` are: `lambda = 0` first, then `lambda = 10^k` for
`k = min_exp, min_exp + step_exp, …` while `k ≤ max_exp`, in increasing order,
stopping at the first attempt that is verified. That is exactly one call when
`max_exp < min_exp` and at most `2 + floor((max_exp - min_exp)/step_exp)` calls
otherwise. The wrapper returns true exactly when the last attempt is verified,
and false only after every exponent of the schedule has been tried. (For an
empty `q` it returns true without any call.) -/
theorem C22_regularization_schedule (la : LinAlg) (NEAR_ZERO : ℚ) (fuel : Nat) (M : MatrixNd)
    (q z : VectorNd) (min_exp : Int) (step_exp : Nat) (max_exp : Int) (piv_tol zero_tol : ℚ)
    (rng : Rng) (hq : q.length ≠ 0) (hstep : 1 ≤ step_exp) (hlo : -2 ^ 31 ≤ min_exp)
    (hhi : max_exp + step_exp < 2 ^ 31) (hfuel : (max_exp + 1 - min_exp).toNat ≤ fuel) :
    (lcp_lemke_regularized_log la NEAR_ZERO fuel M q z min_exp step_exp max_exp piv_tol zero_tol
      rng).1 =
      lcp_lemke_regularized la NEAR_ZERO fuel M q z min_exp step_exp max_exp piv_tol zero_tol
        rng ∧
    ∃ m : Nat,
      (lcp_lemke_regularized_log la NEAR_ZERO fuel M q z min_exp step_exp max_exp piv_tol
        zero_tol rng).2 =
        none :: (List.range m).map (fun j : Nat => some (min_exp + (j : Int) * step_exp)) ∧
      (∀ j : Nat, j < m → min_exp + (j : Int) * step_exp ≤ max_exp) ∧
      (max_exp < min_exp → m = 0) ∧
      (min_exp ≤ max_exp → (1 + m : Int) ≤ 2 + (max_exp - min_exp) / step_exp) ∧
      (lemke_attempt_first la NEAR_ZERO M q piv_tol zero_tol = true → m = 0) ∧
      (∀ j : Nat, j + 1 < m →
        lemke_attempt_reg la M q piv_tol zero_tol (wrapper_zero_tol NEAR_ZERO M q zero_tol)
          (min_exp + (j : Int) * step_exp) = false) ∧
      (((∃ z1 r1,
          (lcp_lemke_regularized_log la NEAR_ZERO fuel M q z min_exp step_exp max_exp piv_tol
            zero_tol rng).1 = .ret ((true, z1), r1)) ∧
        (lemke_attempt_first la NEAR_ZERO M q piv_tol zero_tol = true ∨
          ∃ j : Nat, j + 1 = m ∧
            lemke_attempt_reg la M q piv_tol zero_tol (wrapper_zero_tol NEAR_ZERO M q zero_tol)
              (min_exp + (j : Int) * step_exp) = true)) ∨
       ((∃ z1 r1,
          (lcp_lemke_regularized_log la NEAR_ZERO fuel M q z min_exp step_exp max_exp piv_tol
            zero_tol rng).1 = .ret ((false, z1), r1)) ∧
        lemke_attempt_first la NEAR_ZERO M q piv_tol zero_tol = false ∧
        (∀ j : Nat, j < m →
          lemke_attempt_reg la M q piv_tol zero_tol (wrapper_zero_tol NEAR_ZERO M q zero_tol)
            (min_exp + (j : Int) * step_exp) = false) ∧
        max_exp < min_exp + (m : Int) * step_exp)) := by
  have hpos : (0 : Int) < step_exp := by omega
  have hbound : ∀ m : Nat, (∀ j : Nat, j < m → min_exp + (j : Int) * step_exp ≤ max_exp) →
      min_exp ≤ max_exp → (1 + m : Int) ≤ 2 + (max_exp - min_exp) / step_exp := by
    intro m h hmm
    cases m with
    | zero =>
      have := Int.ediv_nonneg (show (0 : Int) ≤ max_exp - min_exp by omega) (le_of_lt hpos)
      simp only [Nat.cast_zero, add_zero]
      omega
    | succ m =>
      have h1 := h m (by omega)
      have h2 : (m : Int) ≤ (max_exp - min_exp) / step_exp :=
        Int.le_ediv_of_mul_le hpos (by omega)
      push_cast
      omega
  unfold lcp_lemke_regularized_log lcp_lemke_regularized
  simp only []
  rw [if_neg hq, if_neg hq, lemke_attempt_first_eq]
  by_cases hfst : lemke_attempt_first la NEAR_ZERO M q piv_tol zero_tol = true
  · rw [if_pos hfst, if_pos hfst]
    refine ⟨rfl, 0, by simp, ?_, fun _ => rfl, ?_, fun _ => rfl, ?_,
      Or.inl ⟨⟨_, _, rfl⟩, Or.inl hfst⟩⟩
    · intro j hj; omega
    · exact hbound 0 (fun j hj => by omega)
    · intro j hj; omega
  · rw [if_neg hfst, if_neg hfst]
    obtain ⟨m, h1, h2, h3, h4⟩ := lemke_reg_loop_log_spec la M q step_exp max_exp piv_tol zero_tol
      (wrapper_zero_tol NEAR_ZERO M q zero_tol) hstep hhi fuel min_exp
      (lcp_lemke la M q z piv_tol zero_tol rng).1.z (lcp_lemke la M q z piv_tol zero_tol rng).2
      hlo hfuel
    refine ⟨lemke_reg_loop_log_fst _ _ _ _ _ _ _ _ _ _ _ _, m, ?_, h2, ?_, hbound m h2,
      fun h => absurd h hfst, h3, ?_⟩
    · simp only []
      rw [h1, List.map_map]
      rfl
    · intro hlt
      cases m with
      | zero => rfl
      | succ m =>
        have := h2 0 (by omega)
        simp only [Nat.cast_zero, zero_mul, add_zero] at this
        omega
    · rcases h4 with ⟨hret, hj⟩ | ⟨hret, hall, hmax⟩
      · exact Or.inl ⟨hret, Or.inr hj⟩
      · exact Or.inr ⟨hret, by simpa using hfst, hall, hmax⟩

theorem C22_regularization_schedule_witness :
    (lcp_lemke_regularized_log exactLA (1 / 2 ^ 26) 20 [[0]] [1] [] (-8) 1 0 0 0
      (fun _ => 0)).1 =
      lcp_lemke_regularized exactLA (1 / 2 ^ 26) 20 [[0]] [1] [] (-8) 1 0 0 0 (fun _ => 0) :=
  (C22_regularization_schedule exactLA (1 / 2 ^ 26) 20 [[0]] [1] [] (-8) 1 0 0 0 (fun _ => 0)
    (by decide) (by decide) (by decide) (by decide) (by decide)).1

end LCP
/-! ## `insertion_sort` sorts and permutes -/

namespace LCP

theorem perm_sift (x : Nat) (acc : List Nat) : (sift x acc).Perm (x :: acc) := by
  induction acc with
  | nil => simp [sift]
  | cons a as ih =>
    simp only [sift]
    split
    · exact (List.Perm.cons a ih).trans (List.Perm.swap x a as)
    · exact List.Perm.refl _

theorem perm_foldl_sift (ys acc : List Nat) :
    (ys.foldl (fun acc e => sift e acc) acc).Perm (ys ++ acc) := by
  induction ys generalizing acc with
  | nil => simp
  | cons y ys ih =>
    simp only [List.foldl_cons]
    refine (ih (sift y acc)).trans ?_
    refine (List.Perm.append_left ys (perm_sift y acc)).trans ?_
    simp only [List.cons_append]
    exact List.perm_middle

theorem perm_getD_set (xs : List Nat) (k x : Nat) :
    (xs.getD k x :: xs.set k x).Perm (x :: xs) := by
  induction xs generalizing k with
  | nil => simp
  | cons a t ih =>
    cases k with
    | zero => simpa using List.Perm.swap x a t
    | succ k =>
      simp only [List.getD_cons_succ, List.set_cons_succ]
      exact (List.Perm.swap a (t.getD k x) (t.set k x)).trans
        ((List.Perm.cons a (ih k)).trans (List.Perm.swap x a t))

theorem perm_insertion_sort (xs : List Nat) : (insertion_sort xs).Perm xs := by
  cases xs with
  | nil => simp [insertion_sort]
  | cons x xs =>
    simp only [insertion_sort]
    generalize min_element (x :: xs) = m
    cases m with
    | zero =>
      simp only [List.getD_cons_zero, List.set_cons_zero]
      refine (List.reverse_perm _).trans ((perm_foldl_sift xs [x]).trans ?_)
      exact List.perm_append_singleton x xs
    | succ k =>
      simp only [List.getD_cons_succ, List.set_cons_zero, List.set_cons_succ]
      refine (List.reverse_perm _).trans ((perm_foldl_sift _ _).trans ?_)
      exact (List.perm_append_singleton _ _).trans (perm_getD_set xs k x)

theorem sorted_sift (x : Nat) (acc : List Nat) (h : acc.Pairwise (· ≥ ·)) :
    (sift x acc).Pairwise (· ≥ ·) := by
  induction acc with
  | nil => simp [sift]
  | cons a as ih =>
    rw [List.pairwise_cons] at h
    simp only [sift]
    split
    · next hxa =>
      rw [List.pairwise_cons]
      refine ⟨?_, ih h.2⟩
      intro y hy
      rcases List.mem_cons.1 ((perm_sift x as).mem_iff.1 hy) with rfl | hy
      · exact le_of_lt hxa
      · exact h.1 y hy
    · next hxa =>
      rw [List.pairwise_cons]
      refine ⟨?_, List.pairwise_cons.2 h⟩
      intro y hy
      rcases List.mem_cons.1 hy with rfl | hy
      · exact not_lt.1 hxa
      · exact le_trans (h.1 y hy) (not_lt.1 hxa)

theorem sorted_foldl_sift (ys acc : List Nat) (h : acc.Pairwise (· ≥ ·)) :
    (ys.foldl (fun acc e => sift e acc) acc).Pairwise (· ≥ ·) := by
  induction ys generalizing acc with
  | nil => simpa using h
  | cons y ys ih =>
    simp only [List.foldl_cons]
    exact ih _ (sorted_sift y acc h)

theorem sorted_insertion_sort (xs : List Nat) : (insertion_sort xs).Pairwise (· ≤ ·) := by
  cases xs with
  | nil => simp [insertion_sort]
  | cons x xs =>
    simp only [insertion_sort]
    split
    · simp
    · rw [List.pairwise_reverse]
      exact sorted_foldl_sift _ _ (List.pairwise_singleton _ _)

/-- On distinct entries `insertion_sort` gives a strictly increasing vector. -/
theorem strict_insertion_sort (xs : List Nat) (h : xs.Nodup) :
    (insertion_sort xs).Pairwise (· < ·) := by
  have h1 := sorted_insertion_sort xs
  have h2 : (insertion_sort xs).Nodup := (perm_insertion_sort xs).nodup_iff.2 h
  exact (List.Pairwise.and h1 h2).imp (fun hab => lt_of_le_of_ne hab.1 hab.2)

theorem perm_eraseIdx (l : List Nat) (k : Nat) (hk : k < l.length) :
    l.Perm (l.getD k 0 :: l.eraseIdx k) := by
  induction l generalizing k with
  | nil => simp at hk
  | cons a t ih =>
    cases k with
    | zero => simp
    | succ k =>
      simp only [List.getD_cons_succ, List.eraseIdx_cons_succ]
      exact (List.Perm.cons a (ih k (by simpa using hk))).trans (List.Perm.swap _ _ _)

end LCP
/-! ## Complementarity of the solutions of `lcp_fast` (C30) -/

namespace LCP

theorem rand_min_lt (v : VectorNd) (zero_tol : ℚ) (rng : Rng) (h : v ≠ []) :
    (rand_min v zero_tol rng).1 < v.length := by
  unfold rand_min
  simp only []
  have hmem : ∀ i ∈ min_element v :: (List.range v.length).filter
      (fun i => !decide (i = min_element v) && decide (vget v i < vget v (min_element v) + zero_tol)),
      i < v.length := by
    intro i hi
    rcases List.mem_cons.1 hi with rfl | hi
    · exact (min_element_spec v h).1
    · exact List.mem_range.1 (List.mem_filter.1 hi).1
  apply hmem
  apply getD_mem
  apply Nat.mod_lt
  simp

theorem rand_min_or_uinf_cases (v : VectorNd) (zero_tol : ℚ) (rng : Rng) :
    (rand_min_or_uinf v zero_tol rng).1 = UINT_MAX ∨
      (rand_min_or_uinf v zero_tol rng).1 < v.length := by
  unfold rand_min_or_uinf
  split
  · next h =>
    exact Or.inr (rand_min_lt v zero_tol rng (by intro e; rw [e] at h; simp at h))
  · exact Or.inl rfl

theorem perm_move_to_bas (nonbas bas : List Nat) (k : Nat) (hk : k < nonbas.length) :
    (nonbas.eraseIdx k ++ insertion_sort (bas ++ [nonbas.getD k 0])).Perm (nonbas ++ bas) := by
  refine (List.Perm.append_left _ (perm_insertion_sort _)).trans ?_
  refine List.Perm.trans ?_ (List.Perm.append_right bas (perm_eraseIdx nonbas k hk).symm)
  refine (List.Perm.append_left _ (List.perm_append_singleton _ _)).trans ?_
  simp only [List.cons_append]
  exact List.perm_middle

theorem perm_move_to_nonbas (nonbas bas : List Nat) (k : Nat) (hk : k < bas.length) :
    (insertion_sort (nonbas ++ [bas.getD k 0]) ++ bas.eraseIdx k).Perm (nonbas ++ bas) := by
  refine (List.Perm.append_right _ (perm_insertion_sort _)).trans ?_
  refine List.Perm.trans ?_ (List.Perm.append_left nonbas (perm_eraseIdx bas k hk).symm)
  rw [List.append_assoc]
  exact List.Perm.refl _

theorem perm_swap_sets (nonbas bas : List Nat) (k m : Nat) (hk : k < nonbas.length)
    (hm : m < bas.length) :
    (insertion_sort (nonbas.eraseIdx k ++ [bas.getD m 0]) ++
      insertion_sort (bas.eraseIdx m ++ [nonbas.getD k 0])).Perm (nonbas ++ bas) := by
  refine (List.Perm.append (perm_insertion_sort _) (perm_insertion_sort _)).trans ?_
  refine List.Perm.trans ?_ (List.Perm.append (perm_eraseIdx nonbas k hk).symm
    (perm_eraseIdx bas m hm).symm)
  refine (List.Perm.append (List.perm_append_singleton _ _) (List.perm_append_singleton _ _)).trans ?_
  simp only [List.cons_append]
  refine List.Perm.trans (List.Perm.cons _ List.perm_middle) ?_
  refine List.Perm.trans (List.Perm.swap _ _ _) ?_
  exact List.Perm.cons _ List.perm_middle.symm

/-- One iteration of `lcp_fast` keeps `_nonbas` and `_bas` a partition of the
indices, and a returned solution is the scattered solution of the subsystem. -/
theorem lcp_fast_iter_spec (la : LinAlg) (hla : la.exact) (M : MatrixNd) (q : VectorNd)
    (zero_tol : ℚ) (st : LcpFastState) (rng : Rng)
    (hinv : (st.nonbas ++ st.bas).Perm (List.range q.length)) :
    (∀ st1 rng1, lcp_fast_iter la M q zero_tol st rng = (.again st1, rng1) →
      (st1.nonbas ++ st1.bas).Perm (List.range q.length)) ∧
    (∀ st1 rng1, lcp_fast_iter la M q zero_tol st rng ≠ (.leave st1, rng1)) ∧
    (∀ z rng1, lcp_fast_iter la M q zero_tol st rng = (.result true z, rng1) →
      ∃ zsub, la.solve_fast (select_square M st.nonbas) (vneg (vselect q st.nonbas)) = some zsub ∧
        z = vset (vzero q.length) st.nonbas zsub) := by
  unfold lcp_fast_iter
  cases hs : la.solve_fast (select_square M st.nonbas) (vneg (vselect q st.nonbas)) with
  | none => simp
  | some zsub =>
    have hlen : zsub.length = st.nonbas.length := by
      rw [(hla _ _ _ hs).2]
      simp [vneg, vselect]
    have hwlen : (vadd (mult (mselect M st.bas st.nonbas) zsub) (vselect q st.bas)).length =
        st.bas.length := by
      simp [vadd, mult, mselect, vselect]
    simp only []
    have hw := rand_min_or_uinf_cases
      (vadd (mult (mselect M st.bas st.nonbas) zsub) (vselect q st.bas)) zero_tol rng
    generalize rand_min_or_uinf
      (vadd (mult (mselect M st.bas st.nonbas) zsub) (vselect q st.bas)) zero_tol rng = minw at hw ⊢
    have hz := rand_min_or_uinf_cases zsub zero_tol minw.2
    generalize rand_min_or_uinf zsub zero_tol minw.2 = minz at hz ⊢
    rw [hwlen] at hw
    rw [hlen] at hz
    by_cases hc1 : minw.1 = UINT_MAX ∨
        vget (vadd (mult (mselect M st.bas st.nonbas) zsub) (vselect q st.bas)) minw.1 > -zero_tol
    · rw [if_pos hc1]
      by_cases hc2 : minz.1 < UINT_MAX ∧ vget zsub minz.1 < -zero_tol
      · rw [if_pos hc2]
        have hk : minz.1 < st.nonbas.length := by
          rcases hz with hz | hz
          · exact absurd hz (Nat.ne_of_lt hc2.1)
          · exact hz
        refine ⟨?_, by simp, by simp⟩
        intro st1 rng1 h
        simp only [Prod.mk.injEq, Step.again.injEq] at h
        rw [← h.1]
        exact (perm_move_to_bas _ _ _ hk).trans hinv
      · rw [if_neg hc2]
        refine ⟨by simp, by simp, ?_⟩
        intro z rng1 h
        simp only [Prod.mk.injEq, Step.result.injEq, true_and] at h
        exact ⟨zsub, rfl, h.1.symm⟩
    · rw [if_neg hc1]
      have hm : minw.1 < st.bas.length := by
        rcases hw with hw | hw
        · exact absurd (Or.inl hw) hc1
        · exact hw
      by_cases hc2 : minz.1 < UINT_MAX ∧ vget zsub minz.1 < -zero_tol
      · rw [if_pos hc2]
        have hk : minz.1 < st.nonbas.length := by
          rcases hz with hz | hz
          · exact absurd hz (Nat.ne_of_lt hc2.1)
          · exact hz
        refine ⟨?_, by simp, by simp⟩
        intro st1 rng1 h
        simp only [Prod.mk.injEq, Step.again.injEq] at h
        rw [← h.1]
        exact (perm_swap_sets _ _ _ _ hk hm).trans hinv
      · rw [if_neg hc2]
        refine ⟨?_, by simp, by simp⟩
        intro st1 rng1 h
        simp only [Prod.mk.injEq, Step.again.injEq] at h
        rw [← h.1]
        exact (perm_move_to_nonbas _ _ _ hm).trans hinv

/-- The scattered solution of the subsystem on `nonbas` makes `w = Mz + q` vanish
on `nonbas`. -/
theorem scattered_solution (M : MatrixNd) (q : VectorNd) (nonbas : List Nat) (zsub : VectorNd)
    (hM : M.length = q.length) (hrows : ∀ r ∈ M, r.length = q.length)
    (hnd : nonbas.Nodup) (hb : ∀ i ∈ nonbas, i < q.length)
    (hsol : mult (select_square M nonbas) zsub = vneg (vselect q nonbas)) :
    ∀ i ∈ nonbas, vget (vadd (mult M (vset (vzero q.length) nonbas zsub)) q) i = 0 := by
  intro i hi
  obtain ⟨k, hk, rfl⟩ := List.getElem_of_mem hi
  have hiN : nonbas[k] < q.length := hb _ hi
  have hrow : (M.getD nonbas[k] []).length = q.length := by
    apply hrows
    rw [List.getD_eq_getElem?_getD, List.getElem?_eq_getElem (by omega), Option.getD_some]
    exact List.getElem_mem _
  rw [vget_vadd _ _ _ (by rw [length_mult]; omega) hiN, vget_mult _ _ _ (by omega),
    dot_vset _ _ _ _ hnd (by rw [hrow]; exact hb) (by rw [hrow, length_vzero]), dot_vzero_right,
    zero_add]
  have h1 : (List.zipWith (fun v a => vget (M.getD nonbas[k] []) v * (a - vget (vzero q.length) v))
      nonbas zsub).sum = dot ((select_square M nonbas).getD k []) zsub := by
    have hr : (select_square M nonbas).getD k [] = nonbas.map (vget (M.getD nonbas[k] [])) := by
      simp only [select_square, mselect]
      rw [List.getD_eq_getElem?_getD, List.getElem?_eq_getElem (by simpa using hk),
        Option.getD_some, List.getElem_map]
      rfl
    rw [hr, dot_map_left]
    congr 1
    apply zipWith_congr_mem
    intro v _ a
    rw [vget_vzero, sub_zero]
  rw [h1, ← vget_mult _ _ _ (by simpa [select_square, mselect] using hk), hsol, vget_vneg,
    vget_vselect _ _ _ hk]
  simp only [List.get_eq_getElem]
  rw [vget_eq_getElem q _ hiN]
  ring

/-- What the exit of the loop of `lcp_fast` gives for the index sets of the last
iteration. -/
theorem lcp_fast_exit_compl (la : LinAlg) (hla : la.exact) (M : MatrixNd) (q : VectorNd)
    (nonbas bas : List Nat) (zsub : VectorNd)
    (hM : M.length = q.length) (hrows : ∀ r ∈ M, r.length = q.length)
    (hperm : (nonbas ++ bas).Perm (List.range q.length))
    (hs : la.solve_fast (select_square M nonbas) (vneg (vselect q nonbas)) = some zsub) :
    (∀ i ∈ bas, vget (vset (vzero q.length) nonbas zsub) i = 0) ∧
    (∀ i ∈ nonbas, vget (vadd (mult M (vset (vzero q.length) nonbas zsub)) q) i = 0) ∧
    (∀ i, vget (vset (vzero q.length) nonbas zsub) i *
      vget (vadd (mult M (vset (vzero q.length) nonbas zsub)) q) i = 0) := by
  have hnd : (nonbas ++ bas).Nodup := hperm.nodup_iff.2 (List.nodup_range _)
  have hb : ∀ i ∈ nonbas, i < q.length := by
    intro i hi
    exact List.mem_range.1 (hperm.mem_iff.1 (List.mem_append_left _ hi))
  have hz : ∀ i, i ∉ nonbas → vget (vset (vzero q.length) nonbas zsub) i = 0 := by
    intro i hi
    rw [vget_vset_not_mem _ _ _ _ hi, vget_vzero]
  have hw := scattered_solution M q nonbas zsub hM hrows (List.nodup_append.1 hnd).1 hb
    (hla _ _ _ hs).1
  refine ⟨?_, hw, ?_⟩
  · intro i hi
    exact hz i (fun h => (List.nodup_append.1 hnd).2.2 h hi)
  · intro i
    by_cases hi : i ∈ nonbas
    · rw [hw i hi, mul_zero]
    · rw [hz i hi, zero_mul]

theorem lcp_fast_loop_spec (la : LinAlg) (hla : la.exact) (M : MatrixNd) (q : VectorNd)
    (zero_tol : ℚ) :
    ∀ (left pivots : Nat) (st : LcpFastState) (rng : Rng),
      (st.nonbas ++ st.bas).Perm (List.range q.length) →
      (lcp_fast_loop la M q zero_tol left pivots st rng).1.ok = true →
      ((lcp_fast_loop_final la M q zero_tol left st rng).nonbas ++
        (lcp_fast_loop_final la M q zero_tol left st rng).bas).Perm (List.range q.length) ∧
      ∃ zsub,
        la.solve_fast (select_square M (lcp_fast_loop_final la M q zero_tol left st rng).nonbas)
          (vneg (vselect q (lcp_fast_loop_final la M q zero_tol left st rng).nonbas))
          = some zsub ∧
        (lcp_fast_loop la M q zero_tol left pivots st rng).1.z =
          vset (vzero q.length) (lcp_fast_loop_final la M q zero_tol left st rng).nonbas zsub := by
  intro left
  induction left with
  | zero =>
    intro pivots st rng _ hok
    simp [lcp_fast_loop] at hok
  | succ left ih =>
    intro pivots st rng hinv hok
    have hsp := lcp_fast_iter_spec la hla M q zero_tol st rng hinv
    rw [lcp_fast_loop] at hok ⊢
    rw [lcp_fast_loop_final]
    cases hit : lcp_fast_iter la M q zero_tol st rng with
    | mk step rng1 =>
      cases step with
      | again st1 =>
        rw [hit] at hok
        exact ih _ st1 rng1 (hsp.1 st1 rng1 hit) hok
      | leave st1 => exact absurd hit (hsp.2.1 st1 rng1)
      | result ok z =>
        rw [hit] at hok
        simp only [] at hok ⊢
        subst hok
        obtain ⟨zsub, h1, h2⟩ := hsp.2.2 z rng1 hit
        exact ⟨hinv, zsub, h1, h2⟩

/-- C30. If `lcp_fast` returns true on an `n × n` matrix `M` and `q` of size `n`,
the linear solves being exact, then the returned `z` is 0 at every index of
`_bas`, `w = Mz + q` is 0 at every index of `_nonbas`, and
`z_i * (Mz+q)_i = 0` for every `i`. -/
theorem C30_lcp_fast_complementary (la : LinAlg) (hla : la.exact) (M : MatrixNd)
    (q z : VectorNd) (zero_tol : ℚ) (rng : Rng) (hM : M.length = q.length)
    (hrows : ∀ r ∈ M, r.length = q.length)
    (hok : (lcp_fast la M q z zero_tol rng).1.ok = true) :
    (∀ i ∈ (lcp_fast_final la M q z zero_tol rng).bas,
      vget (lcp_fast la M q z zero_tol rng).1.z i = 0) ∧
    (∀ i ∈ (lcp_fast_final la M q z zero_tol rng).nonbas,
      vget (vadd (mult M (lcp_fast la M q z zero_tol rng).1.z) q) i = 0) ∧
    (∀ i, vget (lcp_fast la M q z zero_tol rng).1.z i *
      vget (vadd (mult M (lcp_fast la M q z zero_tol rng).1.z) q) i = 0) := by
  have hzero : ∀ (n : Nat) (st : LcpFastState), st.nonbas = [] →
      (∀ i ∈ st.bas, vget (vzero n) i = 0) ∧
      (∀ i ∈ st.nonbas, vget (vadd (mult M (vzero n)) q) i = 0) ∧
      (∀ i, vget (vzero n) i * vget (vadd (mult M (vzero n)) q) i = 0) := by
    intro n st hst
    refine ⟨fun i _ => vget_vzero _ _, ?_, fun i => by rw [vget_vzero, zero_mul]⟩
    rw [hst]
    intro i hi
    simp at hi
  have hloop : ∀ (zt : ℚ) (st : LcpFastState),
      (st.nonbas ++ st.bas).Perm (List.range q.length) →
      (lcp_fast_loop la M q zt ((2 * q.length) % 2 ^ 32) 0 st rng).1.ok = true →
      (∀ i ∈ (lcp_fast_loop_final la M q zt ((2 * q.length) % 2 ^ 32) st rng).bas,
        vget (lcp_fast_loop la M q zt ((2 * q.length) % 2 ^ 32) 0 st rng).1.z i = 0) ∧
      (∀ i ∈ (lcp_fast_loop_final la M q zt ((2 * q.length) % 2 ^ 32) st rng).nonbas,
        vget (vadd (mult M (lcp_fast_loop la M q zt ((2 * q.length) % 2 ^ 32) 0 st rng).1.z) q) i
          = 0) ∧
      (∀ i, vget (lcp_fast_loop la M q zt ((2 * q.length) % 2 ^ 32) 0 st rng).1.z i *
        vget (vadd (mult M (lcp_fast_loop la M q zt ((2 * q.length) % 2 ^ 32) 0 st rng).1.z) q) i
          = 0) := by
    intro zt st hinv h
    obtain ⟨hperm, zsub, hs, hz⟩ := lcp_fast_loop_spec la hla M q zt _ 0 st rng hinv h
    rw [hz]
    exact lcp_fast_exit_compl la hla M q _ _ zsub hM hrows hperm hs
  unfold lcp_fast at hok ⊢
  unfold lcp_fast_final
  simp only [] at hok ⊢
  by_cases hn : q.length = 0
  · rw [if_pos hn, if_pos hn]
    exact hzero 0 _ rfl
  · rw [if_neg hn] at hok ⊢
    rw [if_neg hn]
    generalize (if zero_tol < 0 then (M.length : ℚ) * norm_inf M * DBL_EPSILON else zero_tol)
      = zt at hok ⊢
    by_cases hwarm : z.length = q.length
    · rw [if_pos hwarm] at hok ⊢
      rw [if_pos hwarm]
      refine hloop zt _ ?_ hok
      rw [hwarm]
      exact (List.perm_append_comm).trans (List.filter_append_perm _ _)
    · rw [if_neg hwarm] at hok ⊢
      rw [if_neg hwarm]
      by_cases htriv : vget q (min_element q) > -zt
      · rw [if_pos htriv, if_pos htriv]
        exact hzero _ _ rfl
      · rw [if_neg htriv] at hok ⊢
        rw [if_neg htriv]
        refine hloop zt _ ?_ hok
        have hq : q ≠ [] := by
          intro e
          rw [e] at hn
          exact hn rfl
        have hmin : min_element q ∈ List.range q.length :=
          List.mem_range.2 (min_element_spec q hq).1
        have he : (List.range q.length).filter (fun i => !decide (i = min_element q)) =
            (List.range q.length).erase (min_element q) := by
          rw [(List.nodup_range _).erase_eq_filter]
          apply List.filter_congr
          intro x _
          by_cases hx : x = min_element q <;> simp [hx]
        simp only [List.singleton_append]
        rw [he]
        exact (List.perm_cons_erase hmin).symm

theorem C30_lcp_fast_complementary_witness :
    (lcp_fast exactLA [[2]] [-3] [] 0 (fun _ => 0)).1 = ⟨true, [3 / 2], 0⟩ ∧
    (lcp_fast_final exactLA [[2]] [-3] [] 0 (fun _ => 0)).nonbas = [0] ∧
    ∀ i, vget (lcp_fast exactLA [[2]] [-3] [] 0 (fun _ => 0)).1.z i *
      vget (vadd (mult [[2]] (lcp_fast exactLA [[2]] [-3] [] 0 (fun _ => 0)).1.z) [-3]) i = 0 :=
  ⟨by decide!, by decide!,
    (C30_lcp_fast_complementary exactLA exactLA_exact [[2]] [-3] [] 0 (fun _ => 0) rfl
      (by decide) (by decide!)).2.2⟩

end LCP
/-! ## The index vectors of `mlcp_fast` (C28, C29) -/

namespace LCP

theorem lower_bound_ge (v : List Nat) (s : Nat) (h : lower_bound v s < v.length) :
    s ≤ v.getD (lower_bound v s) 0 := by
  induction v with
  | nil => simp at h
  | cons a as ih =>
    simp only [lower_bound] at h ⊢
    split
    · next ha =>
      rw [if_pos ha] at h
      simp only [List.getD_cons_succ]
      exact ih (by simpa using h)
    · next ha =>
      simp only [List.getD_cons_zero]
      exact not_lt.1 ha

/-- A successful `binary_search` means `lower_bound` points at the element. -/
theorem binary_search_spec (v : List Nat) (s : Nat) (h : binary_search v s = true) :
    lower_bound v s < v.length ∧ v.getD (lower_bound v s) 0 = s := by
  simp only [binary_search, Bool.and_eq_true, decide_eq_true_eq, Bool.not_eq_true',
    decide_eq_false_iff_not, not_lt] at h
  exact ⟨h.1, le_antisymm h.2 (lower_bound_ge v s h.1)⟩

/-- On a strictly increasing vector `lower_bound` finds every member. -/
theorem lower_bound_mem (v : List Nat) (s : Nat) (hs : v.Pairwise (· < ·)) (hm : s ∈ v) :
    lower_bound v s < v.length ∧ v.getD (lower_bound v s) 0 = s := by
  induction v with
  | nil => simp at hm
  | cons a as ih =>
    rw [List.pairwise_cons] at hs
    simp only [lower_bound]
    split
    · next ha =>
      rcases List.mem_cons.1 hm with rfl | hm
      · exact absurd ha (lt_irrefl _)
      · have := ih hs.2 hm
        simp only [List.length_cons, List.getD_cons_succ]
        exact ⟨by omega, this.2⟩
    · next ha =>
      rcases List.mem_cons.1 hm with rfl | hm
      · simp
      · exact absurd (hs.1 s hm) ha

theorem pairwise_eraseIdx (v : List Nat) (k : Nat) (h : v.Pairwise (· < ·)) :
    (v.eraseIdx k).Pairwise (· < ·) :=
  List.Pairwise.sublist (List.eraseIdx_sublist v k) h

/-- Appending a new index and sorting keeps a vector strictly increasing. -/
theorem strict_insert (v : List Nat) (t : Nat) (h : v.Pairwise (· < ·)) (ht : t ∉ v) :
    (insertion_sort (v ++ [t])).Pairwise (· < ·) := by
  apply strict_insertion_sort
  rw [List.nodup_append]
  refine ⟨(h.imp (fun hab => Nat.ne_of_lt hab)), by simp, ?_⟩
  intro a ha hb
  simp only [List.mem_singleton] at hb
  subst hb
  exact ht ha

theorem perm_insert (v : List Nat) (t : Nat) : (insertion_sort (v ++ [t])).Perm (t :: v) :=
  (perm_insertion_sort _).trans (List.perm_append_singleton t v)

/-- Moving the non-basic index `t` to `basl` keeps the invariant. -/
theorem fast_inv_to_basl (N : Nat) (st : FastState) (t : Nat) (z1 : VectorNd)
    (h : fast_inv N st) (hb : binary_search st.nonbas t = true) :
    fast_inv N ⟨st.nonbas.eraseIdx (lower_bound st.nonbas t), insertion_sort (st.bas ++ [t]),
      insertion_sort (st.basl ++ [t]), st.basu, z1⟩ := by
  obtain ⟨h1, h2, h3, h4, h5, h6⟩ := h
  obtain ⟨hk, hget⟩ := binary_search_spec _ _ hb
  have hp := perm_eraseIdx st.nonbas _ hk
  rw [hget] at hp
  have hnd : (t :: (st.nonbas.eraseIdx (lower_bound st.nonbas t) ++ (st.basl ++ st.basu))).Nodup :=
    ((List.Perm.append_right _ hp).symm.trans h5).nodup_iff.2 (List.nodup_range _)
  have hnot : t ∉ st.basl ++ st.basu := fun hm =>
    (List.nodup_cons.1 hnd).1 (List.mem_append_right _ hm)
  refine ⟨pairwise_eraseIdx _ _ h1,
    strict_insert _ _ h2 (fun hm => hnot (List.mem_append_left _ hm)), h3,
    strict_insert _ _ h4 (fun hm => hnot (h6.mem_iff.1 hm)), ?_, ?_⟩
  · refine List.Perm.trans ?_ ((List.Perm.append_right _ hp).symm.trans h5)
    refine (List.Perm.append_left _ (List.Perm.append_right _ (perm_insert _ _))).trans ?_
    simp only [List.cons_append]
    exact List.perm_middle
  · refine (perm_insert _ _).trans ?_
    refine List.Perm.trans ?_ (List.Perm.append_right _ (perm_insert _ _)).symm
    simp only [List.cons_append]
    exact List.Perm.cons _ h6

/-- Moving the non-basic index `t` to `basu` keeps the invariant. -/
theorem fast_inv_to_basu (N : Nat) (st : FastState) (t : Nat) (z1 : VectorNd)
    (h : fast_inv N st) (hb : binary_search st.nonbas t = true) :
    fast_inv N ⟨st.nonbas.eraseIdx (lower_bound st.nonbas t), insertion_sort (st.bas ++ [t]),
      st.basl, insertion_sort (st.basu ++ [t]), z1⟩ := by
  obtain ⟨h1, h2, h3, h4, h5, h6⟩ := h
  obtain ⟨hk, hget⟩ := binary_search_spec _ _ hb
  have hp := perm_eraseIdx st.nonbas _ hk
  rw [hget] at hp
  have hnd : (t :: (st.nonbas.eraseIdx (lower_bound st.nonbas t) ++ (st.basl ++ st.basu))).Nodup :=
    ((List.Perm.append_right _ hp).symm.trans h5).nodup_iff.2 (List.nodup_range _)
  have hnot : t ∉ st.basl ++ st.basu := fun hm =>
    (List.nodup_cons.1 hnd).1 (List.mem_append_right _ hm)
  have hu : (st.basl ++ insertion_sort (st.basu ++ [t])).Perm (t :: (st.basl ++ st.basu)) :=
    (List.Perm.append_left _ (perm_insert _ _)).trans List.perm_middle
  refine ⟨pairwise_eraseIdx _ _ h1, h2,
    strict_insert _ _ h3 (fun hm => hnot (List.mem_append_right _ hm)),
    strict_insert _ _ h4 (fun hm => hnot (h6.mem_iff.1 hm)), ?_, ?_⟩
  · refine List.Perm.trans ?_ ((List.Perm.append_right _ hp).symm.trans h5)
    refine (List.Perm.append_left _ hu).trans ?_
    simp only [List.cons_append]
    exact List.perm_middle
  · exact (perm_insert _ _).trans ((List.Perm.cons _ h6).trans hu.symm)

/-- What a completed removal from the basic sets gives. -/
theorem fast_erase_basic_spec (basl basu bl bu : List Nat) (t : Nat)
    (hsl : basl.Pairwise (· < ·)) (hsu : basu.Pairwise (· < ·)) (hm : t ∈ basl ++ basu)
    (he : fast_erase_basic basl basu t = .ret (bl, bu)) :
    bl.Pairwise (· < ·) ∧ bu.Pairwise (· < ·) ∧ (basl ++ basu).Perm (t :: (bl ++ bu)) := by
  unfold fast_erase_basic at he
  by_cases h1 : basl = []
  · rw [if_pos h1] at he
    subst h1
    simp only [List.nil_append] at hm ⊢
    by_cases h2 : lower_bound basu t < basu.length
    · rw [if_pos h2] at he
      simp only [Outcome.ret.injEq, Prod.mk.injEq] at he
      rw [← he.1, ← he.2]
      have hp := perm_eraseIdx basu _ h2
      rw [(lower_bound_mem basu t hsu hm).2] at hp
      exact ⟨List.Pairwise.nil, pairwise_eraseIdx _ _ hsu, by simpa using hp⟩
    · rw [if_neg h2] at he
      exact absurd he (by simp)
  · rw [if_neg h1] at he
    by_cases h2 : basu = []
    · rw [if_pos h2] at he
      subst h2
      simp only [List.append_nil] at hm ⊢
      by_cases h3 : lower_bound basl t < basl.length
      · rw [if_pos h3] at he
        simp only [Outcome.ret.injEq, Prod.mk.injEq] at he
        rw [← he.1, ← he.2]
        have hp := perm_eraseIdx basl _ h3
        rw [(lower_bound_mem basl t hsl hm).2] at hp
        exact ⟨pairwise_eraseIdx _ _ hsl, List.Pairwise.nil, by simpa using hp⟩
      · rw [if_neg h3] at he
        exact absurd he (by simp)
    · rw [if_neg h2] at he
      by_cases h3 : lower_bound basl t < basl.length
      · rw [if_pos h3] at he
        by_cases h4 : basl.getD (lower_bound basl t) 0 = t
        · rw [if_pos h4] at he
          simp only [Outcome.ret.injEq, Prod.mk.injEq] at he
          rw [← he.1, ← he.2]
          have hp := perm_eraseIdx basl _ h3
          rw [h4] at hp
          exact ⟨pairwise_eraseIdx _ _ hsl, hsu, List.Perm.append_right _ hp⟩
        · rw [if_neg h4] at he
          by_cases h5 : lower_bound basu t < basu.length
          · rw [if_pos h5] at he
            by_cases h6 : basu.getD (lower_bound basu t) 0 = t
            · rw [if_pos h6] at he
              simp only [Outcome.ret.injEq, Prod.mk.injEq] at he
              rw [← he.1, ← he.2]
              have hp := perm_eraseIdx basu _ h5
              rw [h6] at hp
              exact ⟨hsl, pairwise_eraseIdx _ _ hsu,
                (List.Perm.append_left _ hp).trans List.perm_middle⟩
            · rw [if_neg h6] at he
              exact absurd he (by simp)
          · rw [if_neg h5] at he
            exact absurd he (by simp)
      · rw [if_neg h3] at he
        exact absurd he (by simp)

/-- Moving the basic index `t` to `nonbas` keeps the invariant. -/
theorem fast_inv_to_nonbas (N : Nat) (st : FastState) (t : Nat) (bl bu : List Nat)
    (z1 : VectorNd) (h : fast_inv N st) (hb : binary_search st.bas t = true)
    (he : fast_erase_basic st.basl st.basu t = .ret (bl, bu)) :
    fast_inv N ⟨insertion_sort (st.nonbas ++ [t]), st.bas.eraseIdx (lower_bound st.bas t),
      bl, bu, z1⟩ := by
  obtain ⟨h1, h2, h3, h4, h5, h6⟩ := h
  obtain ⟨hk, hget⟩ := binary_search_spec _ _ hb
  have hp := perm_eraseIdx st.bas _ hk
  rw [hget] at hp
  have hm : t ∈ st.basl ++ st.basu := h6.mem_iff.1 (hget ▸ getD_mem _ _ hk)
  obtain ⟨e1, e2, e3⟩ := fast_erase_basic_spec _ _ _ _ _ h2 h3 hm he
  have hnd : (st.nonbas ++ (st.basl ++ st.basu)).Nodup := h5.nodup_iff.2 (List.nodup_range _)
  have hnot : t ∉ st.nonbas := fun hx => (List.nodup_append.1 hnd).2.2 hx hm
  refine ⟨strict_insert _ _ h1 hnot, e1, e2, pairwise_eraseIdx _ _ h4, ?_, ?_⟩
  · refine List.Perm.trans ?_ h5
    refine (List.Perm.append_right _ (perm_insert _ _)).trans ?_
    refine List.Perm.trans ?_ (List.Perm.append_left _ e3.symm)
    simp only [List.cons_append]
    exact List.perm_middle.symm
  · exact List.Perm.cons_inv ((hp.symm.trans h6).trans e3)

/-- C29 (the property fails). For `M = I`, `q = (-5,-3)`, `l = (0,-DBL_MAX)`,
`u = (DBL_MAX,0)` and no warm start, `mlcp_fast` starts with `basl = (0)`,
`basu = (1)` and picks `to_nbasic = 1` in its first iteration. Both basic sets
being non-empty, it looks `1` up in `basl` first: `lower_bound` returns the end
iterator, which the code dereferences. -/
theorem C29_lower_bound_end :
    fast_cold [0, -DBL_MAX] [DBL_MAX, 0] (List.range 2) = ([], [0, 1], [0], [1]) ∧
    lower_bound [0] 1 = ([0] : List Nat).length ∧
    fast_erase_basic [0] [1] 1 = .undefined ∧
    (mlcp_fast exactLA (1 / 2 ^ 26) [[1, 0], [0, 1]] [-5, -3] [0, -DBL_MAX] [DBL_MAX, 0] [] 0
      (fun _ => 0)).map Prod.fst = .undefined := by
  decide!

theorem fast_valid_w_inv (NEAR_ZERO : ℚ) (l u : VectorNd) (N : Nat) (z : VectorNd)
    (st : FastState) (rng : Rng) (h : fast_inv N st) :
    (∀ st1 rng1, fast_valid_w NEAR_ZERO l u N z st rng = .ret (.again st1, rng1) →
      fast_inv N st1) ∧
    (∀ st1 rng1, fast_valid_w NEAR_ZERO l u N z st rng ≠ .ret (.leave st1, rng1)) := by
  unfold fast_valid_w
  simp only []
  constructor
  · intro st1 rng1 he
    split_ifs at he with c1 c2 c3 c4
    · simp only [Outcome.ret.injEq, Prod.mk.injEq, Step.again.injEq] at he
      rw [← he.1]
      exact fast_inv_to_basl N st _ z h c3
    · simp only [Outcome.ret.injEq, Prod.mk.injEq, Step.again.injEq] at he
      rw [← he.1]
      exact fast_inv_to_basu N st _ z h c3
    · simp at he
  · intro st1 rng1 he
    split_ifs at he <;> simp at he

theorem fast_after_pivot_inv (l u : VectorNd) (zero_tol : ℚ) (N : Nat) (st : FastState)
    (rng : Rng) (h : fast_inv N st) :
    (∀ st1 rng1, fast_after_pivot l u zero_tol N st rng = .ret (.again st1, rng1) →
      fast_inv N st1) ∧
    (∀ st1 rng1, fast_after_pivot l u zero_tol N st rng ≠ .ret (.leave st1, rng1)) := by
  unfold fast_after_pivot
  simp only []
  constructor
  · intro st1 rng1 he
    split_ifs at he with c1 c2 c3 c4 c5 c6
    · simp only [Outcome.ret.injEq, Prod.mk.injEq, Step.again.injEq] at he
      rw [← he.1]
      exact fast_inv_to_basl N st _ st.z h c4
    · simp only [Outcome.ret.injEq, Prod.mk.injEq, Step.again.injEq] at he
      rw [← he.1]
      exact fast_inv_to_basu N st _ st.z h c6
    · simp only [Outcome.ret.injEq, Prod.mk.injEq, Step.again.injEq] at he
      rw [← he.1]
      exact h
  · intro st1 rng1 he
    split_ifs at he <;> simp at he

/-- One iteration of `mlcp_fast` that goes on to a next one keeps the invariant
of the index vectors. -/
theorem fast_iter_inv (la : LinAlg) (NEAR_ZERO : ℚ) (M : MatrixNd) (q l u : VectorNd)
    (zero_tol : ℚ) (st : FastState) (rng : Rng) (h : fast_inv q.length st) :
    (∀ st1 rng1, fast_iter la NEAR_ZERO M q l u zero_tol st rng = .ret (.again st1, rng1) →
      fast_inv q.length st1) ∧
    (∀ st1 rng1, fast_iter la NEAR_ZERO M q l u zero_tol st rng ≠ .ret (.leave st1, rng1)) := by
  unfold fast_iter
  simp only []
  cases hs : la.solve_fast (select_square M st.nonbas) (vneg (vselect q st.nonbas)) with
  | none => simp
  | some zsub =>
    simp only []
    split_ifs with c1 c2 c3
    · exact fast_valid_w_inv NEAR_ZERO l u q.length _ st rng h
    · simp
    · cases he : fast_erase_basic st.basl st.basu _ with
      | ret p =>
        obtain ⟨bl, bu⟩ := p
        simp only []
        exact fast_after_pivot_inv l u zero_tol q.length _ _
          (fast_inv_to_nonbas q.length st _ bl bu _ h c3 he)
      | assertFail => simp
      | undefined => simp
      | timeout => simp
    · simp

theorem fast_warm_spec (l u z : VectorNd) (zero_tol : ℚ) (is : List Nat) :
    (fast_warm l u z zero_tol is).1.Sublist is ∧
    (fast_warm l u z zero_tol is).2.1.Sublist is ∧
    (fast_warm l u z zero_tol is).2.2.1.Sublist is ∧
    (fast_warm l u z zero_tol is).2.2.2.Sublist is ∧
    ((fast_warm l u z zero_tol is).1 ++
      ((fast_warm l u z zero_tol is).2.2.1 ++ (fast_warm l u z zero_tol is).2.2.2)).Perm is ∧
    (fast_warm l u z zero_tol is).2.1.Perm
      ((fast_warm l u z zero_tol is).2.2.1 ++ (fast_warm l u z zero_tol is).2.2.2) := by
  induction is with
  | nil => simp [fast_warm]
  | cons i is ih =>
    simp only [fast_warm]
    rcases hr : fast_warm l u z zero_tol is with ⟨nb, b, bl, bu⟩
    rw [hr] at ih
    obtain ⟨h1, h2, h3, h4, h5, h6⟩ := ih
    simp only [] at h1 h2 h3 h4 h5 h6 ⊢
    split_ifs
    · exact ⟨h1.cons i, h2.cons₂ i, h3.cons₂ i, h4.cons i,
        List.perm_middle.trans (List.Perm.cons i h5), List.Perm.cons i h6⟩
    · refine ⟨h1.cons i, h2.cons₂ i, h3.cons i, h4.cons₂ i, ?_,
        (List.Perm.cons i h6).trans List.perm_middle.symm⟩
      exact ((List.Perm.append_left nb List.perm_middle).trans List.perm_middle).trans
        (List.Perm.cons i h5)
    · exact ⟨h1.cons₂ i, h2.cons i, h3.cons i, h4.cons i, List.Perm.cons i h5, h6⟩

theorem fast_cold_spec (l u : VectorNd) (is : List Nat) :
    (fast_cold l u is).1.Sublist is ∧
    (fast_cold l u is).2.1.Sublist is ∧
    (fast_cold l u is).2.2.1.Sublist is ∧
    (fast_cold l u is).2.2.2.Sublist is ∧
    ((fast_cold l u is).1 ++ ((fast_cold l u is).2.2.1 ++ (fast_cold l u is).2.2.2)).Perm is ∧
    (fast_cold l u is).2.1.Perm ((fast_cold l u is).2.2.1 ++ (fast_cold l u is).2.2.2) := by
  induction is with
  | nil => simp [fast_cold]
  | cons i is ih =>
    simp only [fast_cold]
    rcases hr : fast_cold l u is with ⟨nb, b, bl, bu⟩
    rw [hr] at ih
    obtain ⟨h1, h2, h3, h4, h5, h6⟩ := ih
    simp only [] at h1 h2 h3 h4 h5 h6 ⊢
    split_ifs
    · exact ⟨h1.cons₂ i, h2.cons i, h3.cons i, h4.cons i, List.Perm.cons i h5, h6⟩
    · refine ⟨h1.cons i, h2.cons₂ i, h3.cons i, h4.cons₂ i, ?_,
        (List.Perm.cons i h6).trans List.perm_middle.symm⟩
      exact ((List.Perm.append_left nb List.perm_middle).trans List.perm_middle).trans
        (List.Perm.cons i h5)
    · exact ⟨h1.cons i, h2.cons₂ i, h3.cons₂ i, h4.cons i,
        List.perm_middle.trans (List.Perm.cons i h5), List.Perm.cons i h6⟩

theorem fast_loop_trace_inv (la : LinAlg) (NEAR_ZERO : ℚ) (M : MatrixNd) (q l u : VectorNd)
    (zero_tol : ℚ) :
    ∀ (left : Nat) (st : FastState) (rng : Rng), fast_inv q.length st →
      ∀ s ∈ fast_loop_trace la NEAR_ZERO M q l u zero_tol left st rng, fast_inv q.length s := by
  intro left
  induction left with
  | zero =>
    intro st rng _ s hs
    simp [fast_loop_trace] at hs
  | succ left ih =>
    intro st rng h s hs
    have hsp := fast_iter_inv la NEAR_ZERO M q l u zero_tol st rng h
    rw [fast_loop_trace, List.mem_cons] at hs
    rcases hs with rfl | hs
    · exact h
    · cases hit : fast_iter la NEAR_ZERO M q l u zero_tol st rng with
      | ret p =>
        obtain ⟨step, rng1⟩ := p
        rw [hit] at hs
        cases step with
        | again st1 => exact ih st1 rng1 (hsp.1 st1 rng1 hit) s hs
        | leave st1 => exact absurd hit (hsp.2 st1 rng1)
        | result ok z1 => simp at hs
      | assertFail => rw [hit] at hs; simp at hs
      | undefined => rw [hit] at hs; simp at hs
      | timeout => rw [hit] at hs; simp at hs

/-- C28. At the start of every iteration of `mlcp_fast` (for any bounds, `l ≤ u`
among them) the index vectors `nonbas`, `basl` and `basu` are sorted, pairwise
disjoint and together contain each index `0..n-1` exactly once, and `bas` is
sorted and holds the indices of `basl` and `basu`. An iteration that fails an
assertion or dereferences an end iterator is the last one of the run. -/
theorem C28_fast_index_sets (la : LinAlg) (NEAR_ZERO : ℚ) (M : MatrixNd) (q l u z : VectorNd)
    (zero_tol : ℚ) (rng : Rng) (s : FastState)
    (hs : s ∈ mlcp_fast_trace la NEAR_ZERO M q l u z zero_tol rng) :
    fast_inv q.length s := by
  have hsub : ∀ v : List Nat, v.Sublist (List.range q.length) → v.Pairwise (· < ·) :=
    fun v hv => List.Pairwise.sublist hv (List.pairwise_lt_range _)
  unfold mlcp_fast_trace at hs
  simp only [] at hs
  by_cases hn : q.length = 0
  · rw [if_pos hn] at hs
    simp at hs
  · rw [if_neg hn] at hs
    generalize (if zero_tol < 0 then (M.length : ℚ) * norm_inf M * DBL_EPSILON else zero_tol)
      = zt at hs
    by_cases hwarm : z.length = q.length
    · rw [if_pos hwarm] at hs
      have hw := fast_warm_spec l u z zt (List.range z.length)
      rw [hwarm] at hw hs
      refine fast_loop_trace_inv la NEAR_ZERO M q l u zt _ _ rng ?_ s hs
      exact ⟨hsub _ hw.1, hsub _ hw.2.2.1, hsub _ hw.2.2.2.1, hsub _ hw.2.1, hw.2.2.2.2.1,
        hw.2.2.2.2.2⟩
    · rw [if_neg hwarm] at hs
      by_cases hnol : (List.range q.length).all (fun i => !decide (vget l i = -DBL_MAX)) = true
      · rw [if_pos hnol] at hs
        by_cases htriv : vget (vadd (mult M l) q) (min_element (vadd (mult M l) q)) > -zt
        · rw [if_pos htriv] at hs
          simp at hs
        · rw [if_neg htriv] at hs
          refine fast_loop_trace_inv la NEAR_ZERO M q l u zt _ _ rng ?_ s hs
          have hlt : min_element (vadd (mult M l) q) < q.length := by
            by_cases hw : vadd (mult M l) q = []
            · rw [hw]
              exact Nat.pos_of_ne_zero hn
            · refine lt_of_lt_of_le (min_element_spec _ hw).1 ?_
              simp only [vadd, List.length_zipWith]
              exact Nat.min_le_right _ _
          have he : (List.range q.length).filter
              (fun i => !decide (i = min_element (vadd (mult M l) q))) =
              (List.range q.length).erase (min_element (vadd (mult M l) q)) := by
            rw [(List.nodup_range _).erase_eq_filter]
            apply List.filter_congr
            intro x _
            by_cases hx : x = min_element (vadd (mult M l) q) <;> simp [hx]
          have hf : ((List.range q.length).filter
              (fun i => !decide (i = min_element (vadd (mult M l) q)))).Pairwise (· < ·) :=
            hsub _ (List.filter_sublist _)
          refine ⟨List.pairwise_singleton _ _, hf, List.Pairwise.nil, hf, ?_, by simp⟩
          simp only [List.append_nil, List.singleton_append]
          rw [he]
          exact (List.perm_cons_erase (List.mem_range.2 hlt)).symm
      · rw [if_neg hnol] at hs
        have hc := fast_cold_spec l u (List.range q.length)
        refine fast_loop_trace_inv la NEAR_ZERO M q l u zt _ _ rng ?_ s hs
        exact ⟨hsub _ hc.1, hsub _ hc.2.2.1, hsub _ hc.2.2.2.1, hsub _ hc.2.1, hc.2.2.2.2.1,
          hc.2.2.2.2.2⟩

theorem C28_fast_index_sets_witness :
    (⟨[0, 1], [], [], [], [0, 3]⟩ : FastState) ∈
      mlcp_fast_trace exactLA (1 / 2 ^ 26) [[2, 1], [1, 2]] [-5, -6] [0, 0] [10, 10] [] 0
        (fun _ => 0) ∧
    fast_inv ([-5, -6] : VectorNd).length ⟨[0, 1], [], [], [], [0, 3]⟩ :=
  ⟨by decide!,
    C28_fast_index_sets exactLA (1 / 2 ^ 26) [[2, 1], [1, 2]] [-5, -6] [0, 0] [10, 10] [] 0
      (fun _ => 0) ⟨[0, 1], [], [], [], [0, 3]⟩ (by decide!)⟩

end LCP
/-! ## The sparse overload of Lemke's algorithm (C27) -/

namespace LCP

/-- C27 (the property fails). For `M = (2)`, `q = (-3)`, `z = (0)` and default
tolerances the dense `lcp_lemke` returns true with `z = (3/2)`, while the sparse
overload, in its ratio test, selects the directions from the member `_d`, which
no code assigns, instead of `_dl`: it reads `_d[0]` past the end. On the ray
termination of `M = (0)`, `q = (-1)` both return false, the dense overload with
the `2n` zeros it started from in `z`, the sparse one after `z.resize(n)`. -/
theorem C27_sparse_differs :
    lcp_lemke_sparse exactLA.solve_fast [] [[2]] [-3] [0] 0 0 = .undefined ∧
    (lcp_lemke exactLA [[2]] [-3] [0] 0 0 (fun _ => 0)).1 = ⟨true, [3 / 2], 1⟩ ∧
    lcp_lemke_sparse exactLA.solve_fast [] [[0]] [-1] [0] 0 0 = .ret false [0] ∧
    (lcp_lemke exactLA [[0]] [-1] [0] 0 0 (fun _ => 0)).1 = ⟨false, [0, 0], 0⟩ := by
  decide!

end LCP
/-! ## `rand_min` (C31) -/

namespace LCP

theorem min_element_from_first (xs pre : List ℚ) (best : Nat) (hb : best < pre.length)
    (hmin : ∀ x ∈ pre, vget pre best ≤ x)
    (hfirst : ∀ k, k < best → vget pre best < vget pre k) :
    ∀ k, k < min_element_from best (vget pre best) pre.length xs →
      vget (pre ++ xs) (min_element_from best (vget pre best) pre.length xs) <
        vget (pre ++ xs) k := by
  induction xs generalizing pre best with
  | nil =>
    simp only [min_element_from, List.append_nil]
    exact hfirst
  | cons y ys ih =>
    have hpre : pre ++ y :: ys = (pre ++ [y]) ++ ys := by simp
    have hlen : (pre ++ [y]).length = pre.length + 1 := by simp
    have hy : vget (pre ++ [y]) pre.length = y := vget_append_length pre [] y
    have hbest : vget (pre ++ [y]) best = vget pre best := vget_append_left _ _ _ hb
    simp only [min_element_from]
    split
    · next hlt =>
      have := ih (pre ++ [y]) pre.length (by simp) (by
        intro x hx
        rw [hy]
        rcases List.mem_append.mp hx with h | h
        · exact le_trans (le_of_lt hlt) (hmin x h)
        · simp at h; rw [h]) (by
        intro k hk
        rw [hy, vget_append_left _ _ _ hk, vget_eq_getElem _ _ hk]
        exact lt_of_lt_of_le hlt (hmin _ (List.getElem_mem _)))
      rw [hy, hlen] at this
      rw [hpre]; exact this
    · next hge =>
      have := ih (pre ++ [y]) best (by simp; omega) (by
        intro x hx
        rw [hbest]
        rcases List.mem_append.mp hx with h | h
        · exact hmin x h
        · simp at h; rw [h]; exact not_lt.mp hge) (by
        intro k hk
        rw [hbest, vget_append_left _ _ _ (by omega)]
        exact hfirst k hk)
      rw [hbest, hlen] at this
      rw [hpre]; exact this

/-- `min_element` points at the first smallest entry. -/
theorem min_element_first (xs : List ℚ) :
    ∀ k, k < min_element xs → vget xs (min_element xs) < vget xs k := by
  cases xs with
  | nil => intro k hk; simp [min_element] at hk
  | cons a xs =>
    have := min_element_from_first xs [a] 0 (by simp) (by
      intro x hx; simp at hx; rw [hx]; exact le_of_eq rfl) (by intro k hk; omega)
    simpa [min_element] using this

/-- C31. For every non-empty vector `v`, every `tol` and every state of the
pseudo-random generator, `rand_min(v, tol)` returns a valid index `i < |v|` that
is either the first minimiser of `v` or satisfies `v[i] < min(v) + tol`; for
`tol ≤ 0` it returns the first minimiser. -/
theorem C31_rand_min (v : VectorNd) (tol : ℚ) (rng : Rng) (h : v ≠ []) :
    (rand_min v tol rng).1 < v.length ∧
    ((rand_min v tol rng).1 = min_element v ∨
      vget v (rand_min v tol rng).1 < vget v (min_element v) + tol) ∧
    (tol ≤ 0 → (rand_min v tol rng).1 = min_element v) ∧
    (∀ x ∈ v, vget v (min_element v) ≤ x) ∧
    (∀ k, k < min_element v → vget v (min_element v) < vget v k) := by
  have hsp := min_element_spec v h
  refine ⟨rand_min_lt v tol rng h, ?_, ?_, hsp.2, min_element_first v⟩
  · have hmem : (rand_min v tol rng).1 ∈ min_element v :: (List.range v.length).filter
        (fun i => !decide (i = min_element v) &&
          decide (vget v i < vget v (min_element v) + tol)) := by
      unfold rand_min
      simp only []
      apply getD_mem
      apply Nat.mod_lt
      simp
    rcases List.mem_cons.1 hmem with h1 | h1
    · exact Or.inl h1
    · right
      have := (List.mem_filter.1 h1).2
      simp only [Bool.and_eq_true, decide_eq_true_eq] at this
      exact this.2
  · intro htol
    have hnil : (List.range v.length).filter
        (fun i => !decide (i = min_element v) &&
          decide (vget v i < vget v (min_element v) + tol)) = [] := by
      rw [List.filter_eq_nil_iff]
      intro i hi
      have hlt : i < v.length := List.mem_range.1 hi
      have hge := hsp.2 (vget v i) (by rw [vget_eq_getElem _ _ hlt]; exact List.getElem_mem _)
      simp only [Bool.and_eq_true, decide_eq_true_eq, not_and, not_lt]
      intro _
      linarith
    unfold rand_min
    simp only []
    rw [hnil]
    simp [Nat.mod_one]

theorem C31_rand_min_witness :
    (rand_min [3, 1, 2, 1] (1 / 2) (fun _ => 5)).1 < ([3, 1, 2, 1] : VectorNd).length :=
  (C31_rand_min [3, 1, 2, 1] (1 / 2) (fun _ => 5) (by decide)).1

end LCP
/-! ## The generic path of `find_contacts` (C32 – C34) -/

namespace CCD

/-- What one vertex loop of `find_contacts` does to `(min_dist, e)`: `min_dist`
stays non-negative and only shrinks, it ends at or below `max(0, d)` of every
vertex examined, every contact left is an old one (and then `min_dist` did not
move) or comes from a vertex within `NEAR_ZERO` of the final `min_dist`; once
`min_dist` is zero nothing is discarded, and every vertex with `d ≤ 0` stays. -/
theorem vertex_pass_spec (NEAR_ZERO : ℚ) (cgA cgB : CollisionGeometry)
    (query : Vector3d → ℚ × Vector3d) (flip : Bool) (hnz : 0 ≤ NEAR_ZERO) :
    ∀ (vs : List Vector3d) (acc : ℚ × List Contact), 0 ≤ acc.1 →
      0 ≤ (vertex_pass NEAR_ZERO cgA cgB query flip vs acc).1 ∧
      (vertex_pass NEAR_ZERO cgA cgB query flip vs acc).1 ≤ acc.1 ∧
      (∀ v ∈ vs, (vertex_pass NEAR_ZERO cgA cgB query flip vs acc).1 ≤ max 0 (query v).1) ∧
      (∀ c ∈ (vertex_pass NEAR_ZERO cgA cgB query flip vs acc).2,
        (c ∈ acc.2 ∧ (vertex_pass NEAR_ZERO cgA cgB query flip vs acc).1 = acc.1) ∨
        ∃ v ∈ vs, c = create_contact cgA cgB v (if flip then -(query v).2 else (query v).2) ∧
          (query v).1 ≤ (vertex_pass NEAR_ZERO cgA cgB query flip vs acc).1 + NEAR_ZERO) ∧
      (acc.1 = 0 → ∀ c ∈ acc.2, c ∈ (vertex_pass NEAR_ZERO cgA cgB query flip vs acc).2) ∧
      (∀ v ∈ vs, (query v).1 ≤ 0 →
        create_contact cgA cgB v (if flip then -(query v).2 else (query v).2) ∈
          (vertex_pass NEAR_ZERO cgA cgB query flip vs acc).2) := by
  intro vs
  induction vs with
  | nil =>
    intro acc h0
    simp only [vertex_pass]
    exact ⟨h0, le_refl _, fun v hv => by simp at hv, fun c hc => Or.inl ⟨hc, trivial⟩,
      fun _ c hc => hc, fun v hv => by simp at hv⟩
  | cons v vs ih =>
    intro acc h0
    obtain ⟨m, e⟩ := acc
    simp only [] at h0
    simp only [vertex_pass]
    by_cases hadm : (query v).1 - NEAR_ZERO ≤ m
    · rw [if_pos hadm]
      have hm0 : 0 ≤ min m (max 0 (query v).1) := le_min h0 (le_max_left _ _)
      obtain ⟨i1, i2, i3, i4, i5, i6⟩ := ih
        (min m (max 0 (query v).1),
          (if (query v).1 - NEAR_ZERO < m ∧ m > 0 then [] else e)
            ++ [create_contact cgA cgB v (if flip then -(query v).2 else (query v).2)]) hm0
      simp only [] at i1 i2 i3 i4 i5 i6
      have hkeep : ¬ ((query v).1 - NEAR_ZERO < m ∧ m > 0) →
          min m (max 0 (query v).1) = m := by
        intro hc
        apply min_eq_left
        by_cases hpos : m > 0
        · have : m ≤ (query v).1 - NEAR_ZERO := not_lt.1 (fun h => hc ⟨h, hpos⟩)
          exact le_trans (by linarith) (le_max_right _ _)
        · have : m = 0 := le_antisymm (not_lt.1 hpos) h0
          rw [this]
          exact le_max_left _ _
      refine ⟨i1, le_trans i2 (min_le_left _ _), ?_, ?_, ?_, ?_⟩
      · intro w hw
        rcases List.mem_cons.1 hw with rfl | hw
        · exact le_trans i2 (min_le_right _ _)
        · exact i3 w hw
      · intro c hc
        rcases i4 c hc with ⟨hmem, heq⟩ | ⟨w, hw, hcw, hdw⟩
        · rcases List.mem_append.1 hmem with hold | hnew
          · by_cases hclr : (query v).1 - NEAR_ZERO < m ∧ m > 0
            · rw [if_pos hclr] at hold
              simp at hold
            · rw [if_neg hclr] at hold
              exact Or.inl ⟨hold, heq.trans (hkeep hclr)⟩
          · right
            refine ⟨v, List.mem_cons_self _ _, by simpa using hnew, ?_⟩
            rw [heq]
            rcases le_total m (max 0 (query v).1) with h1 | h1
            · rw [min_eq_left h1]; linarith
            · rw [min_eq_right h1]
              have := le_max_right 0 (query v).1
              linarith
        · exact Or.inr ⟨w, List.mem_cons_of_mem _ hw, hcw, hdw⟩
      · intro hz c hc
        have hz2 : m = 0 := hz
        have hclr : ¬ ((query v).1 - NEAR_ZERO < m ∧ m > 0) := by
          rintro ⟨_, h2⟩
          rw [hz2] at h2
          exact lt_irrefl _ h2
        apply i5 (by rw [hz2]; exact min_eq_left (le_max_left _ _))
        rw [if_neg hclr]
        exact List.mem_append_left _ hc
      · intro w hw hd
        rcases List.mem_cons.1 hw with rfl | hw
        · apply i5
          · rw [max_eq_left hd]
            exact min_eq_right h0
          · simp
        · exact i6 w hw hd
    · rw [if_neg hadm]
      obtain ⟨i1, i2, i3, i4, i5, i6⟩ := ih (m, e) h0
      simp only [] at i1 i2 i3 i4 i5 i6
      refine ⟨i1, i2, ?_, ?_, i5, ?_⟩
      · intro w hw
        rcases List.mem_cons.1 hw with rfl | hw
        · have := le_max_right 0 (query w).1
          linarith [not_le.1 hadm]
        · exact i3 w hw
      · intro c hc
        rcases i4 c hc with h | ⟨w, hw, hcw, hdw⟩
        · exact Or.inl h
        · exact Or.inr ⟨w, List.mem_cons_of_mem _ hw, hcw, hdw⟩
      · intro w hw hd
        rcases List.mem_cons.1 hw with rfl | hw
        · exact absurd (by linarith : (query w).1 - NEAR_ZERO ≤ m) hadm
        · exact i6 w hw hd

theorem dbl_max_nonneg : (0 : ℚ) ≤ DBL_MAX := by
  unfold DBL_MAX
  norm_num

/-- C32 (the property fails). Two vertices at the same height 1 above the
half-space `z ≤ 0`, with `NEAR_ZERO = 2^-26`: both have the signed distance 1,
the minimum over all vertices, and the second one passes the admission test
`d - NEAR_ZERO <= min_dist`. But the discard test `d - NEAR_ZERO < min_dist`
holds as well, the accumulator with the first vertex is cleared, and only the
second vertex is emitted. -/
theorem C32_tie_discarded :
    ((halfspace_geom 2).calc_dist_and_normal ![0, 0, 1]).1 = 1 ∧
    ((halfspace_geom 2).calc_dist_and_normal ![1, 0, 1]).1 = 1 ∧
    find_contacts (1 / 2 ^ 26) normalize_axis (vertex_geom 1 [![0, 0, 1], ![1, 0, 1]])
      (halfspace_geom 2) = [⟨1, 2, ![1, 0, 1], ![0, 0, 1]⟩] ∧
    create_contact (vertex_geom 1 [![0, 0, 1], ![1, 0, 1]]) (halfspace_geom 2) ![0, 0, 1]
        ![0, 0, 1] ∉
      find_contacts (1 / 2 ^ 26) normalize_axis (vertex_geom 1 [![0, 0, 1], ![1, 0, 1]])
        (halfspace_geom 2) := by
  decide!

/-- C33. In the generic path of `find_contacts` (with `NEAR_ZERO ≥ 0`), every
vertex of either geometry whose signed distance to the other geometry is `≤ 0`
appears as a contact in the output, whatever the order of the vertices: with the
queried normal for a vertex of A, with the negated normal for a vertex of B. -/
theorem C33_penetrating_vertices (NEAR_ZERO : ℚ) (cgA cgB : CollisionGeometry)
    (hnz : 0 ≤ NEAR_ZERO) :
    (∀ v ∈ cgA.vertices, (cgB.calc_dist_and_normal v).1 ≤ 0 →
      create_contact cgA cgB v (cgB.calc_dist_and_normal v).2 ∈
        find_contacts_generic NEAR_ZERO cgA cgB) ∧
    (∀ v ∈ cgB.vertices, (cgA.calc_dist_and_normal v).1 ≤ 0 →
      create_contact cgA cgB v (-(cgA.calc_dist_and_normal v).2) ∈
        find_contacts_generic NEAR_ZERO cgA cgB) := by
  unfold find_contacts_generic
  obtain ⟨a1, _, a3, _, _, a6⟩ := vertex_pass_spec NEAR_ZERO cgA cgB cgB.calc_dist_and_normal
    false hnz cgA.vertices (DBL_MAX, []) dbl_max_nonneg
  obtain ⟨_, _, _, _, b5, b6⟩ := vertex_pass_spec NEAR_ZERO cgA cgB cgA.calc_dist_and_normal
    true hnz cgB.vertices
    (vertex_pass NEAR_ZERO cgA cgB cgB.calc_dist_and_normal false cgA.vertices (DBL_MAX, [])) a1
  constructor
  · intro v hv hd
    apply b5
    · have := a3 v hv
      rw [max_eq_left hd] at this
      exact le_antisymm this a1
    · simpa using a6 v hv hd
  · intro v hv hd
    simpa using b6 v hv hd

theorem C33_penetrating_vertices_witness :
    ((halfspace_geom 2).calc_dist_and_normal ![0, 0, -1]).1 ≤ 0 ∧
    create_contact (vertex_geom 1 [![0, 0, -1], ![1, 0, 0]]) (halfspace_geom 2) ![0, 0, -1]
        ((halfspace_geom 2).calc_dist_and_normal ![0, 0, -1]).2 ∈
      find_contacts_generic (1 / 2 ^ 26) (vertex_geom 1 [![0, 0, -1], ![1, 0, 0]])
        (halfspace_geom 2) :=
  ⟨by decide!,
    (C33_penetrating_vertices (1 / 2 ^ 26) (vertex_geom 1 [![0, 0, -1], ![1, 0, 0]])
      (halfspace_geom 2) (by norm_num)).1 ![0, 0, -1] (by decide!) (by decide!)⟩

/-- C34. In the generic path of `find_contacts` (with `NEAR_ZERO ≥ 0`), every
emitted contact comes from a vertex, of A with the queried normal or of B with
the negated one, whose signed distance `d` satisfies
`d ≤ max(0, d_w) + NEAR_ZERO` for the signed distance `d_w` of every vertex
examined in the two passes, hence `d ≤ max(0, d_min) + NEAR_ZERO`. -/
theorem C34_contact_distance (NEAR_ZERO : ℚ) (cgA cgB : CollisionGeometry)
    (hnz : 0 ≤ NEAR_ZERO) (c : Contact) (hc : c ∈ find_contacts_generic NEAR_ZERO cgA cgB) :
    ∃ d : ℚ,
      ((∃ v ∈ cgA.vertices, c = create_contact cgA cgB v (cgB.calc_dist_and_normal v).2 ∧
          d = (cgB.calc_dist_and_normal v).1) ∨
        (∃ v ∈ cgB.vertices, c = create_contact cgA cgB v (-(cgA.calc_dist_and_normal v).2) ∧
          d = (cgA.calc_dist_and_normal v).1)) ∧
      (∀ w ∈ cgA.vertices, d ≤ max 0 (cgB.calc_dist_and_normal w).1 + NEAR_ZERO) ∧
      (∀ w ∈ cgB.vertices, d ≤ max 0 (cgA.calc_dist_and_normal w).1 + NEAR_ZERO) := by
  unfold find_contacts_generic at hc
  obtain ⟨a1, _, a3, a4, _, _⟩ := vertex_pass_spec NEAR_ZERO cgA cgB cgB.calc_dist_and_normal
    false hnz cgA.vertices (DBL_MAX, []) dbl_max_nonneg
  obtain ⟨_, b2, b3, b4, _, _⟩ := vertex_pass_spec NEAR_ZERO cgA cgB cgA.calc_dist_and_normal
    true hnz cgB.vertices
    (vertex_pass NEAR_ZERO cgA cgB cgB.calc_dist_and_normal false cgA.vertices (DBL_MAX, [])) a1
  have hfin : ∀ d : ℚ,
      d ≤ (vertex_pass NEAR_ZERO cgA cgB cgA.calc_dist_and_normal true cgB.vertices
        (vertex_pass NEAR_ZERO cgA cgB cgB.calc_dist_and_normal false cgA.vertices
          (DBL_MAX, []))).1 + NEAR_ZERO →
      (∀ w ∈ cgA.vertices, d ≤ max 0 (cgB.calc_dist_and_normal w).1 + NEAR_ZERO) ∧
      (∀ w ∈ cgB.vertices, d ≤ max 0 (cgA.calc_dist_and_normal w).1 + NEAR_ZERO) := by
    intro d hd
    constructor
    · intro w hw
      have := a3 w hw
      linarith
    · intro w hw
      have := b3 w hw
      linarith
  rcases b4 c hc with ⟨hold, heq⟩ | ⟨v, hv, hcv, hdv⟩
  · rcases a4 c hold with ⟨hnil, _⟩ | ⟨v, hv, hcv, hdv⟩
    · simp at hnil
    · refine ⟨(cgB.calc_dist_and_normal v).1, Or.inl ⟨v, hv, by simpa using hcv, rfl⟩,
        hfin _ ?_⟩
      rw [heq]
      exact hdv
  · exact ⟨(cgA.calc_dist_and_normal v).1, Or.inr ⟨v, hv, by simpa using hcv, rfl⟩,
      hfin _ hdv⟩

theorem C34_contact_distance_witness :
    (⟨1, 2, ![1, 0, 1], ![0, 0, 1]⟩ : Contact) ∈
      find_contacts_generic (1 / 2 ^ 26) (vertex_geom 1 [![0, 0, 1], ![1, 0, 1]])
        (halfspace_geom 2) ∧
    ∃ d : ℚ,
      ((∃ v ∈ (vertex_geom 1 [![0, 0, 1], ![1, 0, 1]]).vertices,
          (⟨1, 2, ![1, 0, 1], ![0, 0, 1]⟩ : Contact) =
            create_contact (vertex_geom 1 [![0, 0, 1], ![1, 0, 1]]) (halfspace_geom 2) v
              ((halfspace_geom 2).calc_dist_and_normal v).2 ∧
          d = ((halfspace_geom 2).calc_dist_and_normal v).1) ∨
        (∃ v ∈ (halfspace_geom 2).vertices,
          (⟨1, 2, ![1, 0, 1], ![0, 0, 1]⟩ : Contact) =
            create_contact (vertex_geom 1 [![0, 0, 1], ![1, 0, 1]]) (halfspace_geom 2) v
              (-((vertex_geom 1 [![0, 0, 1], ![1, 0, 1]]).calc_dist_and_normal v).2) ∧
          d = ((vertex_geom 1 [![0, 0, 1], ![1, 0, 1]]).calc_dist_and_normal v).1)) ∧
      (∀ w ∈ (vertex_geom 1 [![0, 0, 1], ![1, 0, 1]]).vertices,
        d ≤ max 0 ((halfspace_geom 2).calc_dist_and_normal w).1 + 1 / 2 ^ 26) ∧
      (∀ w ∈ (halfspace_geom 2).vertices,
        d ≤ max 0 ((vertex_geom 1 [![0, 0, 1], ![1, 0, 1]]).calc_dist_and_normal w).1
          + 1 / 2 ^ 26) :=
  ⟨by decide!,
    C34_contact_distance (1 / 2 ^ 26) (vertex_geom 1 [![0, 0, 1], ![1, 0, 1]])
      (halfspace_geom 2) (by norm_num) ⟨1, 2, ![1, 0, 1], ![0, 0, 1]⟩ (by decide!)⟩

end CCD
/-! ## `CCD::insertion_sort` (C38, C39) -/

namespace CCD

theorem getD_set_perm {α : Type} (xs : List α) (k : Nat) (x : α) :
    (xs.getD k x :: xs.set k x).Perm (x :: xs) := by
  induction xs generalizing k with
  | nil => simp
  | cons a t ih =>
    cases k with
    | zero => simpa using List.Perm.swap x a t
    | succ k =>
      simp only [List.getD_cons_succ, List.set_cons_succ]
      exact (List.Perm.swap a (t.getD k x) (t.set k x)).trans
        ((List.Perm.cons a (ih k)).trans (List.Perm.swap x a t))

/-- The range after `std::iter_swap(first, min)`. -/
theorem swap_min_perm {α : Type} (x : α) (xs : List α) (m : Nat) :
    (((x :: xs).set 0 ((x :: xs).getD m x)).set m x).Perm (x :: xs) := by
  cases m with
  | zero => simp
  | succ k =>
    simp only [List.getD_cons_succ, List.set_cons_zero, List.set_cons_succ]
    exact getD_set_perm xs k x

theorem lt_trans_of_weak {α : Type} [LT α] (hneg : ∀ a b c : α, a < c → a < b ∨ b < c)
    (hasym : ∀ a b : α, a < b → ¬ b < a) {a b c : α} (hab : a < b) (hbc : b < c) : a < c := by
  rcases hneg a c b hab with h | h
  · exact h
  · exact absurd h (hasym _ _ hbc)

section Sorting

variable {α : Type} [LT α] [DecidableRel (fun a b : α => a < b)]

theorem sift_perm (x : α) (acc : List α) : (sift x acc).Perm (x :: acc) := by
  induction acc with
  | nil => simp [sift]
  | cons a as ih =>
    simp only [sift]
    split
    · exact (List.Perm.cons a ih).trans (List.Perm.swap x a as)
    · exact List.Perm.refl _

theorem foldl_sift_perm (ys acc : List α) :
    (ys.foldl (fun acc e => sift e acc) acc).Perm (ys ++ acc) := by
  induction ys generalizing acc with
  | nil => simp
  | cons y ys ih =>
    simp only [List.foldl_cons]
    refine (ih (sift y acc)).trans ?_
    refine (List.Perm.append_left ys (sift_perm y acc)).trans ?_
    simp only [List.cons_append]
    exact List.perm_middle

theorem insertion_sort_perm (xs : List α) : (insertion_sort xs).Perm xs := by
  cases xs with
  | nil => simp [insertion_sort]
  | cons x xs =>
    have hsw := swap_min_perm x xs (min_element (x :: xs))
    simp only [insertion_sort]
    cases hl : ((x :: xs).set 0 ((x :: xs).getD (min_element (x :: xs)) x)).set
        (min_element (x :: xs)) x with
    | nil =>
      rw [hl] at hsw
      exact absurd hsw.symm.eq_nil (by simp)
    | cons y ys =>
      rw [hl] at hsw
      simp only []
      refine (List.reverse_perm _).trans ((foldl_sift_perm ys [y]).trans ?_)
      exact (List.perm_append_singleton y ys).trans hsw

theorem sift_sorted (hneg : ∀ a b c : α, a < c → a < b ∨ b < c)
    (hasym : ∀ a b : α, a < b → ¬ b < a) (x : α) (acc : List α)
    (h : acc.Pairwise (fun a b => ¬ a < b)) :
    (sift x acc).Pairwise (fun a b => ¬ a < b) := by
  induction acc with
  | nil => simp [sift]
  | cons a as ih =>
    rw [List.pairwise_cons] at h
    simp only [sift]
    split
    · next hxa =>
      rw [List.pairwise_cons]
      refine ⟨?_, ih h.2⟩
      intro y hy
      rcases List.mem_cons.1 ((sift_perm x as).mem_iff.1 hy) with rfl | hy
      · exact hasym _ _ hxa
      · exact h.1 y hy
    · next hxa =>
      rw [List.pairwise_cons]
      refine ⟨?_, List.pairwise_cons.2 h⟩
      intro y hy
      rcases List.mem_cons.1 hy with rfl | hy
      · exact hxa
      · intro hxy
        rcases hneg x a y hxy with h1 | h1
        · exact hxa h1
        · exact h.1 y hy h1

theorem foldl_sift_sorted (hneg : ∀ a b c : α, a < c → a < b ∨ b < c)
    (hasym : ∀ a b : α, a < b → ¬ b < a) (ys acc : List α)
    (h : acc.Pairwise (fun a b => ¬ a < b)) :
    (ys.foldl (fun acc e => sift e acc) acc).Pairwise (fun a b => ¬ a < b) := by
  induction ys generalizing acc with
  | nil => simpa using h
  | cons y ys ih =>
    simp only [List.foldl_cons]
    exact ih _ (sift_sorted hneg hasym y acc h)

/-- C38. For every range, `CCD::insertion_sort` leaves the range sorted in
non-decreasing order with respect to `operator<` (no element is less than one
that stands before it) and holding a permutation of its original elements;
`operator<` is a strict weak ordering, that is asymmetric and negatively
transitive. -/
theorem C38_insertion_sort_sorts (hneg : ∀ a b c : α, a < c → a < b ∨ b < c)
    (hasym : ∀ a b : α, a < b → ¬ b < a) (xs : List α) :
    (insertion_sort xs).Pairwise (fun a b => ¬ b < a) ∧ (insertion_sort xs).Perm xs := by
  refine ⟨?_, insertion_sort_perm xs⟩
  cases xs with
  | nil => simp [insertion_sort]
  | cons x xs =>
    simp only [insertion_sort]
    split
    · simp
    · rw [List.pairwise_reverse]
      exact foldl_sift_sorted hneg hasym _ _ (List.pairwise_singleton _ _)

/-- The scan of `min` in `insertion_sort` ends on an element that no element of
the range is less than. -/
theorem min_element_from_min (hneg : ∀ a b c : α, a < c → a < b ∨ b < c)
    (hasym : ∀ a b : α, a < b → ¬ b < a) (d : α) (xs pre : List α) (best : Nat)
    (hb : best < pre.length) (hmin : ∀ e ∈ pre, ¬ e < pre.getD best d) :
    ∀ e ∈ pre ++ xs,
      ¬ e < (pre ++ xs).getD (min_element_from best (pre.getD best d) pre.length xs) d := by
  induction xs generalizing pre best with
  | nil =>
    simp only [min_element_from, List.append_nil]
    exact hmin
  | cons y ys ih =>
    have hpre : pre ++ y :: ys = (pre ++ [y]) ++ ys := by simp
    have hlen : (pre ++ [y]).length = pre.length + 1 := by simp
    have hy : (pre ++ [y]).getD pre.length d = y := by
      simp [List.getD_eq_getElem?_getD]
    have hbest : (pre ++ [y]).getD best d = pre.getD best d := by
      simp [List.getD_eq_getElem?_getD, List.getElem?_append_left hb]
    simp only [min_element_from]
    split
    · next hlt =>
      have := ih (pre ++ [y]) pre.length (by simp) (by
        intro e he
        rw [hy]
        rcases List.mem_append.mp he with h | h
        · exact fun hey => hmin e h (lt_trans_of_weak hneg hasym hey hlt)
        · simp only [List.mem_singleton] at h
          rw [h]
          exact fun hyy => hasym _ _ hyy hyy)
      rw [hy, hlen] at this
      rw [hpre]; exact this
    · next hge =>
      have := ih (pre ++ [y]) best (by simp; omega) (by
        intro e he
        rw [hbest]
        rcases List.mem_append.mp he with h | h
        · exact hmin e h
        · simp only [List.mem_singleton] at h
          rw [h]; exact hge)
      rw [hbest, hlen] at this
      rw [hpre]; exact this

/-- After `std::iter_swap(first, min)` no element of the range is less than the
first one. -/
theorem swap_min_front (hneg : ∀ a b c : α, a < c → a < b ∨ b < c)
    (hasym : ∀ a b : α, a < b → ¬ b < a) (x : α) (xs : List α) (y : α) (ys : List α)
    (h : ((x :: xs).set 0 ((x :: xs).getD (min_element (x :: xs)) x)).set
      (min_element (x :: xs)) x = y :: ys) :
    ∀ e ∈ ys, ¬ e < y := by
  have hmin : ∀ e ∈ x :: xs, ¬ e < (x :: xs).getD (min_element (x :: xs)) x := by
    have := min_element_from_min hneg hasym x xs [x] 0 (by simp) (by
      intro e he
      simp only [List.mem_singleton] at he
      rw [he]
      exact fun hxx => hasym _ _ hxx hxx)
    simpa [min_element] using this
  generalize min_element (x :: xs) = m at h hmin
  cases m with
  | zero =>
    simp only [List.getD_cons_zero, List.set_cons_zero, List.cons.injEq] at h hmin
    intro e he
    rw [← h.1]
    exact hmin e (List.mem_cons_of_mem _ (h.2 ▸ he))
  | succ k =>
    simp only [List.getD_cons_succ, List.set_cons_zero, List.set_cons_succ, List.cons.injEq]
      at h hmin
    intro e he
    rw [← h.1]
    rw [← h.2] at he
    rcases List.mem_or_eq_of_mem_set he with h1 | h1
    · exact hmin e (List.mem_cons_of_mem _ h1)
    · rw [h1]
      exact hmin x (List.mem_cons_self _ _)

/-- With an element at the start of the range that `x` is not less than, the
inner loop stops inside the range. -/
theorem sift_checked_eq (x m0 : α) (hm : ¬ x < m0) (init : List α) :
    sift_checked x (init ++ [m0]) = .ret (sift x (init ++ [m0])) ∧
      ∃ init1, sift x (init ++ [m0]) = init1 ++ [m0] := by
  induction init with
  | nil =>
    simp only [List.nil_append, sift_checked, sift, if_neg hm]
    exact ⟨trivial, [x], rfl⟩
  | cons a init ih =>
    obtain ⟨h1, init1, h2⟩ := ih
    rw [List.cons_append, sift_checked, sift]
    by_cases hxa : x < a
    · rw [if_pos hxa, if_pos hxa, h1, h2]
      exact ⟨rfl, a :: init1, rfl⟩
    · rw [if_neg hxa, if_neg hxa]
      exact ⟨rfl, x :: a :: init, rfl⟩

theorem sift_all_checked_eq (m0 : α) (es : List α) (hm : ∀ e ∈ es, ¬ e < m0) (init : List α) :
    sift_all_checked es (init ++ [m0]) =
      .ret (es.foldl (fun acc e => sift e acc) (init ++ [m0])) := by
  induction es generalizing init with
  | nil => rfl
  | cons e es ih =>
    obtain ⟨h1, init1, h2⟩ := sift_checked_eq e m0 (hm e (List.mem_cons_self _ _)) init
    simp only [sift_all_checked, List.foldl_cons]
    rw [h1]
    simp only []
    rw [h2]
    exact ih (fun e1 he1 => hm e1 (List.mem_cons_of_mem _ he1)) init1

/-- C39. `CCD::insertion_sort` terminates and never reads an element before
`first`: for every input range, the empty and the one-element ranges among
them, the run with checked reads returns, and it returns the range that the
sort produces. After the minimum has been swapped to the front no element is
less than the first one, so the test `*j < *(j-1)` of the inner loop fails at
the latest when `j-1` is the first position; `operator<` is a strict weak
ordering. -/
theorem C39_insertion_sort_in_range (hneg : ∀ a b c : α, a < c → a < b ∨ b < c)
    (hasym : ∀ a b : α, a < b → ¬ b < a) (xs : List α) :
    insertion_sort_checked xs = .ret (insertion_sort xs) := by
  cases xs with
  | nil => rfl
  | cons x xs =>
    simp only [insertion_sort_checked, insertion_sort]
    cases hl : ((x :: xs).set 0 ((x :: xs).getD (min_element (x :: xs)) x)).set
        (min_element (x :: xs)) x with
    | nil => rfl
    | cons y ys =>
      simp only []
      have := sift_all_checked_eq y ys (swap_min_front hneg hasym x xs y ys hl) []
      simp only [List.nil_append] at this
      rw [this]
      rfl

end Sorting

theorem C38_insertion_sort_sorts_witness :
    (insertion_sort [3, 1, 2, 1]).Pairwise (fun a b : Nat => ¬ b < a) ∧
    (insertion_sort [3, 1, 2, 1]).Perm [3, 1, 2, 1] :=
  C38_insertion_sort_sorts (fun a b c h => by omega) (fun a b h => by omega) [3, 1, 2, 1]

theorem C39_insertion_sort_in_range_witness :
    insertion_sort_checked ([] : List Nat) = .ret (insertion_sort []) ∧
    insertion_sort_checked [7] = .ret (insertion_sort [7]) ∧
    insertion_sort_checked [3, 1, 2, 1] = .ret [1, 1, 2, 3] :=
  ⟨C39_insertion_sort_in_range (fun a b c h => by omega) (fun a b h => by omega) [],
    C39_insertion_sort_in_range (fun a b c h => by omega) (fun a b h => by omega) [7],
    by decide⟩

end CCD
/-! ## `EventCompare` is a strict weak ordering (C40) -/

namespace EventDrivenSimulator

theorem strict_total_weak {α : Type} (lt : α → α → Bool) (h : strict_total lt) :
    strict_weak lt := by
  obtain ⟨h1, h2, h3⟩ := h
  refine ⟨h1, h2, ?_⟩
  intro a b c hab hba hbc hcb
  have e1 : a = b := by
    by_contra hne
    rcases h3 a b hne with h | h
    · rw [hab] at h; exact Bool.false_ne_true h
    · rw [hba] at h; exact Bool.false_ne_true h
  have e2 : b = c := by
    by_contra hne
    rcases h3 b c hne with h | h
    · rw [hbc] at h; exact Bool.false_ne_true h
    · rw [hcb] at h; exact Bool.false_ne_true h
  rw [e1, e2]
  exact ⟨h1 c, h1 c⟩

theorem strict_weak_pullback {α β : Type} (lt : β → β → Bool) (f : α → β)
    (h : strict_weak lt) : strict_weak (fun a b => lt (f a) (f b)) := by
  obtain ⟨h1, h2, h3⟩ := h
  exact ⟨fun a => h1 (f a), fun a b c => h2 (f a) (f b) (f c),
    fun a b c => h3 (f a) (f b) (f c)⟩

/-- Ordering by a totally ordered key first and by a strict weak ordering among
equal keys is a strict weak ordering. -/
theorem strict_weak_keyed {α K : Type} [DecidableEq K] (key : α → K) (ltK : K → K → Bool)
    (sub : K → α → α → Bool) (hK : strict_total ltK) (hsub : ∀ k, strict_weak (sub k)) :
    strict_weak (fun a b => if key a ≠ key b then ltK (key a) (key b) else sub (key a) a b) := by
  obtain ⟨k1, k2, k3⟩ := hK
  have hkey : ∀ a b : α,
      (if key a ≠ key b then ltK (key a) (key b) else sub (key a) a b) = false →
      (if key b ≠ key a then ltK (key b) (key a) else sub (key b) b a) = false →
      key a = key b := by
    intro a b hab hba
    by_contra hne
    rw [if_pos hne] at hab
    rw [if_pos (Ne.symm hne)] at hba
    rcases k3 _ _ hne with h | h
    · rw [hab] at h; exact Bool.false_ne_true h
    · rw [hba] at h; exact Bool.false_ne_true h
  refine ⟨?_, ?_, ?_⟩
  · intro a
    simp only [ne_eq, not_true_eq_false, if_false]
    exact (hsub (key a)).1 a
  · intro a b c hab hbc
    simp only [] at hab hbc ⊢
    by_cases e1 : key a = key b
    · by_cases e2 : key b = key c
      · rw [if_neg (not_not.2 e1)] at hab
        rw [if_neg (not_not.2 e2)] at hbc
        rw [if_neg (not_not.2 (e1.trans e2))]
        rw [← e1] at hbc
        exact (hsub (key a)).2.1 a b c hab hbc
      · rw [if_pos e2] at hbc
        rw [if_pos (by rw [e1]; exact e2), e1]
        exact hbc
    · rw [if_pos e1] at hab
      by_cases e2 : key b = key c
      · rw [if_pos (by rw [← e2]; exact e1), ← e2]
        exact hab
      · rw [if_pos e2] at hbc
        have hac := k2 _ _ _ hab hbc
        have e3 : key a ≠ key c := by
          intro e
          rw [e] at hab
          have := k2 _ _ _ hab hbc
          rw [k1] at this
          exact Bool.false_ne_true this
        rw [if_pos e3]
        exact hac
  · intro a b c hab hba hbc hcb
    have e1 := hkey a b hab hba
    have e2 := hkey b c hbc hcb
    simp only [] at hab hba hbc hcb ⊢
    rw [if_neg (not_not.2 e1)] at hab
    rw [if_neg (not_not.2 e1.symm)] at hba
    rw [if_neg (not_not.2 e2)] at hbc
    rw [if_neg (not_not.2 e2.symm)] at hcb
    rw [if_neg (not_not.2 (e1.trans e2)), if_neg (not_not.2 (e1.trans e2).symm)]
    rw [← e1] at hba hbc
    rw [← e2, ← e1] at hcb
    rw [← e2, ← e1]
    exact (hsub (key a)).2.2 a b c hab hba hbc hcb

theorem nat_lt_total : strict_total (fun a b : Nat => decide (a < b)) := by
  refine ⟨?_, ?_, ?_⟩
  · intro a; simp
  · intro a b c hab hbc
    simp only [decide_eq_true_eq] at hab hbc ⊢
    omega
  · intro a b hne
    simp only [decide_eq_true_eq]
    omega

theorem bool_lt_total : strict_total (fun a b : Bool => decide (a < b)) := by
  refine ⟨?_, ?_, ?_⟩
  · intro a; cases a <;> decide
  · intro a b c; cases a <;> cases b <;> cases c <;> decide
  · intro a b; cases a <;> cases b <;> decide

/-- C40 (the claim fails). Take two different joint pointers that `operator<`
leaves unordered (here `ltJ` orders nothing, which is a strict weak ordering) and
three limit events: `a` on the first joint at its lower limit, `b` on the second
joint, `c` on the first joint at its upper limit. `EventCompare` finds `a` and
`b` incomparable and `b` and `c` incomparable, since it returns `ltJ` as soon as
the joints differ, but it orders `a` before `c`. -/
theorem C40_counterexample :
    strict_weak (fun _ _ : Bool => false) ∧
    strict_weak (fun _ _ : Unit => false) ∧
    EventCompare 1 2 (fun _ _ : Unit => false) (fun _ _ : Bool => false)
      ⟨2, (), false, false, 0, false⟩ ⟨2, (), true, false, 0, false⟩ = false ∧
    EventCompare 1 2 (fun _ _ : Unit => false) (fun _ _ : Bool => false)
      ⟨2, (), true, false, 0, false⟩ ⟨2, (), false, false, 0, false⟩ = false ∧
    EventCompare 1 2 (fun _ _ : Unit => false) (fun _ _ : Bool => false)
      ⟨2, (), true, false, 0, false⟩ ⟨2, (), false, true, 0, false⟩ = false ∧
    EventCompare 1 2 (fun _ _ : Unit => false) (fun _ _ : Bool => false)
      ⟨2, (), false, true, 0, false⟩ ⟨2, (), true, false, 0, false⟩ = false ∧
    EventCompare 1 2 (fun _ _ : Unit => false) (fun _ _ : Bool => false)
      ⟨2, (), false, false, 0, false⟩ ⟨2, (), false, true, 0, false⟩ = true ∧
    ¬ strict_weak (EventCompare 1 2 (fun _ _ : Unit => false) (fun _ _ : Bool => false)) := by
  refine ⟨⟨fun _ => rfl, fun _ _ _ h _ => h, fun _ _ _ _ _ _ _ => ⟨rfl, rfl⟩⟩,
    ⟨fun _ => rfl, fun _ _ _ h _ => h, fun _ _ _ _ _ _ _ => ⟨rfl, rfl⟩⟩,
    by decide, by decide, by decide, by decide, by decide, ?_⟩
  rintro ⟨_, _, h3⟩
  have := (h3 ⟨2, (), false, false, 0, false⟩ ⟨2, (), true, false, 0, false⟩
    ⟨2, (), false, true, 0, false⟩ (by decide) (by decide) (by decide) (by decide)).1
  exact absurd this (by decide)

/-- C40 (amended). `EventCompare` is a strict weak ordering on events
(irreflexive, transitive, with transitive incomparability) when `operator<` on
the sorted pairs of bodies is a strict weak ordering and `operator<` on the
joint pointers is a strict total ordering, so that the joints the code finds
different with `!=` are ordered by it. It orders first by event type, then
contacts by the sorted pair of bodies, limits lexicographically by
(joint, upper flag, dof) and the remaining events by the constraint joint. -/
theorem C40_event_compare_strict_weak {P J : Type} [DecidableEq J] (eContact eLimit : Nat)
    (ltP : P → P → Bool) (ltJ : J → J → Bool) (hP : strict_weak ltP) (hJ : strict_total ltJ) :
    strict_weak (EventCompare eContact eLimit ltP ltJ) := by
  have hdof : strict_weak (fun a b : Event P J => decide (a.limit_dof < b.limit_dof)) :=
    strict_weak_pullback (fun a b : Nat => decide (a < b)) (fun a => a.limit_dof)
      (strict_total_weak _ nat_lt_total)
  have hupper := strict_weak_keyed (fun a : Event P J => a.limit_upper)
    (fun a b : Bool => decide (a < b))
    (fun _ a b => decide (a.limit_dof < b.limit_dof)) bool_lt_total (fun _ => hdof)
  have hlimit := strict_weak_keyed (fun a : Event P J => a.limit_joint) ltJ
    (fun _ a b => if a.limit_upper ≠ b.limit_upper then decide (a.limit_upper < b.limit_upper)
      else decide (a.limit_dof < b.limit_dof)) hJ (fun _ => hupper)
  have hcontact : strict_weak (fun a b : Event P J => ltP a.contact_pair b.contact_pair) :=
    strict_weak_pullback ltP (fun a => a.contact_pair) hP
  have hconstraint :
      strict_weak (fun a b : Event P J => ltJ a.constraint_joint b.constraint_joint) :=
    strict_weak_pullback ltJ (fun a => a.constraint_joint) (strict_total_weak _ hJ)
  exact strict_weak_keyed (fun a : Event P J => a.event_type)
    (fun a b : Nat => decide (a < b))
    (fun t a b =>
      if t = eContact then ltP a.contact_pair b.contact_pair
      else if t = eLimit then
        if a.limit_joint ≠ b.limit_joint then ltJ a.limit_joint b.limit_joint
        else if a.limit_upper ≠ b.limit_upper then decide (a.limit_upper < b.limit_upper)
        else decide (a.limit_dof < b.limit_dof)
      else ltJ a.constraint_joint b.constraint_joint)
    nat_lt_total (fun t => by
      by_cases h1 : t = eContact
      · simp only [if_pos h1]
        exact hcontact
      · by_cases h2 : t = eLimit
        · simp only [if_neg h1, if_pos h2]
          exact hlimit
        · simp only [if_neg h1, if_neg h2]
          exact hconstraint)

theorem C40_event_compare_strict_weak_witness :
    strict_weak (EventCompare 1 2 (fun a b : Nat => decide (a < b))
      (fun a b : Nat => decide (a < b))) :=
  C40_event_compare_strict_weak 1 2 _ _ (strict_total_weak _ nat_lt_total) nat_lt_total

end EventDrivenSimulator
/-! ## The overlap test has no false negatives (C35) -/

namespace OBB

theorem abs_mul_le_cushion {x q l nz : ℚ} (hx : |x| ≤ l) (hnz : 0 ≤ nz) :
    |x * q| ≤ l * (|q| + nz) := by
  have hl : 0 ≤ l := le_trans (abs_nonneg x) hx
  rw [abs_mul]
  have h1 : |x| * |q| ≤ l * |q| := mul_le_mul_of_nonneg_right hx (abs_nonneg q)
  have h2 : 0 ≤ l * nz := mul_nonneg hl hnz
  linarith

theorem abs_mul_det_le_cushion {x q D l nz : ℚ} (hx : |x| ≤ l) (hnz : 0 ≤ nz) (hD : |D| = 1) :
    |x * (D * q)| ≤ l * (|q| + nz) := by
  have := abs_mul_le_cushion (q := D * q) hx hnz
  rwa [abs_mul D q, hD, one_mul] at this

/-- The translation between two boxes that share the point `p`, in the frame of
`a`: the coordinates of `p` in `a` minus the rotated coordinates of `p` in `b`. -/
theorem shared_point_translation {a b : OBB} (hB : orthonormal b.R) (p : Vector3d) (i : Fin 3) :
    transpose_mult_vec a.R (b.center - a.center) i =
      transpose_mult_vec a.R (p - a.center) i -
        (transpose_mult a.R b.R i 0 * transpose_mult_vec b.R (p - b.center) 0
          + transpose_mult a.R b.R i 1 * transpose_mult_vec b.R (p - b.center) 1
          + transpose_mult a.R b.R i 2 * transpose_mult_vec b.R (p - b.center) 2) := by
  have r := orthonormal_rows hB
  have r00 := r 0 0
  have r01 := r 0 1
  have r02 := r 0 2
  have r10 := r 1 0
  have r11 := r 1 1
  have r12 := r 1 2
  have r20 := r 2 0
  have r21 := r 2 1
  have r22 := r 2 2
  simp only [rowdot, if_true, if_false, Fin.reduceEq] at r00 r01 r02 r10 r11 r12 r20 r21 r22
  simp only [transpose_mult_vec, transpose_mult, Pi.sub_apply]
  linear_combination
    (a.R 0 i * (p 0 - b.center 0)) * r00 + (a.R 0 i * (p 1 - b.center 1)) * r01
    + (a.R 0 i * (p 2 - b.center 2)) * r02
    + (a.R 1 i * (p 0 - b.center 0)) * r10 + (a.R 1 i * (p 1 - b.center 1)) * r11
    + (a.R 1 i * (p 2 - b.center 2)) * r12
    + (a.R 2 i * (p 0 - b.center 0)) * r20 + (a.R 2 i * (p 1 - b.center 1)) * r21
    + (a.R 2 i * (p 2 - b.center 2)) * r22

theorem face_a_bound (Q : Matrix3d) (t x y la lb : Vector3d) (nz : ℚ) (hnz : 0 ≤ nz)
    (ht : ∀ i, t i = x i - (Q i 0 * y 0 + Q i 1 * y 1 + Q i 2 * y 2))
    (hx : ∀ i, |x i| ≤ la i) (hy : ∀ j, |y j| ≤ lb j) (i : Fin 3) :
    |t i| ≤ la i + (lb 0 * (|Q i 0| + nz) + lb 1 * (|Q i 1| + nz) + lb 2 * (|Q i 2| + nz)) := by
  have b0 := abs_le.1 (abs_mul_le_cushion (q := Q i 0) (hy 0) hnz)
  have b1 := abs_le.1 (abs_mul_le_cushion (q := Q i 1) (hy 1) hnz)
  have b2 := abs_le.1 (abs_mul_le_cushion (q := Q i 2) (hy 2) hnz)
  have bx := abs_le.1 (hx i)
  rw [ht i]
  exact abs_le.2 ⟨by linarith [b0.2, b1.2, b2.2, bx.1], by linarith [b0.1, b1.1, b2.1, bx.2]⟩

theorem face_b_bound {Q : Matrix3d} (hQ : orthonormal Q) (t x y la lb : Vector3d) (nz : ℚ)
    (hnz : 0 ≤ nz) (ht : ∀ i, t i = x i - (Q i 0 * y 0 + Q i 1 * y 1 + Q i 2 * y 2))
    (hx : ∀ i, |x i| ≤ la i) (hy : ∀ j, |y j| ≤ lb j) (j : Fin 3) :
    |dot3 t (fun k => Q k j)| ≤
      (la 0 * (|Q 0 j| + nz) + la 1 * (|Q 1 j| + nz) + la 2 * (|Q 2 j| + nz)) + lb j := by
  have q0 := hQ 0 j
  have q1 := hQ 1 j
  have q2 := hQ 2 j
  have e : y j = (if (0 : Fin 3) = j then 1 else 0) * y 0 + (if (1 : Fin 3) = j then 1 else 0) * y 1
      + (if (2 : Fin 3) = j then 1 else 0) * y 2 := by
    fin_cases j <;> simp
  have hid : dot3 t (fun k => Q k j) = x 0 * Q 0 j + x 1 * Q 1 j + x 2 * Q 2 j - y j := by
    simp only [dot3]
    rw [ht 0, ht 1, ht 2]
    linear_combination (-(y 0)) * q0 - y 1 * q1 - y 2 * q2 + e
  have b0 := abs_le.1 (abs_mul_le_cushion (q := Q 0 j) (hx 0) hnz)
  have b1 := abs_le.1 (abs_mul_le_cushion (q := Q 1 j) (hx 1) hnz)
  have b2 := abs_le.1 (abs_mul_le_cushion (q := Q 2 j) (hx 2) hnz)
  have by1 := abs_le.1 (hy j)
  rw [hid]
  exact abs_le.2 ⟨by linarith [b0.1, b1.1, b2.1, by1.2], by linarith [b0.2, b1.2, b2.2, by1.1]⟩

theorem edge_bound {Q : Matrix3d} (hQ : orthonormal Q) (t x y la lb : Vector3d) (nz : ℚ)
    (hnz : 0 ≤ nz) (ht : ∀ i, t i = x i - (Q i 0 * y 0 + Q i 1 * y 1 + Q i 2 * y 2))
    (hx : ∀ i, |x i| ≤ la i) (hy : ∀ j, |y j| ≤ lb j) (i j : Fin 3) :
    |t (i + 2) * Q (i + 1) j - t (i + 1) * Q (i + 2) j| ≤
      (la (i + 1) * (|Q (i + 2) j| + nz) + la (i + 2) * (|Q (i + 1) j| + nz))
      + (lb (j + 1) * (|Q i (j + 2)| + nz) + lb (j + 2) * (|Q i (j + 1)| + nz)) := by
  have hrow := orthonormal_rows hQ
  have hD := abs_det3 hQ
  have c1 := cof_eq hrow i (j + 2)
  have c2 := cof_eq hrow i (j + 1)
  simp only [cof, fin3_add_21, fin3_add_22, fin3_add_11, fin3_add_12] at c1 c2
  have s1 := sum_cyc (fun k => Q (i + 1) k * y k) j
  have s2 := sum_cyc (fun k => Q (i + 2) k * y k) j
  simp only [] at s1 s2
  have hid : t (i + 2) * Q (i + 1) j - t (i + 1) * Q (i + 2) j =
      x (i + 2) * Q (i + 1) j - x (i + 1) * Q (i + 2) j
        - y (j + 1) * (det3 Q * Q i (j + 2)) + y (j + 2) * (det3 Q * Q i (j + 1)) := by
    rw [ht (i + 2), ht (i + 1)]
    linear_combination (Q (i + 2) j) * s1 - (Q (i + 1) j) * s2 - y (j + 1) * c1 + y (j + 2) * c2
  have b0 := abs_le.1 (abs_mul_le_cushion (q := Q (i + 1) j) (hx (i + 2)) hnz)
  have b1 := abs_le.1 (abs_mul_le_cushion (q := Q (i + 2) j) (hx (i + 1)) hnz)
  have b2 := abs_le.1 (abs_mul_det_le_cushion (q := Q i (j + 2)) (hy (j + 1)) hnz hD)
  have b3 := abs_le.1 (abs_mul_det_le_cushion (q := Q i (j + 1)) (hy (j + 2)) hnz hD)
  rw [hid]
  exact abs_le.2 ⟨by linarith [b0.1, b1.2, b2.2, b3.1], by linarith [b0.2, b1.1, b2.1, b3.2]⟩

end OBB
/-! ## The slab test of a box against a segment (C36) -/

namespace OBB

theorem swap_min (t1 t2 : ℚ) : (if t1 > t2 then t2 else t1) = min t1 t2 := by
  by_cases h : t1 > t2
  · rw [if_pos h, min_eq_right (le_of_lt h)]
  · rw [if_neg h, min_eq_left (not_lt.1 h)]

theorem swap_max (t1 t2 : ℚ) : (if t1 > t2 then t1 else t2) = max t1 t2 := by
  by_cases h : t1 > t2
  · rw [if_pos h, max_eq_left (le_of_lt h)]
  · rw [if_neg h, max_eq_right (not_lt.1 h)]

theorem slab_interval_mono (NEAR_ZERO : ℚ) (l p d : Vector3d) (is : List (Fin 3)) :
    ∀ acc : ℚ × ℚ, acc.1 ≤ (slab_interval NEAR_ZERO l p d is acc).1 ∧
      (slab_interval NEAR_ZERO l p d is acc).2 ≤ acc.2 := by
  induction is with
  | nil => intro acc; exact ⟨le_refl _, le_refl _⟩
  | cons i is ih =>
    intro acc
    simp only [slab_interval]
    split
    · exact ih acc
    · have := ih (max acc.1 (slab_entry l p d i), min acc.2 (slab_exit l p d i))
      exact ⟨le_trans (le_max_left _ _) this.1, le_trans this.2 (min_le_left _ _)⟩

/-- The loop over the slabs against the interval of the specification. -/
theorem seg_slabs_spec (NEAR_ZERO : ℚ) (l p d : Vector3d) (is : List (Fin 3)) :
    ∀ acc : ℚ × ℚ,
      ((seg_slabs NEAR_ZERO l p d is acc).1 = true ↔
        (∀ i ∈ is, |d i| < NEAR_ZERO → -l i ≤ p i ∧ p i ≤ l i) ∧
        ((∀ i ∈ is, |d i| < NEAR_ZERO) ∨
          (slab_interval NEAR_ZERO l p d is acc).1 ≤
            (slab_interval NEAR_ZERO l p d is acc).2 + NEAR_ZERO)) ∧
      ((seg_slabs NEAR_ZERO l p d is acc).1 = true →
        (seg_slabs NEAR_ZERO l p d is acc).2 = slab_interval NEAR_ZERO l p d is acc) := by
  induction is with
  | nil =>
    intro acc
    simp [seg_slabs, slab_interval]
  | cons i is ih =>
    intro acc
    simp only [seg_slabs, slab_interval, swap_min, swap_max]
    by_cases hpar : |d i| < NEAR_ZERO
    · rw [if_pos hpar, if_pos hpar]
      by_cases hout : p i < -l i ∨ p i > l i
      · rw [if_pos hout]
        refine ⟨⟨fun h => absurd h (by simp), ?_⟩, fun h => absurd h (by simp)⟩
        rintro ⟨h1, _⟩
        have := h1 i (List.mem_cons_self _ _) hpar
        rcases hout with h | h
        · linarith [this.1]
        · linarith [this.2]
      · rw [if_neg hout]
        obtain ⟨ih1, ih2⟩ := ih acc
        refine ⟨?_, ih2⟩
        rw [ih1]
        have hin : -l i ≤ p i ∧ p i ≤ l i := by
          constructor
          · exact not_lt.1 (fun h => hout (Or.inl h))
          · exact not_lt.1 (fun h => hout (Or.inr h))
        constructor
        · rintro ⟨h1, h2⟩
          refine ⟨?_, ?_⟩
          · intro k hk hkp
            rcases List.mem_cons.1 hk with rfl | hk
            · exact hin
            · exact h1 k hk hkp
          · rcases h2 with h2 | h2
            · left
              intro k hk
              rcases List.mem_cons.1 hk with rfl | hk
              · exact hpar
              · exact h2 k hk
            · exact Or.inr h2
        · rintro ⟨h1, h2⟩
          refine ⟨fun k hk hkp => h1 k (List.mem_cons_of_mem _ hk) hkp, ?_⟩
          rcases h2 with h2 | h2
          · exact Or.inl (fun k hk => h2 k (List.mem_cons_of_mem _ hk))
          · exact Or.inr h2
    · rw [if_neg hpar, if_neg hpar]
      have he : max acc.1 (min ((-l i - p i) * (1 / d i)) ((l i - p i) * (1 / d i))) =
          max acc.1 (slab_entry l p d i) := rfl
      have hx : min acc.2 (max ((-l i - p i) * (1 / d i)) ((l i - p i) * (1 / d i))) =
          min acc.2 (slab_exit l p d i) := rfl
      rw [he, hx]
      have hmono := slab_interval_mono NEAR_ZERO l p d is
        (max acc.1 (slab_entry l p d i), min acc.2 (slab_exit l p d i))
      simp only [] at hmono
      by_cases hemp : max acc.1 (slab_entry l p d i) >
          min acc.2 (slab_exit l p d i) + NEAR_ZERO
      · rw [if_pos hemp]
        refine ⟨⟨fun h => absurd h (by simp), ?_⟩, fun h => absurd h (by simp)⟩
        rintro ⟨_, h2⟩
        rcases h2 with h2 | h2
        · exact absurd (h2 i (List.mem_cons_self _ _)) hpar
        · linarith [hmono.1, hmono.2]
      · rw [if_neg hemp]
        obtain ⟨ih1, ih2⟩ := ih (max acc.1 (slab_entry l p d i), min acc.2 (slab_exit l p d i))
        refine ⟨?_, ih2⟩
        rw [ih1]
        constructor
        · rintro ⟨h1, h2⟩
          refine ⟨?_, Or.inr ?_⟩
          · intro k hk hkp
            rcases List.mem_cons.1 hk with rfl | hk
            · exact absurd hkp hpar
            · exact h1 k hk hkp
          · rcases h2 with h2 | h2
            · have e : ∀ (js : List (Fin 3)) (a : ℚ × ℚ), (∀ k ∈ js, |d k| < NEAR_ZERO) →
                  slab_interval NEAR_ZERO l p d js a = a := by
                intro js
                induction js with
                | nil => intro a _; rfl
                | cons j js ihj =>
                  intro a hj
                  simp only [slab_interval]
                  rw [if_pos (hj j (List.mem_cons_self _ _))]
                  exact ihj a (fun k hk => hj k (List.mem_cons_of_mem _ hk))
              rw [e is _ h2]
              exact not_lt.1 hemp
            · exact h2
        · rintro ⟨h1, h2⟩
          refine ⟨fun k hk hkp => h1 k (List.mem_cons_of_mem _ hk) hkp, ?_⟩
          rcases h2 with h2 | h2
          · exact absurd (h2 i (List.mem_cons_self _ _)) hpar
          · exact Or.inr h2

/-- Back from the frame of the box: `center + R (p + t d)` is the point of the
segment at parameter `t`. -/
theorem seg_point_global {R : Matrix3d} (hR : orthonormal R) (c f s : Vector3d) (t : ℚ) :
    c + mul_vec R (transpose_mult_vec R (f - c)
        + t • (transpose_mult_vec R (s - c) - transpose_mult_vec R (f - c))) =
      f + t • (s - f) := by
  have r := orthonormal_rows hR
  funext i
  have r0 := r i 0
  have r1 := r i 1
  have r2 := r i 2
  have e : (f i - c i) + t * (s i - f i) =
      (if i = (0 : Fin 3) then 1 else 0) * ((f 0 - c 0) + t * (s 0 - f 0))
      + (if i = (1 : Fin 3) then 1 else 0) * ((f 1 - c 1) + t * (s 1 - f 1))
      + (if i = (2 : Fin 3) then 1 else 0) * ((f 2 - c 2) + t * (s 2 - f 2)) := by
    fin_cases i <;> simp
  simp only [rowdot] at r0 r1 r2
  simp only [mul_vec, transpose_mult_vec, Pi.add_apply, Pi.sub_apply, Pi.smul_apply, smul_eq_mul]
  linear_combination ((f 0 - c 0) + t * (s 0 - f 0)) * r0 + ((f 1 - c 1) + t * (s 1 - f 1)) * r1
    + ((f 2 - c 2) + t * (s 2 - f 2)) * r2 - e

/-- C36 (the claim fails). The degenerate segment from the origin to the origin
against the unit box, with `tmin = 1` and `tmax = 0`: every axis has
`|d_i| < NEAR_ZERO`, the origin lies within every slab, and the function returns
true with `tmin = 1`, although `max(tmin, …) = 1 > min(tmax, …) + NEAR_ZERO`. -/
theorem C36_counterexample :
    intersects_seg (1 / 2 ^ 26) unit_box 0 0 1 0 0 = (true, 1, 0) ∧
    ¬ seg_hit_spec (1 / 2 ^ 26) unit_box.l
      (transpose_mult_vec unit_box.R (0 - unit_box.center))
      (transpose_mult_vec unit_box.R (0 - unit_box.center)
        - transpose_mult_vec unit_box.R (0 - unit_box.center)) 1 0 :=
  ⟨by decide!, fun h => absurd h.2 (by decide!)⟩

/-- C36 (amended). For an OBB with orthonormal `R`, in box coordinates with
origin `p` and direction `d`, `OBB::intersects(a, seg, tmin, tmax, q)` returns
true exactly when `p_i` lies in `[-l_i, l_i]` on every axis with
`|d_i| < NEAR_ZERO` and either every axis is such an axis or, over the remaining
axes, `max(tmin, slab entry parameters) ≤ min(tmax, slab exit parameters) +
NEAR_ZERO`. On a true return `tmin` holds that maximum and
`q = seg.first + tmin * (seg.second - seg.first)`. When `tmin ≤ tmax +
NEAR_ZERO` on entry, the condition is the one of the specification. -/
theorem C36_segment_slab_test (NEAR_ZERO : ℚ) (a : OBB) (seg_first seg_second : Vector3d)
    (tmin tmax : ℚ) (q : Vector3d) (hA : orthonormal a.R) :
    ((intersects_seg NEAR_ZERO a seg_first seg_second tmin tmax q).1 = true ↔
      (∀ i : Fin 3,
        |(transpose_mult_vec a.R (seg_second - a.center)
            - transpose_mult_vec a.R (seg_first - a.center)) i| < NEAR_ZERO →
        -a.l i ≤ transpose_mult_vec a.R (seg_first - a.center) i ∧
          transpose_mult_vec a.R (seg_first - a.center) i ≤ a.l i) ∧
      ((∀ i : Fin 3,
        |(transpose_mult_vec a.R (seg_second - a.center)
            - transpose_mult_vec a.R (seg_first - a.center)) i| < NEAR_ZERO) ∨
        (slab_interval NEAR_ZERO a.l (transpose_mult_vec a.R (seg_first - a.center))
          (transpose_mult_vec a.R (seg_second - a.center)
            - transpose_mult_vec a.R (seg_first - a.center)) [0, 1, 2] (tmin, tmax)).1 ≤
        (slab_interval NEAR_ZERO a.l (transpose_mult_vec a.R (seg_first - a.center))
          (transpose_mult_vec a.R (seg_second - a.center)
            - transpose_mult_vec a.R (seg_first - a.center)) [0, 1, 2] (tmin, tmax)).2
          + NEAR_ZERO)) ∧
    ((intersects_seg NEAR_ZERO a seg_first seg_second tmin tmax q).1 = true →
      (intersects_seg NEAR_ZERO a seg_first seg_second tmin tmax q).2.1 =
        (slab_interval NEAR_ZERO a.l (transpose_mult_vec a.R (seg_first - a.center))
          (transpose_mult_vec a.R (seg_second - a.center)
            - transpose_mult_vec a.R (seg_first - a.center)) [0, 1, 2] (tmin, tmax)).1 ∧
      (intersects_seg NEAR_ZERO a seg_first seg_second tmin tmax q).2.2 =
        seg_first + (intersects_seg NEAR_ZERO a seg_first seg_second tmin tmax q).2.1
          • (seg_second - seg_first)) ∧
    (tmin ≤ tmax + NEAR_ZERO →
      ((intersects_seg NEAR_ZERO a seg_first seg_second tmin tmax q).1 = true ↔
        seg_hit_spec NEAR_ZERO a.l (transpose_mult_vec a.R (seg_first - a.center))
          (transpose_mult_vec a.R (seg_second - a.center)
            - transpose_mult_vec a.R (seg_first - a.center)) tmin tmax)) := by
  generalize hp : transpose_mult_vec a.R (seg_first - a.center) = p
  generalize hd : transpose_mult_vec a.R (seg_second - a.center) - p = d
  have hall : ∀ P : Fin 3 → Prop, (∀ i ∈ ([0, 1, 2] : List (Fin 3)), P i) ↔ ∀ i, P i := by
    intro P
    constructor
    · intro h i
      apply h
      fin_cases i <;> simp
    · intro h i _
      exact h i
  obtain ⟨h1, h2⟩ := seg_slabs_spec NEAR_ZERO a.l p d [0, 1, 2] (tmin, tmax)
  rw [hall, hall] at h1
  have hres : intersects_seg NEAR_ZERO a seg_first seg_second tmin tmax q =
      if (seg_slabs NEAR_ZERO a.l p d [0, 1, 2] (tmin, tmax)).1 = true then
        (true, (seg_slabs NEAR_ZERO a.l p d [0, 1, 2] (tmin, tmax)).2.1,
          a.center + mul_vec a.R (p + (seg_slabs NEAR_ZERO a.l p d [0, 1, 2] (tmin, tmax)).2.1
            • d))
      else (false, (seg_slabs NEAR_ZERO a.l p d [0, 1, 2] (tmin, tmax)).2.1, q) := by
    rw [← hd, ← hp]
    rfl
  generalize seg_slabs NEAR_ZERO a.l p d [0, 1, 2] (tmin, tmax) = r at h1 h2 hres
  have hflag : (intersects_seg NEAR_ZERO a seg_first seg_second tmin tmax q).1 = r.1 := by
    rw [hres]
    by_cases hr : r.1 = true
    · rw [if_pos hr, hr]
    · rw [if_neg hr]
      simpa using hr
  have htmin : (intersects_seg NEAR_ZERO a seg_first seg_second tmin tmax q).2.1 = r.2.1 := by
    rw [hres]
    by_cases hr : r.1 = true
    · rw [if_pos hr]
    · rw [if_neg hr]
  have hq : r.1 = true →
      (intersects_seg NEAR_ZERO a seg_first seg_second tmin tmax q).2.2 =
        a.center + mul_vec a.R (p + r.2.1 • d) := by
    intro ht
    rw [hres, if_pos ht]
  rw [hflag, htmin]
  refine ⟨h1, ?_, ?_⟩
  · intro ht
    refine ⟨by rw [h2 ht], ?_⟩
    rw [hq ht, ← hd, ← hp]
    exact seg_point_global hA _ _ _ _
  · intro hle
    rw [h1]
    unfold seg_hit_spec
    constructor
    · rintro ⟨ha, hb⟩
      refine ⟨ha, ?_⟩
      rcases hb with hb | hb
      · have e : slab_interval NEAR_ZERO a.l p d [0, 1, 2] (tmin, tmax) = (tmin, tmax) := by
          simp only [slab_interval, if_pos (hb 0), if_pos (hb 1), if_pos (hb 2)]
        rw [e]
        exact hle
      · exact hb
    · rintro ⟨ha, hb⟩
      exact ⟨ha, Or.inr hb⟩

theorem C36_segment_slab_test_witness :
    (intersects_seg (1 / 2 ^ 26) unit_box ![-2, 0, 0] ![2, 0, 0] 0 1 0).1 = true ∧
    (intersects_seg (1 / 2 ^ 26) unit_box ![-2, 0, 0] ![2, 0, 0] 0 1 0).2.1 = 1 / 4 ∧
    (intersects_seg (1 / 2 ^ 26) unit_box ![-2, 0, 0] ![2, 0, 0] 0 1 0).2.2 =
      ![-2, 0, 0] + (intersects_seg (1 / 2 ^ 26) unit_box ![-2, 0, 0] ![2, 0, 0] 0 1 0).2.1
        • (![2, 0, 0] - ![-2, 0, 0]) :=
  ⟨by decide!, by decide!,
    ((C36_segment_slab_test (1 / 2 ^ 26) unit_box ![-2, 0, 0] ![2, 0, 0] 0 1 0
      (by unfold orthonormal; decide!)).2.1 (by decide!)).2⟩

end OBB
/-! ## The velocity-expanded box contains the linearly expanded one (C37) -/

namespace OBB

theorem vel_exp_fold_mono (NEAR_ZERO : ℚ) (norm : Vector3d → ℚ)
    (wn chat dhat ehat : Vector3d) (cnorm dnorm enorm : ℚ) (center_o : Vector3d)
    (verts : List Vector3d) :
    ∀ (st : Vector3d × Vector3d) (j : Fin 3),
      (verts.foldl (vel_exp_step NEAR_ZERO norm wn chat dhat ehat cnorm dnorm enorm center_o)
        st).1 j ≤ st.1 j ∧
      st.2 j ≤ (verts.foldl
        (vel_exp_step NEAR_ZERO norm wn chat dhat ehat cnorm dnorm enorm center_o) st).2 j := by
  induction verts with
  | nil => intro st j; exact ⟨le_refl _, le_refl _⟩
  | cons v vs ih =>
    intro st j
    simp only [List.foldl_cons]
    have h := ih (vel_exp_step NEAR_ZERO norm wn chat dhat ehat cnorm dnorm enorm center_o st v) j
    constructor
    · refine le_trans h.1 ?_
      simp only [vel_exp_step]
      exact min_le_right _ _
    · refine le_trans ?_ h.2
      simp only [vel_exp_step]
      exact le_max_right _ _

/-- Back into the frame of a box with orthonormal axes. -/
theorem transpose_mult_vec_mul_vec {R : Matrix3d} (hR : orthonormal R) (c : Vector3d) :
    transpose_mult_vec R (mul_vec R c) = c := by
  funext i
  have h0 := hR i 0
  have h1 := hR i 1
  have h2 := hR i 2
  have e : c i = (if i = (0 : Fin 3) then 1 else 0) * c 0
      + (if i = (1 : Fin 3) then 1 else 0) * c 1 + (if i = (2 : Fin 3) then 1 else 0) * c 2 := by
    fin_cases i <;> simp
  simp only [transpose_mult_vec, mul_vec]
  linear_combination c 0 * h0 + c 1 * h1 + c 2 * h2 - e

/-- C37. When the body is enabled and its angular velocity is not negligible,
the box returned by `OBB::calc_vel_exp_BV` keeps the orientation `R` of the
linearly expanded box (orthonormal), and, expressed in that box's own frame, its
extent `[center - l, center + l]` contains the extent of the linearly expanded
box on each of the three axes. -/
theorem C37_vel_exp_contains (NEAR_ZERO : ℚ) (norm : Vector3d → ℚ)
    (normalize : Vector3d → Vector3d) (expand : OBB → Vector3d → OBB) (this : OBB)
    (wRb : Matrix3d) (lv av : Vector3d) (dt : ℚ) (hav : ¬ norm av < NEAR_ZERO)
    (hR : orthonormal (lin_expanded NEAR_ZERO norm expand this lv dt).R) :
    ∃ o1 : OBB,
      calc_vel_exp_BV NEAR_ZERO norm normalize expand this true true wRb lv av dt = .ret o1 ∧
      o1.R = (lin_expanded NEAR_ZERO norm expand this lv dt).R ∧
      ∀ j : Fin 3,
        transpose_mult_vec o1.R o1.center j - o1.l j ≤
          transpose_mult_vec (lin_expanded NEAR_ZERO norm expand this lv dt).R
            (lin_expanded NEAR_ZERO norm expand this lv dt).center j
            - (lin_expanded NEAR_ZERO norm expand this lv dt).l j ∧
        transpose_mult_vec (lin_expanded NEAR_ZERO norm expand this lv dt).R
            (lin_expanded NEAR_ZERO norm expand this lv dt).center j
            + (lin_expanded NEAR_ZERO norm expand this lv dt).l j ≤
          transpose_mult_vec o1.R o1.center j + o1.l j := by
  have key : ∀ (wn chat dhat ehat : Vector3d) (cnorm dnorm enorm : ℚ) (o : OBB) (j : Fin 3),
      ((1 / 2 : ℚ) • (((obb_verts o.l).foldl
            (vel_exp_step NEAR_ZERO norm wn chat dhat ehat cnorm dnorm enorm
              (transpose_mult_vec o.R o.center))
            (transpose_mult_vec o.R o.center - o.l, transpose_mult_vec o.R o.center + o.l)).2
          + ((obb_verts o.l).foldl
            (vel_exp_step NEAR_ZERO norm wn chat dhat ehat cnorm dnorm enorm
              (transpose_mult_vec o.R o.center))
            (transpose_mult_vec o.R o.center - o.l, transpose_mult_vec o.R o.center + o.l)).1)) j
        - ((1 / 2 : ℚ) • (((obb_verts o.l).foldl
            (vel_exp_step NEAR_ZERO norm wn chat dhat ehat cnorm dnorm enorm
              (transpose_mult_vec o.R o.center))
            (transpose_mult_vec o.R o.center - o.l, transpose_mult_vec o.R o.center + o.l)).2
          - ((obb_verts o.l).foldl
            (vel_exp_step NEAR_ZERO norm wn chat dhat ehat cnorm dnorm enorm
              (transpose_mult_vec o.R o.center))
            (transpose_mult_vec o.R o.center - o.l, transpose_mult_vec o.R o.center + o.l)).1)) j
        ≤ transpose_mult_vec o.R o.center j - o.l j ∧
      transpose_mult_vec o.R o.center j + o.l j ≤
        ((1 / 2 : ℚ) • (((obb_verts o.l).foldl
            (vel_exp_step NEAR_ZERO norm wn chat dhat ehat cnorm dnorm enorm
              (transpose_mult_vec o.R o.center))
            (transpose_mult_vec o.R o.center - o.l, transpose_mult_vec o.R o.center + o.l)).2
          + ((obb_verts o.l).foldl
            (vel_exp_step NEAR_ZERO norm wn chat dhat ehat cnorm dnorm enorm
              (transpose_mult_vec o.R o.center))
            (transpose_mult_vec o.R o.center - o.l, transpose_mult_vec o.R o.center + o.l)).1)) j
        + ((1 / 2 : ℚ) • (((obb_verts o.l).foldl
            (vel_exp_step NEAR_ZERO norm wn chat dhat ehat cnorm dnorm enorm
              (transpose_mult_vec o.R o.center))
            (transpose_mult_vec o.R o.center - o.l, transpose_mult_vec o.R o.center + o.l)).2
          - ((obb_verts o.l).foldl
            (vel_exp_step NEAR_ZERO norm wn chat dhat ehat cnorm dnorm enorm
              (transpose_mult_vec o.R o.center))
            (transpose_mult_vec o.R o.center - o.l, transpose_mult_vec o.R o.center + o.l)).1)) j
      := by
    intro wn chat dhat ehat cnorm dnorm enorm o j
    have h := vel_exp_fold_mono NEAR_ZERO norm wn chat dhat ehat cnorm dnorm enorm
      (transpose_mult_vec o.R o.center) (obb_verts o.l)
      (transpose_mult_vec o.R o.center - o.l, transpose_mult_vec o.R o.center + o.l) j
    generalize (obb_verts o.l).foldl
      (vel_exp_step NEAR_ZERO norm wn chat dhat ehat cnorm dnorm enorm
        (transpose_mult_vec o.R o.center))
      (transpose_mult_vec o.R o.center - o.l, transpose_mult_vec o.R o.center + o.l) = F at h ⊢
    simp only [Pi.sub_apply, Pi.add_apply, Pi.smul_apply, smul_eq_mul] at h ⊢
    constructor
    · linarith [h.1]
    · linarith [h.2]
  unfold calc_vel_exp_BV
  simp only [Bool.not_true, Bool.false_eq_true, if_false, if_neg hav]
  refine ⟨_, rfl, rfl, ?_⟩
  intro j
  simp only []
  rw [transpose_mult_vec_mul_vec hR]
  exact key _ _ _ _ _ _ _ _ j

theorem C37_vel_exp_contains_witness :
    ∃ o1 : OBB,
      calc_vel_exp_BV (1 / 2 ^ 26) (fun v => |v 0| + |v 1| + |v 2|) CCD.normalize_axis
        (fun o _ => o) unit_box true true (fun i j => if i = j then 1 else 0) 0 ![0, 0, 1] 1
        = .ret o1 ∧
      o1.R = (lin_expanded (1 / 2 ^ 26) (fun v => |v 0| + |v 1| + |v 2|) (fun o _ => o)
        unit_box 0 1).R ∧
      ∀ j : Fin 3,
        transpose_mult_vec o1.R o1.center j - o1.l j ≤
          transpose_mult_vec (lin_expanded (1 / 2 ^ 26) (fun v => |v 0| + |v 1| + |v 2|)
              (fun o _ => o) unit_box 0 1).R
            (lin_expanded (1 / 2 ^ 26) (fun v => |v 0| + |v 1| + |v 2|) (fun o _ => o)
              unit_box 0 1).center j
            - (lin_expanded (1 / 2 ^ 26) (fun v => |v 0| + |v 1| + |v 2|) (fun o _ => o)
              unit_box 0 1).l j ∧
        transpose_mult_vec (lin_expanded (1 / 2 ^ 26) (fun v => |v 0| + |v 1| + |v 2|)
              (fun o _ => o) unit_box 0 1).R
            (lin_expanded (1 / 2 ^ 26) (fun v => |v 0| + |v 1| + |v 2|) (fun o _ => o)
              unit_box 0 1).center j
            + (lin_expanded (1 / 2 ^ 26) (fun v => |v 0| + |v 1| + |v 2|) (fun o _ => o)
              unit_box 0 1).l j ≤
          transpose_mult_vec o1.R o1.center j + o1.l j :=
  C37_vel_exp_contains (1 / 2 ^ 26) (fun v => |v 0| + |v 1| + |v 2|) CCD.normalize_axis
    (fun o _ => o) unit_box (fun i j => if i = j then 1 else 0) 0 ![0, 0, 1] 1
    (by decide!) (by unfold orthonormal; decide!)

end OBB
/-! ## Determinism of `lcp_lemke` and `mlcp_keller` (C16) -/

namespace LCP

theorem vget_set_agree (z z2 : VectorNd) (i j : Nat) (x : ℚ) (hl : z.length = z2.length)
    (h : j = i ∨ vget z j = vget z2 j) : vget (z.set i x) j = vget (z2.set i x) j := by
  by_cases hj : j = i
  · subst hj
    by_cases hlt : j < z.length
    · simp [vget, List.getD_eq_getElem?_getD, List.getElem?_set_self, hlt, ← hl]
    · have h2 : ¬ j < z2.length := by rw [← hl]; exact hlt
      simp [vget, List.getD_eq_getElem?_getD, List.getElem?_eq_none, not_lt.mp hlt,
        not_lt.mp h2]
  · rw [vget_set_ne _ _ _ _ hj, vget_set_ne _ _ _ _ hj]
    rcases h with h | h
    · exact absurd h hj
    · exact h

/-- After `v.set(idx, vals)` with enough values, the entries at `idx` no longer
depend on what `v` held. -/
theorem vset_agree (idx : List Nat) (vals z z2 : VectorNd) (hl : z.length = z2.length)
    (hv : idx.length ≤ vals.length) (j : Nat) (h : j ∈ idx ∨ vget z j = vget z2 j) :
    vget (vset z idx vals) j = vget (vset z2 idx vals) j := by
  induction idx generalizing vals z z2 with
  | nil =>
    simp only [vset]
    rcases h with h | h
    · simp at h
    · exact h
  | cons i idx ih =>
    cases vals with
    | nil => simp at hv
    | cons x xs =>
      simp only [vset]
      apply ih xs _ _ (by simp [hl]) (by simpa using hv)
      by_cases hj : j ∈ idx
      · exact Or.inl hj
      · right
        apply vget_set_agree _ _ _ _ _ hl
        rcases h with h | h
        · rcases List.mem_cons.mp h with h | h
          · exact Or.inl h
          · exact absurd h hj
        · exact Or.inr h

theorem eq_of_vget_eq (z z2 : VectorNd) (hl : z.length = z2.length)
    (h : ∀ j, vget z j = vget z2 j) : z = z2 := by
  apply List.ext_getElem hl
  intro j h1 h2
  have := h j
  rwa [vget_eq_getElem _ _ h1, vget_eq_getElem _ _ h2] at this

/-- The loop of `compute_z_w` over the indices `is` overwrites every entry of `z`
at an index of `is` that is not in `alpha`. -/
theorem compute_z_fill_agree (l u : VectorNd) (alpha betal betau : List Nat) (is : List Nat)
    (z z2 : VectorNd) (hl : z.length = z2.length)
    (h : ∀ j, (j ∈ is ∧ binary_search alpha j = false) ∨ vget z j = vget z2 j) :
    compute_z_fill l u alpha betal betau is z = compute_z_fill l u alpha betal betau is z2 := by
  induction is generalizing z z2 with
  | nil =>
    simp only [compute_z_fill]
    rw [eq_of_vget_eq z z2 hl (fun j => by
      rcases h j with h | h
      · simp at h
      · exact h)]
  | cons i is ih =>
    simp only [compute_z_fill]
    by_cases ha : binary_search alpha i = true
    · rw [if_pos ha, if_pos ha]
      apply ih _ _ hl
      intro j
      rcases h j with ⟨hm, hb⟩ | h
      · rcases List.mem_cons.mp hm with rfl | hm
        · rw [ha] at hb; simp at hb
        · exact Or.inl ⟨hm, hb⟩
      · exact Or.inr h
    · rw [if_neg ha, if_neg ha]
      have step : ∀ x : ℚ, ∀ j, (j ∈ is ∧ binary_search alpha j = false) ∨
          vget (z.set i x) j = vget (z2.set i x) j := by
        intro x j
        rcases h j with ⟨hm, hb⟩ | h
        · rcases List.mem_cons.mp hm with hji | hm
          · exact Or.inr (vget_set_agree _ _ _ _ _ hl (Or.inl hji))
          · exact Or.inl ⟨hm, hb⟩
        · exact Or.inr (vget_set_agree _ _ _ _ _ hl (Or.inr h))
      split
      · exact ih _ _ (by simp [hl]) (step _)
      · split
        · exact ih _ _ (by simp [hl]) (step _)
        · rfl

theorem binary_search_mem (v : List Nat) (s : Nat) (h : binary_search v s = true) : s ∈ v := by
  obtain ⟨h1, h2⟩ := binary_search_spec v s h
  rw [← h2]
  exact getD_mem v _ h1

/-- `compute_z_w` overwrites every entry of `z`: its result does not depend on
what `z` held, provided `zalpha` has a value for every index of `alpha`. -/
theorem compute_z_w_agree (M : MatrixNd) (q zalpha l u : VectorNd) (alpha betal betau : List Nat)
    (z z2 : VectorNd) (hv : alpha.length ≤ zalpha.length) :
    compute_z_w M q zalpha l u alpha betal betau z =
      compute_z_w M q zalpha l u alpha betal betau z2 := by
  unfold compute_z_w
  rw [compute_z_fill_agree l u alpha betal betau (List.range q.length)
    (vset (vresize z q.length) alpha zalpha) (vset (vresize z2 q.length) alpha zalpha)
    (by rw [length_vset, length_vset, length_vresize, length_vresize])]
  intro j
  by_cases hb : binary_search alpha j = true
  · right
    exact vset_agree alpha zalpha _ _ (by rw [length_vresize, length_vresize]) hv j
      (Or.inl (binary_search_mem _ _ hb))
  · by_cases hj : j < q.length
    · exact Or.inl ⟨List.mem_range.mpr hj, by simpa using hb⟩
    · right
      rw [vget_of_le _ _ (by rw [length_vset, length_vresize]; omega),
        vget_of_le _ _ (by rw [length_vset, length_vresize]; omega)]

/-- What `mlcp_keller` returns does not depend on what the caller left in `z`,
except that a call which stops at the failed factorisation hands `z` back
untouched. -/
theorem mlcp_keller_canonical (la : LinAlg) (NEAR_ZERO : ℚ) (fuel : Nat) (M : MatrixNd)
    (q l u z z2 : VectorNd) (zero_tol : ℚ)
    (hLU : la.solve_LU_sized) :
    (q.length = 0 ∨
        la.factor_LU (select_square M (keller_setup l u (List.range q.length)).1) = true →
      mlcp_keller la NEAR_ZERO fuel M q l u z zero_tol =
        mlcp_keller la NEAR_ZERO fuel M q l u z2 zero_tol) ∧
    (mlcp_keller la NEAR_ZERO fuel M q l u z zero_tol).map (fun r => (r.ok, r.pivots)) =
      (mlcp_keller la NEAR_ZERO fuel M q l u z2 zero_tol).map (fun r => (r.ok, r.pivots)) := by
  have key : q.length ≠ 0 →
      la.factor_LU (select_square M (keller_setup l u (List.range q.length)).1) = true →
      mlcp_keller la NEAR_ZERO fuel M q l u z zero_tol =
        mlcp_keller la NEAR_ZERO fuel M q l u z2 zero_tol := by
    intro hn hf
    unfold mlcp_keller
    simp only [if_neg hn]
    rcases hk : keller_setup l u (List.range q.length) with ⟨alpha, beta, betal, betau⟩
    rw [hk] at hf
    simp only [] at hf ⊢
    rw [if_pos hf, if_pos hf,
      compute_z_w_agree M q _ l u alpha betal betau z z2
        (by rw [hLU]; simp [vneg, vselect])]
  have key0 : q.length = 0 →
      mlcp_keller la NEAR_ZERO fuel M q l u z zero_tol =
        mlcp_keller la NEAR_ZERO fuel M q l u z2 zero_tol := by
    intro hn
    unfold mlcp_keller
    simp only [if_pos hn, vresize_zero]
  constructor
  · rintro (hn | hf)
    · exact key0 hn
    · by_cases hn : q.length = 0
      · exact key0 hn
      · exact key hn hf
  · by_cases hn : q.length = 0
    · rw [key0 hn]
    · by_cases hf :
        la.factor_LU (select_square M (keller_setup l u (List.range q.length)).1) = true
      · rw [key hn hf]
      · unfold mlcp_keller
        simp only [if_neg hn]
        rcases hk : keller_setup l u (List.range q.length) with ⟨alpha, beta, betal, betau⟩
        rw [hk] at hf
        simp only [] at hf ⊢
        rw [if_neg hf, if_neg hf]
        rfl

theorem exactLA_solve_LU_sized : exactLA.solve_LU_sized := by
  intro A b
  show ((exact_solve A b).getD b).length = b.length
  cases h : exact_solve A b with
  | none => rfl
  | some x => exact (exactLA_exact A b x h).2

/-- C16.  The dense `lcp_lemke` and `mlcp_keller` are deterministic.  `lcp_lemke`
calls `rand()`, but the flag, the returned `z` and the pivot counter depend
neither on the state of the generator nor on the entries of the input `z`.
`mlcp_keller` contains no call of `rand()`, so there is no generator for it to
read; the one thing a caller leaves behind that it touches is `z`, and (the
in-place solve keeping the size of its right-hand side) its flag and pivot counter
never depend on the entries of `z`, nor does the returned `z` unless the call stops
at the failed factorisation, where `z` is handed back untouched. -/
theorem C16_deterministic (la : LinAlg) (NEAR_ZERO : ℚ) (fuel : Nat) (M : MatrixNd)
    (q l u z z2 : VectorNd) (piv_tol zero_tol : ℚ) (rng rng2 : Rng)
    (hLU : la.solve_LU_sized) :
    (lcp_lemke la M q z piv_tol zero_tol rng).1 =
      (lcp_lemke la M q z2 piv_tol zero_tol rng2).1 ∧
    (q.length = 0 ∨
        la.factor_LU (select_square M (keller_setup l u (List.range q.length)).1) = true →
      mlcp_keller la NEAR_ZERO fuel M q l u z zero_tol =
        mlcp_keller la NEAR_ZERO fuel M q l u z2 zero_tol) ∧
    (mlcp_keller la NEAR_ZERO fuel M q l u z zero_tol).map (fun r => (r.ok, r.pivots)) =
      (mlcp_keller la NEAR_ZERO fuel M q l u z2 zero_tol).map (fun r => (r.ok, r.pivots)) := by
  refine ⟨?_, mlcp_keller_canonical la NEAR_ZERO fuel M q l u z z2 zero_tol hLU⟩
  rw [lcp_lemke_canonical la M q z, lcp_lemke_canonical la M q z2]

/-- C16 at `M = [[2, 1], [1, 2]]`, `q = (-1, -2)`, a free first variable for Keller:
both solvers return `z = (0, 1)` after one pivot, from an input `z = (5, 7, 9)` with
the generator stream `0, 1, 2, …` as from an empty `z` with the stream `0, 0, …`. -/
theorem C16_deterministic_witness :
    exactLA.solve_LU_sized ∧
    (lcp_lemke exactLA [[2, 1], [1, 2]] [-1, -2] [5, 7, 9] 0 (1 / 1000000) (fun i => i)).1
      = ⟨true, [0, 1], 1⟩ ∧
    mlcp_keller exactLA (1 / 2 ^ 26) 100 [[2, 1], [1, 2]] [-1, -2] [-DBL_MAX, 0]
      [DBL_MAX, DBL_MAX] [5, 7, 9] (1 / 1000000) = .ret ⟨true, [0, 1], 1⟩ ∧
    ((lcp_lemke exactLA [[2, 1], [1, 2]] [-1, -2] [5, 7, 9] 0 (1 / 1000000) (fun i => i)).1 =
      (lcp_lemke exactLA [[2, 1], [1, 2]] [-1, -2] [] 0 (1 / 1000000) (fun _ => 0)).1 ∧
    (([-1, -2] : VectorNd).length = 0 ∨
        exactLA.factor_LU (select_square [[2, 1], [1, 2]]
          (keller_setup [-DBL_MAX, 0] [DBL_MAX, DBL_MAX]
            (List.range ([-1, -2] : VectorNd).length)).1) = true →
      mlcp_keller exactLA (1 / 2 ^ 26) 100 [[2, 1], [1, 2]] [-1, -2] [-DBL_MAX, 0]
          [DBL_MAX, DBL_MAX] [5, 7, 9] (1 / 1000000) =
        mlcp_keller exactLA (1 / 2 ^ 26) 100 [[2, 1], [1, 2]] [-1, -2] [-DBL_MAX, 0]
          [DBL_MAX, DBL_MAX] [] (1 / 1000000)) ∧
    (mlcp_keller exactLA (1 / 2 ^ 26) 100 [[2, 1], [1, 2]] [-1, -2] [-DBL_MAX, 0]
        [DBL_MAX, DBL_MAX] [5, 7, 9] (1 / 1000000)).map (fun r => (r.ok, r.pivots)) =
      (mlcp_keller exactLA (1 / 2 ^ 26) 100 [[2, 1], [1, 2]] [-1, -2] [-DBL_MAX, 0]
        [DBL_MAX, DBL_MAX] [] (1 / 1000000)).map (fun r => (r.ok, r.pivots))) :=
  ⟨exactLA_solve_LU_sized, by decide!, by decide!,
    C16_deterministic exactLA (1 / 2 ^ 26) 100 [[2, 1], [1, 2]] [-1, -2] [-DBL_MAX, 0]
      [DBL_MAX, DBL_MAX] [5, 7, 9] [] 0 (1 / 1000000) (fun i => i) (fun _ => 0)
      exactLA_solve_LU_sized⟩

end LCP
/-! ## What a true return of `lcp_lemke` guarantees (C1) -/

namespace LCP

theorem LemkeInv.toBasis (M : MatrixNd) (q c0 : VectorNd) (s : LemkeState)
    (h : LemkeInv M q c0 s) : LemkeBasis q.length s :=
  ⟨h.len_x, h.len_bas, h.z_zero, h.nodup, h.bound, h.leaving_bound, h.leaving_out, h.compl_out,
    h.compl_free⟩

/-- One pivot of the main loop keeps `LemkeBasis`, whatever the new values are. -/
theorem pivot_basis (n : Nat) (s : LemkeState) (hI : LemkeBasis n s)
    (hl : s.leaving ≠ 2 * n) (x1 : VectorNd) (Bl1 : MatrixNd) (lv : Nat)
    (hx : x1.length = n) (hlv : lv < n) :
    LemkeBasis n ⟨x1, Bl1, s.bas.set lv (LCP.compl n s.leaving), s.bas.getD lv 0, s.z⟩ := by
  have hlb : s.leaving < 2 * n := by
    have := hI.leaving_bound
    omega
  have hlvb : lv < s.bas.length := by rw [hI.len_bas]; exact hlv
  have hL : s.bas.getD lv 0 ∈ s.bas := getD_mem _ _ hlvb
  have he : LCP.compl n s.leaving ∉ s.bas := hI.compl_out hl
  constructor
  · exact hx
  · simp [hI.len_bas]
  · exact hI.z_zero
  · exact List.Nodup.set hI.nodup he
  · intro v hv
    rcases List.mem_or_eq_of_mem_set hv with h | h
    · exact hI.bound v h
    · rw [h]; exact le_of_lt (compl_lt _ _ hlb)
  · exact hI.bound _ hL
  · intro hm
    rcases mem_set_nodup _ _ _ _ hI.nodup hlvb hm with h | h
    · exact he (h ▸ hL)
    · exact h.2 rfl
  · intro hne hm
    have hLb : s.bas.getD lv 0 < 2 * n := by
      have := hI.bound _ hL
      change s.bas.getD lv 0 ≠ 2 * n at hne
      omega
    rcases mem_set_nodup _ _ _ _ hI.nodup hlvb hm with h | h
    · have h2 := congrArg (LCP.compl n) h
      rw [compl_compl _ _ hLb, compl_compl _ _ hlb] at h2
      exact hI.leaving_out (h2 ▸ hL)
    · exact hI.compl_free _ hL (by change s.bas.getD lv 0 ≠ 2 * n at hne; exact hne) h.1
  · intro v hv hne hm
    have hvb : v < 2 * n := by
      rcases List.mem_or_eq_of_mem_set hv with h | h
      · have := hI.bound v h
        omega
      · rw [h]; exact compl_lt _ _ hlb
    rcases mem_set_nodup _ _ _ _ hI.nodup hlvb hv with h1 | h1
    · rw [h1, compl_compl _ _ hlb] at hm
      rcases mem_set_nodup _ _ _ _ hI.nodup hlvb hm with h | h
      · exact compl_ne _ _ hlb h.symm
      · exact hI.leaving_out h.1
    · rcases mem_set_nodup _ _ _ _ hI.nodup hlvb hm with h | h
      · have h2 := congrArg (LCP.compl n) h
        rw [compl_compl _ _ hvb, compl_compl _ _ hlb] at h2
        exact hI.leaving_out (h2 ▸ h1.1)
      · exact hI.compl_free v h1.1 hne h.1

theorem length_entering_column (M : MatrixNd) (n : Nat) (s : LemkeState) (hM : M.length = n) :
    (lemke_entering_column M n s).length = n := by
  unfold lemke_entering_column
  split
  · simp [vzero]
  · simp [get_column, hM]

theorem lemke_lvindex_lt (n : Nat) (PIV_TOL zero_tol : ℚ) (s : LemkeState) (dl : VectorNd)
    (hnd : s.bas.Nodup) (hlen : dl.length = s.bas.length)
    (hj2 : lemke_ratio_test PIV_TOL zero_tol s dl ≠ []) :
    lemke_lvindex n s (lemke_ratio_test PIV_TOL zero_tol s dl) < dl.length := by
  have hlt : ∀ i ∈ lemke_ratio_test PIV_TOL zero_tol s dl, i < dl.length := by
    intro i hi
    exact (mem_lemke_candidates _ _ _ (mem_lemke_filter _ _ _ _ hi)).1
  unfold lemke_lvindex
  split
  · next ht =>
    obtain ⟨i, hi, hit⟩ := List.mem_map.mp ht
    rw [← hit, indexOf_getD _ _ hnd (by rw [← hlen]; exact hlt i hi)]
    exact hlt i hi
  · exact hlt _ (headD_mem _ hj2)

/-- The state in which the main loop stops satisfies `LemkeBasis` when the state
it starts from does. -/
theorem exit_state_basis (la : LinAlg) (hla : la.solve_sized) (M : MatrixNd) (n : Nat)
    (PIV_TOL zero_tol : ℚ) (hM : M.length = n) :
    ∀ (fuel : Nat) (s : LemkeState), LemkeBasis n s →
      LemkeBasis n (lemke_exit_state la M n PIV_TOL zero_tol fuel s) := by
  intro fuel
  induction fuel with
  | zero => intro s hI; exact hI
  | succ fuel ih =>
    intro s hI
    rw [lemke_exit_state]
    by_cases hl : s.leaving = 2 * n
    · rw [if_pos hl]; exact hI
    · rw [if_neg hl]
      split
      · exact hI
      · next dl hsolve =>
        have hdl : dl.length = n := by
          rw [hla _ _ _ hsolve, length_entering_column M n s hM]
        split
        · exact hI
        · split
          · exact hI
          · next hj2 =>
            apply ih
            have hlv := lemke_lvindex_lt n PIV_TOL zero_tol s dl hI.nodup
              (by rw [hdl, hI.len_bas]) hj2
            rw [hdl] at hlv
            have hent : (if s.leaving < n then n + s.leaving else s.leaving - n) =
                LCP.compl n s.leaving := by
              unfold LCP.compl
              split_ifs <;> omega
            unfold lemke_pivot
            rw [hent]
            exact pivot_basis n s hI hl _ _ _ (by simp [vsub, vscale, hdl, hI.len_x]) hlv

/-- A run of the main loop that returns true has stopped with the artificial
variable out of the basis, and `z` is read off the state it stopped in. -/
theorem lemke_loop_exit_state (la : LinAlg) (M : MatrixNd) (n : Nat) (PIV_TOL zero_tol : ℚ) :
    ∀ (fuel pivots : Nat) (s : LemkeState),
      (lemke_loop la M n PIV_TOL zero_tol fuel pivots s).ok = true →
      (lemke_exit_state la M n PIV_TOL zero_tol fuel s).leaving = 2 * n ∧
      (lemke_loop la M n PIV_TOL zero_tol fuel pivots s).z =
        vresize (vset (lemke_exit_state la M n PIV_TOL zero_tol fuel s).z
          (lemke_exit_state la M n PIV_TOL zero_tol fuel s).bas
          (lemke_exit_state la M n PIV_TOL zero_tol fuel s).x) n := by
  intro fuel
  induction fuel with
  | zero =>
    intro pivots s h
    simp [lemke_loop] at h
  | succ fuel ih =>
    intro pivots s
    rw [lemke_loop_succ, lemke_exit_state]
    by_cases hl : s.leaving = 2 * n
    · rw [if_pos hl, if_pos hl]
      intro _
      exact ⟨hl, rfl⟩
    · rw [if_neg hl, if_neg hl]
      cases hs : la.solve_fast s.Bl (lemke_entering_column M n s) with
      | none => intro h; simp at h
      | some dl =>
        simp only []
        by_cases hj : lemke_candidates dl PIV_TOL = []
        · rw [if_pos hj]; intro h; simp at h
        · rw [if_neg hj, if_neg hj]
          by_cases hj2 : lemke_ratio_test PIV_TOL zero_tol s dl = []
          · rw [if_pos hj2]; intro h; simp at h
          · rw [if_neg hj2, if_neg hj2]
            exact ih _ _

/-- Entry `v` of `z` after `z.set(bas, x)`, for a basic `v`: the value of `x` at
the position of `v` in `bas`. -/
theorem vget_vset_mem (z : VectorNd) (bas : List Nat) (x : VectorNd) (v : Nat)
    (hn : bas.Nodup) (hx : bas.length ≤ x.length) (hv : v ∈ bas) (hz : v < z.length) :
    vget (vset z bas x) v = vget x (bas.indexOf v) := by
  induction bas generalizing z x with
  | nil => simp at hv
  | cons b bs ih =>
    cases x with
    | nil => simp at hx
    | cons a xs =>
      rw [List.nodup_cons] at hn
      simp only [vset]
      by_cases hvb : v = b
      · subst hvb
        rw [vget_vset_not_mem _ _ _ _ hn.1, List.indexOf_cons_self, vget_cons_zero]
        simp [vget, List.getD_eq_getElem?_getD, List.getElem?_set_self, hz]
      · have hv2 : v ∈ bs := by
          rcases List.mem_cons.mp hv with h | h
          · exact absurd h hvb
          · exact h
        rw [ih (z.set b a) xs hn.2 (by simpa using hx) hv2 (by simpa using hz),
          List.indexOf_cons_ne _ (Ne.symm hvb), vget_cons_succ]

theorem lcp_lemke_exit_form (la : LinAlg) (M : MatrixNd) (q z : VectorNd)
    (piv_tol zero_tol : ℚ) (rng : Rng) :
    lcp_lemke_exit la M q z piv_tol zero_tol rng =
      lemke_exit_state la M q.length (lemke_piv_tol M q.length piv_tol)
        (lemke_zero_tol M q.length zero_tol) (min 1000 ((50 * q.length) % 2 ^ 32))
        (lemke_first_pivot q.length [] (List.range q.length) (mnegate (identity q.length)) q)
      := by
  unfold lcp_lemke_exit
  simp only []
  have hb := lemke_initial_basis_zero q.length z.length rng
  rw [hb.1, hb.2]
  simp only [lemke_initial_values, ne_eq, not_true_eq_false, if_false]

theorem exactLA_solve_sized : exactLA.solve_sized :=
  fun A b x h => (exactLA_exact A b x h).2

/-- The trivial returns of `lcp_lemke`: for `q ≥ 0`, or `min(q) > -zero_tol`, the
call returns true with `z = 0`, and the three conditions of the specification
hold of it. -/
theorem lcp_lemke_trivial (la : LinAlg) (M : MatrixNd) (q z : VectorNd)
    (piv_tol zero_tol : ℚ) (rng : Rng)
    (h : (∀ x ∈ q, 0 ≤ x) ∨ vget q (min_element q) > -lemke_zero_tol M q.length zero_tol) :
    (lcp_lemke la M q z piv_tol zero_tol rng).1 = ⟨true, vzero q.length, 0⟩ ∧
    (∀ x ∈ vzero q.length, -lemke_zero_tol M q.length zero_tol ≤ x) ∧
    (∀ x ∈ vadd (mult M (vzero q.length)) q, -lemke_zero_tol M q.length zero_tol ≤ x) ∧
    |dot (vzero q.length) (vadd (mult M (vzero q.length)) q)| ≤
      lemke_zero_tol M q.length zero_tol * q.length * norm_inf M := by
  have hzt := lemke_zero_tol_nonneg M q.length zero_tol
  have hz : ∀ x ∈ vzero q.length, x = 0 := fun x hx => List.eq_of_mem_replicate hx
  have hm : ∀ x ∈ mult M (vzero q.length), x = 0 := by
    intro x hx
    obtain ⟨r, _, e⟩ := List.mem_map.1 hx
    rw [← e, dot_vzero_right]
  refine ⟨?_, ?_, ?_, ?_⟩
  · by_cases hn : q.length = 0
    · unfold lcp_lemke
      simp only []
      rw [if_pos hn, hn, vresize_zero]
      rfl
    · rcases h with h | h
      · exact lcp_lemke_nonneg la M q z piv_tol zero_tol rng hn h
      · unfold lcp_lemke
        simp only []
        unfold lemke_zero_tol at h
        rw [if_neg hn, if_pos h]
  · intro x hx
    rw [hz x hx]; linarith
  · intro x hx
    obtain ⟨a, ha, v, hv, e⟩ := mem_zipWith_elim _ _ _ _ hx
    rw [e, hm a ha, zero_add]
    rcases h with h | h
    · have := h v hv
      linarith
    · have := (min_element_spec q (List.ne_nil_of_mem hv)).2 v hv
      linarith
  · have hd : dot (vzero q.length) (vadd (mult M (vzero q.length)) q) = 0 := by
      rw [dot_eq_sum]
      exact Finset.sum_eq_zero (fun i _ => by rw [vget_vzero, zero_mul])
    rw [hd, abs_zero]
    exact mul_nonneg (mul_nonneg hzt (Nat.cast_nonneg _)) (norm_inf_nonneg M)

/-- C1, amended.  For square `M` of the size `n` of `q` (a solve keeping the size
of its right-hand side): when `q ≥ 0` or `min(q) > -zero_tol`, the dense `lcp_lemke`
returns true with `z = 0`, for which `min(z) ≥ -zero_tol`, `min(Mz+q) ≥ -zero_tol`
and `|zᵀ(Mz+q)| ≤ zero_tol n ||M||_inf` hold, `zero_tol` being the effective
tolerance.  Otherwise a true return comes from the main loop, in the iteration at
which the artificial variable `2n` has left the basis, and `z` is read off that
basis without a test against the tolerance: the basis lists `n` distinct variables
among `z_0 … z_{n-1}` (indices below `n`) and `w_0 … w_{n-1}` (indices `n + i`),
never both `z_i` and `w_i`; `z` has size `n`, `z_i` is the value at the position of
`z_i` in the basis when `z_i` is basic (and then `w_i` is not), and `z_i = 0` when
`z_i` is not basic. -/
theorem C1_lemke_true_return (la : LinAlg) (hla : la.solve_sized) (M : MatrixNd)
    (q z : VectorNd) (piv_tol zero_tol : ℚ) (rng : Rng) (hM : M.length = q.length) :
    ((∀ x ∈ q, 0 ≤ x) ∨ vget q (min_element q) > -lemke_zero_tol M q.length zero_tol →
      (lcp_lemke la M q z piv_tol zero_tol rng).1 = ⟨true, vzero q.length, 0⟩ ∧
      (∀ x ∈ vzero q.length, -lemke_zero_tol M q.length zero_tol ≤ x) ∧
      (∀ x ∈ vadd (mult M (vzero q.length)) q, -lemke_zero_tol M q.length zero_tol ≤ x) ∧
      |dot (vzero q.length) (vadd (mult M (vzero q.length)) q)| ≤
        lemke_zero_tol M q.length zero_tol * q.length * norm_inf M) ∧
    (¬ ((∀ x ∈ q, 0 ≤ x) ∨ vget q (min_element q) > -lemke_zero_tol M q.length zero_tol) →
      (lcp_lemke la M q z piv_tol zero_tol rng).1.ok = true →
      (lcp_lemke_exit la M q z piv_tol zero_tol rng).leaving = 2 * q.length ∧
      (lcp_lemke_exit la M q z piv_tol zero_tol rng).bas.length = q.length ∧
      (lcp_lemke_exit la M q z piv_tol zero_tol rng).bas.Nodup ∧
      (∀ v ∈ (lcp_lemke_exit la M q z piv_tol zero_tol rng).bas,
        v < 2 * q.length ∧
          compl q.length v ∉ (lcp_lemke_exit la M q z piv_tol zero_tol rng).bas) ∧
      (lcp_lemke la M q z piv_tol zero_tol rng).1.z.length = q.length ∧
      ∀ i < q.length,
        (i ∉ (lcp_lemke_exit la M q z piv_tol zero_tol rng).bas →
          vget (lcp_lemke la M q z piv_tol zero_tol rng).1.z i = 0) ∧
        (i ∈ (lcp_lemke_exit la M q z piv_tol zero_tol rng).bas →
          q.length + i ∉ (lcp_lemke_exit la M q z piv_tol zero_tol rng).bas ∧
          vget (lcp_lemke la M q z piv_tol zero_tol rng).1.z i =
            vget (lcp_lemke_exit la M q z piv_tol zero_tol rng).x
              ((lcp_lemke_exit la M q z piv_tol zero_tol rng).bas.indexOf i))) := by
  refine ⟨lcp_lemke_trivial la M q z piv_tol zero_tol rng, fun hnt hok => ?_⟩
  rw [not_or] at hnt
  obtain ⟨hnn, ht⟩ := hnt
  have hneg : ∃ x ∈ q, x < 0 := by
    by_contra hc
    exact hnn (fun x hx => not_lt.mp (fun hlt => hc ⟨x, hx, hlt⟩))
  have hn : q.length ≠ 0 := by
    obtain ⟨x, hx, _⟩ := hneg
    exact fun h0 => List.ne_nil_of_mem hx (List.length_eq_zero.mp h0)
  have hall : ¬ (q.all (fun xi => !decide (xi < 0))) = true := by
    simpa using hneg
  have hform := lcp_lemke_loop_form la M q z piv_tol zero_tol rng hn ht hall
  rw [hform] at hok ⊢
  rw [lcp_lemke_exit_form]
  obtain ⟨c0, hI⟩ := first_pivot_inv M q hneg
  have hB := exit_state_basis la hla M q.length (lemke_piv_tol M q.length piv_tol)
    (lemke_zero_tol M q.length zero_tol) hM (min 1000 ((50 * q.length) % 2 ^ 32)) _
    (LemkeInv.toBasis M q c0 _ hI)
  obtain ⟨hleave, hz⟩ := lemke_loop_exit_state la M q.length (lemke_piv_tol M q.length piv_tol)
    (lemke_zero_tol M q.length zero_tol) (min 1000 ((50 * q.length) % 2 ^ 32)) 0 _ hok
  generalize lemke_exit_state la M q.length (lemke_piv_tol M q.length piv_tol)
    (lemke_zero_tol M q.length zero_tol) (min 1000 ((50 * q.length) % 2 ^ 32))
    (lemke_first_pivot q.length [] (List.range q.length) (mnegate (identity q.length)) q)
    = e at hB hleave hz
  have hlt : ∀ v ∈ e.bas, v < 2 * q.length := by
    intro v hv
    have h1 := hB.bound v hv
    have h2 : v ≠ 2 * q.length := fun h => hB.leaving_out (by rw [hleave, ← h]; exact hv)
    omega
  refine ⟨hleave, hB.len_bas, hB.nodup,
    fun v hv => ⟨hlt v hv, hB.compl_free v hv (ne_of_lt (hlt v hv))⟩, ?_, ?_⟩
  · rw [hz, length_vresize]
  · intro i hi
    have hZ : (vset e.z e.bas e.x).length = q.length * 2 := by
      rw [length_vset, hB.z_zero, length_vzero]
    rw [hz, vget_vresize _ _ _ hi (by omega)]
    constructor
    · intro hm
      rw [vget_vset_not_mem _ _ _ _ hm, hB.z_zero, vget_vzero]
    · intro hm
      have hc := hB.compl_free i hm (ne_of_lt (hlt i hm))
      have hci : LCP.compl q.length i = q.length + i := by
        simp only [LCP.compl, hi, if_true]; omega
      rw [hci] at hc
      refine ⟨hc, vget_vset_mem _ _ _ _ hB.nodup (by rw [hB.len_bas, hB.len_x]) hm ?_⟩
      rw [hB.z_zero, length_vzero]
      omega

/-- C1, amended, at `M = [[2, 1], [1, 2]]`, `q = (-3, -2)` with the default
tolerances: the call reaches the main loop and returns true after two pivots with
`z = (4/3, 1/3)`, read off the basis `(z_1, z_0)` with the values `(1/3, 4/3)`. -/
theorem C1_lemke_true_return_witness :
    exactLA.solve_sized ∧ ([[2, 1], [1, 2]] : MatrixNd).length = ([-3, -2] : VectorNd).length ∧
    ¬ ((∀ x ∈ ([-3, -2] : VectorNd), 0 ≤ x) ∨
      vget ([-3, -2] : VectorNd) (min_element ([-3, -2] : VectorNd)) >
        -lemke_zero_tol [[2, 1], [1, 2]] ([-3, -2] : VectorNd).length 0) ∧
    (lcp_lemke exactLA [[2, 1], [1, 2]] [-3, -2] [] 0 0 (fun _ => 0)).1 = ⟨true, [4 / 3, 1 / 3], 2⟩ ∧
    lcp_lemke_exit exactLA [[2, 1], [1, 2]] [-3, -2] [] 0 0 (fun _ => 0) =
      ⟨[1 / 3, 4 / 3], [[1, 2], [2, 1]], [1, 0], 4, [0, 0, 0, 0]⟩ ∧
    ((lcp_lemke_exit exactLA [[2, 1], [1, 2]] [-3, -2] [] 0 0 (fun _ => 0)).leaving = 2 * ([-3, -2] : VectorNd).length ∧
      (lcp_lemke_exit exactLA [[2, 1], [1, 2]] [-3, -2] [] 0 0 (fun _ => 0)).bas.length = ([-3, -2] : VectorNd).length ∧
      (lcp_lemke_exit exactLA [[2, 1], [1, 2]] [-3, -2] [] 0 0 (fun _ => 0)).bas.Nodup ∧
      (∀ v ∈ (lcp_lemke_exit exactLA [[2, 1], [1, 2]] [-3, -2] [] 0 0 (fun _ => 0)).bas,
        v < 2 * ([-3, -2] : VectorNd).length ∧
          compl ([-3, -2] : VectorNd).length v ∉ (lcp_lemke_exit exactLA [[2, 1], [1, 2]] [-3, -2] [] 0 0 (fun _ => 0)).bas) ∧
      (lcp_lemke exactLA [[2, 1], [1, 2]] [-3, -2] [] 0 0 (fun _ => 0)).1.z.length = ([-3, -2] : VectorNd).length ∧
      ∀ i < ([-3, -2] : VectorNd).length,
        (i ∉ (lcp_lemke_exit exactLA [[2, 1], [1, 2]] [-3, -2] [] 0 0 (fun _ => 0)).bas →
          vget (lcp_lemke exactLA [[2, 1], [1, 2]] [-3, -2] [] 0 0 (fun _ => 0)).1.z i = 0) ∧
        (i ∈ (lcp_lemke_exit exactLA [[2, 1], [1, 2]] [-3, -2] [] 0 0 (fun _ => 0)).bas →
          ([-3, -2] : VectorNd).length + i ∉ (lcp_lemke_exit exactLA [[2, 1], [1, 2]] [-3, -2] [] 0 0 (fun _ => 0)).bas ∧
          vget (lcp_lemke exactLA [[2, 1], [1, 2]] [-3, -2] [] 0 0 (fun _ => 0)).1.z i =
            vget (lcp_lemke_exit exactLA [[2, 1], [1, 2]] [-3, -2] [] 0 0 (fun _ => 0)).x
              ((lcp_lemke_exit exactLA [[2, 1], [1, 2]] [-3, -2] [] 0 0 (fun _ => 0)).bas.indexOf i))) :=
  ⟨exactLA_solve_sized, rfl, by decide!, by decide!, by decide!,
    (C1_lemke_true_return exactLA exactLA_solve_sized [[2, 1], [1, 2]] [-3, -2] [] 0 0 (fun _ => 0) rfl).2
      (by decide!) (by decide!)⟩

end LCP
end Moby
